import Mathlib

/-!
# Order book matching engine

A shallow embedding of `order_book.h` / `order_book.cpp` (Order, Trade, OrderPool,
PriceLevel, OrderBook) followed by theorems about the embedded program.

Conventions of the embedding

* `uint64_t` values are natural numbers; every arithmetic operation that the source performs
  on them is reduced modulo `2 ^ 64` (`add64`, `sub64`).
* prices (`double` in the source) are the type `Price`: not-a-number, the two infinities and
  the finite values, compared by the comparison of doubles (false as soon as an operand is
  not-a-number). The program compares and copies prices; its one arithmetic operation on them,
  the subtraction of `get_spread`, is a parameter of the embedding.
* `Order*` is a slot address `(chunk index, index inside the chunk)` of the pool; the contents
  of the pool's chunk storage are the `heap` component of the book.
* `std::map` is an association list kept in the order of the map's comparator, whose head is
  `begin()`; `find(p)` scans for the first key that is not before `p` (`lower_bound`) and
  tests that `p` is not before that key. On the indices of reachable books (keys strictly
  ordered by the comparator, and a key not-a-number only as the single key of its index:
  `history_shape`, `history_nanAlone`) this is the node that the search of the tree reaches.
  `std::unordered_map` is a function into `Option`; `std::deque` and `std::vector` are lists.
* the `while` loops are fuel-indexed recursive functions that return `none` when the fuel
  runs out.
* the symbol, the timestamps and the latency statistics are left out (they never influence
  matching).
-/

namespace OrderBookEngine

/-! ## Data model (`order_book.h`) -/

/-- The values of a `double`: `nan` is not-a-number, `negInf` and `posInf` are the infinities,
`num q` is the finite value `q` (the two zeros are the one value `num 0`: they compare equal).
Every finite double is some `num q`. -/
inductive Price where
  | nan
  | negInf
  | num (q : ℚ)
  | posInf
  deriving DecidableEq, Repr

/-- The comparison `a < b` of two doubles: false as soon as an operand is not-a-number. -/
def Price.blt : Price → Price → Bool
  | .nan, _ => false
  | _, .nan => false
  | .negInf, .negInf => false
  | .negInf, _ => true
  | .num _, .negInf => false
  | .num a, .num b => decide (a < b)
  | .num _, .posInf => true
  | .posInf, _ => false

/-- The comparison `a <= b` of two doubles: false as soon as an operand is not-a-number. -/
def Price.ble : Price → Price → Bool
  | .nan, _ => false
  | _, .nan => false
  | .negInf, _ => true
  | .num _, .negInf => false
  | .num a, .num b => decide (a ≤ b)
  | .num _, .posInf => true
  | .posInf, .posInf => true
  | .posInf, _ => false

instance : LT Price := ⟨fun a b => Price.blt a b = true⟩

instance : LE Price := ⟨fun a b => Price.ble a b = true⟩

instance (a b : Price) : Decidable (a < b) :=
  inferInstanceAs (Decidable (Price.blt a b = true))

instance (a b : Price) : Decidable (a ≤ b) :=
  inferInstanceAs (Decidable (Price.ble a b = true))

instance (n : Nat) : OfNat Price n := ⟨.num n⟩

instance : OfScientific Price := ⟨fun m s e => .num (OfScientific.ofScientific m s e)⟩

/-- Slot address inside the pool: chunk index and index within the chunk. -/
abbrev Ptr := Nat × Nat

inductive OrderType where
  | MARKET
  | LIMIT
  deriving DecidableEq, Repr

inductive Side where
  | BUY
  | SELL
  deriving DecidableEq, Repr

inductive OrderStatus where
  | NEW
  | PARTIAL_FILL
  | FILLED
  | CANCELLED
  deriving DecidableEq, Repr

/-- Width of `uint64_t`. -/
def U64 : Nat := 2 ^ 64

/-- Wrapping `uint64_t` addition. -/
def add64 (a b : Nat) : Nat := (a + b) % U64

/-- Wrapping `uint64_t` subtraction (for operands below `2 ^ 64`). -/
def sub64 (a b : Nat) : Nat := (a + U64 - b) % U64

structure Order where
  id : Nat
  side : Side
  type : OrderType
  price : Price
  quantity : Nat
  filled_quantity : Nat
  status : OrderStatus
  deriving DecidableEq, Repr

instance : Inhabited Order := ⟨⟨0, .BUY, .MARKET, 0, 0, 0, .NEW⟩⟩

/-- The constructor `Order(id_, symbol_, side_, type_, price_, quantity_)`. -/
def Order.new (id_ : Nat) (side_ : Side) (type_ : OrderType) (price_ : Price)
    (quantity_ : Nat) : Order :=
  ⟨id_, side_, type_, price_, quantity_, 0, .NEW⟩

structure Trade where
  buy_order_id : Nat
  sell_order_id : Nat
  price : Price
  quantity : Nat
  deriving DecidableEq, Repr

/-! ## OrderPool -/

def CHUNK_SIZE : Nat := 1000

/-- The pool: `chunks` is `chunks_.size()`; the head of `free_list` is `free_list_.back()`. -/
structure OrderPool where
  chunks : Nat
  free_list : List Ptr
  next_chunk_idx : Nat
  next_order_in_chunk : Nat
  deriving DecidableEq, Repr

/-- The constructor `OrderPool()`. -/
def OrderPool.new : OrderPool := ⟨1, [], 0, 0⟩

/-- The chunk cursor after the `if (next_order_in_chunk_ >= CHUNK_SIZE)` block of `allocate`. -/
def OrderPool.advance (p : OrderPool) : OrderPool :=
  if p.next_order_in_chunk ≥ CHUNK_SIZE then
    { p with
      next_chunk_idx := p.next_chunk_idx + 1
      next_order_in_chunk := 0
      chunks := if p.next_chunk_idx + 1 ≥ p.chunks then p.chunks + 1 else p.chunks }
  else p

/-- `OrderPool::allocate`. -/
def OrderPool.allocate (p : OrderPool) : Ptr × OrderPool :=
  match p.free_list with
  | order :: rest => (order, { p with free_list := rest })
  | [] =>
    ((p.advance.next_chunk_idx, p.advance.next_order_in_chunk),
      { p.advance with next_order_in_chunk := p.advance.next_order_in_chunk + 1 })

/-- `OrderPool::deallocate`. -/
def OrderPool.deallocate (p : OrderPool) (order : Ptr) : OrderPool :=
  { p with free_list := order :: p.free_list }

/-- `OrderPool::clear`. -/
def OrderPool.clear (p : OrderPool) : OrderPool :=
  { p with free_list := [], next_chunk_idx := 0, next_order_in_chunk := 0 }

/-! ## PriceLevel -/

/-- A price level; the head of `orders` is the front of the deque. -/
structure PriceLevel where
  price : Price
  total_volume : Nat
  orders : List Ptr
  deriving DecidableEq, Repr

/-- The constructor `PriceLevel(p)`. -/
def PriceLevel.new (p : Price) : PriceLevel := ⟨p, 0, []⟩

/-- `PriceLevel::add_order`; the order is read through its pointer. -/
def PriceLevel.add_order (l : PriceLevel) (heap : Ptr → Order) (order : Ptr) : PriceLevel :=
  { l with
    orders := l.orders ++ [order]
    total_volume :=
      add64 l.total_volume (sub64 (heap order).quantity (heap order).filled_quantity) }

/-- `PriceLevel::get_front` (`none` is the null pointer). -/
def PriceLevel.get_front (l : PriceLevel) : Option Ptr := l.orders.head?

/-- `PriceLevel::update_volume_after_fill`. -/
def PriceLevel.update_volume_after_fill (l : PriceLevel) (filled_qty : Nat) : PriceLevel :=
  if l.total_volume ≥ filled_qty then
    { l with total_volume := l.total_volume - filled_qty }
  else
    { l with total_volume := 0 }

/-- `PriceLevel::remove_front`. -/
def PriceLevel.remove_front (l : PriceLevel) : PriceLevel :=
  { l with orders := l.orders.tail }

/-- `PriceLevel::is_empty`. -/
def PriceLevel.is_empty (l : PriceLevel) : Bool := l.orders.isEmpty

/-! ## The two price indices (`std::map`) -/

/-- A price index: association list kept in the order of the map's comparator. -/
abbrev Index := List (Price × PriceLevel)

/-- Comparator of `bids_` (`std::greater<double>`). -/
def bidBefore (a b : Price) : Bool := decide (a > b)

/-- Comparator of `asks_` (`std::less<double>`). -/
def askBefore (a b : Price) : Bool := decide (a < b)

/-- `std::map::find` under the comparator `before`: the first entry whose key is not before
`p` (`lower_bound`), provided `p` is not before that key either. -/
def map_find (before : Price → Price → Bool) (m : Index) (p : Price) : Option PriceLevel :=
  match m with
  | [] => none
  | (k, v) :: rest =>
    if before k p then map_find before rest p
    else if before p k then none
    else some v

/-- Assignment `m[p] = l` under the comparator `before`. -/
def map_assign (before : Price → Price → Bool) (m : Index) (p : Price) (l : PriceLevel) :
    Index :=
  match m with
  | [] => [(p, l)]
  | (k, v) :: rest =>
    if before p k then (p, l) :: (k, v) :: rest
    else if before k p then (k, v) :: map_assign before rest p l
    else (k, l) :: rest

/-- Mutation of the level that `find(p)` returns (through `it->second`). -/
def map_update (before : Price → Price → Bool) (m : Index) (p : Price)
    (f : PriceLevel → PriceLevel) : Index :=
  match m with
  | [] => []
  | (k, v) :: rest =>
    if before k p then (k, v) :: map_update before rest p f
    else if before p k then (k, v) :: rest
    else (k, f v) :: rest

/-! ## OrderBook -/

structure OrderBook where
  bids : Index
  asks : Index
  orders : Nat → Option Ptr
  pool : OrderPool
  heap : Ptr → Order
  trades : List Trade
  total_orders_processed : Nat
  total_trades : Nat
  order_id_counter : Nat

/-- The constructor `OrderBook(symbol)`. -/
def OrderBook.new : OrderBook :=
  { bids := []
    asks := []
    orders := fun _ => none
    pool := OrderPool.new
    heap := fun _ => default
    trades := []
    total_orders_processed := 0
    total_trades := 0
    order_id_counter := 1 }

/-- Write through a pointer: `*p = f(*p)`. -/
def heapModify (heap : Ptr → Order) (p : Ptr) (f : Order → Order) : Ptr → Order :=
  Function.update heap p (f (heap p))

/-- `orders_.erase(id)`. -/
def eraseId (orders : Nat → Option Ptr) (id : Nat) : Nat → Option Ptr :=
  Function.update orders id none

/-- The status assignment at the end of `execute_trade`. -/
def fillStatus (o : Order) : Order :=
  { o with
    status := if o.filled_quantity = o.quantity then OrderStatus.FILLED
              else OrderStatus.PARTIAL_FILL }

/-- `OrderBook::execute_trade`. -/
def execute_trade (b : OrderBook) (buy_order sell_order : Ptr) (price : Price)
    (quantity : Nat) : OrderBook :=
  let h1 := heapModify b.heap buy_order
    (fun o => { o with filled_quantity := add64 o.filled_quantity quantity })
  let h2 := heapModify h1 sell_order
    (fun o => { o with filled_quantity := add64 o.filled_quantity quantity })
  let t : Trade := ⟨(h2 buy_order).id, (h2 sell_order).id, price, quantity⟩
  let h3 := heapModify h2 buy_order fillStatus
  let h4 := heapModify h3 sell_order fillStatus
  { b with heap := h4, trades := b.trades ++ [t], total_trades := add64 b.total_trades 1 }

/-- The index an incoming order of side `side` is matched against. -/
def oppIndex (side : Side) (b : OrderBook) : Index :=
  match side with
  | .BUY => b.asks
  | .SELL => b.bids

/-- Replace the index an incoming order of side `side` is matched against. -/
def setOppIndex (side : Side) (b : OrderBook) (m : Index) : OrderBook :=
  match side with
  | .BUY => { b with asks := m }
  | .SELL => { b with bids := m }

/-- The pair `orders_.erase(order->id); pool_.deallocate(order);`. -/
def evict (b : OrderBook) (order : Ptr) : OrderBook :=
  { b with
    orders := eraseId b.orders (b.heap order).id
    pool := b.pool.deallocate order }

/-- The `trade_qty` computed by the inner loops. -/
def tradeQty (b : OrderBook) (order opposing_order : Ptr) : Nat :=
  min (sub64 (b.heap order).quantity (b.heap order).filled_quantity)
    (sub64 (b.heap opposing_order).quantity (b.heap opposing_order).filled_quantity)

/-- The call of `execute_trade` in the inner loops: the incoming order is the buyer in the
`BUY` branches and the seller in the `SELL` branches. -/
def tradeBook (side : Side) (order : Ptr) (price : Price) (opposing_order : Ptr)
    (b : OrderBook) : OrderBook :=
  match side with
  | .BUY => execute_trade b order opposing_order price (tradeQty b order opposing_order)
  | .SELL => execute_trade b opposing_order order price (tradeQty b order opposing_order)

/-- Body of the inner `while` loops: one trade of `order` against the front order
`opposing_order` of the level `level` stored at `begin()` (key `price`, followed by `rest`). -/
def matchStep (side : Side) (order : Ptr) (price : Price) (level : PriceLevel) (rest : Index)
    (opposing_order : Ptr) (b : OrderBook) : OrderBook :=
  let trade_qty := tradeQty b order opposing_order
  let b1 := tradeBook side order price opposing_order b
  let level1 := level.update_volume_after_fill trade_qty
  if (b1.heap opposing_order).filled_quantity = (b1.heap opposing_order).quantity then
    setOppIndex side (evict b1 opposing_order) ((price, level1.remove_front) :: rest)
  else
    setOppIndex side b1 ((price, level1) :: rest)

/-- The inner `while (!level->is_empty() && order->filled_quantity < order->quantity)`. -/
def matchLevel (side : Side) (order : Ptr) : Nat → OrderBook → Option OrderBook
  | 0, _ => none
  | fuel + 1, b =>
    match oppIndex side b with
    | [] => none
    | (price, level) :: rest =>
      if level.is_empty = false ∧
          (b.heap order).filled_quantity < (b.heap order).quantity then
        match level.get_front with
        | none => none
        | some opposing_order =>
          matchLevel side order fuel (matchStep side order price level rest opposing_order b)
      else some b

/-- The `break` test of `match_limit_order`; market orders never stop on price. -/
def crossStop (side : Side) (type : OrderType) (order_price level_price : Price) : Bool :=
  match type, side with
  | .MARKET, _ => false
  | .LIMIT, .BUY => decide (order_price < level_price)
  | .LIMIT, .SELL => decide (order_price > level_price)

/-- The `if (level->is_empty()) erase(it)` after the inner loop. -/
def eraseEmptyFront (side : Side) (b : OrderBook) : OrderBook :=
  match oppIndex side b with
  | [] => b
  | (_, level) :: rest => if level.is_empty then setOppIndex side b rest else b

/-- The outer `while (!opposite.empty() && order->filled_quantity < order->quantity)` of
`match_market_order` (`type = MARKET`) and `match_limit_order` (`type = LIMIT`). -/
def matchWalk (side : Side) (type : OrderType) (order : Ptr) (inner : Nat) :
    Nat → OrderBook → Option OrderBook
  | 0, _ => none
  | fuel + 1, b =>
    match oppIndex side b with
    | [] => some b
    | (price, _) :: _ =>
      if (b.heap order).filled_quantity < (b.heap order).quantity then
        if crossStop side type (b.heap order).price price then some b
        else
          match matchLevel side order inner b with
          | none => none
          | some b1 => matchWalk side type order inner fuel (eraseEmptyFront side b1)
      else some b

/-- Mark filled, drop from the id index, return the slot to the pool. -/
def finishFilled (b : OrderBook) (order : Ptr) : OrderBook :=
  evict
    { b with
      heap := heapModify b.heap order (fun o => { o with status := OrderStatus.FILLED }) }
    order

/-- `order->status = OrderStatus::PARTIAL_FILL` when `order->filled_quantity > 0`. -/
def markPartialFill (b : OrderBook) (order : Ptr) : OrderBook :=
  if (b.heap order).filled_quantity > 0 then
    { b with
      heap := heapModify b.heap order (fun o => { o with status := OrderStatus.PARTIAL_FILL }) }
  else b

/-- `OrderBook::match_market_order`. -/
def match_market_order (fuel : Nat) (b : OrderBook) (order : Ptr) : Option OrderBook :=
  match matchWalk (b.heap order).side .MARKET order fuel fuel b with
  | none => none
  | some b1 =>
    if (b1.heap order).filled_quantity = (b1.heap order).quantity then
      some (finishFilled b1 order)
    else some (markPartialFill b1 order)

/-- The resting branch of `match_limit_order`: find or create the level, enqueue. -/
def restOrder (b : OrderBook) (order : Ptr) : OrderBook :=
  let p := (b.heap order).price
  match (b.heap order).side with
  | .BUY =>
    let m := if (map_find bidBefore b.bids p).isNone then
               map_assign bidBefore b.bids p (PriceLevel.new p)
             else b.bids
    { b with bids := map_update bidBefore m p (fun l => l.add_order b.heap order) }
  | .SELL =>
    let m := if (map_find askBefore b.asks p).isNone then
               map_assign askBefore b.asks p (PriceLevel.new p)
             else b.asks
    { b with asks := map_update askBefore m p (fun l => l.add_order b.heap order) }

/-- `OrderBook::match_limit_order`. -/
def match_limit_order (fuel : Nat) (b : OrderBook) (order : Ptr) : Option OrderBook :=
  match matchWalk (b.heap order).side .LIMIT order fuel fuel b with
  | none => none
  | some b1 =>
    if (b1.heap order).filled_quantity < (b1.heap order).quantity then
      some (markPartialFill (restOrder b1 order) order)
    else some (finishFilled b1 order)

/-- `OrderBook::match_order`. -/
def match_order (fuel : Nat) (b : OrderBook) (order : Ptr) : Option OrderBook :=
  match (b.heap order).type with
  | .MARKET => match_market_order fuel b order
  | .LIMIT => match_limit_order fuel b order

/-- The part of `add_order` before `match_order`: take the next id, allocate and construct the
order, register it in the id index. -/
def register_order (b : OrderBook) (side : Side) (type : OrderType) (price : Price)
    (quantity : Nat) : OrderBook :=
  { b with
    order_id_counter := add64 b.order_id_counter 1
    pool := b.pool.allocate.2
    heap := Function.update b.heap b.pool.allocate.1
      (Order.new b.order_id_counter side type price quantity)
    orders := Function.update b.orders b.order_id_counter (some b.pool.allocate.1) }

/-- `OrderBook::add_order`; returns the order id and the new book. -/
def add_order (fuel : Nat) (b : OrderBook) (side : Side) (type : OrderType) (price : Price)
    (quantity : Nat) : Option (Nat × OrderBook) :=
  match match_order fuel (register_order b side type price quantity) b.pool.allocate.1 with
  | none => none
  | some b2 =>
    some (b.order_id_counter,
      { b2 with total_orders_processed := add64 b2.total_orders_processed 1 })

/-- `OrderBook::cancel_order`. -/
def cancel_order (b : OrderBook) (order_id : Nat) : Bool × OrderBook :=
  match b.orders order_id with
  | none => (false, b)
  | some order =>
    if (b.heap order).status = OrderStatus.FILLED then (false, b)
    else
      (true,
        { b with
          heap := heapModify b.heap order
            (fun o => { o with status := OrderStatus.CANCELLED }) })

/-- `OrderBook::get_order` (the pointer found in the id index). -/
def get_order (b : OrderBook) (order_id : Nat) : Option Ptr := b.orders order_id

/-- `OrderBook::get_best_bid`. -/
def get_best_bid (b : OrderBook) : Price :=
  match b.bids with
  | [] => 0
  | (p, _) :: _ => p

/-- `OrderBook::get_best_ask`. -/
def get_best_ask (b : OrderBook) : Price :=
  match b.asks with
  | [] => 0
  | (p, _) :: _ => p

/-- `OrderBook::get_spread`; `fsub` is the subtraction of doubles (with its rounding). -/
def get_spread (fsub : Price → Price → Price) (b : OrderBook) : Price :=
  if b.bids.isEmpty ∨ b.asks.isEmpty then 0 else fsub (get_best_ask b) (get_best_bid b)

/-- `OrderBook::get_bid_volume`. -/
def get_bid_volume (b : OrderBook) (price : Price) : Nat :=
  match map_find bidBefore b.bids price with
  | some l => l.total_volume
  | none => 0

/-- `OrderBook::get_ask_volume`. -/
def get_ask_volume (b : OrderBook) (price : Price) : Nat :=
  match map_find askBefore b.asks price with
  | some l => l.total_volume
  | none => 0

/-! ## Reachable books -/

/-- `History qs b`: the book `b` is obtained from a freshly constructed book by a sequence of
`add_order` and `cancel_order` calls, and `qs` lists the quantities passed to the `add_order`
calls, in call order. Quantities are `uint64_t` arguments. -/
inductive History : List Nat → OrderBook → Prop where
  | init : History [] OrderBook.new
  | add {qs : List Nat} {b : OrderBook} {r : Nat × OrderBook} (fuel : Nat) (side : Side)
      (type : OrderType) (price : Price) (quantity : Nat) :
      History qs b → quantity < U64 →
      add_order fuel b side type price quantity = some r → History (qs ++ [quantity]) r.2
  | cancel {qs : List Nat} {b : OrderBook} (order_id : Nat) :
      History qs b → History qs (cancel_order b order_id).2

/-- A book reachable from the empty book by `add_order` and `cancel_order` calls. -/
def Reachable (b : OrderBook) : Prop := ∃ qs, History qs b

/-! ## Vocabulary of the statements -/

/-- The index an incoming order of side `side` rests in. -/
def ownIndex (side : Side) (b : OrderBook) : Index :=
  match side with
  | .BUY => b.bids
  | .SELL => b.asks

/-- The prices of an index, in index order. -/
def keys (m : Index) : List Price := m.map Prod.fst

/-- The priority order of the index walked by an incoming order of side `side`:
ascending asks for a buy, descending bids for a sell. -/
def better (side : Side) (a b : Price) : Prop :=
  match side with
  | .BUY => a < b
  | .SELL => b < a

/-- The fields of an order that are fixed by its constructor. -/
def Order.static (o : Order) : Nat × Side × OrderType × Price × Nat :=
  (o.id, o.side, o.type, o.price, o.quantity)

/-- The trades a call appended: `b1.trades` is `b.trades` followed by `ts`. -/
def Appended (b b1 : OrderBook) (ts : List Trade) : Prop := b1.trades = b.trades ++ ts

/-- The comparator of the index an order of side `side` rests in. -/
def ownBefore (side : Side) : Price → Price → Bool :=
  match side with
  | .BUY => bidBefore
  | .SELL => askBefore

/-- Shape of the two indices, seen from an incoming order of side `side`: the walked index
and the own index are strictly ordered by their comparators, and no price of the own index
reaches a price of the walked index. -/
def ShapeFor (side : Side) (b : OrderBook) : Prop :=
  (keys (oppIndex side b)).Pairwise (better side) ∧
  (keys (ownIndex side b)).Pairwise (fun x y => better side y x) ∧
  ∀ ko ∈ keys (ownIndex side b), ∀ kp ∈ keys (oppIndex side b), better side ko kp

/-- Shape of the two indices: bid prices strictly descending, ask prices strictly ascending,
every bid price below every ask price. -/
def Shape (b : OrderBook) : Prop := ShapeFor .BUY b

/-- An index in which a key that is not-a-number, if there is one, is the only key. -/
def NanAlone (m : Index) : Prop := Price.nan ∈ keys m → m.length = 1

/-- What a walk leaves alone: the own index, the constructor fields of every order; and of the
walked index only a suffix of the price keys remains. -/
def WalkFrame (side : Side) (b x : OrderBook) : Prop :=
  ownIndex side x = ownIndex side b ∧
  keys (oppIndex side x) <:+ keys (oppIndex side b) ∧
  ∀ p, (x.heap p).static = (b.heap p).static


/-- The part of `match_market_order` / `match_limit_order` after the walk. -/
def finalize (type : OrderType) (b : OrderBook) (order : Ptr) : OrderBook :=
  match type with
  | .MARKET =>
    if (b.heap order).filled_quantity = (b.heap order).quantity then finishFilled b order
    else markPartialFill b order
  | .LIMIT =>
    if (b.heap order).filled_quantity < (b.heap order).quantity then
      markPartialFill (restOrder b order) order
    else finishFilled b order

/-- The increment of `total_orders_processed_` that ends `add_order`. -/
def countOrder (b : OrderBook) : OrderBook :=
  { b with total_orders_processed := add64 b.total_orders_processed 1 }

/-! ## Concrete books used as instances -/

/-- The book after `add_order(BUY, LIMIT, 150, 100)` on a fresh book. -/
def bookA : OrderBook :=
  ((add_order 4 OrderBook.new .BUY .LIMIT 150 100).getD (0, OrderBook.new)).2

/-- `bookA` followed by `add_order(SELL, LIMIT, 151, 150)`. -/
def bookB : OrderBook :=
  ((add_order 4 bookA .SELL .LIMIT 151 150).getD (0, OrderBook.new)).2

/-! ## Well-formedness of a book -/

/-- The opposite side. -/
def Side.flip : Side → Side
  | .BUY => .SELL
  | .SELL => .BUY

/-- All order pointers enqueued in the levels of an index, in index and queue order. -/
def levelPtrs (m : Index) : List Ptr := m.flatMap (fun e => e.2.orders)

/-- All order pointers enqueued at some price level of the book. -/
def restingPtrs (b : OrderBook) : List Ptr := levelPtrs b.bids ++ levelPtrs b.asks

/-- Slots of the chunk storage that `allocate` has handed out from the chunks at least once. -/
def issued (pool : OrderPool) (p : Ptr) : Prop :=
  p.2 < CHUNK_SIZE ∧
    (p.1 < pool.next_chunk_idx ∨ (p.1 = pool.next_chunk_idx ∧ p.2 < pool.next_order_in_chunk))

/-- The remaining quantity `quantity - filled_quantity` of an order, as an exact number. -/
def Order.remaining (o : Order) : Nat := o.quantity - o.filled_quantity

/-- Two prices that neither comparator of the indices tells apart: `find` for the one returns
the level keyed by the other. Two prices that are not not-a-number are equivalent exactly when
they are equal. -/
def Price.equiv (a b : Price) : Prop := ¬ a < b ∧ ¬ b < a

/-- An order that may stand in the queue of the level keyed `key` of the `side` index. -/
def RestingOK (side : Side) (key : Price) (o : Order) : Prop :=
  o.side = side ∧ o.type = .LIMIT ∧ o.price.equiv key ∧
    o.filled_quantity < o.quantity ∧ o.quantity < U64

/-- A level of the `side` index whose key is its price and whose orders may stand there. -/
def LevelOK (heap : Ptr → Order) (side : Side) (e : Price × PriceLevel) : Prop :=
  e.2.price = e.1 ∧ ∀ p ∈ e.2.orders, RestingOK side e.1 (heap p)

/-- What the id index may hold: an order under its own id, in an issued slot that is not on
the free list, not overfilled. -/
def IndexOK (b : OrderBook) : Prop :=
  ∀ k x, b.orders k = some x →
    (b.heap x).id = k ∧ issued b.pool x ∧ x ∉ b.pool.free_list ∧
      (b.heap x).filled_quantity ≤ (b.heap x).quantity ∧ (b.heap x).quantity < U64

/-- Well-formedness of pool, levels and id index, seen from an incoming order of side `side`.
It holds between calls and at the head of both matching loops. -/
structure WfFor (side : Side) (b : OrderBook) : Prop where
  pool_le : b.pool.next_order_in_chunk ≤ CHUNK_SIZE
  free_nodup : b.pool.free_list.Nodup
  free_issued : ∀ p ∈ b.pool.free_list, issued b.pool p
  nodup : (levelPtrs (ownIndex side b) ++ levelPtrs (oppIndex side b)).Nodup
  own_live : ∀ p ∈ levelPtrs (ownIndex side b), issued b.pool p ∧ p ∉ b.pool.free_list
  opp_live : ∀ p ∈ levelPtrs (oppIndex side b), issued b.pool p ∧ p ∉ b.pool.free_list
  own_ok : ∀ e ∈ ownIndex side b, LevelOK b.heap side e
  opp_ok : ∀ e ∈ oppIndex side b, LevelOK b.heap side.flip e
  index_ok : IndexOK b

/-- Well-formedness of pool, levels and id index. -/
def Wf (b : OrderBook) : Prop := WfFor .BUY b

/-- The incoming order while it is being matched: an issued slot, neither free nor enqueued,
of the side being matched, not overfilled. -/
structure Live (side : Side) (order : Ptr) (b : OrderBook) : Prop where
  is_issued : issued b.pool order
  not_free : order ∉ b.pool.free_list
  not_own : order ∉ levelPtrs (ownIndex side b)
  not_opp : order ∉ levelPtrs (oppIndex side b)
  side_eq : (b.heap order).side = side
  filled_le : (b.heap order).filled_quantity ≤ (b.heap order).quantity
  quantity_lt : (b.heap order).quantity < U64

/-- Every level of the index holds at least one order. -/
def NonEmptyLevels (m : Index) : Prop := ∀ e ∈ m, e.2.orders ≠ []

/-- Every level of the own index, and every level of the walked index after the one at
`begin()`, holds an order: the state of the levels inside the inner loop. -/
def InnerLevels (side : Side) (b : OrderBook) : Prop :=
  NonEmptyLevels (ownIndex side b) ∧ NonEmptyLevels (oppIndex side b).tail

/-- Every level of both indices holds an order: the state of the levels between calls and at
the head of the outer loop. -/
def OuterLevels (side : Side) (b : OrderBook) : Prop :=
  NonEmptyLevels (ownIndex side b) ∧ NonEmptyLevels (oppIndex side b)

/-- The state at the head of the outer loop. -/
def OuterInv (side : Side) (order : Ptr) (b : OrderBook) : Prop :=
  WfFor side b ∧ Live side order b ∧ OuterLevels side b

/-- The state at the head of the inner loop. -/
def InnerInv (side : Side) (order : Ptr) (b : OrderBook) : Prop :=
  WfFor side b ∧ Live side order b ∧ InnerLevels side b

/-- The invariant of the book between calls: well formed, and no level is empty. -/
def Inv (b : OrderBook) : Prop := Wf b ∧ OuterLevels .BUY b

/-- A book that differs only in the heap, with the same constructor fields and the same
filled quantities (so only statuses changed). -/
def StatusOnly (b x : OrderBook) : Prop :=
  x.bids = b.bids ∧ x.asks = b.asks ∧ x.pool = b.pool ∧ x.orders = b.orders ∧
    ∀ p, (x.heap p).static = (b.heap p).static ∧
      (x.heap p).filled_quantity = (b.heap p).filled_quantity

/-- The price 149.50. -/
def px14950 : Price := .num ⟨299, 2, by decide, by decide⟩

/-- The price 151.50. -/
def px15150 : Price := .num ⟨303, 2, by decide, by decide⟩

/-- Scenario 1, first call: `add_order(BUY, LIMIT, 150.00, 100)` on the empty book. -/
def demo1 : OrderBook := ((add_order 4 OrderBook.new .BUY .LIMIT 150 100).getD (0, OrderBook.new)).2

/-- Scenario 1, second call: `add_order(BUY, LIMIT, 149.50, 200)`. -/
def demo2 : OrderBook := ((add_order 4 demo1 .BUY .LIMIT px14950 200).getD (0, OrderBook.new)).2

/-- Scenario 1, third call: `add_order(SELL, LIMIT, 151.00, 150)`. -/
def demo3 : OrderBook := ((add_order 4 demo2 .SELL .LIMIT 151 150).getD (0, OrderBook.new)).2

/-- Scenario 1, fourth call: `add_order(SELL, LIMIT, 151.50, 100)`. -/
def demo4 : OrderBook := ((add_order 4 demo3 .SELL .LIMIT px15150 100).getD (0, OrderBook.new)).2

/-- Scenario 2: `add_order(BUY, MARKET, 0, 120)`. -/
def demo5 : OrderBook := ((add_order 4 demo4 .BUY .MARKET 0 120).getD (0, OrderBook.new)).2

/-- Scenario 3: `add_order(SELL, LIMIT, 149.00, 150)`. -/
def demo6 : OrderBook := ((add_order 4 demo5 .SELL .LIMIT 149 150).getD (0, OrderBook.new)).2

/-- The trade record of an incoming order of side `side` and id `incoming` against the
resting order of id `resting`. -/
def mkTrade (side : Side) (incoming resting : Nat) (price : Price) (quantity : Nat) : Trade :=
  match side with
  | .BUY => ⟨incoming, resting, price, quantity⟩
  | .SELL => ⟨resting, incoming, price, quantity⟩

/-- The id of the resting order in a trade made by an incoming order of side `side`. -/
def Trade.resting_id (side : Side) (t : Trade) : Nat :=
  match side with
  | .BUY => t.sell_order_id
  | .SELL => t.buy_order_id

/-- The id of the incoming order in a trade made by an incoming order of side `side`. -/
def Trade.incoming_id (side : Side) (t : Trade) : Nat :=
  match side with
  | .BUY => t.buy_order_id
  | .SELL => t.sell_order_id

/-- State of a walk with respect to price priority: the trades made so far have prices in
walking order, each at a key of the index as it was before the walk, and no level that is
still in the index has a better price than a trade already made. -/
def PriceTrace (side : Side) (b x : OrderBook) : Prop :=
  (keys (oppIndex side x)).Pairwise (better side) ∧
  keys (oppIndex side x) <:+ keys (oppIndex side b) ∧
  ∃ ts, x.trades = b.trades ++ ts ∧
    ts.Pairwise (fun t1 t2 => ¬ better side t2.price t1.price) ∧
    (∀ t ∈ ts, t.price ∈ keys (oppIndex side b)) ∧
    ∀ t ∈ ts, ∀ k ∈ keys (oppIndex side x), ¬ better side k t.price

/-- The resting orders of an index in matching priority: levels in index order, orders of a
level in queue order, each with the key of its level. -/
def flat (m : Index) : List (Price × Ptr) :=
  m.flatMap (fun e => e.2.orders.map (fun p => (e.1, p)))

/-- Specification of the matching walk (price-time priority): go through the resting orders
in priority order while the incoming order has a remainder `rem` and the price test `stop`
does not stop the walk; against each one trade the minimum of the two remainders. The result
lists price, resting order and quantity of every trade. -/
def fills (heap : Ptr → Order) (stop : Price → Bool) : Nat → List (Price × Ptr) →
    List (Price × Ptr × Nat)
  | _, [] => []
  | rem, (k, p) :: rest =>
    if rem = 0 ∨ stop k = true then []
    else (k, p, min rem (heap p).remaining) ::
      fills heap stop (rem - min rem (heap p).remaining) rest

/-- The trades that a call `add_order(side, type, price, q)` on the book `b` has to append
according to the specification of the walk. -/
def expectedTrades (side : Side) (type : OrderType) (price : Price) (q : Nat)
    (b : OrderBook) : List Trade :=
  (fills b.heap (crossStop side type price) q (flat (oppIndex side b))).map
    (fun f => mkTrade side b.order_id_counter (b.heap f.2.1).id f.1 f.2.2)

/-- The trades still to come in the state `x` of a walk for the incoming order `order`. -/
def pending (side : Side) (type : OrderType) (order : Ptr) (x : OrderBook) : List Trade :=
  (fills x.heap (crossStop side type (x.heap order).price) (x.heap order).remaining
    (flat (oppIndex side x))).map
    (fun f => mkTrade side (x.heap order).id (x.heap f.2.1).id f.1 f.2.2)

/-- State of a walk with respect to its specification. -/
def Refines (side : Side) (type : OrderType) (order : Ptr) (c : List Trade) (x : OrderBook) :
    Prop :=
  x.trades ++ pending side type order x = c

/-- State of a walk with respect to the queues of the walked index: the enqueued orders are
a suffix of those enqueued before the walk; the orders that left are exactly filled; behind
the first enqueued order nobody has been touched; and outside the walked index only the
incoming order's record has changed. -/
def HeapTrace (side : Side) (order : Ptr) (b x : OrderBook) : Prop :=
  levelPtrs (oppIndex side x) <:+ levelPtrs (oppIndex side b) ∧
  (∀ p ∈ levelPtrs (oppIndex side b), p ∉ levelPtrs (oppIndex side x) →
    (x.heap p).filled_quantity = (x.heap p).quantity) ∧
  (∀ p ∈ (levelPtrs (oppIndex side x)).tail, x.heap p = b.heap p) ∧
  ∀ p, p ≠ order → p ∉ levelPtrs (oppIndex side b) → x.heap p = b.heap p

/-- Two sells at one price: `add_order(SELL, LIMIT, 100, 30)` on the empty book. -/
def stack1 : OrderBook :=
  ((add_order 4 OrderBook.new .SELL .LIMIT 100 30).getD (0, OrderBook.new)).2

/-- Two sells at one price: then `add_order(SELL, LIMIT, 100, 70)`. -/
def stack2 : OrderBook := ((add_order 4 stack1 .SELL .LIMIT 100 70).getD (0, OrderBook.new)).2

/-- Two sells at one price: then `add_order(BUY, LIMIT, 100, 100)`. -/
def stack3 : OrderBook := ((add_order 4 stack2 .BUY .LIMIT 100 100).getD (0, OrderBook.new)).2

/-- The sum of the remaining quantities of the orders enqueued at a level. -/
def levelSum (heap : Ptr → Order) (l : PriceLevel) : Nat :=
  (l.orders.map (fun p => (heap p).remaining)).sum

/-- The cached volume of every level is the sum of the remainders of its orders. -/
def VolumeOK (b : OrderBook) : Prop :=
  ∀ e, e ∈ b.bids ∨ e ∈ b.asks → e.2.total_volume = levelSum b.heap e.2

/-- At every level the sum of the remainders of its orders is below `2 ^ 64`. -/
def VolumeBounded (b : OrderBook) : Prop :=
  ∀ e, e ∈ b.bids ∨ e ∈ b.asks → levelSum b.heap e.2 < U64

/-- A book reached from the empty book by `add_order` and `cancel_order` calls such that
after every `add_order` the sum of the remainders at each level is below `2 ^ 64`. -/
inductive BoundedHistory : OrderBook → Prop where
  | init : BoundedHistory OrderBook.new
  | add {b : OrderBook} {r : Nat × OrderBook} (fuel : Nat) (side : Side) (type : OrderType)
      (price : Price) (quantity : Nat) :
      BoundedHistory b → quantity < U64 →
      add_order fuel b side type price quantity = some r → VolumeBounded r.2 →
      BoundedHistory r.2
  | cancel {b : OrderBook} (order_id : Nat) :
      BoundedHistory b → BoundedHistory (cancel_order b order_id).2

/-- The remaining quantity resting at price `p` in an index: the sum of the remainders of the
orders enqueued at levels keyed `p`. -/
def restingVolume (m : Index) (heap : Ptr → Order) (p : Price) : Nat :=
  (((flat m).filter (fun kp => kp.1 = p)).map (fun kp => (heap kp.2).remaining)).sum

/-- Overflow of a cached volume: `add_order(SELL, LIMIT, 100, 2^63)` on the empty book. -/
def big1 : OrderBook :=
  ((add_order 4 OrderBook.new .SELL .LIMIT 100 (2 ^ 63)).getD (0, OrderBook.new)).2

/-- Overflow of a cached volume: then `add_order(SELL, LIMIT, 100, 2^63)` again. -/
def big2 : OrderBook := ((add_order 4 big1 .SELL .LIMIT 100 (2 ^ 63)).getD (0, OrderBook.new)).2

/-- Overflow of a cached volume: then `add_order(BUY, LIMIT, 100, 1)`. -/
def big3 : OrderBook := ((add_order 4 big2 .BUY .LIMIT 100 1).getD (0, OrderBook.new)).2

/-- The sum of the quantities of the trades of the log whose buyer or seller is `id`. -/
def tradedQty (trades : List Trade) (id : Nat) : Nat :=
  ((trades.filter (fun t => t.buy_order_id = id ∨ t.sell_order_id = id)).map
    Trade.quantity).sum

/-- Bookkeeping of ids, where `qs` lists the quantities of all submissions so far, the k-th
submission having id `k`: the id index holds only issued ids, each with the quantity it was
submitted with; every enqueued order is registered under its id; the traded quantity of a
registered id is its filled quantity, that of an issued id no longer registered is the
submitted quantity, and that of an id not yet issued is zero. -/
structure IdOK (qs : List Nat) (b : OrderBook) : Prop where
  key_range : ∀ k x, b.orders k = some x → 1 ≤ k ∧ k ≤ qs.length
  quantity_eq : ∀ k x, b.orders k = some x → qs[k - 1]? = some (b.heap x).quantity
  resting_reg : ∀ p ∈ restingPtrs b, b.orders (b.heap p).id = some p
  live_sum : ∀ k x, b.orders k = some x → tradedQty b.trades k = (b.heap x).filled_quantity
  gone_sum : ∀ k, 1 ≤ k → k ≤ qs.length → b.orders k = none →
    qs[k - 1]? = some (tradedQty b.trades k)
  fresh_sum : ∀ k, k = 0 ∨ qs.length < k → tradedQty b.trades k = 0

/-- Id reuse: `add_order(SELL, LIMIT, 5, 1)` on the empty book. -/
def wrap1 : OrderBook :=
  ((add_order 4 OrderBook.new .SELL .LIMIT 5 1).getD (0, OrderBook.new)).2

/-- Id reuse: then `add_order(BUY, LIMIT, 5, 1)`, which trades with the first order and
leaves both indices empty. -/
def wrap2 : OrderBook := ((add_order 4 wrap1 .BUY .LIMIT 5 1).getD (0, OrderBook.new)).2

/-- A book with empty indices, the trade log of `wrap2` and id counter `c`. -/
def Drained (c : Nat) (b : OrderBook) : Prop :=
  b.bids = [] ∧ b.asks = [] ∧ b.trades = wrap2.trades ∧ b.order_id_counter = c

/-- The status of an order of the id index is derived from its filled quantity: the order is
not fully filled and not marked filled, and unless it is marked cancelled it is `NEW`
exactly when nothing is filled and `PARTIAL_FILL` exactly when something is. -/
def StatusOK (o : Order) : Prop :=
  o.filled_quantity < o.quantity ∧ o.status ≠ OrderStatus.FILLED ∧
    (o.status ≠ OrderStatus.CANCELLED →
      (o.status = OrderStatus.NEW ↔ o.filled_quantity = 0) ∧
      (o.status = OrderStatus.PARTIAL_FILL ↔ 0 < o.filled_quantity))

/-- The status of the incoming order while it is matched: `NEW` before its first trade, and
after a trade what `execute_trade` assigned. -/
def IncomingStatus (o : Order) : Prop :=
  (o.filled_quantity = 0 → o.status = OrderStatus.NEW) ∧
  (0 < o.filled_quantity →
    o.status = if o.filled_quantity = o.quantity then OrderStatus.FILLED
      else OrderStatus.PARTIAL_FILL)

/-- State of the statuses during the walk for the incoming order `order`. -/
def WalkStatus (order : Ptr) (x : OrderBook) : Prop :=
  (∀ k p, x.orders k = some p → p ≠ order → StatusOK (x.heap p)) ∧
    IncomingStatus (x.heap order)

/-- Every order of the id index has the status derived from its filled quantity. -/
def IndexStatus (b : OrderBook) : Prop := ∀ k p, b.orders k = some p → StatusOK (b.heap p)

/-- What a call may have done to the record of an order other than the incoming one: nothing,
or trades, which raised its filled quantity and left the status that `execute_trade`
assigns. -/
def Touched (b x : OrderBook) (p : Ptr) : Prop :=
  x.heap p = b.heap p ∨
    ((b.heap p).filled_quantity < (x.heap p).filled_quantity ∧
      (x.heap p).status =
        if (x.heap p).filled_quantity = (x.heap p).quantity then OrderStatus.FILLED
        else OrderStatus.PARTIAL_FILL)

/-- A cancelled resting order: `cancel_order(1)` after `add_order(SELL, LIMIT, 100, 30)` on
the empty book. -/
def cxl1 : OrderBook := (cancel_order stack1 1).2

/-- A cancelled resting order: then `add_order(BUY, LIMIT, 100, 10)`. -/
def cxl2 : OrderBook := ((add_order 4 cxl1 .BUY .LIMIT 100 10).getD (0, OrderBook.new)).2

/-- The cached volume at price `p` on the side of an incoming order of side `side`:
`get_bid_volume(p)` for a buy, `get_ask_volume(p)` for a sell. -/
def ownVolume (side : Side) (b : OrderBook) (p : Price) : Nat :=
  match side with
  | .BUY => get_bid_volume b p
  | .SELL => get_ask_volume b p

/-- A market order on the empty book: `add_order(BUY, MARKET, 0, 10)`. -/
def mkt1 : OrderBook := ((add_order 4 OrderBook.new .BUY .MARKET 0 10).getD (0, OrderBook.new)).2

/-- A market order larger than the book: `add_order(BUY, MARKET, 0, 50)` after
`add_order(SELL, LIMIT, 100, 30)` on the empty book. -/
def mkt2 : OrderBook := ((add_order 4 stack1 .BUY .MARKET 0 50).getD (0, OrderBook.new)).2

/-- A sell with limit price not-a-number: `add_order(SELL, LIMIT, NaN, 10)` after
`add_order(SELL, LIMIT, 100, 30)` on the empty book. -/
def nan1 : OrderBook := ((add_order 4 stack1 .SELL .LIMIT .nan 10).getD (0, OrderBook.new)).2

/-- A sell with limit price not-a-number: then `add_order(BUY, LIMIT, 100, 35)`. -/
def nan2 : OrderBook := ((add_order 4 nan1 .BUY .LIMIT 100 35).getD (0, OrderBook.new)).2

/-- A buy with limit price not-a-number: `add_order(BUY, LIMIT, NaN, 10)` after
`add_order(SELL, LIMIT, 100, 30)` on the empty book. -/
def nan3 : OrderBook := ((add_order 4 stack1 .BUY .LIMIT .nan 10).getD (0, OrderBook.new)).2

/-- A level keyed not-a-number: `add_order(SELL, LIMIT, NaN, 10)` on the empty book. -/
def nan4 : OrderBook :=
  ((add_order 4 OrderBook.new .SELL .LIMIT .nan 10).getD (0, OrderBook.new)).2

/-- A level keyed not-a-number: then `add_order(SELL, LIMIT, 100, 10)`. -/
def nan5 : OrderBook := ((add_order 4 nan4 .SELL .LIMIT 100 10).getD (0, OrderBook.new)).2

/-- A level keyed not-a-number: then `add_order(BUY, MARKET, 0, 20)`. -/
def nan6 : OrderBook := ((add_order 4 nan5 .BUY .MARKET 0 20).getD (0, OrderBook.new)).2

/-- A level keyed not-a-number: `add_order(BUY, LIMIT, 100, 10)` after
`add_order(SELL, LIMIT, NaN, 10)` on the empty book. -/
def nan7 : OrderBook := ((add_order 4 nan4 .BUY .LIMIT 100 10).getD (0, OrderBook.new)).2

/-- A book whose only resting order is the sell of 1 at 5 with id 1 of `wrap1`, in the slot
`(0, 0)`, and whose id counter is `c`. -/
def Held (c : Nat) (b : OrderBook) : Prop :=
  b.bids = [] ∧ b.asks = wrap1.asks ∧ b.heap (0, 0) = wrap1.heap (0, 0) ∧
    b.order_id_counter = c

/-- `PoolRun pool live freed`: `pool` is reached from a fresh pool by `allocate` and
`deallocate` calls, each `deallocate` being applied to a slot that is currently allocated.
`live` lists the slots that are currently allocated (issued and not deallocated since), and
`freed` the slots that were deallocated and not issued again since, the most recently
deallocated first. -/
inductive PoolRun : OrderPool → List Ptr → List Ptr → Prop where
  | init : PoolRun OrderPool.new [] []
  | allocate {pool : OrderPool} {live freed : List Ptr} :
      PoolRun pool live freed →
      PoolRun pool.allocate.2 (pool.allocate.1 :: live)
        (freed.filter (fun p => p ≠ pool.allocate.1))
  | deallocate {pool : OrderPool} {live freed : List Ptr} (slot : Ptr) :
      PoolRun pool live freed → slot ∈ live →
      PoolRun (pool.deallocate slot) (live.filter (fun p => p ≠ slot)) (slot :: freed)

/-- The invariant of pool runs: the free list is the list of freed slots; free and live slots
are issued, without repetition, and disjoint. -/
structure PoolOK (pool : OrderPool) (live freed : List Ptr) : Prop where
  free_eq : pool.free_list = freed
  pool_le : pool.next_order_in_chunk ≤ CHUNK_SIZE
  free_nodup : freed.Nodup
  free_issued : ∀ p ∈ freed, issued pool p
  live_nodup : live.Nodup
  live_issued : ∀ p ∈ live, issued pool p ∧ p ∉ freed

/-- The states through which the two matching loops for the incoming order `order` pass when
they start in `x0`: the body of the inner loop is run at the head of the inner loop while the
incoming order has a remainder and the level at `begin()` has a front order, and the erasure
of an emptied level follows the inner loop. -/
inductive WalkState (side : Side) (order : Ptr) (x0 : OrderBook) : OrderBook → Prop where
  | start : WalkState side order x0 x0
  | trade {x : OrderBook} {price : Price} {level : PriceLevel} {rest : Index} {opp : Ptr}
      {tl : List Ptr} :
      WalkState side order x0 x → oppIndex side x = (price, level) :: rest →
      level.orders = opp :: tl →
      (x.heap order).filled_quantity < (x.heap order).quantity →
      WalkState side order x0 (matchStep side order price level rest opp x)
  | erase {x : OrderBook} :
      WalkState side order x0 x → WalkState side order x0 (eraseEmptyFront side x)

/-! # Theorems -/

/-! ## The comparison of prices -/

theorem Price.lt_irrefl (a : Price) : ¬ a < a := by
  show ¬ Price.blt a a = true
  cases a <;> simp [Price.blt]

theorem Price.lt_trans {a b c : Price} (h1 : a < b) (h2 : b < c) : a < c := by
  change Price.blt a b = true at h1
  change Price.blt b c = true at h2
  show Price.blt a c = true
  cases a <;> cases b <;> cases c <;> simp [Price.blt] at h1 h2 ⊢
  exact h1.trans h2

theorem Price.lt_asymm {a b : Price} (h : a < b) : ¬ b < a :=
  fun h1 => Price.lt_irrefl a (Price.lt_trans h h1)

theorem Price.ne_nan_of_lt {a b : Price} (h : a < b) : a ≠ .nan ∧ b ≠ .nan := by
  change Price.blt a b = true at h
  cases a <;> cases b <;> simp [Price.blt] at h ⊢

theorem Price.not_lt_nan (a : Price) : ¬ a < .nan := fun h => (Price.ne_nan_of_lt h).2 rfl

theorem Price.not_nan_lt (a : Price) : ¬ Price.nan < a := fun h => (Price.ne_nan_of_lt h).1 rfl

theorem Price.equiv_refl (a : Price) : a.equiv a := ⟨Price.lt_irrefl a, Price.lt_irrefl a⟩

theorem Price.equiv_symm {a b : Price} (h : a.equiv b) : b.equiv a := ⟨h.2, h.1⟩

theorem Price.equiv_nan (a : Price) : a.equiv .nan := ⟨Price.not_lt_nan a, Price.not_nan_lt a⟩

/-- Two prices that are not not-a-number and that the comparison does not tell apart are
equal. -/
theorem Price.eq_of_equiv {a b : Price} (ha : a ≠ .nan) (hb : b ≠ .nan) (h : a.equiv b) :
    a = b := by
  obtain ⟨h1, h2⟩ := h
  change ¬ Price.blt a b = true at h1
  change ¬ Price.blt b a = true at h2
  cases a <;> cases b <;> simp [Price.blt] at h1 h2 ha hb ⊢
  exact le_antisymm h2 h1

theorem Price.le_of_not_lt {a b : Price} (ha : a ≠ .nan) (hb : b ≠ .nan) (h : ¬ a < b) :
    b ≤ a := by
  change ¬ Price.blt a b = true at h
  show Price.ble b a = true
  cases a <;> cases b <;> simp [Price.blt, Price.ble] at h ha hb ⊢
  exact h

theorem Price.le_of_lt {a b : Price} (h : a < b) : a ≤ b := by
  change Price.blt a b = true at h
  show Price.ble a b = true
  cases a <;> cases b <;> simp [Price.blt, Price.ble] at h ⊢
  exact h.le

theorem Price.le_iff (a b : Price) : a ≤ b ↔ a < b ∨ (a = b ∧ a ≠ .nan) := by
  show Price.ble a b = true ↔ Price.blt a b = true ∨ (a = b ∧ a ≠ .nan)
  cases a <;> cases b <;> simp [Price.blt, Price.ble]
  exact le_iff_lt_or_eq

theorem Price.not_lt_of_le {a b : Price} (h : a ≤ b) : ¬ b < a := by
  rcases (Price.le_iff a b).1 h with h1 | ⟨rfl, _⟩
  · exact Price.lt_asymm h1
  · exact Price.lt_irrefl a

theorem Price.not_le_nan (a : Price) : ¬ a ≤ .nan := by
  show ¬ Price.ble a .nan = true
  cases a <;> simp [Price.ble]

theorem Price.not_nan_le (a : Price) : ¬ Price.nan ≤ a := by
  show ¬ Price.ble .nan a = true
  simp [Price.ble]

/-! ## Elementary facts about the index accessors -/

@[simp] theorem oppIndex_setOppIndex (side : Side) (b : OrderBook) (m : Index) :
    oppIndex side (setOppIndex side b m) = m := by
  cases side <;> rfl

@[simp] theorem ownIndex_setOppIndex (side : Side) (b : OrderBook) (m : Index) :
    ownIndex side (setOppIndex side b m) = ownIndex side b := by
  cases side <;> rfl

@[simp] theorem heap_setOppIndex (side : Side) (b : OrderBook) (m : Index) :
    (setOppIndex side b m).heap = b.heap := by
  cases side <;> rfl

@[simp] theorem trades_setOppIndex (side : Side) (b : OrderBook) (m : Index) :
    (setOppIndex side b m).trades = b.trades := by
  cases side <;> rfl

@[simp] theorem pool_setOppIndex (side : Side) (b : OrderBook) (m : Index) :
    (setOppIndex side b m).pool = b.pool := by
  cases side <;> rfl

@[simp] theorem orders_setOppIndex (side : Side) (b : OrderBook) (m : Index) :
    (setOppIndex side b m).orders = b.orders := by
  cases side <;> rfl

@[simp] theorem counter_setOppIndex (side : Side) (b : OrderBook) (m : Index) :
    (setOppIndex side b m).order_id_counter = b.order_id_counter := by
  cases side <;> rfl

@[simp] theorem ownIndex_evict (side : Side) (b : OrderBook) (p : Ptr) :
    ownIndex side (evict b p) = ownIndex side b := by
  cases side <;> rfl

@[simp] theorem oppIndex_evict (side : Side) (b : OrderBook) (p : Ptr) :
    oppIndex side (evict b p) = oppIndex side b := by
  cases side <;> rfl

@[simp] theorem heap_evict (b : OrderBook) (p : Ptr) : (evict b p).heap = b.heap := rfl

@[simp] theorem trades_evict (b : OrderBook) (p : Ptr) : (evict b p).trades = b.trades := rfl

@[simp] theorem counter_evict (b : OrderBook) (p : Ptr) :
    (evict b p).order_id_counter = b.order_id_counter := rfl

@[simp] theorem bids_evict (b : OrderBook) (p : Ptr) : (evict b p).bids = b.bids := rfl

@[simp] theorem asks_evict (b : OrderBook) (p : Ptr) : (evict b p).asks = b.asks := rfl

theorem pool_evict (b : OrderBook) (p : Ptr) :
    (evict b p).pool = b.pool.deallocate p := rfl

theorem orders_evict (b : OrderBook) (p : Ptr) :
    (evict b p).orders = eraseId b.orders (b.heap p).id := rfl

theorem get_front_eq_some {l : PriceLevel} {p : Ptr} (h : l.get_front = some p) :
    ∃ tl, l.orders = p :: tl := by
  unfold PriceLevel.get_front at h
  cases hl : l.orders with
  | nil => simp [hl] at h
  | cons a tl =>
    rw [hl] at h
    simp at h
    exact ⟨tl, by rw [h]⟩

theorem is_empty_eq_false {l : PriceLevel} : l.is_empty = false ↔ l.orders ≠ [] := by
  unfold PriceLevel.is_empty
  cases l.orders <;> simp

theorem is_empty_eq_true {l : PriceLevel} : l.is_empty = true ↔ l.orders = [] := by
  unfold PriceLevel.is_empty
  cases l.orders <;> simp

/-! ## Invariant rules for the two matching loops -/

/-- Invariant rule of the inner loop: a predicate kept by every loop body holds when the loop
exits, and on exit the level at `begin()` is empty or the incoming order is filled. -/
theorem matchLevel_rule (side : Side) (order : Ptr) (J : OrderBook → Prop)
    (hstep : ∀ b price level rest opp tl, J b →
      oppIndex side b = (price, level) :: rest → level.orders = opp :: tl →
      (b.heap order).filled_quantity < (b.heap order).quantity →
      J (matchStep side order price level rest opp b)) :
    ∀ fuel b b1, J b → matchLevel side order fuel b = some b1 →
      J b1 ∧ ∃ price level rest, oppIndex side b1 = (price, level) :: rest ∧
        (level.orders = [] ∨
          ¬ (b1.heap order).filled_quantity < (b1.heap order).quantity) := by
  intro fuel
  induction fuel with
  | zero => intro b b1 _ h; simp [matchLevel] at h
  | succ n ih =>
    intro b b1 hJ h
    unfold matchLevel at h
    cases hopp : oppIndex side b with
    | nil => simp [hopp] at h
    | cons e rest =>
      obtain ⟨price, level⟩ := e
      simp only [hopp] at h
      by_cases hc : level.is_empty = false ∧
          (b.heap order).filled_quantity < (b.heap order).quantity
      · rw [if_pos hc] at h
        cases hf : level.get_front with
        | none => simp [hf] at h
        | some opp =>
          simp only [hf] at h
          obtain ⟨tl, htl⟩ := get_front_eq_some hf
          exact ih _ _ (hstep b price level rest opp tl hJ hopp htl hc.2) h
      · rw [if_neg hc] at h
        cases h
        refine ⟨hJ, price, level, rest, hopp, ?_⟩
        by_cases he : level.orders = []
        · exact Or.inl he
        · exact Or.inr (fun hlt => hc ⟨is_empty_eq_false.2 he, hlt⟩)

/-- Invariant rule of the outer loop. `I` holds at the head of the outer loop, `J` at the head
of the inner loop. On exit the walked index is empty, or the incoming order is filled, or the
price test of a limit order stopped the walk. -/
theorem matchWalk_rule (side : Side) (type : OrderType) (order : Ptr) (inner : Nat)
    (I J : OrderBook → Prop)
    (henter : ∀ b price level rest, I b → oppIndex side b = (price, level) :: rest →
      (b.heap order).filled_quantity < (b.heap order).quantity →
      crossStop side type (b.heap order).price price = false → J b)
    (hstep : ∀ b price level rest opp tl, J b →
      oppIndex side b = (price, level) :: rest → level.orders = opp :: tl →
      (b.heap order).filled_quantity < (b.heap order).quantity →
      J (matchStep side order price level rest opp b))
    (hleave : ∀ b price level rest, J b → oppIndex side b = (price, level) :: rest →
      (level.orders = [] ∨ ¬ (b.heap order).filled_quantity < (b.heap order).quantity) →
      I (eraseEmptyFront side b)) :
    ∀ fuel b b1, I b → matchWalk side type order inner fuel b = some b1 →
      I b1 ∧ (oppIndex side b1 = [] ∨
        ¬ (b1.heap order).filled_quantity < (b1.heap order).quantity ∨
        ∃ price level rest, oppIndex side b1 = (price, level) :: rest ∧
          crossStop side type (b1.heap order).price price = true) := by
  intro fuel
  induction fuel with
  | zero => intro b b1 _ h; simp [matchWalk] at h
  | succ n ih =>
    intro b b1 hI h
    unfold matchWalk at h
    cases hopp : oppIndex side b with
    | nil =>
      simp only [hopp] at h
      cases h
      exact ⟨hI, Or.inl hopp⟩
    | cons e rest =>
      obtain ⟨price, level⟩ := e
      simp only [hopp] at h
      by_cases hc : (b.heap order).filled_quantity < (b.heap order).quantity
      · rw [if_pos hc] at h
        cases hx : crossStop side type (b.heap order).price price with
        | true =>
          simp only [hx, if_true] at h
          cases h
          exact ⟨hI, Or.inr (Or.inr ⟨price, level, rest, hopp, hx⟩)⟩
        | false =>
          simp only [hx] at h
          cases hm : matchLevel side order inner b with
          | none => simp [hm] at h
          | some b2 =>
            simp only [hm] at h
            have hJ := henter b price level rest hI hopp hc hx
            obtain ⟨hJ2, p2, l2, r2, ho2, hex⟩ :=
              matchLevel_rule side order J hstep inner b b2 hJ hm
            exact ih _ _ (hleave b2 p2 l2 r2 hJ2 ho2 hex) h
      · rw [if_neg hc] at h
        cases h
        exact ⟨hI, Or.inr (Or.inl hc)⟩

/-! ## The heap: constructor fields never change -/

theorem heapModify_static (heap : Ptr → Order) (p : Ptr) (f : Order → Order)
    (hf : ∀ o, (f o).static = o.static) (q : Ptr) :
    (heapModify heap p f q).static = (heap q).static := by
  unfold heapModify
  by_cases h : q = p
  · subst h
    rw [Function.update_same]
    exact hf _
  · rw [Function.update_noteq h]

theorem fillStatus_static (o : Order) : (fillStatus o).static = o.static := rfl

theorem execute_trade_static (b : OrderBook) (x y : Ptr) (price : Price) (q : Nat) (p : Ptr) :
    ((execute_trade b x y price q).heap p).static = (b.heap p).static := by
  simp only [execute_trade]
  have h1 : ∀ o : Order,
      ({ o with filled_quantity := add64 o.filled_quantity q } : Order).static = o.static :=
    fun _ => rfl
  rw [heapModify_static _ _ _ fillStatus_static, heapModify_static _ _ _ fillStatus_static,
    heapModify_static _ _ _ h1, heapModify_static _ _ _ h1]

theorem tradeBook_static (side : Side) (order : Ptr) (price : Price) (opp : Ptr)
    (b : OrderBook) (p : Ptr) :
    ((tradeBook side order price opp b).heap p).static = (b.heap p).static := by
  cases side <;> exact execute_trade_static _ _ _ _ _ _

theorem matchStep_heap (side : Side) (order : Ptr) (price : Price) (level : PriceLevel)
    (rest : Index) (opp : Ptr) (b : OrderBook) :
    (matchStep side order price level rest opp b).heap =
      (tradeBook side order price opp b).heap := by
  simp only [matchStep]
  split_ifs <;> simp

theorem matchStep_trades (side : Side) (order : Ptr) (price : Price) (level : PriceLevel)
    (rest : Index) (opp : Ptr) (b : OrderBook) :
    (matchStep side order price level rest opp b).trades =
      (tradeBook side order price opp b).trades := by
  simp only [matchStep]
  split_ifs <;> simp

@[simp] theorem tradeBook_ownIndex (side side1 : Side) (order : Ptr) (price : Price) (opp : Ptr)
    (b : OrderBook) :
    ownIndex side1 (tradeBook side order price opp b) = ownIndex side1 b := by
  cases side <;> cases side1 <;> rfl

theorem matchStep_ownIndex (side : Side) (order : Ptr) (price : Price) (level : PriceLevel)
    (rest : Index) (opp : Ptr) (b : OrderBook) :
    ownIndex side (matchStep side order price level rest opp b) = ownIndex side b := by
  simp only [matchStep]
  split_ifs
  · simp only [ownIndex_setOppIndex]
    cases side <;> rfl
  · simp [tradeBook_ownIndex]

@[simp] theorem update_volume_after_fill_orders (l : PriceLevel) (q : Nat) :
    (l.update_volume_after_fill q).orders = l.orders := by
  unfold PriceLevel.update_volume_after_fill
  split_ifs <;> rfl

@[simp] theorem update_volume_after_fill_price (l : PriceLevel) (q : Nat) :
    (l.update_volume_after_fill q).price = l.price := by
  unfold PriceLevel.update_volume_after_fill
  split_ifs <;> rfl

@[simp] theorem remove_front_orders (l : PriceLevel) :
    l.remove_front.orders = l.orders.tail := rfl

@[simp] theorem remove_front_price (l : PriceLevel) : l.remove_front.price = l.price := rfl

@[simp] theorem remove_front_total_volume (l : PriceLevel) :
    l.remove_front.total_volume = l.total_volume := rfl

/-- The walked index after one loop body: same key at `begin()`, same tail; the front level
keeps its orders or loses its front order. -/
theorem matchStep_oppIndex (side : Side) (order : Ptr) (price : Price) (level : PriceLevel)
    (rest : Index) (opp : Ptr) (b : OrderBook) :
    ∃ level1, oppIndex side (matchStep side order price level rest opp b) =
        (price, level1) :: rest ∧ level1.price = level.price ∧
      (level1.orders = level.orders ∨ level1.orders = level.orders.tail) := by
  simp only [matchStep]
  split_ifs
  · exact ⟨(level.update_volume_after_fill (tradeQty b order opp)).remove_front, by simp, by simp,
      Or.inr (by simp)⟩
  · exact ⟨level.update_volume_after_fill (tradeQty b order opp), by simp, by simp,
      Or.inl (by simp)⟩

theorem matchStep_static (side : Side) (order : Ptr) (price : Price) (level : PriceLevel)
    (rest : Index) (opp : Ptr) (b : OrderBook) (p : Ptr) :
    ((matchStep side order price level rest opp b).heap p).static = (b.heap p).static := by
  rw [matchStep_heap]
  exact tradeBook_static _ _ _ _ _ _

theorem eraseEmptyFront_heap (side : Side) (b : OrderBook) :
    (eraseEmptyFront side b).heap = b.heap := by
  unfold eraseEmptyFront
  split
  · rfl
  · split_ifs <;> simp

theorem eraseEmptyFront_trades (side : Side) (b : OrderBook) :
    (eraseEmptyFront side b).trades = b.trades := by
  unfold eraseEmptyFront
  split
  · rfl
  · split_ifs <;> simp

theorem eraseEmptyFront_ownIndex (side : Side) (b : OrderBook) :
    ownIndex side (eraseEmptyFront side b) = ownIndex side b := by
  unfold eraseEmptyFront
  split
  · rfl
  · split_ifs <;> simp

theorem eraseEmptyFront_oppIndex (side : Side) (b : OrderBook) (price : Price)
    (level : PriceLevel) (rest : Index) (h : oppIndex side b = (price, level) :: rest) :
    oppIndex side (eraseEmptyFront side b) =
      if level.orders = [] then rest else (price, level) :: rest := by
  unfold eraseEmptyFront
  rw [h]
  by_cases he : level.orders = []
  · simp [he, is_empty_eq_true.2 he]
  · have : level.is_empty = false := is_empty_eq_false.2 he
    simp [he, this, h]

/-! ## Shape of the indices -/

theorem better_trans (side : Side) {a b c : Price} (h1 : better side a b)
    (h2 : better side b c) : better side a c := by
  cases side
  · exact Price.lt_trans h1 h2
  · exact Price.lt_trans h2 h1

theorem ownBefore_iff (side : Side) (a b : Price) :
    ownBefore side a b = true ↔ better side b a := by
  cases side <;> simp [ownBefore, bidBefore, askBefore, better]

theorem crossStop_limit_iff (side : Side) (a b : Price) :
    crossStop side .LIMIT a b = true ↔ better side a b := by
  cases side <;> simp [crossStop, better]

theorem shapeFor_iff (side : Side) (b : OrderBook) : ShapeFor side b ↔ Shape b := by
  cases side
  · rfl
  · unfold Shape ShapeFor
    simp only [oppIndex, ownIndex, better]
    constructor
    · rintro ⟨h1, h2, h3⟩
      exact ⟨h2, h1, fun ko hko kp hkp => h3 kp hkp ko hko⟩
    · rintro ⟨h1, h2, h3⟩
      exact ⟨h2, h1, fun ko hko kp hkp => h3 kp hkp ko hko⟩

theorem keys_map_update (before : Price → Price → Bool) (m : Index) (p : Price)
    (f : PriceLevel → PriceLevel) : keys (map_update before m p f) = keys m := by
  induction m with
  | nil => rfl
  | cons e rest ih =>
    obtain ⟨k, v⟩ := e
    unfold map_update
    split_ifs
    · simp only [keys, List.map_cons] at ih ⊢
      rw [ih]
    · rfl
    · rfl

theorem mem_keys_map_assign (side : Side) (m : Index) (p : Price) (l : PriceLevel) (k : Price)
    (h : k ∈ keys (map_assign (ownBefore side) m p l)) : k = p ∨ k ∈ keys m := by
  induction m with
  | nil => simpa [map_assign, keys] using h
  | cons e rest ih =>
    obtain ⟨k1, v⟩ := e
    unfold map_assign at h
    split_ifs at h with h1 h2
    · simpa [keys] using h
    · simp only [keys, List.map_cons, List.mem_cons] at ih h ⊢
      rcases h with h | h
      · exact Or.inr (Or.inl h)
      · rcases ih h with h3 | h3
        · exact Or.inl h3
        · exact Or.inr (Or.inr h3)
    · exact Or.inr (by simpa [keys] using h)

theorem sorted_map_assign (side : Side) (m : Index) (p : Price) (l : PriceLevel)
    (hs : (keys m).Pairwise (fun x y => better side y x)) :
    (keys (map_assign (ownBefore side) m p l)).Pairwise (fun x y => better side y x) := by
  induction m with
  | nil => simp [map_assign, keys]
  | cons e rest ih =>
    obtain ⟨k1, v⟩ := e
    have hs1 : (∀ x ∈ keys rest, better side x k1) ∧
        (keys rest).Pairwise (fun x y => better side y x) := by
      simpa [keys] using hs
    unfold map_assign
    split_ifs with h1 h2
    · have hp : better side k1 p := (ownBefore_iff side p k1).1 h1
      have : keys ((p, l) :: (k1, v) :: rest) = p :: keys ((k1, v) :: rest) := rfl
      rw [this, List.pairwise_cons]
      refine ⟨?_, hs⟩
      intro x hx
      have hx1 : x = k1 ∨ x ∈ keys rest := by simpa [keys] using hx
      rcases hx1 with rfl | hx1
      · exact hp
      · exact better_trans side (hs1.1 x hx1) hp
    · have hp : better side p k1 := (ownBefore_iff side k1 p).1 h2
      have : keys ((k1, v) :: map_assign (ownBefore side) rest p l) =
          k1 :: keys (map_assign (ownBefore side) rest p l) := rfl
      rw [this, List.pairwise_cons]
      refine ⟨?_, ih hs1.2⟩
      intro x hx
      rcases mem_keys_map_assign side rest p l x hx with rfl | hx1
      · exact hp
      · exact hs1.1 x hx1
    · exact hs

theorem walkFrame_step (side : Side) (order : Ptr) (b x : OrderBook) (price : Price)
    (level : PriceLevel) (rest : Index) (opp : Ptr) (h : WalkFrame side b x)
    (ho : oppIndex side x = (price, level) :: rest) :
    WalkFrame side b (matchStep side order price level rest opp x) := by
  obtain ⟨h1, h2, h3⟩ := h
  obtain ⟨l1, e1, _, _⟩ := matchStep_oppIndex side order price level rest opp x
  refine ⟨by rw [matchStep_ownIndex, h1], ?_, fun p => by rw [matchStep_static, h3]⟩
  rw [e1]
  rw [ho] at h2
  exact h2

theorem walkFrame_erase (side : Side) (b x : OrderBook) (price : Price)
    (level : PriceLevel) (rest : Index) (h : WalkFrame side b x)
    (ho : oppIndex side x = (price, level) :: rest) :
    WalkFrame side b (eraseEmptyFront side x) := by
  obtain ⟨h1, h2, h3⟩ := h
  refine ⟨by rw [eraseEmptyFront_ownIndex, h1], ?_, fun p => by rw [eraseEmptyFront_heap, h3]⟩
  rw [eraseEmptyFront_oppIndex side x price level rest ho]
  rw [ho] at h2
  split_ifs
  · exact (List.suffix_cons price (keys rest)).trans h2
  · exact h2

/-- Result of a walk: the frame, and the reason the walk stopped. -/
theorem matchWalk_frame (side : Side) (type : OrderType) (order : Ptr) (inner fuel : Nat)
    (b b1 : OrderBook) (h : matchWalk side type order inner fuel b = some b1) :
    WalkFrame side b b1 ∧ (oppIndex side b1 = [] ∨
      ¬ (b1.heap order).filled_quantity < (b1.heap order).quantity ∨
      ∃ price level rest, oppIndex side b1 = (price, level) :: rest ∧
        crossStop side type (b1.heap order).price price = true) := by
  refine matchWalk_rule side type order inner (WalkFrame side b) (WalkFrame side b)
    (fun _ _ _ _ hI _ _ _ => hI) ?_ ?_ fuel b b1 ⟨rfl, List.suffix_refl _, fun _ => rfl⟩ h
  · intro x price level rest opp tl hJ ho _ _
    exact walkFrame_step side order b x price level rest opp hJ ho
  · intro x price level rest hJ ho _
    exact walkFrame_erase side b x price level rest hJ ho

theorem shapeFor_of_frame (side : Side) (b b1 : OrderBook) (hs : ShapeFor side b)
    (hf : WalkFrame side b b1) : ShapeFor side b1 := by
  obtain ⟨s1, s2, s3⟩ := hs
  obtain ⟨f1, f2, _⟩ := hf
  refine ⟨s1.sublist f2.sublist, by rw [f1]; exact s2, ?_⟩
  intro ko hko kp hkp
  rw [f1] at hko
  exact s3 ko hko kp (f2.subset hkp)

theorem restOrder_oppIndex (b : OrderBook) (order : Ptr) (side : Side)
    (hs : (b.heap order).side = side) :
    oppIndex side (restOrder b order) = oppIndex side b := by
  unfold restOrder
  cases side <;> simp only [hs] <;> rfl

theorem restOrder_ownIndex (b : OrderBook) (order : Ptr) (side : Side)
    (hs : (b.heap order).side = side) :
    ownIndex side (restOrder b order) =
      map_update (ownBefore side)
        (if (map_find (ownBefore side) (ownIndex side b) (b.heap order).price).isNone then
          map_assign (ownBefore side) (ownIndex side b) (b.heap order).price
            (PriceLevel.new (b.heap order).price)
        else ownIndex side b)
        (b.heap order).price (fun l => l.add_order b.heap order) := by
  unfold restOrder
  cases side <;> simp only [hs] <;> rfl

@[simp] theorem restOrder_heap (b : OrderBook) (order : Ptr) :
    (restOrder b order).heap = b.heap := by
  unfold restOrder
  cases (b.heap order).side <;> rfl

@[simp] theorem restOrder_trades (b : OrderBook) (order : Ptr) :
    (restOrder b order).trades = b.trades := by
  unfold restOrder
  cases (b.heap order).side <;> rfl

theorem mem_keys_restOrder (b : OrderBook) (order : Ptr) (side : Side)
    (hs : (b.heap order).side = side) (k : Price)
    (hk : k ∈ keys (ownIndex side (restOrder b order))) :
    k = (b.heap order).price ∨ k ∈ keys (ownIndex side b) := by
  rw [restOrder_ownIndex b order side hs, keys_map_update] at hk
  split_ifs at hk
  · exact mem_keys_map_assign side _ _ _ k hk
  · exact Or.inr hk

/-- Resting keeps the shape when the walk ended on an empty index or on the price test. -/
theorem shapeFor_restOrder (b : OrderBook) (order : Ptr) (side : Side)
    (hs : (b.heap order).side = side) (hsh : ShapeFor side b)
    (hstop : oppIndex side b = [] ∨ ∃ price level rest,
      oppIndex side b = (price, level) :: rest ∧
        crossStop side .LIMIT (b.heap order).price price = true) :
    ShapeFor side (restOrder b order) := by
  obtain ⟨s1, s2, s3⟩ := hsh
  refine ⟨by rw [restOrder_oppIndex b order side hs]; exact s1, ?_, ?_⟩
  · rw [restOrder_ownIndex b order side hs, keys_map_update]
    split_ifs
    · exact sorted_map_assign side _ _ _ s2
    · exact s2
  · intro ko hko kp hkp
    rw [restOrder_oppIndex b order side hs] at hkp
    rcases mem_keys_restOrder b order side hs ko hko with rfl | hko1
    · rcases hstop with he | ⟨price, level, rest, he, hx⟩
      · simp [he, keys] at hkp
      · have hb : better side (b.heap order).price price := (crossStop_limit_iff side _ _).1 hx
        rw [he] at hkp s1
        have hk : kp = price ∨ kp ∈ keys rest := by simpa [keys] using hkp
        rcases hk with rfl | hk
        · exact hb
        · have : ∀ x ∈ keys rest, better side price x := by
            have := s1
            simp only [keys, List.map_cons, List.pairwise_cons] at this
            exact this.1
          exact better_trans side hb (this kp hk)
    · exact s3 ko hko1 kp hkp

/-! ## Decomposition of `add_order` -/

theorem register_order_heap_order (b : OrderBook) (side : Side) (type : OrderType)
    (price : Price) (quantity : Nat) :
    (register_order b side type price quantity).heap b.pool.allocate.1 =
      Order.new b.order_id_counter side type price quantity := by
  simp [register_order]

/-- `add_order` is: register the order, walk the opposite index, finalize, count. -/
theorem add_order_eq (fuel : Nat) (b : OrderBook) (side : Side) (type : OrderType)
    (price : Price) (quantity : Nat) (r : Nat × OrderBook)
    (h : add_order fuel b side type price quantity = some r) :
    ∃ b1, matchWalk side type b.pool.allocate.1 fuel fuel
        (register_order b side type price quantity) = some b1 ∧
      r = (b.order_id_counter, countOrder (finalize type b1 b.pool.allocate.1)) := by
  unfold add_order at h
  have hh := register_order_heap_order b side type price quantity
  cases hm : match_order fuel (register_order b side type price quantity) b.pool.allocate.1 with
  | none => simp [hm] at h
  | some b2 =>
    simp only [hm] at h
    cases h
    unfold match_order at hm
    rw [hh] at hm
    cases type with
    | MARKET =>
      simp only [Order.new] at hm
      unfold match_market_order at hm
      rw [hh] at hm
      simp only [Order.new] at hm
      cases hw : matchWalk side .MARKET b.pool.allocate.1 fuel fuel
          (register_order b side .MARKET price quantity) with
      | none => simp [hw] at hm
      | some b1 =>
        simp only [hw] at hm
        refine ⟨b1, rfl, ?_⟩
        simp only [finalize, countOrder]
        split_ifs at hm ⊢ <;> cases hm <;> rfl
    | LIMIT =>
      simp only [Order.new] at hm
      unfold match_limit_order at hm
      rw [hh] at hm
      simp only [Order.new] at hm
      cases hw : matchWalk side .LIMIT b.pool.allocate.1 fuel fuel
          (register_order b side .LIMIT price quantity) with
      | none => simp [hw] at hm
      | some b1 =>
        simp only [hw] at hm
        refine ⟨b1, rfl, ?_⟩
        simp only [finalize, countOrder]
        split_ifs at hm ⊢ <;> cases hm <;> rfl

/-- Conversely, a walk that returns makes `add_order` return. -/
theorem add_order_of_walk (fuel : Nat) (b : OrderBook) (side : Side) (type : OrderType)
    (price : Price) (quantity : Nat) (b1 : OrderBook)
    (h : matchWalk side type b.pool.allocate.1 fuel fuel
        (register_order b side type price quantity) = some b1) :
    add_order fuel b side type price quantity =
      some (b.order_id_counter, countOrder (finalize type b1 b.pool.allocate.1)) := by
  have hh := register_order_heap_order b side type price quantity
  unfold add_order match_order
  rw [hh]
  cases type with
  | MARKET =>
    simp only [Order.new]
    unfold match_market_order
    rw [hh]
    simp only [Order.new, h, finalize, countOrder]
    split_ifs <;> rfl
  | LIMIT =>
    simp only [Order.new]
    unfold match_limit_order
    rw [hh]
    simp only [Order.new, h, finalize, countOrder]
    split_ifs <;> rfl

theorem shapeFor_congr (side : Side) (b x : OrderBook) (hb : x.bids = b.bids)
    (ha : x.asks = b.asks) (h : ShapeFor side b) : ShapeFor side x := by
  cases side <;> simpa [ShapeFor, oppIndex, ownIndex, hb, ha] using h

theorem markPartialFill_bids (b : OrderBook) (order : Ptr) :
    (markPartialFill b order).bids = b.bids := by
  unfold markPartialFill
  split_ifs <;> rfl

theorem markPartialFill_asks (b : OrderBook) (order : Ptr) :
    (markPartialFill b order).asks = b.asks := by
  unfold markPartialFill
  split_ifs <;> rfl

/-- The reason a walk stopped, when the incoming limit order still has a remainder. -/
theorem limit_stop (side : Side) (order : Ptr) (b1 : OrderBook)
    (hex : oppIndex side b1 = [] ∨
      ¬ (b1.heap order).filled_quantity < (b1.heap order).quantity ∨
      ∃ price level rest, oppIndex side b1 = (price, level) :: rest ∧
        crossStop side .LIMIT (b1.heap order).price price = true)
    (hlt : (b1.heap order).filled_quantity < (b1.heap order).quantity) :
    oppIndex side b1 = [] ∨ ∃ price level rest,
      oppIndex side b1 = (price, level) :: rest ∧
        crossStop side .LIMIT (b1.heap order).price price = true := by
  rcases hex with h | h | h
  · exact Or.inl h
  · exact absurd hlt h
  · exact Or.inr h

theorem walk_side (side : Side) (type : OrderType) (price : Price) (quantity : Nat)
    (b b1 : OrderBook)
    (hf : WalkFrame side (register_order b side type price quantity) b1) :
    (b1.heap b.pool.allocate.1).side = side := by
  have h := hf.2.2 b.pool.allocate.1
  rw [register_order_heap_order] at h
  simp only [Order.static, Order.new, Prod.mk.injEq] at h
  exact h.2.1

theorem shape_add_order (fuel : Nat) (b : OrderBook) (side : Side) (type : OrderType)
    (price : Price) (quantity : Nat) (r : Nat × OrderBook) (hs : Shape b)
    (h : add_order fuel b side type price quantity = some r) : Shape r.2 := by
  obtain ⟨b1, hw, rfl⟩ := add_order_eq fuel b side type price quantity r h
  obtain ⟨hf, hex⟩ := matchWalk_frame side type _ fuel fuel _ b1 hw
  have h0 : ShapeFor side (register_order b side type price quantity) :=
    shapeFor_congr side b _ rfl rfl ((shapeFor_iff side b).2 hs)
  have h1 : ShapeFor side b1 := shapeFor_of_frame side _ b1 h0 hf
  have hside := walk_side side type price quantity b b1 hf
  rw [← shapeFor_iff side]
  refine shapeFor_congr side (finalize type b1 b.pool.allocate.1) _ rfl rfl ?_
  cases type with
  | MARKET =>
    simp only [finalize]
    split_ifs
    · exact shapeFor_congr side b1 _ rfl rfl h1
    · exact shapeFor_congr side b1 _ (markPartialFill_bids _ _) (markPartialFill_asks _ _) h1
  | LIMIT =>
    simp only [finalize]
    split_ifs with hlt
    · exact shapeFor_congr side _ _ (markPartialFill_bids _ _) (markPartialFill_asks _ _)
        (shapeFor_restOrder b1 _ side hside h1 (limit_stop side _ b1 hex hlt))
    · exact shapeFor_congr side b1 _ rfl rfl h1

theorem cancel_order_bids (b : OrderBook) (order_id : Nat) :
    (cancel_order b order_id).2.bids = b.bids := by
  unfold cancel_order
  split
  · rfl
  · split_ifs <;> rfl

theorem cancel_order_asks (b : OrderBook) (order_id : Nat) :
    (cancel_order b order_id).2.asks = b.asks := by
  unfold cancel_order
  split
  · rfl
  · split_ifs <;> rfl

theorem shape_new : Shape OrderBook.new := by
  simp [Shape, ShapeFor, OrderBook.new, oppIndex, ownIndex, keys]

theorem history_shape {qs : List Nat} {b : OrderBook} (h : History qs b) : Shape b := by
  induction h with
  | init => exact shape_new
  | add fuel side type price quantity _ _ hadd ih =>
    exact shape_add_order fuel _ side type price quantity _ ih hadd
  | cancel order_id _ ih =>
    exact shapeFor_congr .BUY _ _ (cancel_order_bids _ _) (cancel_order_asks _ _) ih

theorem history_bookA : History [100] bookA :=
  History.add 4 .BUY .LIMIT 150 100 History.init (by decide)
    (r := (1, bookA)) (by rfl)

theorem history_bookB : History [100, 150] bookB :=
  History.add 4 .SELL .LIMIT 151 150 history_bookA (by decide)
    (r := (2, bookB)) (by rfl)

/-- C1. No crossed book at rest: in every book reachable from the empty book by `add_order`
and `cancel_order` calls, if both the bid index and the ask index are non-empty then
`get_best_bid() < get_best_ask()`. -/
theorem no_crossed_book_at_rest (b : OrderBook) (hr : Reachable b) (hb : b.bids ≠ [])
    (ha : b.asks ≠ []) : get_best_bid b < get_best_ask b := by
  obtain ⟨qs, hh⟩ := hr
  obtain ⟨_, _, h3⟩ := history_shape hh
  unfold get_best_bid get_best_ask
  cases hbb : b.bids with
  | nil => exact absurd hbb hb
  | cons eb rb =>
    cases haa : b.asks with
    | nil => exact absurd haa ha
    | cons ea ra =>
      simp only [ownIndex, oppIndex, hbb, haa, better] at h3
      exact h3 eb.1 (by simp [keys]) ea.1 (by simp [keys])

theorem no_crossed_book_at_rest_witness :
    Reachable bookB ∧ bookB.bids ≠ [] ∧ bookB.asks ≠ [] ∧
      get_best_bid bookB = 150 ∧ get_best_ask bookB = 151 ∧
      get_best_bid bookB < get_best_ask bookB :=
  ⟨⟨_, history_bookB⟩, by decide, by decide, by decide, by decide,
    no_crossed_book_at_rest bookB ⟨_, history_bookB⟩ (by decide) (by decide)⟩

/-! ## One trade: the heap -/

theorem sub64_eq {a b : Nat} (h1 : b ≤ a) (h2 : a < U64) : sub64 a b = a - b := by
  unfold sub64
  have h3 : a + U64 - b = (a - b) + U64 := by omega
  rw [h3, Nat.add_mod_right, Nat.mod_eq_of_lt (by omega)]

theorem add64_eq {a b : Nat} (h : a + b < U64) : add64 a b = a + b := by
  unfold add64
  exact Nat.mod_eq_of_lt h

theorem tradeBook_heap_order (side : Side) (order : Ptr) (price : Price) (opp : Ptr)
    (b : OrderBook) (hne : order ≠ opp) :
    (tradeBook side order price opp b).heap order =
      fillStatus { b.heap order with
        filled_quantity := add64 (b.heap order).filled_quantity (tradeQty b order opp) } := by
  cases side <;>
    simp [tradeBook, execute_trade, heapModify, Function.update_apply, hne, Ne.symm hne]

theorem tradeBook_heap_opp (side : Side) (order : Ptr) (price : Price) (opp : Ptr)
    (b : OrderBook) (hne : order ≠ opp) :
    (tradeBook side order price opp b).heap opp =
      fillStatus { b.heap opp with
        filled_quantity := add64 (b.heap opp).filled_quantity (tradeQty b order opp) } := by
  cases side <;>
    simp [tradeBook, execute_trade, heapModify, Function.update_apply, hne, Ne.symm hne]

theorem tradeBook_heap_other (side : Side) (order : Ptr) (price : Price) (opp : Ptr)
    (b : OrderBook) (p : Ptr) (h1 : p ≠ order) (h2 : p ≠ opp) :
    (tradeBook side order price opp b).heap p = b.heap p := by
  cases side <;>
    simp [tradeBook, execute_trade, heapModify, Function.update_apply, h1, h2]

@[simp] theorem tradeBook_pool (side : Side) (order : Ptr) (price : Price) (opp : Ptr)
    (b : OrderBook) : (tradeBook side order price opp b).pool = b.pool := by
  cases side <;> rfl

@[simp] theorem tradeBook_orders (side : Side) (order : Ptr) (price : Price) (opp : Ptr)
    (b : OrderBook) : (tradeBook side order price opp b).orders = b.orders := by
  cases side <;> rfl

@[simp] theorem tradeBook_counter (side : Side) (order : Ptr) (price : Price) (opp : Ptr)
    (b : OrderBook) :
    (tradeBook side order price opp b).order_id_counter = b.order_id_counter := by
  cases side <;> rfl

theorem static_eq_iff (o1 o2 : Order) :
    o1.static = o2.static ↔ o1.id = o2.id ∧ o1.side = o2.side ∧ o1.type = o2.type ∧
      o1.price = o2.price ∧ o1.quantity = o2.quantity := by
  simp [Order.static]

/-- The arithmetic of one trade between an incoming order that still has a remainder and a
resting order with a remainder: no wrap-around, nobody is overfilled, the trade quantity is
positive, and one of the two is exactly exhausted. -/
theorem trade_arith (side : Side) (order : Ptr) (price : Price) (opp : Ptr) (b : OrderBook)
    (hne : order ≠ opp)
    (ho1 : (b.heap order).filled_quantity < (b.heap order).quantity)
    (ho2 : (b.heap order).quantity < U64)
    (hp1 : (b.heap opp).filled_quantity < (b.heap opp).quantity)
    (hp2 : (b.heap opp).quantity < U64) :
    tradeQty b order opp = min (b.heap order).remaining (b.heap opp).remaining ∧
    0 < tradeQty b order opp ∧
    ((tradeBook side order price opp b).heap order).filled_quantity =
      (b.heap order).filled_quantity + tradeQty b order opp ∧
    ((tradeBook side order price opp b).heap opp).filled_quantity =
      (b.heap opp).filled_quantity + tradeQty b order opp ∧
    ((tradeBook side order price opp b).heap order).filled_quantity ≤ (b.heap order).quantity ∧
    ((tradeBook side order price opp b).heap opp).filled_quantity ≤ (b.heap opp).quantity ∧
    (((tradeBook side order price opp b).heap opp).filled_quantity = (b.heap opp).quantity ∨
      ((tradeBook side order price opp b).heap order).filled_quantity =
        (b.heap order).quantity) := by
  have hq : tradeQty b order opp = min (b.heap order).remaining (b.heap opp).remaining := by
    unfold tradeQty Order.remaining
    rw [sub64_eq (le_of_lt ho1) ho2, sub64_eq (le_of_lt hp1) hp2]
  have h1 : ((tradeBook side order price opp b).heap order).filled_quantity =
      add64 (b.heap order).filled_quantity (tradeQty b order opp) := by
    rw [tradeBook_heap_order side order price opp b hne]; rfl
  have h2 : ((tradeBook side order price opp b).heap opp).filled_quantity =
      add64 (b.heap opp).filled_quantity (tradeQty b order opp) := by
    rw [tradeBook_heap_opp side order price opp b hne]; rfl
  unfold Order.remaining at hq
  have hle1 : tradeQty b order opp ≤ (b.heap order).quantity - (b.heap order).filled_quantity := by
    rw [hq]; exact min_le_left _ _
  have hle2 : tradeQty b order opp ≤ (b.heap opp).quantity - (b.heap opp).filled_quantity := by
    rw [hq]; exact min_le_right _ _
  have hpos : 0 < tradeQty b order opp := by
    rw [hq]; exact lt_min (by omega) (by omega)
  rw [add64_eq (by omega)] at h1 h2
  refine ⟨by rw [hq]; rfl, hpos, h1, h2, by omega, by omega, ?_⟩
  rw [h1, h2]
  rcases min_choice ((b.heap order).quantity - (b.heap order).filled_quantity)
    ((b.heap opp).quantity - (b.heap opp).filled_quantity) with h | h
  · right; rw [hq, h]; omega
  · left; rw [hq, h]; omega

/-! ## Well-formedness is kept by the matching loops -/

theorem levelPtrs_cons (e : Price × PriceLevel) (m : Index) :
    levelPtrs (e :: m) = e.2.orders ++ levelPtrs m := by
  simp [levelPtrs]

theorem mem_levelPtrs {m : Index} {p : Ptr} :
    p ∈ levelPtrs m ↔ ∃ e ∈ m, p ∈ e.2.orders := by
  simp [levelPtrs]

theorem restingOK_of_static {side : Side} {key : Price} {o o1 : Order}
    (hs : o1.static = o.static) (h : RestingOK side key o)
    (hf : o1.filled_quantity < o1.quantity) : RestingOK side key o1 := by
  rw [static_eq_iff] at hs
  obtain ⟨_, h2, h3, h4, h5⟩ := hs
  obtain ⟨r1, r2, r3, _, r5⟩ := h
  exact ⟨h2.trans r1, h3.trans r2, by rw [h4]; exact r3, hf, by rw [h5]; exact r5⟩

/-- One loop body keeps the book well formed and the incoming order live. -/
theorem wf_matchStep (side : Side) (order : Ptr) (b : OrderBook) (price : Price)
    (level : PriceLevel) (rest : Index) (opp : Ptr) (tl : List Ptr)
    (hW : WfFor side b) (hL : Live side order b)
    (ho : oppIndex side b = (price, level) :: rest) (hl : level.orders = opp :: tl)
    (hc : (b.heap order).filled_quantity < (b.heap order).quantity) :
    WfFor side (matchStep side order price level rest opp b) ∧
      Live side order (matchStep side order price level rest opp b) := by
  have hptrs : levelPtrs (oppIndex side b) = opp :: (tl ++ levelPtrs rest) := by
    rw [ho, levelPtrs_cons]; simp [hl]
  have hopp_mem : opp ∈ levelPtrs (oppIndex side b) := by rw [hptrs]; simp
  have hne : order ≠ opp := fun h => hL.not_opp (h ▸ hopp_mem)
  have hlev : LevelOK b.heap side.flip (price, level) :=
    hW.opp_ok _ (by rw [ho]; exact List.mem_cons_self _ _)
  have hR : RestingOK side.flip price (b.heap opp) := hlev.2 opp (by rw [hl]; simp)
  obtain ⟨_, _, hfo, hfp, hleo, hlep, hex⟩ :=
    trade_arith side order price opp b hne hc hL.quantity_lt hR.2.2.2.1 hR.2.2.2.2
  have hstat : ∀ p, ((tradeBook side order price opp b).heap p).static = (b.heap p).static :=
    tradeBook_static side order price opp b
  have hoth : ∀ p, p ≠ order → p ≠ opp → (tradeBook side order price opp b).heap p = b.heap p :=
    tradeBook_heap_other side order price opp b
  have hqo : ((tradeBook side order price opp b).heap order).quantity = (b.heap order).quantity :=
    ((static_eq_iff _ _).1 (hstat order)).2.2.2.2
  have hqp : ((tradeBook side order price opp b).heap opp).quantity = (b.heap opp).quantity :=
    ((static_eq_iff _ _).1 (hstat opp)).2.2.2.2
  have hnd := hW.nodup
  rw [hptrs, List.nodup_middle, List.nodup_cons] at hnd
  obtain ⟨hopp_notin, hnd1⟩ := hnd
  have hopp_own : opp ∉ levelPtrs (ownIndex side b) := fun h =>
    hopp_notin (List.mem_append_left _ h)
  have hopp_tl : opp ∉ tl ++ levelPtrs rest := fun h =>
    hopp_notin (List.mem_append_right _ h)
  have hsub : ∀ p, p ∈ tl ++ levelPtrs rest → p ∈ levelPtrs (oppIndex side b) := by
    intro p hp; rw [hptrs]; exact List.mem_cons_of_mem _ hp
  -- orders that are neither the incoming nor the front order keep their record
  have hown_ok : ∀ e ∈ ownIndex side b,
      LevelOK (tradeBook side order price opp b).heap side e := by
    intro e he
    refine ⟨(hW.own_ok e he).1, fun p hp => ?_⟩
    have hpm : p ∈ levelPtrs (ownIndex side b) := mem_levelPtrs.2 ⟨e, he, hp⟩
    rw [hoth p (fun h => hL.not_own (h ▸ hpm)) (fun h => hopp_own (h ▸ hpm))]
    exact (hW.own_ok e he).2 p hp
  have hrest_ok : ∀ e ∈ rest, LevelOK (tradeBook side order price opp b).heap side.flip e := by
    intro e he
    have he1 : e ∈ oppIndex side b := by rw [ho]; exact List.mem_cons_of_mem _ he
    refine ⟨(hW.opp_ok e he1).1, fun p hp => ?_⟩
    have hpm : p ∈ tl ++ levelPtrs rest :=
      List.mem_append_right _ (mem_levelPtrs.2 ⟨e, he, hp⟩)
    rw [hoth p (fun h => hL.not_opp (h ▸ hsub p hpm)) (fun h => hopp_tl (h ▸ hpm))]
    exact (hW.opp_ok e he1).2 p hp
  have htl_ok : ∀ p ∈ tl, RestingOK side.flip price ((tradeBook side order price opp b).heap p) := by
    intro p hp
    have hpm : p ∈ tl ++ levelPtrs rest := List.mem_append_left _ hp
    rw [hoth p (fun h => hL.not_opp (h ▸ hsub p hpm)) (fun h => hopp_tl (h ▸ hpm))]
    exact hlev.2 p (by rw [hl]; exact List.mem_cons_of_mem _ hp)
  have hidx : ∀ k x, b.orders k = some x →
      ((tradeBook side order price opp b).heap x).id = k ∧ issued b.pool x ∧
        x ∉ b.pool.free_list ∧
        ((tradeBook side order price opp b).heap x).filled_quantity ≤
          ((tradeBook side order price opp b).heap x).quantity ∧
        ((tradeBook side order price opp b).heap x).quantity < U64 := by
    intro k x hx
    obtain ⟨i1, i2, i3, i4, i5⟩ := hW.index_ok k x hx
    have hs := (static_eq_iff _ _).1 (hstat x)
    refine ⟨hs.1.trans i1, i2, i3, ?_, by rw [hs.2.2.2.2]; exact i5⟩
    by_cases hxo : x = order
    · subst hxo; rw [hqo]; exact hleo
    · by_cases hxp : x = opp
      · subst hxp; rw [hqp]; exact hlep
      · rw [hoth x hxo hxp]; exact i4
  have hside : ((tradeBook side order price opp b).heap order).side = side :=
    ((static_eq_iff _ _).1 (hstat order)).2.1.trans hL.side_eq
  simp only [matchStep]
  split_ifs with hfill
  · -- the front order is filled: it leaves the level, the id index and goes to the free list
    constructor
    · refine ⟨?_, ?_, ?_, ?_, ?_, ?_, ?_, ?_, ?_⟩
      · simpa [pool_evict, OrderPool.deallocate] using hW.pool_le
      · simp only [pool_setOppIndex, pool_evict, OrderPool.deallocate, tradeBook_pool, List.nodup_cons]
        exact ⟨(hW.opp_live opp hopp_mem).2, hW.free_nodup⟩
      · intro p hp
        simp only [pool_setOppIndex, pool_evict, OrderPool.deallocate, tradeBook_pool,
          List.mem_cons] at hp
        have : issued b.pool p := by
          rcases hp with rfl | hp
          · exact (hW.opp_live _ hopp_mem).1
          · exact hW.free_issued p hp
        simpa [issued, pool_evict, OrderPool.deallocate] using this
      · simp only [ownIndex_setOppIndex, oppIndex_setOppIndex, levelPtrs_cons,
          remove_front_orders, update_volume_after_fill_orders, hl, List.tail_cons]
        simp only [ownIndex_evict, tradeBook_ownIndex]
        exact hnd1
      · intro p hp
        have hp1 : p ∈ levelPtrs (ownIndex side b) := by
          simpa [tradeBook_ownIndex] using hp
        obtain ⟨q1, q2⟩ := hW.own_live p hp1
        refine ⟨by simpa [issued, pool_evict, OrderPool.deallocate] using q1, ?_⟩
        simp only [pool_setOppIndex, pool_evict, OrderPool.deallocate, tradeBook_pool, List.mem_cons,
          not_or]
        exact ⟨fun h => hopp_own (h ▸ hp1), q2⟩
      · intro p hp
        have hp1 : p ∈ tl ++ levelPtrs rest := by
          simpa [levelPtrs_cons, hl] using hp
        obtain ⟨q1, q2⟩ := hW.opp_live p (hsub p hp1)
        refine ⟨by simpa [issued, pool_evict, OrderPool.deallocate] using q1, ?_⟩
        simp only [pool_setOppIndex, pool_evict, OrderPool.deallocate, tradeBook_pool, List.mem_cons,
          not_or]
        exact ⟨fun h => hopp_tl (h ▸ hp1), q2⟩
      · intro e he
        simp only [ownIndex_setOppIndex, ownIndex_evict, tradeBook_ownIndex] at he
        simpa using hown_ok e he
      · intro e he
        simp only [oppIndex_setOppIndex, List.mem_cons] at he
        simp only [heap_setOppIndex]
        rcases he with rfl | he
        · refine ⟨by simpa using hlev.1, fun p hp => ?_⟩
          have hp1 : p ∈ tl := by simpa [hl] using hp
          exact htl_ok p hp1
        · exact hrest_ok e he
      · intro k x hx
        simp only [orders_setOppIndex, orders_evict, eraseId, tradeBook_orders,
          Function.update_apply] at hx
        split_ifs at hx with hk
        obtain ⟨i1, i2, i3, i4, i5⟩ := hidx k x hx
        have hxp : x ≠ opp := by
          intro h
          subst h
          exact hk i1.symm
        simp only [heap_setOppIndex, pool_setOppIndex, pool_evict, OrderPool.deallocate, tradeBook_pool,
          List.mem_cons, not_or]
        exact ⟨i1, by simpa [issued] using i2, ⟨hxp, i3⟩, by simpa using i4, by simpa using i5⟩
    · refine ⟨?_, ?_, ?_, ?_, ?_, ?_, ?_⟩
      · simpa [issued, pool_evict, OrderPool.deallocate] using hL.is_issued
      · simp only [pool_setOppIndex, pool_evict, OrderPool.deallocate, tradeBook_pool, List.mem_cons,
          not_or]
        exact ⟨hne, hL.not_free⟩
      · have : ownIndex side
            { tradeBook side order price opp b with
              orders := eraseId (tradeBook side order price opp b).orders
                ((tradeBook side order price opp b).heap opp).id
              pool := (tradeBook side order price opp b).pool.deallocate opp } =
            ownIndex side b := by
          cases side <;> rfl
        simpa [tradeBook_ownIndex] using hL.not_own
      · intro hp
        have hp1 : order ∈ tl ++ levelPtrs rest := by
          simpa [levelPtrs_cons, hl] using hp
        exact hL.not_opp (hsub order hp1)
      · simpa using hside
      · simp only [heap_setOppIndex, heap_evict]; rw [hqo]; exact hleo
      · simp only [heap_setOppIndex, heap_evict]; rw [hqo]; exact hL.quantity_lt
  · -- the front order keeps a remainder and stays at the front
    constructor
    · refine ⟨?_, ?_, ?_, ?_, ?_, ?_, ?_, ?_, ?_⟩
      · simpa using hW.pool_le
      · simpa using hW.free_nodup
      · intro p hp
        simp only [pool_setOppIndex, tradeBook_pool] at hp ⊢
        exact hW.free_issued p hp
      · simp only [ownIndex_setOppIndex, oppIndex_setOppIndex, levelPtrs_cons,
          update_volume_after_fill_orders, tradeBook_ownIndex]
        have := hW.nodup
        rw [ho, levelPtrs_cons] at this
        exact this
      · intro p hp
        simp only [ownIndex_setOppIndex, tradeBook_ownIndex] at hp
        simpa using hW.own_live p hp
      · intro p hp
        have hp1 : p ∈ levelPtrs (oppIndex side b) := by
          rw [ho, levelPtrs_cons]
          simpa [levelPtrs_cons] using hp
        simpa using hW.opp_live p hp1
      · intro e he
        simp only [ownIndex_setOppIndex, tradeBook_ownIndex] at he
        simpa using hown_ok e he
      · intro e he
        simp only [oppIndex_setOppIndex, List.mem_cons] at he
        simp only [heap_setOppIndex]
        rcases he with rfl | he
        · refine ⟨by simpa using hlev.1, fun p hp => ?_⟩
          have hp1 : p = opp ∨ p ∈ tl := by simpa [hl] using hp
          rcases hp1 with rfl | hp1
          · refine restingOK_of_static (hstat p) hR ?_
            rw [hqp]
            exact lt_of_le_of_ne hlep (by rw [← hqp]; exact hfill)
          · exact htl_ok p hp1
        · exact hrest_ok e he
      · intro k x hx
        simp only [orders_setOppIndex, tradeBook_orders] at hx
        simpa using hidx k x hx
    · refine ⟨?_, ?_, ?_, ?_, ?_, ?_, ?_⟩
      · simpa using hL.is_issued
      · simpa using hL.not_free
      · simpa [tradeBook_ownIndex] using hL.not_own
      · intro hp
        apply hL.not_opp
        rw [ho, levelPtrs_cons]
        simpa [levelPtrs_cons] using hp
      · simpa using hside
      · simp only [heap_setOppIndex]; rw [hqo]; exact hleo
      · simp only [heap_setOppIndex]; rw [hqo]; exact hL.quantity_lt

@[simp] theorem tradeBook_oppIndex (side side1 : Side) (order : Ptr) (price : Price) (opp : Ptr)
    (b : OrderBook) :
    oppIndex side1 (tradeBook side order price opp b) = oppIndex side1 b := by
  cases side <;> cases side1 <;> rfl

theorem eraseEmptyFront_pool (side : Side) (b : OrderBook) :
    (eraseEmptyFront side b).pool = b.pool := by
  unfold eraseEmptyFront
  split
  · rfl
  · split_ifs <;> simp

theorem eraseEmptyFront_orders (side : Side) (b : OrderBook) :
    (eraseEmptyFront side b).orders = b.orders := by
  unfold eraseEmptyFront
  split
  · rfl
  · split_ifs <;> simp

theorem eraseEmptyFront_counter (side : Side) (b : OrderBook) :
    (eraseEmptyFront side b).order_id_counter = b.order_id_counter := by
  unfold eraseEmptyFront
  split
  · rfl
  · split_ifs <;> simp

/-- Erasing an empty level at `begin()` changes neither the enqueued pointers nor any level
that holds orders. -/
theorem eraseEmptyFront_spec (side : Side) (b : OrderBook) :
    levelPtrs (oppIndex side (eraseEmptyFront side b)) = levelPtrs (oppIndex side b) ∧
      (∀ e ∈ oppIndex side (eraseEmptyFront side b), e ∈ oppIndex side b) := by
  cases ho : oppIndex side b with
  | nil =>
    have : eraseEmptyFront side b = b := by unfold eraseEmptyFront; rw [ho]
    rw [this, ho]
    exact ⟨rfl, fun _ h => h⟩
  | cons e rest =>
    obtain ⟨price, level⟩ := e
    rw [eraseEmptyFront_oppIndex side b price level rest ho]
    split_ifs with he
    · exact ⟨by simp [levelPtrs_cons, he], fun e h => List.mem_cons_of_mem _ h⟩
    · exact ⟨rfl, fun _ h => h⟩

theorem wf_eraseEmptyFront (side : Side) (order : Ptr) (b : OrderBook)
    (hW : WfFor side b) (hL : Live side order b) :
    WfFor side (eraseEmptyFront side b) ∧ Live side order (eraseEmptyFront side b) := by
  obtain ⟨h1, h2⟩ := eraseEmptyFront_spec side b
  constructor
  · refine ⟨?_, ?_, ?_, ?_, ?_, ?_, ?_, ?_, ?_⟩
    · rw [eraseEmptyFront_pool]; exact hW.pool_le
    · rw [eraseEmptyFront_pool]; exact hW.free_nodup
    · rw [eraseEmptyFront_pool]; exact hW.free_issued
    · rw [eraseEmptyFront_ownIndex, h1]; exact hW.nodup
    · rw [eraseEmptyFront_ownIndex, eraseEmptyFront_pool]; exact hW.own_live
    · rw [h1, eraseEmptyFront_pool]; exact hW.opp_live
    · rw [eraseEmptyFront_ownIndex, eraseEmptyFront_heap]; exact hW.own_ok
    · rw [eraseEmptyFront_heap]; exact fun e he => hW.opp_ok e (h2 e he)
    · intro k x hx
      rw [eraseEmptyFront_orders] at hx
      rw [eraseEmptyFront_heap, eraseEmptyFront_pool]
      exact hW.index_ok k x hx
  · refine ⟨?_, ?_, ?_, ?_, ?_, ?_, ?_⟩
    · rw [eraseEmptyFront_pool]; exact hL.is_issued
    · rw [eraseEmptyFront_pool]; exact hL.not_free
    · rw [eraseEmptyFront_ownIndex]; exact hL.not_own
    · rw [h1]; exact hL.not_opp
    · rw [eraseEmptyFront_heap]; exact hL.side_eq
    · rw [eraseEmptyFront_heap]; exact hL.filled_le
    · rw [eraseEmptyFront_heap]; exact hL.quantity_lt

theorem outerLevels_inner (side : Side) (b : OrderBook) (h : OuterLevels side b) :
    InnerLevels side b :=
  ⟨h.1, fun e he => h.2 e (List.mem_of_mem_tail he)⟩

theorem innerLevels_matchStep (side : Side) (order : Ptr) (b : OrderBook) (price : Price)
    (level : PriceLevel) (rest : Index) (opp : Ptr) (h : InnerLevels side b)
    (ho : oppIndex side b = (price, level) :: rest) :
    InnerLevels side (matchStep side order price level rest opp b) := by
  obtain ⟨l1, e1, _, _⟩ := matchStep_oppIndex side order price level rest opp b
  refine ⟨by rw [matchStep_ownIndex]; exact h.1, ?_⟩
  rw [e1]
  have := h.2
  rw [ho] at this
  exact this

theorem outerLevels_eraseEmptyFront (side : Side) (b : OrderBook) (h : InnerLevels side b) :
    OuterLevels side (eraseEmptyFront side b) := by
  refine ⟨by rw [eraseEmptyFront_ownIndex]; exact h.1, ?_⟩
  cases ho : oppIndex side b with
  | nil =>
    have : eraseEmptyFront side b = b := by unfold eraseEmptyFront; rw [ho]
    rw [this, ho]
    intro e he
    cases he
  | cons e rest =>
    obtain ⟨price, level⟩ := e
    rw [eraseEmptyFront_oppIndex side b price level rest ho]
    have h2 := h.2
    rw [ho] at h2
    split_ifs with he
    · exact h2
    · intro e hmem
      rcases List.mem_cons.1 hmem with rfl | hmem
      · exact he
      · exact h2 e hmem

theorem innerInv_matchStep (side : Side) (order : Ptr) (b : OrderBook) (price : Price)
    (level : PriceLevel) (rest : Index) (opp : Ptr) (tl : List Ptr)
    (h : InnerInv side order b)
    (ho : oppIndex side b = (price, level) :: rest) (hl : level.orders = opp :: tl)
    (hc : (b.heap order).filled_quantity < (b.heap order).quantity) :
    InnerInv side order (matchStep side order price level rest opp b) := by
  obtain ⟨h1, h2⟩ := wf_matchStep side order b price level rest opp tl h.1 h.2.1 ho hl hc
  exact ⟨h1, h2, innerLevels_matchStep side order b price level rest opp h.2.2 ho⟩

theorem outerInv_eraseEmptyFront (side : Side) (order : Ptr) (b : OrderBook)
    (h : InnerInv side order b) : OuterInv side order (eraseEmptyFront side b) := by
  obtain ⟨h1, h2⟩ := wf_eraseEmptyFront side order b h.1 h.2.1
  exact ⟨h1, h2, outerLevels_eraseEmptyFront side b h.2.2⟩

/-- A walk keeps the book well formed, the incoming order live and every level non-empty. -/
theorem matchWalk_outerInv (side : Side) (type : OrderType) (order : Ptr) (inner fuel : Nat)
    (b b1 : OrderBook) (hI : OuterInv side order b)
    (h : matchWalk side type order inner fuel b = some b1) : OuterInv side order b1 := by
  refine (matchWalk_rule side type order inner (OuterInv side order) (InnerInv side order)
    ?_ ?_ ?_ fuel b b1 hI h).1
  · intro x _ _ _ hx _ _ _
    exact ⟨hx.1, hx.2.1, outerLevels_inner side x hx.2.2⟩
  · intro x price level rest opp tl hJ ho hl hc
    exact innerInv_matchStep side order x price level rest opp tl hJ ho hl hc
  · intro x _ _ _ hJ _ _
    exact outerInv_eraseEmptyFront side order x hJ

/-! ## The pool -/

/-- What `allocate` returns on a well-formed pool: a slot that is issued afterwards, that is
not on the remaining free list, and that differs from every slot that was issued and not
free before. -/
theorem allocate_spec (pool : OrderPool) (h1 : pool.next_order_in_chunk ≤ CHUNK_SIZE)
    (h2 : pool.free_list.Nodup) (h3 : ∀ p ∈ pool.free_list, issued pool p) :
    pool.allocate.2.next_order_in_chunk ≤ CHUNK_SIZE ∧
    pool.allocate.2.free_list.Nodup ∧
    (∀ p ∈ pool.allocate.2.free_list, issued pool.allocate.2 p) ∧
    issued pool.allocate.2 pool.allocate.1 ∧
    pool.allocate.1 ∉ pool.allocate.2.free_list ∧
    (∀ p, issued pool p → issued pool.allocate.2 p) ∧
    (∀ p, p ∈ pool.allocate.2.free_list → p ∈ pool.free_list) ∧
    (∀ p, issued pool p → p ∉ pool.free_list → p ≠ pool.allocate.1) := by
  unfold OrderPool.allocate
  cases hf : pool.free_list with
  | cons x rest =>
    rw [hf] at h2 h3
    simp only
    rw [List.nodup_cons] at h2
    refine ⟨h1, h2.2, fun p hp => h3 p (List.mem_cons_of_mem _ hp), h3 x (List.mem_cons_self _ _),
      h2.1, fun p hp => hp, fun p hp => List.mem_cons_of_mem _ hp, ?_⟩
    intro p _ hp heq
    exact hp (heq ▸ List.mem_cons_self _ _)
  | nil =>
    simp only
    have hadv : (pool.advance.next_order_in_chunk < CHUNK_SIZE) ∧
        pool.advance.free_list = pool.free_list ∧
        (∀ p, issued pool p ↔ issued pool.advance p) := by
      by_cases hge : pool.next_order_in_chunk ≥ CHUNK_SIZE
      · have e1 : pool.advance.next_order_in_chunk = 0 := by
          simp [OrderPool.advance, if_pos hge]
        have e2 : pool.advance.next_chunk_idx = pool.next_chunk_idx + 1 := by
          simp [OrderPool.advance, if_pos hge]
        have e3 : pool.advance.free_list = pool.free_list := by
          simp [OrderPool.advance, if_pos hge]
        refine ⟨by rw [e1]; simp [CHUNK_SIZE], e3, fun p => ?_⟩
        simp only [issued, e1, e2]
        have : pool.next_order_in_chunk = CHUNK_SIZE := le_antisymm h1 hge
        constructor
        · rintro ⟨a, b | ⟨b, c⟩⟩
          · exact ⟨a, Or.inl (by omega)⟩
          · exact ⟨a, Or.inl (by omega)⟩
        · rintro ⟨a, b | ⟨b, c⟩⟩
          · refine ⟨a, ?_⟩
            by_cases hlt : p.1 < pool.next_chunk_idx
            · exact Or.inl hlt
            · exact Or.inr ⟨by omega, by omega⟩
          · omega
      · have e : pool.advance = pool := by simp [OrderPool.advance, if_neg hge]
        rw [e]
        exact ⟨by omega, rfl, fun p => Iff.rfl⟩
    obtain ⟨a1, a2, a3⟩ := hadv
    refine ⟨by simpa using a1, by rw [a2, hf]; exact List.nodup_nil, ?_, ?_, ?_, ?_, ?_, ?_⟩
    · intro p hp
      rw [a2, hf] at hp
      cases hp
    · exact ⟨a1, Or.inr ⟨rfl, by simp⟩⟩
    · rw [a2, hf]; simp
    · intro p hp
      obtain ⟨b1, b2⟩ := (a3 p).1 hp
      refine ⟨b1, ?_⟩
      rcases b2 with b2 | ⟨b2, b3⟩
      · exact Or.inl b2
      · exact Or.inr ⟨b2, by simp only; omega⟩
    · intro p hp
      rw [a2, hf] at hp
      exact hp
    · intro p hp _ heq
      obtain ⟨_, b2⟩ := (a3 p).1 hp
      rw [heq] at b2
      simp only at b2
      omega

theorem wfFor_iff (side : Side) (b : OrderBook) : WfFor side b ↔ Wf b := by
  cases side
  · rfl
  · constructor
    · intro h
      exact ⟨h.pool_le, h.free_nodup, h.free_issued, List.nodup_append_comm.1 h.nodup,
        h.opp_live, h.own_live, h.opp_ok, h.own_ok, h.index_ok⟩
    · intro h
      exact ⟨h.pool_le, h.free_nodup, h.free_issued, List.nodup_append_comm.1 h.nodup,
        h.opp_live, h.own_live, h.opp_ok, h.own_ok, h.index_ok⟩

theorem outerLevels_iff (side : Side) (b : OrderBook) :
    OuterLevels side b ↔ OuterLevels .BUY b := by
  cases side
  · rfl
  · exact ⟨fun h => ⟨h.2, h.1⟩, fun h => ⟨h.2, h.1⟩⟩

theorem inv_iff (side : Side) (b : OrderBook) :
    Inv b ↔ WfFor side b ∧ OuterLevels side b := by
  unfold Inv
  rw [wfFor_iff side, outerLevels_iff side]

@[simp] theorem register_order_ownIndex (s : Side) (b : OrderBook) (side : Side)
    (type : OrderType) (price : Price) (quantity : Nat) :
    ownIndex s (register_order b side type price quantity) = ownIndex s b := by
  cases s <;> rfl

@[simp] theorem register_order_oppIndex (s : Side) (b : OrderBook) (side : Side)
    (type : OrderType) (price : Price) (quantity : Nat) :
    oppIndex s (register_order b side type price quantity) = oppIndex s b := by
  cases s <;> rfl

theorem register_order_heap_other (b : OrderBook) (side : Side) (type : OrderType)
    (price : Price) (quantity : Nat) (p : Ptr) (h : p ≠ b.pool.allocate.1) :
    (register_order b side type price quantity).heap p = b.heap p := by
  simp [register_order, Function.update_noteq h]

/-- Registering the incoming order leads to the state at the head of the outer loop. -/
theorem outerInv_register_order (b : OrderBook) (side : Side) (type : OrderType)
    (price : Price) (quantity : Nat) (hI : Inv b) (hq : quantity < U64) :
    OuterInv side b.pool.allocate.1 (register_order b side type price quantity) := by
  obtain ⟨hW, hN⟩ := (inv_iff side b).1 hI
  obtain ⟨a1, a2, a3, a4, a5, a6, a7, a8⟩ :=
    allocate_spec b.pool hW.pool_le hW.free_nodup hW.free_issued
  have hown : ∀ p ∈ levelPtrs (ownIndex side b), p ≠ b.pool.allocate.1 := fun p hp =>
    a8 p (hW.own_live p hp).1 (hW.own_live p hp).2
  have hopp : ∀ p ∈ levelPtrs (oppIndex side b), p ≠ b.pool.allocate.1 := fun p hp =>
    a8 p (hW.opp_live p hp).1 (hW.opp_live p hp).2
  have hpool : (register_order b side type price quantity).pool = b.pool.allocate.2 := rfl
  refine ⟨⟨?_, ?_, ?_, ?_, ?_, ?_, ?_, ?_, ?_⟩, ⟨?_, ?_, ?_, ?_, ?_, ?_, ?_⟩, ?_⟩
  · rw [hpool]; exact a1
  · rw [hpool]; exact a2
  · rw [hpool]; exact a3
  · simpa using hW.nodup
  · intro p hp
    rw [register_order_ownIndex] at hp
    rw [hpool]
    exact ⟨a6 p (hW.own_live p hp).1, fun h => (hW.own_live p hp).2 (a7 p h)⟩
  · intro p hp
    rw [register_order_oppIndex] at hp
    rw [hpool]
    exact ⟨a6 p (hW.opp_live p hp).1, fun h => (hW.opp_live p hp).2 (a7 p h)⟩
  · intro e he
    rw [register_order_ownIndex] at he
    refine ⟨(hW.own_ok e he).1, fun p hp => ?_⟩
    rw [register_order_heap_other _ _ _ _ _ _ (hown p (mem_levelPtrs.2 ⟨e, he, hp⟩))]
    exact (hW.own_ok e he).2 p hp
  · intro e he
    rw [register_order_oppIndex] at he
    refine ⟨(hW.opp_ok e he).1, fun p hp => ?_⟩
    rw [register_order_heap_other _ _ _ _ _ _ (hopp p (mem_levelPtrs.2 ⟨e, he, hp⟩))]
    exact (hW.opp_ok e he).2 p hp
  · intro k x hx
    rw [hpool]
    by_cases hk : k = b.order_id_counter
    · subst hk
      have hx1 : x = b.pool.allocate.1 := by
        simp only [register_order, Function.update_same, Option.some.injEq] at hx
        exact hx.symm
      subst hx1
      rw [register_order_heap_order]
      exact ⟨rfl, a4, a5, Nat.zero_le _, hq⟩
    · have hx1 : b.orders k = some x := by
        simpa [register_order, Function.update_noteq hk] using hx
      obtain ⟨i1, i2, i3, i4, i5⟩ := hW.index_ok k x hx1
      rw [register_order_heap_other _ _ _ _ _ _ (a8 x i2 i3)]
      exact ⟨i1, a6 x i2, fun h => i3 (a7 x h), i4, i5⟩
  · rw [hpool]; exact a4
  · rw [hpool]; exact a5
  · rw [register_order_ownIndex]; exact fun h => hown _ h rfl
  · rw [register_order_oppIndex]; exact fun h => hopp _ h rfl
  · rw [register_order_heap_order]; rfl
  · rw [register_order_heap_order]; exact Nat.zero_le _
  · rw [register_order_heap_order]; exact hq
  · simpa [OuterLevels] using hN

/-! ## Resting an order in its own index -/

theorem ownBefore_equiv (side : Side) {a b : Price} (h1 : ¬ ownBefore side a b = true)
    (h2 : ¬ ownBefore side b a = true) : a.equiv b := by
  have a1 : ¬ better side b a := fun h => h1 ((ownBefore_iff side a b).2 h)
  have a2 : ¬ better side a b := fun h => h2 ((ownBefore_iff side b a).2 h)
  cases side
  · exact ⟨a2, a1⟩
  · exact ⟨a1, a2⟩

theorem ownBefore_asymm (side : Side) {a b : Price} (h : ownBefore side a b = true) :
    ¬ ownBefore side b a = true := by
  rw [ownBefore_iff] at h ⊢
  cases side
  · exact Price.lt_asymm h
  · exact Price.lt_asymm h

theorem ownBefore_irrefl (side : Side) (a : Price) : ¬ ownBefore side a a = true := by
  rw [ownBefore_iff]
  cases side <;> exact Price.lt_irrefl a

/-- The level that `find` returns is stored in the index, under a key that the comparator
does not tell apart from the price looked up. -/
theorem mem_of_map_find (side : Side) (m : Index) (p : Price) (l : PriceLevel)
    (h : map_find (ownBefore side) m p = some l) : ∃ k, (k, l) ∈ m ∧ p.equiv k := by
  induction m with
  | nil => simp [map_find] at h
  | cons e rest ih =>
    obtain ⟨k, v⟩ := e
    unfold map_find at h
    split_ifs at h with h1 h2
    · obtain ⟨k1, hk1, he⟩ := ih h
      exact ⟨k1, List.mem_cons_of_mem _ hk1, he⟩
    · cases h
      exact ⟨k, List.mem_cons_self _ _, ownBefore_equiv side h2 h1⟩

/-- Creating an absent level and then enqueuing into it is assigning the level that holds
the new order. -/
theorem map_update_map_assign (side : Side) (m : Index) (p : Price) (l : PriceLevel)
    (f : PriceLevel → PriceLevel) (hp : map_find (ownBefore side) m p = none) :
    map_update (ownBefore side) (map_assign (ownBefore side) m p l) p f =
      map_assign (ownBefore side) m p (f l) := by
  induction m with
  | nil => simp [map_assign, map_update, ownBefore_irrefl]
  | cons e rest ih =>
    obtain ⟨k, v⟩ := e
    unfold map_find at hp
    unfold map_assign
    split_ifs at hp with h1 h2
    · rw [if_neg (ownBefore_asymm side h1), if_pos h1, if_neg (ownBefore_asymm side h1),
        if_pos h1]
      unfold map_update
      rw [if_pos h1, ih hp]
    · rw [if_pos h2, if_pos h2]
      unfold map_update
      rw [if_neg (ownBefore_irrefl side p), if_neg (ownBefore_irrefl side p)]

/-- The index after the resting branch of `match_limit_order`. -/
theorem rest_index_eq (side : Side) (m : Index) (p : Price) (f : PriceLevel → PriceLevel) :
    map_update (ownBefore side)
        (if (map_find (ownBefore side) m p).isNone then
          map_assign (ownBefore side) m p (PriceLevel.new p)
          else m) p f =
      if (map_find (ownBefore side) m p).isSome then map_update (ownBefore side) m p f
      else map_assign (ownBefore side) m p (f (PriceLevel.new p)) := by
  cases hf : map_find (ownBefore side) m p with
  | none => simp [map_update_map_assign side m p _ f hf]
  | some l => simp

theorem mem_map_update (side : Side) (m : Index) (p : Price) (f : PriceLevel → PriceLevel)
    (e : Price × PriceLevel) (he : e ∈ map_update (ownBefore side) m p f) :
    e ∈ m ∨ ∃ k v, (k, v) ∈ m ∧ p.equiv k ∧ e = (k, f v) := by
  induction m with
  | nil => simp [map_update] at he
  | cons e1 rest ih =>
    obtain ⟨k, v⟩ := e1
    unfold map_update at he
    split_ifs at he with h1 h2
    · rcases List.mem_cons.1 he with rfl | h
      · exact Or.inl (List.mem_cons_self _ _)
      · rcases ih h with h3 | ⟨k1, v1, h3, h4, h5⟩
        · exact Or.inl (List.mem_cons_of_mem _ h3)
        · exact Or.inr ⟨k1, v1, List.mem_cons_of_mem _ h3, h4, h5⟩
    · exact Or.inl he
    · rcases List.mem_cons.1 he with rfl | h
      · exact Or.inr ⟨k, v, List.mem_cons_self _ _, ownBefore_equiv side h2 h1, rfl⟩
      · exact Or.inl (List.mem_cons_of_mem _ h)

theorem mem_map_assign (side : Side) (m : Index) (p : Price) (l : PriceLevel)
    (hp : map_find (ownBefore side) m p = none)
    (e : Price × PriceLevel) (he : e ∈ map_assign (ownBefore side) m p l) :
    e ∈ m ∨ e = (p, l) := by
  induction m with
  | nil => simpa [map_assign] using he
  | cons e1 rest ih =>
    obtain ⟨k, v⟩ := e1
    unfold map_find at hp
    unfold map_assign at he
    split_ifs at hp with h1 h2
    · rw [if_neg (ownBefore_asymm side h1), if_pos h1] at he
      rcases List.mem_cons.1 he with rfl | h
      · exact Or.inl (List.mem_cons_self _ _)
      · rcases ih hp h with h3 | h3
        · exact Or.inl (List.mem_cons_of_mem _ h3)
        · exact Or.inr h3
    · rw [if_pos h2] at he
      rcases List.mem_cons.1 he with rfl | h
      · exact Or.inr rfl
      · exact Or.inl h

theorem perm_levelPtrs_map_update (side : Side) (m : Index) (p : Price) (heap : Ptr → Order)
    (order : Ptr) (hp : (map_find (ownBefore side) m p).isSome) :
    (levelPtrs (map_update (ownBefore side) m p (fun l => l.add_order heap order))).Perm
      (order :: levelPtrs m) := by
  induction m with
  | nil => simp [map_find] at hp
  | cons e rest ih =>
    obtain ⟨k, v⟩ := e
    unfold map_find at hp
    unfold map_update
    split_ifs at hp ⊢ with h1 h2
    · simp only [levelPtrs_cons]
      exact ((ih hp).append_left v.orders).trans List.perm_middle
    · simp at hp
    · simp only [levelPtrs_cons, PriceLevel.add_order, List.append_assoc, List.singleton_append]
      exact List.perm_middle

theorem perm_levelPtrs_map_assign (side : Side) (m : Index) (p : Price) (l : PriceLevel)
    (hp : map_find (ownBefore side) m p = none) :
    (levelPtrs (map_assign (ownBefore side) m p l)).Perm (l.orders ++ levelPtrs m) := by
  induction m with
  | nil => simp [map_assign, levelPtrs]
  | cons e rest ih =>
    obtain ⟨k, v⟩ := e
    unfold map_find at hp
    unfold map_assign
    split_ifs at hp with h1 h2
    · rw [if_neg (ownBefore_asymm side h1), if_pos h1]
      simp only [levelPtrs_cons]
      exact ((ih hp).append_left v.orders).trans (List.perm_append_comm_assoc _ _ _)
    · rw [if_pos h2]
      simp [levelPtrs_cons]

/-- The own index after resting: its pointers are the old ones and the rested order; every
level is an old level, or an old level that `find` returns for the order's price with the
order appended, or a new level of that price holding just the order. -/
theorem restOrder_spec (b : OrderBook) (order : Ptr) (side : Side)
    (hs : (b.heap order).side = side) :
    (levelPtrs (ownIndex side (restOrder b order))).Perm
        (order :: levelPtrs (ownIndex side b)) ∧
      ∀ e ∈ ownIndex side (restOrder b order), e ∈ ownIndex side b ∨
        ((b.heap order).price.equiv e.1 ∧
          ((∃ v, (e.1, v) ∈ ownIndex side b ∧ e.2 = v.add_order b.heap order) ∨
            (e.1 = (b.heap order).price ∧
              e.2 = (PriceLevel.new (b.heap order).price).add_order b.heap order))) := by
  rw [restOrder_ownIndex b order side hs, rest_index_eq]
  split_ifs with hp
  · refine ⟨perm_levelPtrs_map_update _ _ _ _ _ hp, fun e he => ?_⟩
    rcases mem_map_update _ _ _ _ e he with h | ⟨k, v, h1, h2, rfl⟩
    · exact Or.inl h
    · exact Or.inr ⟨h2, Or.inl ⟨v, h1, rfl⟩⟩
  · have hn : map_find (ownBefore side) (ownIndex side b) (b.heap order).price = none := by
      simpa using hp
    refine ⟨?_, fun e he => ?_⟩
    · simpa [PriceLevel.add_order, PriceLevel.new] using
        perm_levelPtrs_map_assign side (ownIndex side b) (b.heap order).price
          ((PriceLevel.new (b.heap order).price).add_order b.heap order) hn
    · rcases mem_map_assign side _ _ _ hn e he with h | rfl
      · exact Or.inl h
      · exact Or.inr ⟨Price.equiv_refl _, Or.inr ⟨rfl, rfl⟩⟩

/-! ## Well-formedness is kept by the finalization and by `cancel_order` -/

theorem restingOK_congr {side : Side} {key : Price} {o o1 : Order}
    (hs : o1.static = o.static) (hf : o1.filled_quantity = o.filled_quantity)
    (h : RestingOK side key o) : RestingOK side key o1 := by
  refine restingOK_of_static hs h ?_
  rw [hf, ((static_eq_iff _ _).1 hs).2.2.2.2]
  exact h.2.2.2.1

theorem statusOnly_ownIndex (side : Side) {b x : OrderBook} (h : StatusOnly b x) :
    ownIndex side x = ownIndex side b := by
  cases side
  · exact h.1
  · exact h.2.1

theorem statusOnly_oppIndex (side : Side) {b x : OrderBook} (h : StatusOnly b x) :
    oppIndex side x = oppIndex side b := by
  cases side
  · exact h.2.1
  · exact h.1

theorem wfFor_statusOnly (side : Side) {b x : OrderBook} (h : StatusOnly b x)
    (hW : WfFor side b) : WfFor side x := by
  have e1 := statusOnly_ownIndex side h
  have e2 := statusOnly_oppIndex side h
  obtain ⟨_, _, hp, ho, hh⟩ := h
  refine ⟨?_, ?_, ?_, ?_, ?_, ?_, ?_, ?_, ?_⟩
  · rw [hp]; exact hW.pool_le
  · rw [hp]; exact hW.free_nodup
  · rw [hp]; exact hW.free_issued
  · rw [e1, e2]; exact hW.nodup
  · rw [e1, hp]; exact hW.own_live
  · rw [e2, hp]; exact hW.opp_live
  · rw [e1]
    exact fun e he => ⟨(hW.own_ok e he).1, fun p hp1 =>
      restingOK_congr (hh p).1 (hh p).2 ((hW.own_ok e he).2 p hp1)⟩
  · rw [e2]
    exact fun e he => ⟨(hW.opp_ok e he).1, fun p hp1 =>
      restingOK_congr (hh p).1 (hh p).2 ((hW.opp_ok e he).2 p hp1)⟩
  · intro k y hy
    rw [ho] at hy
    obtain ⟨i1, i2, i3, i4, i5⟩ := hW.index_ok k y hy
    have hs := (static_eq_iff _ _).1 (hh y).1
    rw [hp, (hh y).2, hs.2.2.2.2, hs.1]
    exact ⟨i1, i2, i3, i4, i5⟩

theorem live_statusOnly (side : Side) (order : Ptr) {b x : OrderBook} (h : StatusOnly b x)
    (hL : Live side order b) : Live side order x := by
  have e1 := statusOnly_ownIndex side h
  have e2 := statusOnly_oppIndex side h
  obtain ⟨_, _, hp, _, hh⟩ := h
  have hs := (static_eq_iff _ _).1 (hh order).1
  refine ⟨?_, ?_, ?_, ?_, ?_, ?_, ?_⟩
  · rw [hp]; exact hL.is_issued
  · rw [hp]; exact hL.not_free
  · rw [e1]; exact hL.not_own
  · rw [e2]; exact hL.not_opp
  · rw [hs.2.1]; exact hL.side_eq
  · rw [(hh order).2, hs.2.2.2.2]; exact hL.filled_le
  · rw [hs.2.2.2.2]; exact hL.quantity_lt

theorem statusOnly_heapModify (b : OrderBook) (p : Ptr) (f : Order → Order)
    (hf : ∀ o, (f o).static = o.static ∧ (f o).filled_quantity = o.filled_quantity) :
    StatusOnly b { b with heap := heapModify b.heap p f } := by
  refine ⟨rfl, rfl, rfl, rfl, fun q => ?_⟩
  simp only [heapModify]
  by_cases h : q = p
  · subst h
    rw [Function.update_same]
    exact hf _
  · rw [Function.update_noteq h]
    exact ⟨rfl, rfl⟩

theorem statusOnly_markPartialFill (b : OrderBook) (order : Ptr) :
    StatusOnly b (markPartialFill b order) := by
  unfold markPartialFill
  split_ifs
  · exact statusOnly_heapModify b order _ (fun _ => ⟨rfl, rfl⟩)
  · exact ⟨rfl, rfl, rfl, rfl, fun _ => ⟨rfl, rfl⟩⟩

theorem statusOnly_cancel_order (b : OrderBook) (order_id : Nat) :
    StatusOnly b (cancel_order b order_id).2 := by
  unfold cancel_order
  split
  · exact ⟨rfl, rfl, rfl, rfl, fun _ => ⟨rfl, rfl⟩⟩
  · split_ifs
    · exact ⟨rfl, rfl, rfl, rfl, fun _ => ⟨rfl, rfl⟩⟩
    · exact statusOnly_heapModify b _ _ (fun _ => ⟨rfl, rfl⟩)

/-- Evicting the live incoming order keeps the book well formed. -/
theorem wfFor_evict (side : Side) (order : Ptr) (b : OrderBook) (hW : WfFor side b)
    (hL : Live side order b) : WfFor side (evict b order) := by
  refine ⟨?_, ?_, ?_, ?_, ?_, ?_, ?_, ?_, ?_⟩
  · exact hW.pool_le
  · simp only [pool_evict, OrderPool.deallocate, List.nodup_cons]
    exact ⟨hL.not_free, hW.free_nodup⟩
  · intro p hp
    simp only [pool_evict, OrderPool.deallocate, List.mem_cons] at hp
    have : issued b.pool p := by
      rcases hp with rfl | hp
      · exact hL.is_issued
      · exact hW.free_issued p hp
    simpa [issued, pool_evict, OrderPool.deallocate] using this
  · simpa using hW.nodup
  · intro p hp
    rw [ownIndex_evict] at hp
    obtain ⟨q1, q2⟩ := hW.own_live p hp
    refine ⟨by simpa [issued, pool_evict, OrderPool.deallocate] using q1, ?_⟩
    simp only [pool_evict, OrderPool.deallocate, List.mem_cons, not_or]
    exact ⟨fun h => hL.not_own (h ▸ hp), q2⟩
  · intro p hp
    rw [oppIndex_evict] at hp
    obtain ⟨q1, q2⟩ := hW.opp_live p hp
    refine ⟨by simpa [issued, pool_evict, OrderPool.deallocate] using q1, ?_⟩
    simp only [pool_evict, OrderPool.deallocate, List.mem_cons, not_or]
    exact ⟨fun h => hL.not_opp (h ▸ hp), q2⟩
  · simpa using hW.own_ok
  · simpa using hW.opp_ok
  · intro k x hx
    simp only [orders_evict, eraseId, Function.update_apply] at hx
    split_ifs at hx with hk
    obtain ⟨i1, i2, i3, i4, i5⟩ := hW.index_ok k x hx
    have hxo : x ≠ order := by
      intro h
      subst h
      exact hk i1.symm
    simp only [heap_evict, pool_evict, OrderPool.deallocate, List.mem_cons, not_or]
    exact ⟨i1, by simpa [issued] using i2, ⟨hxo, i3⟩, i4, i5⟩

theorem wfFor_finishFilled (side : Side) (order : Ptr) (b : OrderBook) (hW : WfFor side b)
    (hL : Live side order b) : WfFor side (finishFilled b order) := by
  have hs := statusOnly_heapModify b order (fun o => { o with status := OrderStatus.FILLED })
    (fun _ => ⟨rfl, rfl⟩)
  exact wfFor_evict side order _ (wfFor_statusOnly side hs hW) (live_statusOnly side order hs hL)

theorem outerLevels_congr (side : Side) (b x : OrderBook) (h1 : ownIndex side x = ownIndex side b)
    (h2 : oppIndex side x = oppIndex side b) (h : OuterLevels side b) : OuterLevels side x := by
  unfold OuterLevels
  rw [h1, h2]
  exact h

/-- Resting the live incoming limit order keeps the book well formed and its levels
non-empty. -/
theorem wfFor_restOrder (side : Side) (order : Ptr) (b : OrderBook) (hW : WfFor side b)
    (hL : Live side order b) (hN : OuterLevels side b)
    (ht : (b.heap order).type = .LIMIT)
    (hlt : (b.heap order).filled_quantity < (b.heap order).quantity) :
    WfFor side (restOrder b order) ∧ OuterLevels side (restOrder b order) := by
  obtain ⟨hperm, hmem⟩ := restOrder_spec b order side hL.side_eq
  have hopp := restOrder_oppIndex b order side hL.side_eq
  have hpool : (restOrder b order).pool = b.pool := by
    unfold restOrder
    cases (b.heap order).side <;> rfl
  have hord : (restOrder b order).orders = b.orders := by
    unfold restOrder
    cases (b.heap order).side <;> rfl
  have hR : RestingOK side (b.heap order).price (b.heap order) :=
    ⟨hL.side_eq, ht, Price.equiv_refl _, hlt, hL.quantity_lt⟩
  constructor
  · refine ⟨?_, ?_, ?_, ?_, ?_, ?_, ?_, ?_, ?_⟩
    · rw [hpool]; exact hW.pool_le
    · rw [hpool]; exact hW.free_nodup
    · rw [hpool]; exact hW.free_issued
    · rw [hopp, (hperm.append_right _).nodup_iff]
      simp only [List.cons_append, List.nodup_cons, List.mem_append, not_or]
      exact ⟨⟨hL.not_own, hL.not_opp⟩, hW.nodup⟩
    · intro p hp
      rw [hpool]
      rcases List.mem_cons.1 (hperm.subset hp) with rfl | hp1
      · exact ⟨hL.is_issued, hL.not_free⟩
      · exact hW.own_live p hp1
    · rw [hopp, hpool]; exact hW.opp_live
    · intro e he
      rw [restOrder_heap]
      rcases hmem e he with h | ⟨h1, ⟨v, hv, hve⟩ | ⟨hk, hve⟩⟩
      · exact hW.own_ok e h
      · have hv1 := hW.own_ok _ hv
        refine ⟨by rw [hve]; exact hv1.1, fun p hp => ?_⟩
        rw [hve] at hp
        rcases List.mem_append.1 hp with hp1 | hp1
        · exact hv1.2 p hp1
        · rw [List.mem_singleton.1 hp1]
          exact ⟨hL.side_eq, ht, h1, hlt, hL.quantity_lt⟩
      · refine ⟨by rw [hve, hk]; rfl, fun p hp1 => ?_⟩
        rw [hve] at hp1
        have hp2 : p = order := by simpa [PriceLevel.add_order, PriceLevel.new] using hp1
        rw [hp2, hk]
        exact hR
    · rw [hopp, restOrder_heap]; exact hW.opp_ok
    · intro k x hx
      rw [hord] at hx
      rw [restOrder_heap, hpool]
      exact hW.index_ok k x hx
  · refine ⟨fun e he => ?_, by rw [hopp]; exact hN.2⟩
    rcases hmem e he with h | ⟨_, ⟨v, _, hve⟩ | ⟨_, hve⟩⟩
    · exact hN.1 e h
    · rw [hve]; simp [PriceLevel.add_order]
    · rw [hve]; simp [PriceLevel.add_order]

theorem walk_static_order (side : Side) (type : OrderType) (price : Price) (quantity : Nat)
    (b b1 : OrderBook)
    (hf : WalkFrame side (register_order b side type price quantity) b1) :
    (b1.heap b.pool.allocate.1).static =
      (Order.new b.order_id_counter side type price quantity).static := by
  have h := hf.2.2 b.pool.allocate.1
  rw [register_order_heap_order] at h
  exact h

theorem inv_of_statusOnly {b x : OrderBook} (h : StatusOnly b x) (hI : Inv b) : Inv x :=
  ⟨wfFor_statusOnly .BUY h hI.1,
    outerLevels_congr .BUY b x (statusOnly_ownIndex .BUY h) (statusOnly_oppIndex .BUY h) hI.2⟩

theorem inv_countOrder (b : OrderBook) (hI : Inv b) : Inv (countOrder b) :=
  inv_of_statusOnly (b := b) (x := countOrder b) ⟨rfl, rfl, rfl, rfl, fun _ => ⟨rfl, rfl⟩⟩ hI

theorem finishFilled_ownIndex (side : Side) (b : OrderBook) (order : Ptr) :
    ownIndex side (finishFilled b order) = ownIndex side b := by
  cases side <;> rfl

theorem finishFilled_oppIndex (side : Side) (b : OrderBook) (order : Ptr) :
    oppIndex side (finishFilled b order) = oppIndex side b := by
  cases side <;> rfl

/-- The finalization after a walk re-establishes the invariant between calls. -/
theorem inv_finalize (side : Side) (type : OrderType) (order : Ptr) (b : OrderBook)
    (h : OuterInv side order b) (ht : (b.heap order).type = type) :
    Inv (finalize type b order) := by
  obtain ⟨hW, hL, hN⟩ := h
  have hfin : Inv (finishFilled b order) :=
    (inv_iff side _).2 ⟨wfFor_finishFilled side order b hW hL,
      outerLevels_congr side b _ (finishFilled_ownIndex side b order)
        (finishFilled_oppIndex side b order) hN⟩
  cases type with
  | MARKET =>
    simp only [finalize]
    split_ifs
    · exact hfin
    · exact inv_of_statusOnly (statusOnly_markPartialFill b order) ((inv_iff side b).2 ⟨hW, hN⟩)
  | LIMIT =>
    simp only [finalize]
    split_ifs with hlt
    · exact inv_of_statusOnly (statusOnly_markPartialFill _ order)
        ((inv_iff side _).2 (wfFor_restOrder side order b hW hL hN ht hlt))
    · exact hfin

theorem inv_add_order (fuel : Nat) (b : OrderBook) (side : Side) (type : OrderType)
    (price : Price) (quantity : Nat) (r : Nat × OrderBook) (hI : Inv b) (hq : quantity < U64)
    (h : add_order fuel b side type price quantity = some r) : Inv r.2 := by
  obtain ⟨b1, hw, rfl⟩ := add_order_eq fuel b side type price quantity r h
  have h0 := outerInv_register_order b side type price quantity hI hq
  have h1 := matchWalk_outerInv side type _ fuel fuel _ b1 h0 hw
  have hf := (matchWalk_frame side type _ fuel fuel _ b1 hw).1
  have ht : (b1.heap b.pool.allocate.1).type = type :=
    ((static_eq_iff _ _).1 (walk_static_order side type price quantity b b1 hf)).2.2.1
  exact inv_countOrder _ (inv_finalize side type _ b1 h1 ht)

theorem inv_new : Inv OrderBook.new := by
  refine ⟨⟨?_, ?_, ?_, ?_, ?_, ?_, ?_, ?_, ?_⟩, ?_, ?_⟩ <;>
    simp [OrderBook.new, OrderPool.new, ownIndex, oppIndex, levelPtrs, IndexOK, NonEmptyLevels]

theorem history_inv {qs : List Nat} {b : OrderBook} (h : History qs b) : Inv b := by
  induction h with
  | init => exact inv_new
  | add fuel side type price quantity _ hq hadd ih =>
    exact inv_add_order fuel _ side type price quantity _ ih hq hadd
  | cancel order_id _ ih => exact inv_of_statusOnly (statusOnly_cancel_order _ order_id) ih

/-! ## Termination of the matching loops -/

/-- Progress of one loop body: the front order leaves the level, or the incoming order is
exactly filled. -/
theorem matchStep_progress (side : Side) (order : Ptr) (b : OrderBook) (price : Price)
    (level : PriceLevel) (rest : Index) (opp : Ptr) (tl : List Ptr)
    (hW : WfFor side b) (hL : Live side order b)
    (ho : oppIndex side b = (price, level) :: rest) (hl : level.orders = opp :: tl)
    (hc : (b.heap order).filled_quantity < (b.heap order).quantity) :
    ∃ l1, oppIndex side (matchStep side order price level rest opp b) = (price, l1) :: rest ∧
      l1.price = level.price ∧
      (l1.orders = tl ∨ (l1.orders = level.orders ∧
        ((matchStep side order price level rest opp b).heap order).filled_quantity =
          ((matchStep side order price level rest opp b).heap order).quantity)) := by
  have hopp_mem : opp ∈ levelPtrs (oppIndex side b) := by
    rw [ho, levelPtrs_cons]; simp [hl]
  have hne : order ≠ opp := fun h => hL.not_opp (h ▸ hopp_mem)
  have hR : RestingOK side.flip price (b.heap opp) :=
    (hW.opp_ok _ (by rw [ho]; exact List.mem_cons_self _ _)).2 opp (by rw [hl]; simp)
  obtain ⟨_, _, _, _, _, _, hex⟩ :=
    trade_arith side order price opp b hne hc hL.quantity_lt hR.2.2.2.1 hR.2.2.2.2
  have hqo := ((static_eq_iff _ _).1 (tradeBook_static side order price opp b order)).2.2.2.2
  have hqp := ((static_eq_iff _ _).1 (tradeBook_static side order price opp b opp)).2.2.2.2
  rw [matchStep_heap]
  simp only [matchStep]
  split_ifs with hfill
  · exact ⟨_, oppIndex_setOppIndex _ _ _, by simp, Or.inl (by simp [hl])⟩
  · refine ⟨_, oppIndex_setOppIndex _ _ _, by simp, Or.inr ⟨by simp, ?_⟩⟩
    rcases hex with h | h
    · exact absurd (h.trans hqp.symm) hfill
    · exact h.trans hqo.symm

/-- The inner loop returns when given more fuel than the level has orders. -/
theorem matchLevel_total (side : Side) (order : Ptr) (fuel : Nat) :
    ∀ (b : OrderBook) (price : Price) (level : PriceLevel) (rest : Index),
      InnerInv side order b → oppIndex side b = (price, level) :: rest →
      (level.orders.length + 1 ≤ fuel ∨
        (¬ (b.heap order).filled_quantity < (b.heap order).quantity ∧ 1 ≤ fuel)) →
      ∃ b1, matchLevel side order fuel b = some b1 := by
  induction fuel with
  | zero => intro b price level rest _ _ h; omega
  | succ n ih =>
    intro b price level rest hI ho hfuel
    unfold matchLevel
    simp only [ho]
    by_cases hc : level.is_empty = false ∧
        (b.heap order).filled_quantity < (b.heap order).quantity
    · rw [if_pos hc]
      obtain ⟨opp, tl, hl⟩ := List.exists_cons_of_ne_nil (is_empty_eq_false.1 hc.1)
      have hf : level.get_front = some opp := by simp [PriceLevel.get_front, hl]
      simp only [hf]
      obtain ⟨l1, e1, _, hprog⟩ :=
        matchStep_progress side order b price level rest opp tl hI.1 hI.2.1 ho hl hc.2
      have hlen : level.orders.length + 1 ≤ n + 1 := by
        rcases hfuel with h | h
        · exact h
        · exact absurd hc.2 h.1
      rw [hl, List.length_cons] at hlen
      refine ih _ price l1 rest (innerInv_matchStep side order b price level rest opp tl hI ho hl hc.2) e1 ?_
      rcases hprog with h | ⟨_, h⟩
      · left; rw [h]; omega
      · right; exact ⟨by omega, by omega⟩
    · rw [if_neg hc]
      exact ⟨b, rfl⟩

/-- What the inner loop does to the walked index: the key at `begin()` and all later levels
stay, the front level keeps a suffix of its queue. -/
theorem matchLevel_oppIndex (side : Side) (order : Ptr) (fuel : Nat) (b b1 : OrderBook)
    (price : Price) (level : PriceLevel) (rest : Index)
    (ho : oppIndex side b = (price, level) :: rest)
    (h : matchLevel side order fuel b = some b1) :
    ∃ l1, oppIndex side b1 = (price, l1) :: rest ∧ l1.price = level.price ∧
      l1.orders <:+ level.orders := by
  refine (matchLevel_rule side order
    (fun x => ∃ l1, oppIndex side x = (price, l1) :: rest ∧ l1.price = level.price ∧
      l1.orders <:+ level.orders) ?_ fuel b b1 ⟨level, ho, rfl, List.suffix_refl _⟩ h).1
  rintro x p l r opp tl ⟨l1, e1, e2, e3⟩ hx _ _
  have heq := e1.symm.trans hx
  simp only [List.cons.injEq, Prod.mk.injEq] at heq
  obtain ⟨⟨hp, hl⟩, hr⟩ := heq
  subst hp hl hr
  obtain ⟨l2, f1, f2, f3⟩ := matchStep_oppIndex side order price l1 rest opp x
  refine ⟨l2, f1, f2.trans e2, ?_⟩
  rcases f3 with f3 | f3
  · rw [f3]; exact e3
  · rw [f3]; exact (List.tail_suffix _).trans e3

/-- The outer loop returns when given more fuel than the walked index has levels, and the
inner loop more fuel than any level has orders. -/
theorem matchWalk_total (side : Side) (type : OrderType) (order : Ptr) (inner fuel : Nat) :
    ∀ (b : OrderBook), OuterInv side order b →
      (∀ e ∈ oppIndex side b, e.2.orders.length + 1 ≤ inner) →
      ((oppIndex side b).length + 1 ≤ fuel ∨
        (¬ (b.heap order).filled_quantity < (b.heap order).quantity ∧ 1 ≤ fuel)) →
      ∃ b1, matchWalk side type order inner fuel b = some b1 := by
  induction fuel with
  | zero => intro b _ _ h; omega
  | succ n ih =>
    intro b hI hin hfuel
    unfold matchWalk
    cases ho : oppIndex side b with
    | nil => exact ⟨b, rfl⟩
    | cons e rest =>
      obtain ⟨price, level⟩ := e
      simp only
      by_cases hc : (b.heap order).filled_quantity < (b.heap order).quantity
      · rw [if_pos hc]
        cases hx : crossStop side type (b.heap order).price price with
        | true => exact ⟨b, by simp⟩
        | false =>
          simp only [Bool.false_eq_true, if_false]
          have hJ : InnerInv side order b := ⟨hI.1, hI.2.1, outerLevels_inner side b hI.2.2⟩
          obtain ⟨b2, hm⟩ := matchLevel_total side order inner b price level rest hJ ho
            (Or.inl (hin _ (by rw [ho]; exact List.mem_cons_self _ _)))
          simp only [hm]
          obtain ⟨hJ2, p2, l2, r2, ho2, hex⟩ := matchLevel_rule side order (InnerInv side order)
            (fun x p l r opp tl hx h1 h2 h3 => innerInv_matchStep side order x p l r opp tl hx h1 h2 h3)
            inner b b2 hJ hm
          obtain ⟨l1, e1, _, e3⟩ := matchLevel_oppIndex side order inner b b2 price level rest ho hm
          have hlen : (price, level) :: rest = oppIndex side b := ho.symm
          have hfl : rest.length + 1 ≤ n := by
            rcases hfuel with h | h
            · rw [ho, List.length_cons] at h; omega
            · exact absurd hc h.1
          refine ih _ (outerInv_eraseEmptyFront side order b2 hJ2) ?_ ?_
          · intro e he
            have he1 := (eraseEmptyFront_spec side b2).2 e he
            rw [e1] at he1
            rcases List.mem_cons.1 he1 with rfl | he2
            · have := hin (price, level) (by rw [ho]; exact List.mem_cons_self _ _)
              have hl := e3.length_le
              simp only at this ⊢
              omega
            · exact hin e (by rw [ho]; exact List.mem_cons_of_mem _ he2)
          · rw [eraseEmptyFront_oppIndex side b2 price l1 rest e1, eraseEmptyFront_heap]
            rw [e1] at ho2
            cases ho2
            rcases hex with hemp | hfull
            · left; rw [if_pos hemp]; exact hfl
            · right; exact ⟨hfull, by omega⟩
      · rw [if_neg hc]
        exact ⟨b, rfl⟩

theorem length_le_levelPtrs (m : Index) (h : NonEmptyLevels m) :
    m.length ≤ (levelPtrs m).length := by
  induction m with
  | nil => simp
  | cons e rest ih =>
    have h1 : e.2.orders ≠ [] := h e (List.mem_cons_self _ _)
    have h2 := ih (fun x hx => h x (List.mem_cons_of_mem _ hx))
    have h3 : 0 < e.2.orders.length := List.length_pos.2 h1
    rw [levelPtrs_cons, List.length_append, List.length_cons]
    omega

theorem level_length_le_levelPtrs (m : Index) (e : Price × PriceLevel) (he : e ∈ m) :
    e.2.orders.length ≤ (levelPtrs m).length := by
  induction m with
  | nil => cases he
  | cons e1 rest ih =>
    rw [levelPtrs_cons, List.length_append]
    rcases List.mem_cons.1 he with rfl | h
    · omega
    · have := ih h
      omega

theorem levelPtrs_oppIndex_length_le (side : Side) (b : OrderBook) :
    (levelPtrs (oppIndex side b)).length ≤ (restingPtrs b).length := by
  cases side <;> simp [oppIndex, restingPtrs]

/-- More fuel does not change what the inner loop returns. -/
theorem matchLevel_mono (side : Side) (order : Ptr) (fuel : Nat) :
    ∀ (fuel1 : Nat) (b b1 : OrderBook), fuel ≤ fuel1 →
      matchLevel side order fuel b = some b1 → matchLevel side order fuel1 b = some b1 := by
  induction fuel with
  | zero => intro _ b b1 _ h; simp [matchLevel] at h
  | succ n ih =>
    intro fuel1 b b1 hle h
    obtain ⟨m, rfl⟩ : ∃ m, fuel1 = m + 1 := ⟨fuel1 - 1, by omega⟩
    unfold matchLevel at h ⊢
    cases hopp : oppIndex side b with
    | nil => simp [hopp] at h
    | cons e rest =>
      obtain ⟨price, level⟩ := e
      simp only [hopp] at h ⊢
      split_ifs at h ⊢ with hc
      · cases hf : level.get_front with
        | none => simp [hf] at h
        | some opp =>
          simp only [hf] at h ⊢
          exact ih m _ _ (by omega) h
      · exact h

/-- More fuel does not change what the outer loop returns. -/
theorem matchWalk_mono (side : Side) (type : OrderType) (order : Ptr) (inner inner1 : Nat)
    (hin : inner ≤ inner1) (fuel : Nat) :
    ∀ (fuel1 : Nat) (b b1 : OrderBook), fuel ≤ fuel1 →
      matchWalk side type order inner fuel b = some b1 →
      matchWalk side type order inner1 fuel1 b = some b1 := by
  induction fuel with
  | zero => intro _ b b1 _ h; simp [matchWalk] at h
  | succ n ih =>
    intro fuel1 b b1 hle h
    obtain ⟨m, rfl⟩ : ∃ m, fuel1 = m + 1 := ⟨fuel1 - 1, by omega⟩
    unfold matchWalk at h ⊢
    cases hopp : oppIndex side b with
    | nil => simpa [hopp] using h
    | cons e rest =>
      obtain ⟨price, level⟩ := e
      simp only [hopp] at h ⊢
      split_ifs at h ⊢ with hc hx
      · exact h
      · cases hm : matchLevel side order inner b with
        | none => simp [hm] at h
        | some b2 =>
          simp only [hm] at h
          simp only [matchLevel_mono side order inner inner1 b b2 hin hm]
          exact ih m _ _ (by omega) h
      · exact h

/-- `add_order` returns on every book that satisfies the invariant, as soon as the fuel
exceeds the number of resting orders. -/
theorem add_order_total (fuel : Nat) (b : OrderBook) (side : Side) (type : OrderType)
    (price : Price) (quantity : Nat) (hI : Inv b) (hq : quantity < U64)
    (hfuel : (restingPtrs b).length < fuel) :
    ∃ r, add_order fuel b side type price quantity = some r := by
  have h0 := outerInv_register_order b side type price quantity hI hq
  have hlen := levelPtrs_oppIndex_length_le side b
  obtain ⟨b1, hw⟩ := matchWalk_total side type b.pool.allocate.1 fuel fuel _ h0
    (by
      intro e he
      rw [register_order_oppIndex] at he
      have := level_length_le_levelPtrs _ e he
      omega)
    (Or.inl (by
      rw [register_order_oppIndex]
      have := length_le_levelPtrs _ (((inv_iff side b).1 hI).2.2)
      omega))
  exact ⟨_, add_order_of_walk fuel b side type price quantity b1 hw⟩

/-- The result of `add_order` does not depend on the fuel. -/
theorem add_order_fuel_irrelevant (fuel fuel1 : Nat) (b : OrderBook) (side : Side)
    (type : OrderType) (price : Price) (quantity : Nat) (r r1 : Nat × OrderBook)
    (h : add_order fuel b side type price quantity = some r)
    (h1 : add_order fuel1 b side type price quantity = some r1) : r = r1 := by
  obtain ⟨b2, hw, rfl⟩ := add_order_eq fuel b side type price quantity r h
  obtain ⟨b3, hw1, rfl⟩ := add_order_eq fuel1 b side type price quantity r1 h1
  have e1 := matchWalk_mono side type b.pool.allocate.1 fuel (max fuel fuel1) (le_max_left _ _)
    fuel (max fuel fuel1) _ b2 (le_max_left _ _) hw
  have e2 := matchWalk_mono side type b.pool.allocate.1 fuel1 (max fuel fuel1)
    (le_max_right _ _) fuel1 (max fuel fuel1) _ b3 (le_max_right _ _) hw1
  rw [e1] at e2
  cases e2
  rfl

/-! ## Order ids -/

theorem matchStep_counter (side : Side) (order : Ptr) (price : Price) (level : PriceLevel)
    (rest : Index) (opp : Ptr) (b : OrderBook) :
    (matchStep side order price level rest opp b).order_id_counter = b.order_id_counter := by
  simp only [matchStep]
  split_ifs <;> simp

theorem matchWalk_counter (side : Side) (type : OrderType) (order : Ptr) (inner fuel : Nat)
    (b b1 : OrderBook) (h : matchWalk side type order inner fuel b = some b1) :
    b1.order_id_counter = b.order_id_counter := by
  refine (matchWalk_rule side type order inner
    (fun x => x.order_id_counter = b.order_id_counter)
    (fun x => x.order_id_counter = b.order_id_counter)
    (fun _ _ _ _ hI _ _ _ => hI) ?_ ?_ fuel b b1 rfl h).1
  · intro x price level rest opp tl hJ _ _ _
    rw [matchStep_counter]; exact hJ
  · intro x price level rest hJ _ _
    rw [eraseEmptyFront_counter]; exact hJ

theorem markPartialFill_counter (b : OrderBook) (order : Ptr) :
    (markPartialFill b order).order_id_counter = b.order_id_counter := by
  unfold markPartialFill
  split_ifs <;> rfl

theorem restOrder_counter (b : OrderBook) (order : Ptr) :
    (restOrder b order).order_id_counter = b.order_id_counter := by
  unfold restOrder
  cases (b.heap order).side <;> rfl

theorem finalize_counter (type : OrderType) (b : OrderBook) (order : Ptr) :
    (finalize type b order).order_id_counter = b.order_id_counter := by
  cases type <;> simp only [finalize] <;> split_ifs <;>
    simp [markPartialFill_counter, restOrder_counter, finishFilled]

theorem add_order_counter (fuel : Nat) (b : OrderBook) (side : Side) (type : OrderType)
    (price : Price) (quantity : Nat) (r : Nat × OrderBook)
    (h : add_order fuel b side type price quantity = some r) :
    r.1 = b.order_id_counter ∧ r.2.order_id_counter = add64 b.order_id_counter 1 := by
  obtain ⟨b1, hw, rfl⟩ := add_order_eq fuel b side type price quantity r h
  refine ⟨rfl, ?_⟩
  have := matchWalk_counter side type _ fuel fuel _ b1 hw
  simp only [countOrder, finalize_counter, this]
  rfl

theorem cancel_order_counter (b : OrderBook) (order_id : Nat) :
    (cancel_order b order_id).2.order_id_counter = b.order_id_counter := by
  unfold cancel_order
  split
  · rfl
  · split_ifs <;> rfl

/-- After `n` submissions the id counter holds `n + 1` modulo `2 ^ 64`. -/
theorem history_counter {qs : List Nat} {b : OrderBook} (h : History qs b) :
    b.order_id_counter = (qs.length + 1) % U64 := by
  induction h with
  | init => simp [OrderBook.new, U64]
  | add fuel side type price quantity _ _ hadd ih =>
    rw [(add_order_counter fuel _ side type price quantity _ hadd).2, ih, add64,
      List.length_append, List.length_singleton, Nat.mod_add_mod]
  | cancel order_id _ ih => rw [cancel_order_counter, ih]

/-- C9. Monotonic ids: on a freshly constructed book, the k-th call of `add_order`
(`k = qs.length + 1`, below `2 ^ 64`) returns id `k`, whatever its arguments and whatever
`cancel_order` calls are interleaved; and the call does return. -/
theorem monotonic_ids (qs : List Nat) (b : OrderBook) (h : History qs b)
    (hk : qs.length + 1 < U64) (side : Side) (type : OrderType) (price : Price)
    (quantity : Nat) (hq : quantity < U64) :
    (∀ fuel r, add_order fuel b side type price quantity = some r → r.1 = qs.length + 1) ∧
      ∃ fuel r, add_order fuel b side type price quantity = some r := by
  constructor
  · intro fuel r hr
    rw [(add_order_counter fuel b side type price quantity r hr).1, history_counter h,
      Nat.mod_eq_of_lt hk]
  · obtain ⟨r, hr⟩ := add_order_total ((restingPtrs b).length + 1) b side type price quantity
      (history_inv h) hq (Nat.lt_succ_self _)
    exact ⟨_, r, hr⟩

theorem monotonic_ids_witness :
    History [100] bookA ∧ [100].length + 1 < U64 ∧ 150 < U64 ∧
      (∀ fuel r, add_order fuel bookA .SELL .LIMIT 151 150 = some r → r.1 = 2) ∧
      ∃ fuel r, add_order fuel bookA .SELL .LIMIT 151 150 = some r :=
  ⟨history_bookA, by decide, by decide,
    monotonic_ids [100] bookA history_bookA (by decide) .SELL .LIMIT 151 150 (by decide)⟩

/-! ## Market orders -/

theorem mem_restingPtrs (side : Side) (b : OrderBook) (p : Ptr) :
    p ∈ restingPtrs b ↔
      p ∈ levelPtrs (ownIndex side b) ∨ p ∈ levelPtrs (oppIndex side b) := by
  cases side <;> simp [restingPtrs, ownIndex, oppIndex, or_comm]

theorem finalize_market_bids (b : OrderBook) (order : Ptr) :
    (finalize .MARKET b order).bids = b.bids := by
  simp only [finalize]
  split_ifs
  · rfl
  · exact markPartialFill_bids b order

theorem finalize_market_asks (b : OrderBook) (order : Ptr) :
    (finalize .MARKET b order).asks = b.asks := by
  simp only [finalize]
  split_ifs
  · rfl
  · exact markPartialFill_asks b order

theorem finalize_market_ownIndex (side : Side) (b : OrderBook) (order : Ptr) :
    ownIndex side (finalize .MARKET b order) = ownIndex side b := by
  cases side
  · exact finalize_market_bids b order
  · exact finalize_market_asks b order

theorem finalize_market_oppIndex (side : Side) (b : OrderBook) (order : Ptr) :
    oppIndex side (finalize .MARKET b order) = oppIndex side b := by
  cases side
  · exact finalize_market_asks b order
  · exact finalize_market_bids b order

theorem countOrder_ownIndex (side : Side) (b : OrderBook) :
    ownIndex side (countOrder b) = ownIndex side b := by
  cases side <;> rfl

theorem countOrder_oppIndex (side : Side) (b : OrderBook) :
    oppIndex side (countOrder b) = oppIndex side b := by
  cases side <;> rfl

/-- Every enqueued order is a limit order, in every book that satisfies the invariant. -/
theorem inv_resting_limit (b : OrderBook) (hI : Inv b) (p : Ptr) (hp : p ∈ restingPtrs b) :
    (b.heap p).type = .LIMIT := by
  rcases (mem_restingPtrs .BUY b p).1 hp with h | h
  · obtain ⟨e, he, hpe⟩ := mem_levelPtrs.1 h
    exact ((hI.1.own_ok e he).2 p hpe).2.1
  · obtain ⟨e, he, hpe⟩ := mem_levelPtrs.1 h
    exact ((hI.1.opp_ok e he).2 p hpe).2.1

/-- C10. Market orders never rest: in every reachable book no order of type `MARKET` is
enqueued at a price level; a call `add_order(side, MARKET, price, q)` returns, and when it has
returned the submitting side's index is exactly what it was before the call, the submitted
order is enqueued at no level, and again no enqueued order is a market order. -/
theorem market_orders_never_rest (b : OrderBook) (hr : Reachable b) (side : Side)
    (price : Price) (q : Nat) (hq : q < U64) :
    (∀ p ∈ restingPtrs b, (b.heap p).type ≠ .MARKET) ∧
    (∃ fuel r, add_order fuel b side .MARKET price q = some r) ∧
    ∀ fuel r, add_order fuel b side .MARKET price q = some r →
      ownIndex side r.2 = ownIndex side b ∧
      b.pool.allocate.1 ∉ restingPtrs r.2 ∧
      ∀ p ∈ restingPtrs r.2, (r.2.heap p).type ≠ .MARKET := by
  obtain ⟨qs, hh⟩ := hr
  have hI := history_inv hh
  refine ⟨fun p hp => by rw [inv_resting_limit b hI p hp]; decide, ?_, ?_⟩
  · obtain ⟨r, hr⟩ := add_order_total ((restingPtrs b).length + 1) b side .MARKET price q hI hq
      (Nat.lt_succ_self _)
    exact ⟨_, r, hr⟩
  · intro fuel r hadd
    have hI2 := inv_add_order fuel b side .MARKET price q r hI hq hadd
    obtain ⟨b1, hw, rfl⟩ := add_order_eq fuel b side .MARKET price q r hadd
    have h0 := outerInv_register_order b side .MARKET price q hI hq
    have h1 := matchWalk_outerInv side .MARKET _ fuel fuel _ b1 h0 hw
    have hf := (matchWalk_frame side .MARKET _ fuel fuel _ b1 hw).1
    refine ⟨?_, ?_, fun p hp => by rw [inv_resting_limit _ hI2 p hp]; decide⟩
    · simp only [countOrder_ownIndex, finalize_market_ownIndex]
      rw [hf.1, register_order_ownIndex]
    · rw [mem_restingPtrs side]
      simp only [countOrder_ownIndex, finalize_market_ownIndex, countOrder_oppIndex,
        finalize_market_oppIndex, not_or]
      exact ⟨h1.2.1.not_own, h1.2.1.not_opp⟩


theorem px14950_eq : px14950 = 149.5 := by
  show Price.num _ = Price.num (149.5 : ℚ)
  congr 1
  rw [← Rat.num_div_den (⟨299, 2, by decide, by decide⟩ : ℚ)]
  show ((299 : ℤ) : ℚ) / ((2 : ℕ) : ℚ) = 149.5
  norm_num

theorem px15150_eq : px15150 = 151.5 := by
  show Price.num _ = Price.num (151.5 : ℚ)
  congr 1
  rw [← Rat.num_div_den (⟨303, 2, by decide, by decide⟩ : ℚ)]
  show ((303 : ℤ) : ℚ) / ((2 : ℕ) : ℚ) = 151.5
  norm_num

theorem demo_calls :
    add_order 4 OrderBook.new .BUY .LIMIT 150 100 = some (1, demo1) ∧
    add_order 4 demo1 .BUY .LIMIT px14950 200 = some (2, demo2) ∧
    add_order 4 demo2 .SELL .LIMIT 151 150 = some (3, demo3) ∧
    add_order 4 demo3 .SELL .LIMIT px15150 100 = some (4, demo4) ∧
    add_order 4 demo4 .BUY .MARKET 0 120 = some (5, demo5) ∧
    add_order 4 demo5 .SELL .LIMIT 149 150 = some (6, demo6) :=
  ⟨by rfl, by rfl, by rfl, by rfl, by rfl, by rfl⟩

theorem nan_calls :
    add_order 4 OrderBook.new .SELL .LIMIT 100 30 = some (1, stack1) ∧
    add_order 4 stack1 .SELL .LIMIT .nan 10 = some (2, nan1) ∧
    add_order 4 nan1 .BUY .LIMIT 100 35 = some (3, nan2) ∧
    add_order 4 stack1 .BUY .LIMIT .nan 10 = some (2, nan3) ∧
    add_order 4 OrderBook.new .SELL .LIMIT .nan 10 = some (1, nan4) ∧
    add_order 4 nan4 .SELL .LIMIT 100 10 = some (2, nan5) ∧
    add_order 4 nan5 .BUY .MARKET 0 20 = some (3, nan6) ∧
    add_order 4 nan4 .BUY .LIMIT 100 10 = some (2, nan7) :=
  ⟨by rfl, by rfl, by rfl, by rfl, by rfl, by rfl, by rfl, by rfl⟩

theorem history_stack1 : History [30] stack1 :=
  History.add 4 .SELL .LIMIT 100 30 History.init (by decide) nan_calls.1

theorem history_nan1 : History [30, 10] nan1 :=
  History.add 4 .SELL .LIMIT .nan 10 history_stack1 (by decide) nan_calls.2.1

theorem history_nan4 : History [10] nan4 :=
  History.add 4 .SELL .LIMIT .nan 10 History.init (by decide) nan_calls.2.2.2.2.1

theorem history_nan5 : History [10, 10] nan5 :=
  History.add 4 .SELL .LIMIT 100 10 history_nan4 (by decide) nan_calls.2.2.2.2.2.1

/-- C4 (as stated, refuted). After the five calls of Scenarios 1 and 2, the call
`add_order(SELL, LIMIT, 149.00, 150)` does not append exactly one trade, and afterwards
`get_bid_volume(149.50)` is not 50. -/
theorem scenario3_counterexample :
    ∃ r, add_order 4 demo5 .SELL .LIMIT 149 150 = some r ∧
      (¬ ∃ t, r.2.trades = demo5.trades ++ [t]) ∧ get_bid_volume r.2 149.5 ≠ 50 := by
  refine ⟨(6, demo6), demo_calls.2.2.2.2.2, ?_, ?_⟩
  · rintro ⟨t, ht⟩
    have h1 := congrArg List.length ht
    have h2 : demo6.trades.length = 3 := by decide
    have h3 : demo5.trades.length = 1 := by decide
    simp only [List.length_append, List.length_singleton] at h1
    omega
  · rw [← px14950_eq]
    decide

/-- C4 (amended). Starting from an empty book, after `add_order(BUY, LIMIT, 150.00, 100)`,
`add_order(BUY, LIMIT, 149.50, 200)`, `add_order(SELL, LIMIT, 151.00, 150)`,
`add_order(SELL, LIMIT, 151.50, 100)` and `add_order(BUY, MARKET, 0, 120)`, the call
`add_order(SELL, LIMIT, 149.00, 150)` returns id 6 and appends exactly two trades: 100 at
150.00 against buy order 1, then 50 at 149.50 against buy order 2. The sell order is fully
filled, marked filled and enqueued at no level (the ask index is unchanged); afterwards
`get_best_bid() = 149.50` and `get_bid_volume(149.50) = 150`. -/
theorem scenario3_outcome :
    add_order 4 OrderBook.new .BUY .LIMIT 150 100 = some (1, demo1) ∧
    add_order 4 demo1 .BUY .LIMIT 149.5 200 = some (2, demo2) ∧
    add_order 4 demo2 .SELL .LIMIT 151 150 = some (3, demo3) ∧
    add_order 4 demo3 .SELL .LIMIT 151.5 100 = some (4, demo4) ∧
    add_order 4 demo4 .BUY .MARKET 0 120 = some (5, demo5) ∧
    add_order 4 demo5 .SELL .LIMIT 149 150 = some (6, demo6) ∧
    demo6.trades = demo5.trades ++ [⟨1, 6, 150, 100⟩, ⟨2, 6, 149.5, 50⟩] ∧
    (demo6.heap demo5.pool.allocate.1).id = 6 ∧
    (demo6.heap demo5.pool.allocate.1).filled_quantity = 150 ∧
    (demo6.heap demo5.pool.allocate.1).status = OrderStatus.FILLED ∧
    demo5.pool.allocate.1 ∉ restingPtrs demo6 ∧
    demo6.asks = demo5.asks ∧
    get_best_bid demo6 = 149.5 ∧ get_bid_volume demo6 149.5 = 150 := by
  rw [← px14950_eq, ← px15150_eq]
  obtain ⟨h1, h2, h3, h4, h5, h6⟩ := demo_calls
  exact ⟨h1, h2, h3, h4, h5, h6, by decide, by decide, by decide, by decide, by decide,
    by decide, by decide, by decide⟩

/-! ## The trade log -/

theorem heapModify_id (heap : Ptr → Order) (p : Ptr) (f : Order → Order)
    (hf : ∀ o, (f o).static = o.static) (q : Ptr) :
    (heapModify heap p f q).id = (heap q).id :=
  ((static_eq_iff _ _).1 (heapModify_static heap p f hf q)).1

theorem execute_trade_trades (b : OrderBook) (x y : Ptr) (price : Price) (q : Nat) :
    (execute_trade b x y price q).trades =
      b.trades ++ [⟨(b.heap x).id, (b.heap y).id, price, q⟩] := by
  have h1 : ∀ o : Order,
      ({ o with filled_quantity := add64 o.filled_quantity q } : Order).static = o.static :=
    fun _ => rfl
  simp only [execute_trade]
  rw [heapModify_id _ _ _ h1, heapModify_id _ _ _ h1, heapModify_id _ _ _ h1,
    heapModify_id _ _ _ h1]

/-- One loop body appends exactly one trade: at the key of the level at `begin()`, for the
computed trade quantity, between the incoming order and the front order. -/
theorem tradeBook_trades (side : Side) (order : Ptr) (price : Price) (opp : Ptr)
    (b : OrderBook) :
    (tradeBook side order price opp b).trades =
      b.trades ++ [mkTrade side (b.heap order).id (b.heap opp).id price
        (tradeQty b order opp)] := by
  cases side <;> simp [tradeBook, execute_trade_trades, mkTrade]

@[simp] theorem mkTrade_price (side : Side) (i j : Nat) (price : Price) (q : Nat) :
    (mkTrade side i j price q).price = price := by
  cases side <;> rfl

@[simp] theorem mkTrade_quantity (side : Side) (i j : Nat) (price : Price) (q : Nat) :
    (mkTrade side i j price q).quantity = q := by
  cases side <;> rfl

@[simp] theorem mkTrade_resting_id (side : Side) (i j : Nat) (price : Price) (q : Nat) :
    (mkTrade side i j price q).resting_id side = j := by
  cases side <;> rfl

@[simp] theorem mkTrade_incoming_id (side : Side) (i j : Nat) (price : Price) (q : Nat) :
    (mkTrade side i j price q).incoming_id side = i := by
  cases side <;> rfl

theorem markPartialFill_trades (b : OrderBook) (order : Ptr) :
    (markPartialFill b order).trades = b.trades := by
  unfold markPartialFill
  split_ifs <;> rfl

theorem finalize_trades (type : OrderType) (b : OrderBook) (order : Ptr) :
    (finalize type b order).trades = b.trades := by
  cases type <;> simp only [finalize] <;> split_ifs <;>
    simp [markPartialFill_trades, finishFilled]

theorem finalize_oppIndex (side : Side) (type : OrderType) (b : OrderBook) (order : Ptr)
    (hs : (b.heap order).side = side) :
    oppIndex side (finalize type b order) = oppIndex side b := by
  have hm : ∀ x : OrderBook, oppIndex side (markPartialFill x order) = oppIndex side x :=
    fun x => statusOnly_oppIndex side (statusOnly_markPartialFill x order)
  cases type <;> simp only [finalize] <;> split_ifs
  · exact finishFilled_oppIndex side b order
  · exact hm b
  · rw [hm, restOrder_oppIndex b order side hs]
  · exact finishFilled_oppIndex side b order

/-! ## Price priority -/

theorem better_irrefl (side : Side) (a : Price) : ¬ better side a a := by
  cases side <;> exact Price.lt_irrefl a

theorem better_asymm (side : Side) {a b : Price} (h : better side a b) : ¬ better side b a := by
  cases side <;> exact Price.lt_asymm h

theorem priceTrace_matchStep (side : Side) (order : Ptr) (b x : OrderBook) (price : Price)
    (level : PriceLevel) (rest : Index) (opp : Ptr) (h : PriceTrace side b x)
    (ho : oppIndex side x = (price, level) :: rest) :
    PriceTrace side b (matchStep side order price level rest opp x) := by
  obtain ⟨h1, h2, ts, h3, h4, h5, h6⟩ := h
  obtain ⟨l1, e1, _, _⟩ := matchStep_oppIndex side order price level rest opp x
  have hk : keys (oppIndex side (matchStep side order price level rest opp x)) =
      keys (oppIndex side x) := by rw [e1, ho]; rfl
  have hhead : price ∈ keys (oppIndex side x) := by rw [ho]; simp [keys]
  refine ⟨by rw [hk]; exact h1, by rw [hk]; exact h2,
    ts ++ [mkTrade side (x.heap order).id (x.heap opp).id price (tradeQty x order opp)],
    ?_, ?_, ?_, ?_⟩
  · rw [matchStep_trades, tradeBook_trades, h3, List.append_assoc]
  · rw [List.pairwise_append]
    refine ⟨h4, List.pairwise_singleton _ _, ?_⟩
    intro t ht t1 ht1
    rw [List.mem_singleton.1 ht1, mkTrade_price]
    exact h6 t ht price hhead
  · intro t ht
    rcases List.mem_append.1 ht with ht | ht
    · exact h5 t ht
    · rw [List.mem_singleton.1 ht, mkTrade_price]
      exact h2.subset hhead
  · intro t ht k hkm
    rw [hk] at hkm
    rcases List.mem_append.1 ht with ht | ht
    · exact h6 t ht k hkm
    · rw [List.mem_singleton.1 ht, mkTrade_price]
      rw [ho] at hkm h1
      simp only [keys, List.map_cons, List.mem_cons, List.pairwise_cons] at hkm h1
      rcases hkm with rfl | hkm
      · exact better_irrefl side _
      · exact better_asymm side (h1.1 k hkm)

theorem priceTrace_eraseEmptyFront (side : Side) (b x : OrderBook) (h : PriceTrace side b x) :
    PriceTrace side b (eraseEmptyFront side x) := by
  obtain ⟨h1, h2, ts, h3, h4, h5, h6⟩ := h
  have hsub : keys (oppIndex side (eraseEmptyFront side x)) <:+ keys (oppIndex side x) := by
    cases ho : oppIndex side x with
    | nil =>
      have : eraseEmptyFront side x = x := by unfold eraseEmptyFront; rw [ho]
      rw [this, ho]
    | cons e rest =>
      obtain ⟨price, level⟩ := e
      rw [eraseEmptyFront_oppIndex side x price level rest ho]
      split_ifs
      · exact List.suffix_cons _ _
      · exact List.suffix_refl _
  exact ⟨h1.sublist hsub.sublist, hsub.trans h2, ts, by rw [eraseEmptyFront_trades, h3], h4, h5,
    fun t ht k hk => h6 t ht k (hsub.subset hk)⟩

theorem matchWalk_priceTrace (side : Side) (type : OrderType) (order : Ptr) (inner fuel : Nat)
    (b b1 : OrderBook) (hs : (keys (oppIndex side b)).Pairwise (better side))
    (h : matchWalk side type order inner fuel b = some b1) : PriceTrace side b b1 := by
  refine (matchWalk_rule side type order inner (PriceTrace side b) (PriceTrace side b)
    (fun _ _ _ _ hI _ _ _ => hI) ?_ ?_ fuel b b1 ?_ h).1
  · intro x price level rest opp tl hJ ho _ _
    exact priceTrace_matchStep side order b x price level rest opp hJ ho
  · intro x price level rest hJ _ _
    exact priceTrace_eraseEmptyFront side b x hJ
  · exact ⟨hs, List.suffix_refl _, [], by simp, List.Pairwise.nil, by simp, by simp⟩

theorem history_demo4 : History [100, 200, 150, 100] demo4 := by
  obtain ⟨h1, h2, h3, h4, _, _⟩ := demo_calls
  have a1 := History.add 4 .BUY .LIMIT 150 100 History.init (by decide) h1
  have a2 := History.add 4 .BUY .LIMIT px14950 200 a1 (by decide) h2
  have a3 := History.add 4 .SELL .LIMIT 151 150 a2 (by decide) h3
  exact History.add 4 .SELL .LIMIT px15150 100 a3 (by decide) h4

theorem history_demo5 : History [100, 200, 150, 100, 120] demo5 :=
  History.add 4 .BUY .MARKET 0 120 history_demo4 (by decide) demo_calls.2.2.2.2.1

theorem market_orders_never_rest_witness :
    Reachable demo4 ∧ 120 < U64 ∧
    add_order 4 demo4 .BUY .MARKET 0 120 = some (5, demo5) ∧
    (∀ p ∈ restingPtrs demo4, (demo4.heap p).type ≠ .MARKET) ∧
    ownIndex .BUY demo5 = ownIndex .BUY demo4 ∧
    demo4.pool.allocate.1 ∉ restingPtrs demo5 ∧
    ∀ p ∈ restingPtrs demo5, (demo5.heap p).type ≠ .MARKET :=
  ⟨⟨_, history_demo4⟩, by decide, demo_calls.2.2.2.2.1,
    (market_orders_never_rest demo4 ⟨_, history_demo4⟩ .BUY 0 120 (by decide)).1,
    (market_orders_never_rest demo4 ⟨_, history_demo4⟩ .BUY 0 120 (by decide)).2.2 4 (5, demo5)
      demo_calls.2.2.2.2.1⟩

theorem add_order_trades (type : OrderType) (b1 : OrderBook) (order : Ptr) :
    (countOrder (finalize type b1 order)).trades = b1.trades := by
  simp [countOrder, finalize_trades]

/-! ## The matching walk against its specification -/

theorem flat_cons (e : Price × PriceLevel) (m : Index) :
    flat (e :: m) = e.2.orders.map (fun p => (e.1, p)) ++ flat m := by
  simp [flat]

theorem flat_snd (m : Index) : (flat m).map Prod.snd = levelPtrs m := by
  induction m with
  | nil => rfl
  | cons e rest ih =>
    rw [flat_cons, levelPtrs_cons, List.map_append, ih]
    simp [Function.comp_def]

theorem mem_flat_levelPtrs {m : Index} {kp : Price × Ptr} (h : kp ∈ flat m) :
    kp.2 ∈ levelPtrs m := by
  rw [← flat_snd]
  exact List.mem_map_of_mem _ h

theorem fills_zero (heap : Ptr → Order) (stop : Price → Bool) (l : List (Price × Ptr)) :
    fills heap stop 0 l = [] := by
  cases l with
  | nil => rfl
  | cons e rest => obtain ⟨k, p⟩ := e; simp [fills]

theorem fills_congr (h1 h2 : Ptr → Order) (stop : Price → Bool) (l : List (Price × Ptr)) :
    ∀ rem, (∀ kp ∈ l, (h1 kp.2).remaining = (h2 kp.2).remaining) →
      fills h1 stop rem l = fills h2 stop rem l := by
  induction l with
  | nil => intro rem _; rfl
  | cons e rest ih =>
    intro rem h
    obtain ⟨k, p⟩ := e
    have hp : (h1 p).remaining = (h2 p).remaining := h (k, p) (List.mem_cons_self _ _)
    simp only [fills, hp]
    rw [ih _ (fun kp hkp => h kp (List.mem_cons_of_mem _ hkp))]

theorem mem_fills {heap : Ptr → Order} {stop : Price → Bool} {l : List (Price × Ptr)} :
    ∀ {rem : Nat} {f : Price × Ptr × Nat}, f ∈ fills heap stop rem l → (f.1, f.2.1) ∈ l := by
  induction l with
  | nil => intro rem f h; simp [fills] at h
  | cons e rest ih =>
    intro rem f h
    obtain ⟨k, p⟩ := e
    simp only [fills] at h
    split_ifs at h
    · simp at h
    · rcases List.mem_cons.1 h with rfl | h1
      · exact List.mem_cons_self _ _
      · exact List.mem_cons_of_mem _ (ih h1)

theorem remaining_eq_of_static {o o1 : Order} (hs : o1.static = o.static)
    (hf : o1.filled_quantity = o.filled_quantity) : o1.remaining = o.remaining := by
  unfold Order.remaining
  rw [hf, ((static_eq_iff _ _).1 hs).2.2.2.2]

/-- One loop body appends the first pending trade and leaves the others pending. -/
theorem pending_matchStep (side : Side) (type : OrderType) (order : Ptr) (x : OrderBook)
    (price : Price) (level : PriceLevel) (rest : Index) (opp : Ptr) (tl : List Ptr)
    (hW : WfFor side x) (hL : Live side order x)
    (ho : oppIndex side x = (price, level) :: rest) (hl : level.orders = opp :: tl)
    (hc : (x.heap order).filled_quantity < (x.heap order).quantity)
    (hstop : crossStop side type (x.heap order).price price = false) :
    (matchStep side order price level rest opp x).trades ++
        pending side type order (matchStep side order price level rest opp x) =
      x.trades ++ pending side type order x := by
  have hptrs : levelPtrs (oppIndex side x) = opp :: (tl ++ levelPtrs rest) := by
    rw [ho, levelPtrs_cons]; simp [hl]
  have hopp_mem : opp ∈ levelPtrs (oppIndex side x) := by rw [hptrs]; simp
  have hne : order ≠ opp := fun h => hL.not_opp (h ▸ hopp_mem)
  have hR : RestingOK side.flip price (x.heap opp) :=
    (hW.opp_ok _ (by rw [ho]; exact List.mem_cons_self _ _)).2 opp (by rw [hl]; simp)
  obtain ⟨hq, hpos, hfo, hfp, hleo, hlep, hex⟩ :=
    trade_arith side order price opp x hne hc hL.quantity_lt hR.2.2.2.1 hR.2.2.2.2
  have hstat := tradeBook_static side order price opp x
  have hoth := tradeBook_heap_other side order price opp x
  have hso := (static_eq_iff _ _).1 (hstat order)
  have hsp := (static_eq_iff _ _).1 (hstat opp)
  have hnd := hW.nodup
  rw [hptrs, List.nodup_middle, List.nodup_cons] at hnd
  have hopp_tl : opp ∉ tl ++ levelPtrs rest := fun h => hnd.1 (List.mem_append_right _ h)
  have hflat : flat (oppIndex side x) =
      (price, opp) :: (tl.map (fun p => (price, p)) ++ flat rest) := by
    rw [ho, flat_cons]; simp [hl]
  have hF : ∀ kp ∈ tl.map (fun p => (price, p)) ++ flat rest, kp.2 ≠ order ∧ kp.2 ≠ opp := by
    intro kp hkp
    have hm : kp.2 ∈ tl ++ levelPtrs rest := by
      rcases List.mem_append.1 hkp with h | h
      · obtain ⟨p, hp, rfl⟩ := List.mem_map.1 h
        exact List.mem_append_left _ hp
      · exact List.mem_append_right _ (mem_flat_levelPtrs h)
    exact ⟨fun h => hL.not_opp (by rw [hptrs]; exact List.mem_cons_of_mem _ (h ▸ hm)),
      fun h => hopp_tl (h ▸ hm)⟩
  have hrem : ((tradeBook side order price opp x).heap order).remaining =
      (x.heap order).remaining - tradeQty x order opp := by
    unfold Order.remaining
    rw [hfo, hso.2.2.2.2]
    omega
  -- the pending trades before the step
  have hpend : pending side type order x =
      mkTrade side (x.heap order).id (x.heap opp).id price (tradeQty x order opp) ::
        (fills x.heap (crossStop side type (x.heap order).price)
          ((x.heap order).remaining - tradeQty x order opp)
          (tl.map (fun p => (price, p)) ++ flat rest)).map
          (fun f => mkTrade side (x.heap order).id (x.heap f.2.1).id f.1 f.2.2) := by
    have hr : (x.heap order).remaining ≠ 0 := by unfold Order.remaining; omega
    simp only [pending, hflat, fills, hstop, hr, false_or, Bool.false_eq_true, if_false,
      List.map_cons, ← hq]
  rw [hpend, matchStep_trades, tradeBook_trades, List.append_assoc, List.singleton_append]
  congr 2
  -- the pending trades after the step
  simp only [pending, matchStep_heap, hrem, hso.1, hso.2.2.2.1]
  simp only [matchStep]
  split_ifs with hfill
  · have hfl : flat (oppIndex side (setOppIndex side (evict (tradeBook side order price opp x) opp)
        ((price, (level.update_volume_after_fill (tradeQty x order opp)).remove_front) :: rest))) =
        tl.map (fun p => (price, p)) ++ flat rest := by
      rw [oppIndex_setOppIndex, flat_cons]
      simp [hl]
    rw [hfl, fills_congr (tradeBook side order price opp x).heap x.heap _ _ _
      (fun kp hkp => by rw [hoth kp.2 (hF kp hkp).1 (hF kp hkp).2])]
    refine List.map_congr_left (fun f hf => ?_)
    have := hF _ (mem_fills hf)
    rw [hoth f.2.1 this.1 this.2]
  · have hz : (x.heap order).remaining - tradeQty x order opp = 0 := by
      rcases hex with h | h
      · exact absurd (h.trans hsp.2.2.2.2.symm) hfill
      · unfold Order.remaining; rw [hfo] at h; omega
    rw [hz, fills_zero, fills_zero]
    rfl

theorem flat_eraseEmptyFront (side : Side) (x : OrderBook) :
    flat (oppIndex side (eraseEmptyFront side x)) = flat (oppIndex side x) := by
  cases ho : oppIndex side x with
  | nil =>
    have : eraseEmptyFront side x = x := by unfold eraseEmptyFront; rw [ho]
    rw [this, ho]
  | cons e rest =>
    obtain ⟨price, level⟩ := e
    rw [eraseEmptyFront_oppIndex side x price level rest ho]
    split_ifs with he
    · simp [flat_cons, he]
    · rfl

theorem pending_eraseEmptyFront (side : Side) (type : OrderType) (order : Ptr) (x : OrderBook) :
    pending side type order (eraseEmptyFront side x) = pending side type order x := by
  simp only [pending, eraseEmptyFront_heap, flat_eraseEmptyFront]

/-- Nothing is pending when the walk stops. -/
theorem pending_exit (side : Side) (type : OrderType) (order : Ptr) (x : OrderBook)
    (hL : Live side order x) (hN : OuterLevels side x)
    (hex : oppIndex side x = [] ∨
      ¬ (x.heap order).filled_quantity < (x.heap order).quantity ∨
      ∃ price level rest, oppIndex side x = (price, level) :: rest ∧
        crossStop side type (x.heap order).price price = true) :
    pending side type order x = [] := by
  unfold pending
  rcases hex with h | h | ⟨price, level, rest, h, hx⟩
  · rw [h]; rfl
  · have : (x.heap order).remaining = 0 := by
      have := hL.filled_le
      unfold Order.remaining
      omega
    rw [this, fills_zero]; rfl
  · have hne : level.orders ≠ [] := hN.2 (price, level) (by rw [h]; exact List.mem_cons_self _ _)
    obtain ⟨p, tl, hl⟩ := List.exists_cons_of_ne_nil hne
    rw [h, flat_cons]
    simp [hl, fills, hx]

theorem matchWalk_refines (side : Side) (type : OrderType) (order : Ptr) (inner fuel : Nat)
    (b b1 : OrderBook) (hI : OuterInv side order b)
    (h : matchWalk side type order inner fuel b = some b1) :
    b1.trades = b.trades ++ pending side type order b := by
  have key := matchWalk_rule side type order inner
    (fun x => OuterInv side order x ∧ Refines side type order
      (b.trades ++ pending side type order b) x)
    (fun x => InnerInv side order x ∧
      (∀ price level rest, oppIndex side x = (price, level) :: rest →
        crossStop side type (x.heap order).price price = false) ∧
      Refines side type order (b.trades ++ pending side type order b) x)
    ?_ ?_ ?_ fuel b b1 ⟨hI, rfl⟩ h
  · obtain ⟨⟨hO, hR⟩, hex⟩ := key
    have := pending_exit side type order b1 hO.2.1 hO.2.2 hex
    unfold Refines at hR
    rw [this, List.append_nil] at hR
    exact hR
  · intro x price level rest hx ho _ hstop
    refine ⟨⟨hx.1.1, hx.1.2.1, outerLevels_inner side x hx.1.2.2⟩, ?_, hx.2⟩
    intro p l r hplr
    rw [ho] at hplr
    simp only [List.cons.injEq, Prod.mk.injEq] at hplr
    rw [← hplr.1.1]
    exact hstop
  · intro x price level rest opp tl hJ ho hl hc
    obtain ⟨hInv, hstop, hR⟩ := hJ
    refine ⟨innerInv_matchStep side order x price level rest opp tl hInv ho hl hc, ?_, ?_⟩
    · intro p l r hplr
      obtain ⟨l1, e1, _, _⟩ := matchStep_oppIndex side order price level rest opp x
      rw [e1] at hplr
      simp only [List.cons.injEq, Prod.mk.injEq] at hplr
      rw [← hplr.1.1, ((static_eq_iff _ _).1 (matchStep_static side order price level rest opp x order)).2.2.2.1]
      exact hstop price level rest ho
    · unfold Refines at hR ⊢
      rw [pending_matchStep side type order x price level rest opp tl hInv.1 hInv.2.1 ho hl hc
        (hstop price level rest ho)]
      exact hR
  · intro x price level rest hJ _ _
    refine ⟨outerInv_eraseEmptyFront side order x hJ.1, ?_⟩
    have := hJ.2.2
    unfold Refines at this ⊢
    rw [eraseEmptyFront_trades, pending_eraseEmptyFront]
    exact this

/-- The trades pending right after the incoming order is registered are the expected
trades of the call. -/
theorem pending_register_order (b : OrderBook) (side : Side) (type : OrderType)
    (price : Price) (quantity : Nat) (hI : Inv b) :
    pending side type b.pool.allocate.1 (register_order b side type price quantity) =
      expectedTrades side type price quantity b := by
  obtain ⟨hW, _⟩ := (inv_iff side b).1 hI
  obtain ⟨_, _, _, _, _, _, _, a8⟩ :=
    allocate_spec b.pool hW.pool_le hW.free_nodup hW.free_issued
  have hne : ∀ kp ∈ flat (oppIndex side b), kp.2 ≠ b.pool.allocate.1 := fun kp hkp =>
    a8 kp.2 (hW.opp_live _ (mem_flat_levelPtrs hkp)).1 (hW.opp_live _ (mem_flat_levelPtrs hkp)).2
  simp only [pending, expectedTrades, register_order_heap_order, register_order_oppIndex]
  have e1 : (Order.new b.order_id_counter side type price quantity).remaining = quantity := rfl
  have e2 : (Order.new b.order_id_counter side type price quantity).price = price := rfl
  have e3 : (Order.new b.order_id_counter side type price quantity).id = b.order_id_counter := rfl
  rw [e1, e2, e3, fills_congr (register_order b side type price quantity).heap b.heap _ _ _
    (fun kp hkp => by rw [register_order_heap_other _ _ _ _ _ _ (hne kp hkp)])]
  refine List.map_congr_left (fun f hf => ?_)
  rw [register_order_heap_other _ _ _ _ _ _ (hne _ (mem_fills hf))]

/-- `add_order` appends exactly the trades that the specification of the matching walk
prescribes. -/
theorem add_order_refines (fuel : Nat) (b : OrderBook) (side : Side) (type : OrderType)
    (price : Price) (quantity : Nat) (r : Nat × OrderBook) (hI : Inv b) (hq : quantity < U64)
    (h : add_order fuel b side type price quantity = some r) :
    r.2.trades = b.trades ++ expectedTrades side type price quantity b := by
  obtain ⟨b1, hw, rfl⟩ := add_order_eq fuel b side type price quantity r h
  have h0 := outerInv_register_order b side type price quantity hI hq
  rw [add_order_trades, matchWalk_refines side type _ fuel fuel _ b1 h0 hw,
    pending_register_order b side type price quantity hI]
  rfl

/-! ## Consequences of the specification of the walk -/

theorem mem_flat {m : Index} {k : Price} {p : Ptr} :
    (k, p) ∈ flat m ↔ ∃ e ∈ m, e.1 = k ∧ p ∈ e.2.orders := by
  simp only [flat, List.mem_flatMap, List.mem_map, Prod.mk.injEq]
  constructor
  · rintro ⟨e, he, q, hq, h1, h2⟩
    exact ⟨e, he, h1, h2 ▸ hq⟩
  · rintro ⟨e, he, h1, h2⟩
    exact ⟨e, he, p, h2, h1, rfl⟩

theorem crossStop_market (side : Side) (a b : Price) : crossStop side .MARKET a b = false := by
  cases side <;> rfl

theorem expectedTrades_market (side : Side) (price price1 : Price) (q : Nat) (b : OrderBook) :
    expectedTrades side .MARKET price1 q b = expectedTrades side .MARKET price q b := by
  unfold expectedTrades
  have : crossStop side .MARKET price1 = crossStop side .MARKET price := by
    funext k
    rw [crossStop_market, crossStop_market]
  rw [this]

/-- C5 (as stated, refuted). After `add_order(SELL, LIMIT, 100, 30)` (id 1) and
`add_order(SELL, LIMIT, NaN, 10)` (id 2, which `find` enqueues at the level keyed 100), the
call `add_order(BUY, LIMIT, 100, 35)` trades 5 at price 100 against order 2, whose limit price
is not-a-number. After `add_order(SELL, LIMIT, NaN, 10)` (id 1, which creates a level keyed
not-a-number) and `add_order(SELL, LIMIT, 100, 10)` (id 2, which `find` enqueues at that
level), the call `add_order(BUY, MARKET, 0, 20)` trades 10 at price not-a-number against
order 2, whose limit price is 100. -/
theorem price_improvement_counterexample :
    (Reachable nan1 ∧ add_order 4 nan1 .BUY .LIMIT 100 35 = some (3, nan2) ∧
      nan2.trades = nan1.trades ++ [⟨3, 1, 100, 30⟩, ⟨3, 2, 100, 5⟩] ∧
      nan1.asks = [(100, ⟨100, 40, [(0, 0), (0, 1)]⟩)] ∧
      (nan1.heap (0, 1)).id = 2 ∧ (nan1.heap (0, 1)).price = .nan ∧
      (100 : Price) ≠ (nan1.heap (0, 1)).price) ∧
    (Reachable nan5 ∧ add_order 4 nan5 .BUY .MARKET 0 20 = some (3, nan6) ∧
      nan6.trades = nan5.trades ++ [⟨3, 1, .nan, 10⟩, ⟨3, 2, .nan, 10⟩] ∧
      nan5.asks = [(.nan, ⟨.nan, 20, [(0, 0), (0, 1)]⟩)] ∧
      (nan5.heap (0, 1)).id = 2 ∧ (nan5.heap (0, 1)).price = 100 ∧
      Price.nan ≠ (nan5.heap (0, 1)).price) :=
  ⟨⟨⟨_, history_nan1⟩, nan_calls.2.2.1, by decide, by decide, by decide, by decide,
      by decide⟩,
    ⟨_, history_nan5⟩, nan_calls.2.2.2.2.2.2.1, by decide, by decide, by decide, by decide,
      by decide⟩

/-- C5 (amended). Price-improvement rule: every trade appended by a call of `add_order` on a
reachable book is made against an order `p` that was enqueued at a level `e` of the opposite
index, and its price is the key of `e`; that key is the limit price of `p` whenever neither
the key nor the limit price of `p` is not-a-number; the other party is the incoming order.
For a market order the appended trades are the same whatever price argument is passed. The
call does return. -/
theorem price_improvement (b : OrderBook) (hr : Reachable b) (side : Side) (type : OrderType)
    (price : Price) (q : Nat) (hq : q < U64) :
    (∃ fuel r, add_order fuel b side type price q = some r) ∧
    ∀ fuel r, add_order fuel b side type price q = some r →
      (∃ ts, r.2.trades = b.trades ++ ts ∧
        ∀ t ∈ ts, ∃ e ∈ oppIndex side b, ∃ p ∈ e.2.orders,
          t.resting_id side = (b.heap p).id ∧ t.incoming_id side = r.1 ∧
          t.price = e.1 ∧
          (e.1 ≠ .nan → (b.heap p).price ≠ .nan → t.price = (b.heap p).price)) ∧
      (type = .MARKET → ∀ price1 fuel1 r1,
        add_order fuel1 b side .MARKET price1 q = some r1 → r1.2.trades = r.2.trades) := by
  obtain ⟨qs, hh⟩ := hr
  have hI := history_inv hh
  obtain ⟨hW, _⟩ := (inv_iff side b).1 hI
  constructor
  · obtain ⟨r, hr⟩ := add_order_total ((restingPtrs b).length + 1) b side type price q hI hq
      (Nat.lt_succ_self _)
    exact ⟨_, r, hr⟩
  · intro fuel r hadd
    have href := add_order_refines fuel b side type price q r hI hq hadd
    have hid := (add_order_counter fuel b side type price q r hadd).1
    refine ⟨⟨_, href, ?_⟩, ?_⟩
    · intro t ht
      obtain ⟨f, hf, rfl⟩ := List.mem_map.1 ht
      obtain ⟨e, he, hk, hp⟩ := mem_flat.1 (mem_fills hf)
      refine ⟨e, he, f.2.1, hp, by simp, by simp [hid], by simp [hk], fun h1 h2 => ?_⟩
      rw [mkTrade_price, Price.eq_of_equiv h2 h1 ((hW.opp_ok e he).2 _ hp).2.2.1, hk]
    · rintro rfl price1 fuel1 r1 hadd1
      rw [href, add_order_refines fuel1 b side .MARKET price1 q r1 hI hq hadd1,
        expectedTrades_market]

theorem price_improvement_witness :
    Reachable demo5 ∧ 150 < U64 ∧
    add_order 4 demo5 .SELL .LIMIT 149 150 = some (6, demo6) ∧
    demo6.trades = demo5.trades ++ [⟨1, 6, 150, 100⟩, ⟨2, 6, px14950, 50⟩] ∧
    (∃ ts, demo6.trades = demo5.trades ++ ts ∧
      ∀ t ∈ ts, ∃ e ∈ oppIndex .SELL demo5, ∃ p ∈ e.2.orders,
        t.resting_id .SELL = (demo5.heap p).id ∧ t.incoming_id .SELL = 6 ∧
        t.price = e.1 ∧
        (e.1 ≠ .nan → (demo5.heap p).price ≠ .nan → t.price = (demo5.heap p).price)) ∧
    (∀ e ∈ oppIndex .SELL demo5, e.1 ≠ .nan ∧ ∀ p ∈ e.2.orders, (demo5.heap p).price ≠ .nan) ∧
    (OrderType.LIMIT = .MARKET → ∀ price1 fuel1 r1,
      add_order fuel1 demo5 .SELL .MARKET price1 150 = some r1 →
        r1.2.trades = demo6.trades) :=
  ⟨⟨_, history_demo5⟩, by decide, demo_calls.2.2.2.2.2, by decide,
    ((price_improvement demo5 ⟨_, history_demo5⟩ .SELL .LIMIT 149 150 (by decide)).2 4
      (6, demo6) demo_calls.2.2.2.2.2).1,
    by decide,
    ((price_improvement demo5 ⟨_, history_demo5⟩ .SELL .LIMIT 149 150 (by decide)).2 4
      (6, demo6) demo_calls.2.2.2.2.2).2⟩

theorem fills_ptrs_sublist (heap : Ptr → Order) (stop : Price → Bool)
    (l : List (Price × Ptr)) :
    ∀ rem, ((fills heap stop rem l).map (fun f => f.2.1)).Sublist (l.map Prod.snd) := by
  induction l with
  | nil => intro rem; simp [fills]
  | cons e rest ih =>
    intro rem
    obtain ⟨k, p⟩ := e
    simp only [fills]
    split_ifs
    · simp
    · simp only [List.map_cons]
      exact (ih _).cons₂ p

/-- Each quantity in the specification of the walk is positive and is the minimum of what
the incoming order still lacks and of the remainder of the resting order. -/
theorem fills_quantity (heap : Ptr → Order) (stop : Price → Bool) (l : List (Price × Ptr)) :
    ∀ (rem : Nat) (pre : List (Price × Ptr × Nat)) (f : Price × Ptr × Nat)
      (post : List (Price × Ptr × Nat)),
      (∀ kp ∈ l, 0 < (heap kp.2).remaining) → fills heap stop rem l = pre ++ f :: post →
      0 < f.2.2 ∧ f.2.2 = min (rem - (pre.map (fun g => g.2.2)).sum) (heap f.2.1).remaining := by
  induction l with
  | nil => intro rem pre f post _ h; simp [fills] at h
  | cons e rest ih =>
    intro rem pre f post hpos h
    obtain ⟨k, p⟩ := e
    simp only [fills] at h
    split_ifs at h with hc
    · simp at h
    · have hrem : rem ≠ 0 := fun h0 => hc (Or.inl h0)
      have hp : 0 < (heap p).remaining := hpos (k, p) (List.mem_cons_self _ _)
      cases pre with
      | nil =>
        simp only [List.nil_append, List.cons.injEq] at h
        rw [← h.1]
        exact ⟨lt_min (Nat.pos_of_ne_zero hrem) hp, by simp⟩
      | cons g pre1 =>
        simp only [List.cons_append, List.cons.injEq] at h
        obtain ⟨h1, h2⟩ := h
        obtain ⟨a1, a2⟩ := ih _ pre1 f post
          (fun kp hkp => hpos kp (List.mem_cons_of_mem _ hkp)) h2
        refine ⟨a1, ?_⟩
        rw [a2, ← h1]
        simp only [List.map_cons, List.sum_cons, Nat.sub_sub]

/-- C8. No overfill. In every reachable book every enqueued order has
`filled_quantity < quantity`, every order of the id index has `filled_quantity ≤ quantity`,
and for both the machine subtraction `quantity - filled_quantity` does not wrap. A call of
`add_order` returns, and it appends one trade per entry of a list `fs` of distinct resting
orders of the opposite index; the quantity of each trade is positive and is the minimum of the
incoming order's remainder immediately before the trade (its quantity minus the quantities
of the earlier trades of the call) and of the resting order's remainder (which is still the
one it had before the call, as no earlier trade of the call was made against it). -/
theorem no_overfill (b : OrderBook) (hr : Reachable b) :
    (∀ p ∈ restingPtrs b, (b.heap p).filled_quantity < (b.heap p).quantity ∧
      sub64 (b.heap p).quantity (b.heap p).filled_quantity =
        (b.heap p).quantity - (b.heap p).filled_quantity) ∧
    (∀ k x, b.orders k = some x → (b.heap x).filled_quantity ≤ (b.heap x).quantity ∧
      sub64 (b.heap x).quantity (b.heap x).filled_quantity =
        (b.heap x).quantity - (b.heap x).filled_quantity) ∧
    ∀ (side : Side) (type : OrderType) (price : Price) (q : Nat), q < U64 →
      (∃ fuel r, add_order fuel b side type price q = some r) ∧
      ∀ fuel r, add_order fuel b side type price q = some r →
        ∃ fs : List (Price × Ptr × Nat),
          r.2.trades = b.trades ++
            fs.map (fun f => mkTrade side r.1 (b.heap f.2.1).id f.1 f.2.2) ∧
          (fs.map (fun f => f.2.1)).Nodup ∧
          (∀ f ∈ fs, f.2.1 ∈ levelPtrs (oppIndex side b)) ∧
          ∀ pre f post, fs = pre ++ f :: post →
            0 < f.2.2 ∧
            f.2.2 = min (q - (pre.map (fun g => g.2.2)).sum)
              ((b.heap f.2.1).quantity - (b.heap f.2.1).filled_quantity) := by
  obtain ⟨qs, hh⟩ := hr
  have hI := history_inv hh
  refine ⟨?_, ?_, ?_⟩
  · intro p hp
    have hR : ∃ s k, RestingOK s k (b.heap p) := by
      rcases (mem_restingPtrs .BUY b p).1 hp with h | h
      · obtain ⟨e, he, hpe⟩ := mem_levelPtrs.1 h
        exact ⟨_, _, (hI.1.own_ok e he).2 p hpe⟩
      · obtain ⟨e, he, hpe⟩ := mem_levelPtrs.1 h
        exact ⟨_, _, (hI.1.opp_ok e he).2 p hpe⟩
    obtain ⟨s, k, hR⟩ := hR
    exact ⟨hR.2.2.2.1, sub64_eq (le_of_lt hR.2.2.2.1) hR.2.2.2.2⟩
  · intro k x hx
    obtain ⟨_, _, _, i4, i5⟩ := hI.1.index_ok k x hx
    exact ⟨i4, sub64_eq i4 i5⟩
  · intro side type price q hq
    refine ⟨⟨_, add_order_total ((restingPtrs b).length + 1) b side type price q hI hq
      (Nat.lt_succ_self _)⟩, ?_⟩
    intro fuel r hadd
    obtain ⟨hW, _⟩ := (inv_iff side b).1 hI
    have href := add_order_refines fuel b side type price q r hI hq hadd
    have hid := (add_order_counter fuel b side type price q r hadd).1
    refine ⟨fills b.heap (crossStop side type price) q (flat (oppIndex side b)), ?_, ?_, ?_, ?_⟩
    · rw [href, hid]; rfl
    · have hsub := fills_ptrs_sublist b.heap (crossStop side type price)
        (flat (oppIndex side b)) q
      rw [flat_snd] at hsub
      exact hsub.nodup (List.Nodup.of_append_right hW.nodup)
    · intro f hf
      exact mem_flat_levelPtrs (mem_fills hf)
    · intro pre f post hsplit
      refine fills_quantity b.heap _ (flat (oppIndex side b)) q pre f post ?_ hsplit
      intro kp hkp
      obtain ⟨e, he, hpe⟩ := mem_levelPtrs.1 (mem_flat_levelPtrs hkp)
      have := ((hW.opp_ok e he).2 kp.2 hpe).2.2.2.1
      unfold Order.remaining
      omega

theorem no_overfill_witness :
    Reachable demo5 ∧ 150 < U64 ∧
    add_order 4 demo5 .SELL .LIMIT 149 150 = some (6, demo6) ∧
    ∃ fs : List (Price × Ptr × Nat),
      demo6.trades = demo5.trades ++
        fs.map (fun f => mkTrade .SELL 6 (demo5.heap f.2.1).id f.1 f.2.2) ∧
      (fs.map (fun f => f.2.1)).Nodup ∧
      (∀ f ∈ fs, f.2.1 ∈ levelPtrs (oppIndex .SELL demo5)) ∧
      ∀ pre f post, fs = pre ++ f :: post →
        0 < f.2.2 ∧
        f.2.2 = min (150 - (pre.map (fun g => g.2.2)).sum)
          ((demo5.heap f.2.1).quantity - (demo5.heap f.2.1).filled_quantity) :=
  ⟨⟨_, history_demo5⟩, by decide, demo_calls.2.2.2.2.2,
    ((no_overfill demo5 ⟨_, history_demo5⟩).2.2 .SELL .LIMIT 149 150 (by decide)).2 4
      (6, demo6) demo_calls.2.2.2.2.2⟩

/-! ## Time priority -/

theorem heapTrace_matchStep (side : Side) (order : Ptr) (b x : OrderBook) (price : Price)
    (level : PriceLevel) (rest : Index) (opp : Ptr) (tl : List Ptr)
    (hb : order ∉ levelPtrs (oppIndex side b))
    (hW : WfFor side x) (hL : Live side order x)
    (ho : oppIndex side x = (price, level) :: rest) (hl : level.orders = opp :: tl)
    (hc : (x.heap order).filled_quantity < (x.heap order).quantity)
    (h : HeapTrace side order b x) :
    HeapTrace side order b (matchStep side order price level rest opp x) := by
  obtain ⟨h1, h2, h3, h4⟩ := h
  have hptrs : levelPtrs (oppIndex side x) = opp :: (tl ++ levelPtrs rest) := by
    rw [ho, levelPtrs_cons]; simp [hl]
  have hopp_mem : opp ∈ levelPtrs (oppIndex side x) := by rw [hptrs]; simp
  have hnd := hW.nodup
  rw [hptrs, List.nodup_middle, List.nodup_cons] at hnd
  have hopp_tl : opp ∉ tl ++ levelPtrs rest := fun h => hnd.1 (List.mem_append_right _ h)
  have hoth := tradeBook_heap_other side order price opp x
  have hqp := ((static_eq_iff _ _).1 (tradeBook_static side order price opp x opp)).2.2.2.2
  obtain ⟨l1, e1, _, hprog⟩ :=
    matchStep_progress side order x price level rest opp tl hW hL ho hl hc
  have hnew : levelPtrs (oppIndex side (matchStep side order price level rest opp x)) =
      l1.orders ++ levelPtrs rest := by rw [e1, levelPtrs_cons]
  have htail : ∀ p ∈ (levelPtrs (oppIndex side (matchStep side order price level rest opp x))).tail,
      p ∈ tl ++ levelPtrs rest := by
    intro p hp
    rw [hnew] at hp
    rcases hprog with hp1 | ⟨hp1, _⟩
    · rw [hp1] at hp; exact List.mem_of_mem_tail hp
    · rw [hp1, hl] at hp; simpa using hp
  have hfilled : opp ∉ levelPtrs (oppIndex side (matchStep side order price level rest opp x)) →
      ((tradeBook side order price opp x).heap opp).filled_quantity =
        ((tradeBook side order price opp x).heap opp).quantity := by
    intro hnot
    by_contra hfill
    apply hnot
    have : matchStep side order price level rest opp x =
        setOppIndex side (tradeBook side order price opp x)
          ((price, level.update_volume_after_fill (tradeQty x order opp)) :: rest) := by
      simp only [matchStep, if_neg hfill]
    rw [this, oppIndex_setOppIndex, levelPtrs_cons]
    simp [hl]
  refine ⟨?_, ?_, ?_, ?_⟩
  · refine List.IsSuffix.trans ?_ h1
    rw [hnew, hptrs]
    rcases hprog with hp1 | ⟨hp1, _⟩
    · rw [hp1]; exact List.suffix_cons _ _
    · rw [hp1, hl]; exact List.suffix_refl _
  · intro p hp hnot
    rw [matchStep_heap]
    by_cases hpo : p = opp
    · subst hpo; exact hfilled hnot
    · have hpx : p ∉ levelPtrs (oppIndex side x) := by
        intro hmem
        rw [hptrs] at hmem
        rcases List.mem_cons.1 hmem with h | h
        · exact hpo h
        · apply hnot
          rw [hnew]
          rcases hprog with hp1 | ⟨hp1, _⟩
          · rw [hp1]; exact h
          · rw [hp1, hl]; exact List.mem_cons_of_mem _ h
      rw [hoth p (fun h => hb (h ▸ hp)) hpo]
      exact h2 p hp hpx
  · intro p hp
    have hp1 := htail p hp
    rw [matchStep_heap, hoth p (fun h => hL.not_opp (by rw [hptrs]; exact List.mem_cons_of_mem _ (h ▸ hp1)))
      (fun h => hopp_tl (h ▸ hp1))]
    exact h3 p (by rw [hptrs]; exact hp1)
  · intro p hp1 hp2
    rw [matchStep_heap, hoth p hp1 (fun h => hp2 (h1.subset (h ▸ hopp_mem)))]
    exact h4 p hp1 hp2

theorem heapTrace_eraseEmptyFront (side : Side) (order : Ptr) (b x : OrderBook)
    (h : HeapTrace side order b x) : HeapTrace side order b (eraseEmptyFront side x) := by
  unfold HeapTrace
  rw [(eraseEmptyFront_spec side x).1, eraseEmptyFront_heap]
  exact h

theorem matchWalk_heapTrace (side : Side) (type : OrderType) (order : Ptr) (inner fuel : Nat)
    (b b1 : OrderBook) (hI : OuterInv side order b)
    (h : matchWalk side type order inner fuel b = some b1) : HeapTrace side order b b1 := by
  refine (matchWalk_rule side type order inner
    (fun x => OuterInv side order x ∧ HeapTrace side order b x)
    (fun x => InnerInv side order x ∧ HeapTrace side order b x)
    ?_ ?_ ?_ fuel b b1 ⟨hI, List.suffix_refl _, fun p _ hp => absurd ‹_› hp,
      fun _ _ => rfl, fun _ _ _ => rfl⟩ h).1.2
  · intro x _ _ _ hx _ _ _
    exact ⟨⟨hx.1.1, hx.1.2.1, outerLevels_inner side x hx.1.2.2⟩, hx.2⟩
  · intro x price level rest opp tl hJ ho hl hc
    exact ⟨innerInv_matchStep side order x price level rest opp tl hJ.1 ho hl hc,
      heapTrace_matchStep side order b x price level rest opp tl hI.2.1.not_opp hJ.1.1 hJ.1.2.1
        ho hl hc hJ.2⟩
  · intro x _ _ _ hJ _ _
    exact ⟨outerInv_eraseEmptyFront side order x hJ.1, heapTrace_eraseEmptyFront side order b x hJ.2⟩

theorem heapModify_other (heap : Ptr → Order) (p : Ptr) (f : Order → Order) (q : Ptr)
    (h : q ≠ p) : heapModify heap p f q = heap q := by
  unfold heapModify
  rw [Function.update_noteq h]

theorem markPartialFill_heap_other (b : OrderBook) (order p : Ptr) (h : p ≠ order) :
    (markPartialFill b order).heap p = b.heap p := by
  unfold markPartialFill
  split_ifs
  · dsimp only
    rw [heapModify_other _ _ _ _ h]
  · rfl

theorem finishFilled_heap_other (b : OrderBook) (order p : Ptr) (h : p ≠ order) :
    (finishFilled b order).heap p = b.heap p := by
  simp only [finishFilled, heap_evict]
  exact heapModify_other _ _ _ _ h

/-- The finalization writes only the status of the incoming order. -/
theorem finalize_heap_other (type : OrderType) (b : OrderBook) (order p : Ptr)
    (h : p ≠ order) : (finalize type b order).heap p = b.heap p := by
  cases type <;> simp only [finalize] <;> split_ifs
  · exact finishFilled_heap_other b order p h
  · exact markPartialFill_heap_other b order p h
  · rw [markPartialFill_heap_other _ order p h, restOrder_heap]
  · exact finishFilled_heap_other b order p h

theorem levelPtrs_split (m : Index) (e : Price × PriceLevel) (he : e ∈ m)
    (m1 m2 m3 : List Ptr) (A B : Ptr) (hs : e.2.orders = m1 ++ A :: (m2 ++ B :: m3)) :
    ∃ u w, levelPtrs m = u ++ A :: (m2 ++ B :: w) := by
  obtain ⟨ma, mb, rfl⟩ := List.append_of_mem he
  refine ⟨levelPtrs ma ++ m1, m3 ++ levelPtrs mb, ?_⟩
  simp [levelPtrs, hs]

/-- In a duplicate-free list, if `A` stands before `B` and `A` is in a suffix, then `B` is in
the tail of that suffix. -/
theorem mem_tail_of_before {l c lx u v w : List Ptr} {A B : Ptr} (hnd : l.Nodup)
    (h1 : l = c ++ lx) (h2 : l = u ++ A :: (v ++ B :: w)) (hA : A ∈ lx) : B ∈ lx.tail := by
  obtain ⟨s1, s2, rfl⟩ := List.append_of_mem hA
  have hnd2 := hnd
  rw [h2, List.nodup_middle, List.nodup_cons] at hnd2
  have hAu : A ∉ u := fun h => hnd2.1 (List.mem_append_left _ h)
  have hAv : A ∉ v ++ B :: w := fun h => hnd2.1 (List.mem_append_right _ h)
  have heq : u ++ A :: (v ++ B :: w) = (c ++ s1) ++ A :: s2 := by
    rw [← h2, h1, List.append_assoc]
  obtain ⟨_, _, e3⟩ := (List.append_cons_inj_of_not_mem hAu hAv).1 heq
  have hB : B ∈ s2 := by rw [← e3]; simp
  cases s1 with
  | nil => simpa using hB
  | cons a s1 => simp [hB]

/-- The orders traded against are an initial segment of the resting orders in priority
order. -/
theorem fills_ptrs_initial (heap : Ptr → Order) (stop : Price → Bool)
    (l : List (Price × Ptr)) :
    ∀ rem, ∃ rest, l.map Prod.snd = (fills heap stop rem l).map (fun f => f.2.1) ++ rest := by
  induction l with
  | nil => intro rem; exact ⟨[], by simp [fills]⟩
  | cons e tl ih =>
    intro rem
    obtain ⟨k, p⟩ := e
    simp only [fills]
    split_ifs
    · exact ⟨p :: tl.map Prod.snd, by simp⟩
    · obtain ⟨rest, hrest⟩ := ih (rem - min rem (heap p).remaining)
      exact ⟨rest, by simp [hrest]⟩

/-- Effect of one call on the record of an order that was enqueued before the call: if it
stands behind `A` in the walked index and its filled quantity changed, then `A` was exactly
filled; on the other index nothing changes. -/
theorem add_order_fifo_heap (fuel : Nat) (b : OrderBook) (side : Side)
    (type : OrderType) (price : Price) (q : Nat) (r : Nat × OrderBook) (hI : Inv b)
    (hq : q < U64) (hadd : add_order fuel b side type price q = some r) :
    (∀ u v w A B, levelPtrs (oppIndex side b) = u ++ A :: (v ++ B :: w) →
      (r.2.heap B).filled_quantity ≠ (b.heap B).filled_quantity →
      (r.2.heap A).filled_quantity = (r.2.heap A).quantity) ∧
    ∀ p ∈ levelPtrs (ownIndex side b), r.2.heap p = b.heap p := by
  obtain ⟨hW, _⟩ := (inv_iff side b).1 hI
  obtain ⟨_, _, _, _, _, _, _, a8⟩ :=
    allocate_spec b.pool hW.pool_le hW.free_nodup hW.free_issued
  have hown : ∀ p ∈ levelPtrs (ownIndex side b), p ≠ b.pool.allocate.1 := fun p hp =>
    a8 p (hW.own_live p hp).1 (hW.own_live p hp).2
  have hopp : ∀ p ∈ levelPtrs (oppIndex side b), p ≠ b.pool.allocate.1 := fun p hp =>
    a8 p (hW.opp_live p hp).1 (hW.opp_live p hp).2
  obtain ⟨b1, hw, rfl⟩ := add_order_eq fuel b side type price q r hadd
  have h0 := outerInv_register_order b side type price q hI hq
  obtain ⟨t1, t2, t3, t4⟩ := matchWalk_heapTrace side type _ fuel fuel _ b1 h0 hw
  rw [register_order_oppIndex] at t1 t2 t4
  have hfin : ∀ p, p ≠ b.pool.allocate.1 →
      (countOrder (finalize type b1 b.pool.allocate.1)).heap p = b1.heap p :=
    fun p hp => finalize_heap_other type b1 _ p hp
  constructor
  · intro u v w A B hsplit hchg
    have hA : A ∈ levelPtrs (oppIndex side b) := by rw [hsplit]; simp
    have hB : B ∈ levelPtrs (oppIndex side b) := by rw [hsplit]; simp
    rw [hfin B (hopp B hB)] at hchg
    rw [hfin A (hopp A hA)]
    apply t2 A hA
    intro hAx
    obtain ⟨c, hc⟩ := t1
    have hBt := mem_tail_of_before (List.Nodup.of_append_right hW.nodup) hc.symm hsplit hAx
    apply hchg
    rw [t3 B hBt, register_order_heap_other _ _ _ _ _ _ (hopp B hB)]
  · intro p hp
    have hnot : p ∉ levelPtrs (oppIndex side b) := fun h =>
      (List.disjoint_left.1 (List.nodup_append.1 hW.nodup).2.2) hp h
    rw [hfin p (hown p hp), t4 p (hown p hp) hnot,
      register_order_heap_other _ _ _ _ _ _ (hown p hp)]

theorem stack_calls :
    add_order 4 OrderBook.new .SELL .LIMIT 100 30 = some (1, stack1) ∧
    add_order 4 stack1 .SELL .LIMIT 100 70 = some (2, stack2) ∧
    add_order 4 stack2 .BUY .LIMIT 100 100 = some (3, stack3) :=
  ⟨by rfl, by rfl, by rfl⟩

theorem history_stack2 : History [30, 70] stack2 :=
  History.add 4 .SELL .LIMIT 100 70
    (History.add 4 .SELL .LIMIT 100 30 History.init (by decide) stack_calls.1)
    (by decide) stack_calls.2.1

theorem fills_exhausts (heap : Ptr → Order) (stop : Price → Bool) (l : List (Price × Ptr)) :
    ∀ (rem : Nat) (pre : List (Price × Ptr × Nat)) (f : Price × Ptr × Nat)
      (post : List (Price × Ptr × Nat)),
      fills heap stop rem l = pre ++ f :: post → post ≠ [] →
      f.2.2 = (heap f.2.1).remaining := by
  induction l with
  | nil => intro rem pre f post h; simp [fills] at h
  | cons e rest ih =>
    intro rem pre f post h hpost
    obtain ⟨k, p⟩ := e
    simp only [fills] at h
    split_ifs at h with hc
    · simp at h
    · cases pre with
      | nil =>
        simp only [List.nil_append, List.cons.injEq] at h
        obtain ⟨h1, h2⟩ := h
        have hne : rem - min rem (heap p).remaining ≠ 0 := by
          intro h0
          rw [h0, fills_zero] at h2
          exact hpost h2.symm
        rw [← h1]
        show min rem (heap p).remaining = (heap p).remaining
        omega
      | cons g pre1 =>
        simp only [List.cons_append, List.cons.injEq] at h
        exact ih _ pre1 f post h.2 hpost

/-- C2. Time priority within a price level. For every call of `add_order` on a reachable
book: the orders traded against are an initial segment of the resting orders of the opposite
index in priority order (levels in index order, each level from the head of its FIFO), every
trade but the last one of the call takes the whole remainder of its resting order; and
for two orders `A` and `B` of one level with `A` enqueued before `B`, if the filled quantity
of `B` changed during the call then `A` is exactly filled. Scenario: when the ask index is
one level holding `A` then `B`, a buy-limit at that price for the sum of their remainders
appends exactly two trades, first against `A` for its remainder, then against `B` for its
remainder. -/
theorem time_priority (b : OrderBook) (hr : Reachable b) :
    (∀ (side : Side) (type : OrderType) (price : Price) (q : Nat), q < U64 →
      (∃ fuel r, add_order fuel b side type price q = some r) ∧
      ∀ fuel r, add_order fuel b side type price q = some r →
        (∃ (fs : List (Price × Ptr × Nat)) (rest : List Ptr),
          r.2.trades = b.trades ++
            fs.map (fun f => mkTrade side r.1 (b.heap f.2.1).id f.1 f.2.2) ∧
          levelPtrs (oppIndex side b) = fs.map (fun f => f.2.1) ++ rest ∧
          (levelPtrs (oppIndex side b)).Nodup ∧
          ∀ pre f post, fs = pre ++ f :: post → post ≠ [] →
            f.2.2 = (b.heap f.2.1).quantity - (b.heap f.2.1).filled_quantity) ∧
        ∀ e, e ∈ b.bids ∨ e ∈ b.asks → ∀ m1 m2 m3 A B,
          e.2.orders = m1 ++ A :: (m2 ++ B :: m3) →
          (r.2.heap B).filled_quantity ≠ (b.heap B).filled_quantity →
          (r.2.heap A).filled_quantity = (r.2.heap A).quantity) ∧
    ∀ (p : Price) (l : PriceLevel) (A B : Ptr), b.asks = [(p, l)] → l.orders = [A, B] →
      (b.heap A).remaining + (b.heap B).remaining < U64 →
      (∃ fuel r,
        add_order fuel b .BUY .LIMIT p ((b.heap A).remaining + (b.heap B).remaining) = some r) ∧
      ∀ fuel r,
        add_order fuel b .BUY .LIMIT p ((b.heap A).remaining + (b.heap B).remaining) = some r →
        r.2.trades = b.trades ++
          [⟨r.1, (b.heap A).id, p, (b.heap A).remaining⟩,
            ⟨r.1, (b.heap B).id, p, (b.heap B).remaining⟩] := by
  obtain ⟨qs, hh⟩ := hr
  have hI := history_inv hh
  constructor
  · intro side type price q hq
    refine ⟨⟨_, add_order_total ((restingPtrs b).length + 1) b side type price q hI hq
      (Nat.lt_succ_self _)⟩, ?_⟩
    intro fuel r hadd
    have href := add_order_refines fuel b side type price q r hI hq hadd
    have hid := (add_order_counter fuel b side type price q r hadd).1
    obtain ⟨hopp, hown⟩ := add_order_fifo_heap fuel b side type price q r hI hq hadd
    obtain ⟨hW, _⟩ := (inv_iff side b).1 hI
    constructor
    · obtain ⟨rest, hrest⟩ := fills_ptrs_initial b.heap (crossStop side type price)
        (flat (oppIndex side b)) q
      rw [flat_snd] at hrest
      refine ⟨_, rest, by rw [href, hid]; rfl, hrest, List.Nodup.of_append_right hW.nodup, ?_⟩
      intro pre f post hsplit hpost
      exact fills_exhausts b.heap _ (flat (oppIndex side b)) q pre f post hsplit hpost
    · intro e he m1 m2 m3 A B hsplit hchg
      have hcase : e ∈ ownIndex side b ∨ e ∈ oppIndex side b := by
        cases side
        · exact he
        · exact he.symm
      rcases hcase with h | h
      · exfalso
        apply hchg
        rw [hown B (mem_levelPtrs.2 ⟨e, h, by rw [hsplit]; simp⟩)]
      · obtain ⟨u, w, hu⟩ := levelPtrs_split _ e h m1 m2 m3 A B hsplit
        exact hopp u m2 w A B hu hchg
  · intro p l A B hasks hl hsum
    refine ⟨⟨_, add_order_total ((restingPtrs b).length + 1) b .BUY .LIMIT p _ hI hsum
      (Nat.lt_succ_self _)⟩, ?_⟩
    intro fuel r hadd
    have href := add_order_refines fuel b .BUY .LIMIT p _ r hI hsum hadd
    have hid := (add_order_counter fuel b .BUY .LIMIT p _ r hadd).1
    have hlev : LevelOK b.heap .SELL (p, l) :=
      hI.1.opp_ok (p, l) (by simp [oppIndex, hasks])
    have hA : 0 < (b.heap A).remaining := by
      have := (hlev.2 A (by simp [hl])).2.2.2.1
      unfold Order.remaining; omega
    have hB : 0 < (b.heap B).remaining := by
      have := (hlev.2 B (by simp [hl])).2.2.2.1
      unfold Order.remaining; omega
    rw [href, hid]
    congr 1
    have hx : crossStop .BUY .LIMIT p p = false := by simp [crossStop, Price.lt_irrefl]
    have h1 : (b.heap A).remaining + (b.heap B).remaining ≠ 0 := by omega
    have h2 : (b.heap B).remaining ≠ 0 := by omega
    simp [expectedTrades, oppIndex, hasks, flat, hl, fills, hx, h1, h2, mkTrade]

theorem time_priority_witness :
    Reachable stack2 ∧ 100 < U64 ∧
    add_order 4 stack2 .BUY .LIMIT 100 100 = some (3, stack3) ∧
    stack2.asks = [(100, ⟨100, 100, [(0, 0), (0, 1)]⟩)] ∧
    (stack2.heap (0, 0)).remaining = 30 ∧ (stack2.heap (0, 1)).remaining = 70 ∧
    (stack2.heap (0, 0)).id = 1 ∧ (stack2.heap (0, 1)).id = 2 ∧
    stack3.trades = stack2.trades ++ [⟨3, 1, 100, 30⟩, ⟨3, 2, 100, 70⟩] ∧
    ((∃ (fs : List (Price × Ptr × Nat)) (rest : List Ptr),
        stack3.trades = stack2.trades ++
          fs.map (fun f => mkTrade .BUY 3 (stack2.heap f.2.1).id f.1 f.2.2) ∧
        levelPtrs (oppIndex .BUY stack2) = fs.map (fun f => f.2.1) ++ rest ∧
        (levelPtrs (oppIndex .BUY stack2)).Nodup ∧
        ∀ pre f post, fs = pre ++ f :: post → post ≠ [] →
          f.2.2 = (stack2.heap f.2.1).quantity - (stack2.heap f.2.1).filled_quantity) ∧
      ∀ e, e ∈ stack2.bids ∨ e ∈ stack2.asks → ∀ m1 m2 m3 A B,
        e.2.orders = m1 ++ A :: (m2 ++ B :: m3) →
        (stack3.heap B).filled_quantity ≠ (stack2.heap B).filled_quantity →
        (stack3.heap A).filled_quantity = (stack3.heap A).quantity) :=
  ⟨⟨_, history_stack2⟩, by decide, stack_calls.2.2, by decide, by decide, by decide, by decide,
    by decide,
    ((time_priority stack2 ⟨_, history_stack2⟩).2 100 ⟨100, 100, [(0, 0), (0, 1)]⟩ (0, 0) (0, 1)
      (by decide) rfl (by decide)).2 4 (3, stack3) stack_calls.2.2,
    ((time_priority stack2 ⟨_, history_stack2⟩).1 .BUY .LIMIT 100 100 (by decide)).2 4
      (3, stack3) stack_calls.2.2⟩

/-! ## Cached volume -/

theorem mem_sides (side : Side) (b : OrderBook) (e : Price × PriceLevel) :
    (e ∈ b.bids ∨ e ∈ b.asks) ↔ (e ∈ ownIndex side b ∨ e ∈ oppIndex side b) := by
  cases side <;> simp [ownIndex, oppIndex, or_comm]

theorem levelSum_congr (h1 h2 : Ptr → Order) (l : PriceLevel)
    (h : ∀ p ∈ l.orders, (h1 p).remaining = (h2 p).remaining) :
    levelSum h1 l = levelSum h2 l := by
  unfold levelSum
  rw [List.map_congr_left h]

/-- One loop body keeps the cached volumes exact, and its volume update never takes the
clamping branch. -/
theorem volumeOK_matchStep (side : Side) (order : Ptr) (x : OrderBook) (price : Price)
    (level : PriceLevel) (rest : Index) (opp : Ptr) (tl : List Ptr)
    (hW : WfFor side x) (hL : Live side order x)
    (ho : oppIndex side x = (price, level) :: rest) (hl : level.orders = opp :: tl)
    (hc : (x.heap order).filled_quantity < (x.heap order).quantity) (hV : VolumeOK x) :
    tradeQty x order opp ≤ level.total_volume ∧
      VolumeOK (matchStep side order price level rest opp x) := by
  have hptrs : levelPtrs (oppIndex side x) = opp :: (tl ++ levelPtrs rest) := by
    rw [ho, levelPtrs_cons]; simp [hl]
  have hopp_mem : opp ∈ levelPtrs (oppIndex side x) := by rw [hptrs]; simp
  have hne : order ≠ opp := fun h => hL.not_opp (h ▸ hopp_mem)
  have hR : RestingOK side.flip price (x.heap opp) :=
    (hW.opp_ok _ (by rw [ho]; exact List.mem_cons_self _ _)).2 opp (by rw [hl]; simp)
  obtain ⟨hq, _, hfo, hfp, _, hlep, hex⟩ :=
    trade_arith side order price opp x hne hc hL.quantity_lt hR.2.2.2.1 hR.2.2.2.2
  have hoth := tradeBook_heap_other side order price opp x
  have hqp := ((static_eq_iff _ _).1 (tradeBook_static side order price opp x opp)).2.2.2.2
  have hnd := hW.nodup
  rw [hptrs, List.nodup_middle, List.nodup_cons] at hnd
  have hopp_own : opp ∉ levelPtrs (ownIndex side x) := fun h =>
    hnd.1 (List.mem_append_left _ h)
  have hopp_tl : opp ∉ tl ++ levelPtrs rest := fun h => hnd.1 (List.mem_append_right _ h)
  have hlevel : level.total_volume = levelSum x.heap level :=
    hV (price, level) ((mem_sides side x _).2 (Or.inr (by rw [ho]; exact List.mem_cons_self _ _)))
  have hsum : levelSum x.heap level =
      (x.heap opp).remaining + (tl.map (fun p => (x.heap p).remaining)).sum := by
    simp [levelSum, hl]
  have htq : tradeQty x order opp ≤ (x.heap opp).remaining := by rw [hq]; exact min_le_right _ _
  have hge : tradeQty x order opp ≤ level.total_volume := by rw [hlevel, hsum]; omega
  have htl : (tl.map (fun p => ((tradeBook side order price opp x).heap p).remaining)) =
      tl.map (fun p => (x.heap p).remaining) := by
    refine List.map_congr_left (fun p hp => ?_)
    have hpm : p ∈ tl ++ levelPtrs rest := List.mem_append_left _ hp
    rw [hoth p (fun h => hL.not_opp (by rw [hptrs]; exact List.mem_cons_of_mem _ (h ▸ hpm)))
      (fun h => hopp_tl (h ▸ hpm))]
  have hvol : (level.update_volume_after_fill (tradeQty x order opp)).total_volume =
      level.total_volume - tradeQty x order opp := by
    unfold PriceLevel.update_volume_after_fill
    rw [if_pos hge]
  -- levels other than the one at `begin()` keep volume, orders and records
  have hkeep : ∀ e, e ∈ ownIndex side x ∨ e ∈ rest →
      e.2.total_volume = levelSum (tradeBook side order price opp x).heap e.2 := by
    intro e he
    have hmem : e ∈ ownIndex side x ∨ e ∈ oppIndex side x := by
      rcases he with h | h
      · exact Or.inl h
      · exact Or.inr (by rw [ho]; exact List.mem_cons_of_mem _ h)
    rw [hV e ((mem_sides side x e).2 hmem)]
    refine (levelSum_congr _ _ _ (fun p hp => ?_)).symm
    rcases he with h | h
    · have hpm : p ∈ levelPtrs (ownIndex side x) := mem_levelPtrs.2 ⟨e, h, hp⟩
      rw [hoth p (fun h1 => hL.not_own (h1 ▸ hpm)) (fun h1 => hopp_own (h1 ▸ hpm))]
    · have hpm : p ∈ tl ++ levelPtrs rest := List.mem_append_right _ (mem_levelPtrs.2 ⟨e, h, hp⟩)
      rw [hoth p (fun h1 => hL.not_opp (by rw [hptrs]; exact List.mem_cons_of_mem _ (h1 ▸ hpm)))
        (fun h1 => hopp_tl (h1 ▸ hpm))]
  refine ⟨hge, ?_⟩
  intro e he
  rw [mem_sides side] at he
  rw [matchStep_heap]
  rw [matchStep_ownIndex] at he
  simp only [matchStep] at he ⊢
  split_ifs at he ⊢ with hfill
  · rw [oppIndex_setOppIndex] at he
    rcases he with he | he
    · exact hkeep e (Or.inl he)
    · rcases List.mem_cons.1 he with rfl | he
      · simp only [remove_front_total_volume, hvol, levelSum, remove_front_orders,
          update_volume_after_fill_orders, hl, List.tail_cons, htl]
        rw [hlevel, hsum]
        have : tradeQty x order opp = (x.heap opp).remaining := by
          unfold Order.remaining
          rw [hfp, hqp] at hfill
          omega
        omega
      · exact hkeep e (Or.inr he)
  · rw [oppIndex_setOppIndex] at he
    rcases he with he | he
    · exact hkeep e (Or.inl he)
    · rcases List.mem_cons.1 he with rfl | he
      · simp only [hvol, levelSum, update_volume_after_fill_orders, hl, List.map_cons,
          List.sum_cons, htl]
        rw [hlevel, hsum]
        have : ((tradeBook side order price opp x).heap opp).remaining =
            (x.heap opp).remaining - tradeQty x order opp := by
          unfold Order.remaining
          rw [hfp, hqp]
          omega
        rw [this]
        omega
      · exact hkeep e (Or.inr he)

theorem volumeOK_eraseEmptyFront (side : Side) (x : OrderBook) (hV : VolumeOK x) :
    VolumeOK (eraseEmptyFront side x) := by
  intro e he
  rw [mem_sides side, eraseEmptyFront_ownIndex] at he
  rw [eraseEmptyFront_heap]
  apply hV e
  rw [mem_sides side]
  rcases he with h | h
  · exact Or.inl h
  · exact Or.inr ((eraseEmptyFront_spec side x).2 e h)

theorem matchWalk_volumeOK (side : Side) (type : OrderType) (order : Ptr) (inner fuel : Nat)
    (b b1 : OrderBook) (hI : OuterInv side order b) (hV : VolumeOK b)
    (h : matchWalk side type order inner fuel b = some b1) : VolumeOK b1 := by
  refine (matchWalk_rule side type order inner
    (fun x => OuterInv side order x ∧ VolumeOK x)
    (fun x => InnerInv side order x ∧ VolumeOK x)
    ?_ ?_ ?_ fuel b b1 ⟨hI, hV⟩ h).1.2
  · intro x _ _ _ hx _ _ _
    exact ⟨⟨hx.1.1, hx.1.2.1, outerLevels_inner side x hx.1.2.2⟩, hx.2⟩
  · intro x price level rest opp tl hJ ho hl hc
    exact ⟨innerInv_matchStep side order x price level rest opp tl hJ.1 ho hl hc,
      (volumeOK_matchStep side order x price level rest opp tl hJ.1.1 hJ.1.2.1 ho hl hc
        hJ.2).2⟩
  · intro x _ _ _ hJ _ _
    exact ⟨outerInv_eraseEmptyFront side order x hJ.1, volumeOK_eraseEmptyFront side x hJ.2⟩

theorem volumeOK_statusOnly {b x : OrderBook} (h : StatusOnly b x) (hV : VolumeOK b) :
    VolumeOK x := by
  intro e he
  rw [h.1, h.2.1] at he
  rw [hV e he]
  exact (levelSum_congr _ _ _ (fun p _ =>
    remaining_eq_of_static (h.2.2.2.2 p).1 (h.2.2.2.2 p).2)).symm

theorem volumeBounded_statusOnly {b x : OrderBook} (h : StatusOnly b x)
    (hV : VolumeBounded x) : VolumeBounded b := by
  intro e he
  rw [← h.1, ← h.2.1] at he
  have := hV e he
  rwa [levelSum_congr x.heap b.heap _ (fun p _ =>
    remaining_eq_of_static (h.2.2.2.2 p).1 (h.2.2.2.2 p).2)] at this

theorem levelSum_add_order (heap : Ptr → Order) (l : PriceLevel) (order : Ptr) :
    levelSum heap (l.add_order heap order) = levelSum heap l + (heap order).remaining := by
  simp [levelSum, PriceLevel.add_order]

/-- Resting keeps the cached volumes exact when the new sum at the level does not reach
`2 ^ 64`. -/
theorem volumeOK_restOrder (side : Side) (order : Ptr) (b : OrderBook)
    (hL : Live side order b) (hV : VolumeOK b) (hB : VolumeBounded (restOrder b order)) :
    VolumeOK (restOrder b order) := by
  obtain ⟨_, hmem⟩ := restOrder_spec b order side hL.side_eq
  have hopp := restOrder_oppIndex b order side hL.side_eq
  have hsub : sub64 (b.heap order).quantity (b.heap order).filled_quantity =
      (b.heap order).remaining := sub64_eq hL.filled_le hL.quantity_lt
  intro e he
  have hbound := hB e he
  rw [restOrder_heap] at hbound ⊢
  rw [mem_sides side, hopp] at he
  rcases he with he | he
  · rcases hmem e he with h | ⟨_, ⟨v, hv, hve⟩ | ⟨_, hve⟩⟩
    · exact hV e ((mem_sides side b e).2 (Or.inl h))
    · have hv1 := hV _ ((mem_sides side b _).2 (Or.inl hv))
      rw [hve, levelSum_add_order] at hbound ⊢
      simp only [PriceLevel.add_order, hsub]
      simp only at hv1
      rw [hv1, add64_eq hbound]
    · have h0 : levelSum b.heap (PriceLevel.new (b.heap order).price) = 0 := rfl
      rw [hve, levelSum_add_order, h0] at hbound ⊢
      simp only [PriceLevel.add_order, hsub, PriceLevel.new]
      rw [add64_eq hbound]
  · exact hV e ((mem_sides side b e).2 (Or.inr he))

theorem volumeOK_finalize (side : Side) (type : OrderType) (order : Ptr) (b : OrderBook)
    (hL : Live side order b) (hV : VolumeOK b)
    (hB : VolumeBounded (finalize type b order)) : VolumeOK (finalize type b order) := by
  have hfin : VolumeOK (finishFilled b order) := by
    intro e he
    have hs := statusOnly_heapModify b order
      (fun o => { o with status := OrderStatus.FILLED }) (fun _ => ⟨rfl, rfl⟩)
    exact volumeOK_statusOnly hs hV e he
  cases type with
  | MARKET =>
    simp only [finalize] at hB ⊢
    split_ifs
    · exact hfin
    · exact volumeOK_statusOnly (statusOnly_markPartialFill b order) hV
  | LIMIT =>
    simp only [finalize] at hB ⊢
    split_ifs at hB ⊢ with hlt
    · exact volumeOK_statusOnly (statusOnly_markPartialFill _ order)
        (volumeOK_restOrder side order b hL hV
          (volumeBounded_statusOnly (statusOnly_markPartialFill _ order) hB))
    · exact hfin

theorem volumeOK_register_order (b : OrderBook) (side : Side) (type : OrderType)
    (price : Price) (quantity : Nat) (hI : Inv b) (hV : VolumeOK b) :
    VolumeOK (register_order b side type price quantity) := by
  obtain ⟨hW, _⟩ := (inv_iff side b).1 hI
  obtain ⟨_, _, _, _, _, _, _, a8⟩ :=
    allocate_spec b.pool hW.pool_le hW.free_nodup hW.free_issued
  intro e he
  have he1 : e ∈ b.bids ∨ e ∈ b.asks := he
  have hv : e.2.total_volume = levelSum b.heap e.2 := hV e he1
  rw [hv]
  refine (levelSum_congr _ _ _ (fun p hp => ?_)).symm
  have hlive : issued b.pool p ∧ p ∉ b.pool.free_list := by
    rcases (mem_sides side b e).1 he1 with h | h
    · exact hW.own_live p (mem_levelPtrs.2 ⟨e, h, hp⟩)
    · exact hW.opp_live p (mem_levelPtrs.2 ⟨e, h, hp⟩)
  rw [register_order_heap_other _ _ _ _ _ _ (a8 p hlive.1 hlive.2)]

/-- `add_order` keeps the cached volumes exact when no level of the resulting book has a sum
of remainders of `2 ^ 64` or more. -/
theorem volumeOK_add_order (fuel : Nat) (b : OrderBook) (side : Side) (type : OrderType)
    (price : Price) (quantity : Nat) (r : Nat × OrderBook) (hI : Inv b) (hV : VolumeOK b)
    (hq : quantity < U64) (h : add_order fuel b side type price quantity = some r)
    (hB : VolumeBounded r.2) : VolumeOK r.2 := by
  obtain ⟨b1, hw, rfl⟩ := add_order_eq fuel b side type price quantity r h
  have h0 := outerInv_register_order b side type price quantity hI hq
  have h1 := matchWalk_outerInv side type _ fuel fuel _ b1 h0 hw
  have hV1 := matchWalk_volumeOK side type _ fuel fuel _ b1 h0
    (volumeOK_register_order b side type price quantity hI hV) hw
  exact volumeOK_finalize side type _ b1 h1.2.1 hV1 hB

theorem boundedHistory_history {b : OrderBook} (h : BoundedHistory b) : ∃ qs, History qs b := by
  induction h with
  | init => exact ⟨[], History.init⟩
  | add fuel side type price quantity _ hq hadd _ ih =>
    obtain ⟨qs, hqs⟩ := ih
    exact ⟨_, History.add fuel side type price quantity hqs hq hadd⟩
  | cancel order_id _ ih =>
    obtain ⟨qs, hqs⟩ := ih
    exact ⟨qs, History.cancel order_id hqs⟩

theorem boundedHistory_volumeOK {b : OrderBook} (h : BoundedHistory b) : VolumeOK b := by
  induction h with
  | init => intro e he; simp [OrderBook.new] at he
  | add fuel side type price quantity hb hq hadd hbound ih =>
    obtain ⟨qs, hqs⟩ := boundedHistory_history hb
    exact volumeOK_add_order fuel _ side type price quantity _ (history_inv hqs) ih hq hadd hbound
  | cancel order_id _ ih => exact volumeOK_statusOnly (statusOnly_cancel_order _ order_id) ih

theorem filter_flat_of_not_mem (m : Index) (p : Price) (h : p ∉ keys m) :
    (flat m).filter (fun kp => kp.1 = p) = [] := by
  rw [List.filter_eq_nil_iff]
  intro kp hkp
  obtain ⟨k, q⟩ := kp
  obtain ⟨e, he, hk, _⟩ := mem_flat.1 hkp
  simp only [decide_eq_true_eq]
  intro hkp1
  apply h
  simp only [keys, List.mem_map]
  exact ⟨e, he, hk.trans hkp1⟩

/-- In an index ordered by its comparator, without a not-a-number key and with exact cached
volumes, the volume found under a price that is not not-a-number is the remaining quantity
resting at that price. -/
theorem volume_lookup (side : Side) (m : Index) (heap : Ptr → Order) (p : Price)
    (hs : (keys m).Pairwise (fun x y => better side y x)) (hp : p ≠ .nan)
    (hn : Price.nan ∉ keys m)
    (hv : ∀ e ∈ m, e.2.total_volume = levelSum heap e.2) :
    (match map_find (ownBefore side) m p with
      | some l => l.total_volume
      | none => 0) = restingVolume m heap p := by
  induction m with
  | nil => rfl
  | cons e rest ih =>
    obtain ⟨k, v⟩ := e
    simp only [keys, List.map_cons, List.pairwise_cons, List.mem_cons, not_or] at hs hn
    have ih1 := ih hs.2 hn.2 (fun e he => hv e (List.mem_cons_of_mem _ he))
    unfold restingVolume at ih1 ⊢
    rw [flat_cons, List.filter_append, List.map_append, List.sum_append]
    have hne : k ≠ p → (v.orders.map (fun q => (k, q))).filter (fun kp => kp.1 = p) = [] := by
      intro hkp
      rw [List.filter_eq_nil_iff]
      intro kp hkp1
      obtain ⟨q, _, rfl⟩ := List.mem_map.1 hkp1
      simpa using hkp
    unfold map_find
    split_ifs with h1 h2
    · have hkp : k ≠ p := fun h => ownBefore_irrefl side p (h ▸ h1)
      simp only [hne hkp, List.map_nil, List.sum_nil, Nat.zero_add]
      exact ih1
    · have hkp : k ≠ p := fun h => ownBefore_irrefl side p (h ▸ h2)
      have hrest : p ∉ keys rest := by
        intro hmem
        have a1 : better side p k := hs.1 p hmem
        have a2 : better side k p := (ownBefore_iff side p k).1 h2
        exact better_asymm side a1 a2
      simp only [hne hkp, List.map_nil, List.sum_nil, Nat.zero_add]
      rw [filter_flat_of_not_mem rest p hrest]
      rfl
    · have hkp : k = p :=
        Price.eq_of_equiv (fun h => hn.1 h.symm) hp (ownBefore_equiv side h1 h2)
      subst hkp
      have hrest : k ∉ keys rest := fun hmem => better_irrefl side k (hs.1 k hmem)
      rw [filter_flat_of_not_mem rest k hrest]
      have h3 : (v.orders.map (fun q => (k, q))).filter (fun kp => kp.1 = k) =
          v.orders.map (fun q => (k, q)) := by
        rw [List.filter_eq_self]
        intro kp hkp
        obtain ⟨q, _, rfl⟩ := List.mem_map.1 hkp
        simp
      simp only [h3, List.map_map, List.map_nil, List.sum_nil, Nat.add_zero]
      rw [hv (k, v) (List.mem_cons_self _ _)]
      rfl

theorem nodup_of_pairwise_better (side : Side) (l : List Price)
    (h : l.Pairwise (better side)) : l.Nodup := by
  unfold List.Nodup
  refine h.imp ?_
  intro a c hab heq
  rw [heq] at hab
  exact better_irrefl side _ hab

theorem big_calls :
    add_order 4 OrderBook.new .SELL .LIMIT 100 (2 ^ 63) = some (1, big1) ∧
    add_order 4 big1 .SELL .LIMIT 100 (2 ^ 63) = some (2, big2) ∧
    add_order 4 big2 .BUY .LIMIT 100 1 = some (3, big3) :=
  ⟨by rfl, by rfl, by rfl⟩

theorem history_big3 : History [2 ^ 63, 2 ^ 63, 1] big3 :=
  History.add 4 .BUY .LIMIT 100 1
    (History.add 4 .SELL .LIMIT 100 (2 ^ 63)
      (History.add 4 .SELL .LIMIT 100 (2 ^ 63) History.init (by decide) big_calls.1)
      (by decide) big_calls.2.1)
    (by decide) big_calls.2.2

theorem volumeBounded_of_forall (b : OrderBook)
    (h : ∀ e ∈ b.bids ++ b.asks, levelSum b.heap e.2 < U64) : VolumeBounded b :=
  fun e he => h e (List.mem_append.2 he)

theorem boundedHistory_demo5 : BoundedHistory demo5 := by
  obtain ⟨h1, h2, h3, h4, h5, _⟩ := demo_calls
  have a1 := BoundedHistory.add 4 .BUY .LIMIT 150 100 BoundedHistory.init (by decide) h1
    (volumeBounded_of_forall _ (by decide))
  have a2 := BoundedHistory.add 4 .BUY .LIMIT px14950 200 a1 (by decide) h2
    (volumeBounded_of_forall _ (by decide))
  have a3 := BoundedHistory.add 4 .SELL .LIMIT 151 150 a2 (by decide) h3
    (volumeBounded_of_forall _ (by decide))
  have a4 := BoundedHistory.add 4 .SELL .LIMIT px15150 100 a3 (by decide) h4
    (volumeBounded_of_forall _ (by decide))
  exact BoundedHistory.add 4 .BUY .MARKET 0 120 a4 (by decide) h5
    (volumeBounded_of_forall _ (by decide))

theorem boundedHistory_stack2 : BoundedHistory stack2 :=
  BoundedHistory.add 4 .SELL .LIMIT 100 70
    (BoundedHistory.add 4 .SELL .LIMIT 100 30 BoundedHistory.init (by decide) stack_calls.1
      (volumeBounded_of_forall _ (by decide)))
    (by decide) stack_calls.2.1 (volumeBounded_of_forall _ (by decide))

/-- C6 (as stated, refuted). After `add_order(SELL, LIMIT, 100, 2^63)` twice and
`add_order(BUY, LIMIT, 100, 1)` the ask level at 100 holds two orders whose remainders sum
to `2^64 - 1`, while its cached volume, and so `get_ask_volume(100)`, is 0. And after
`add_order(SELL, LIMIT, 100, 30)` and `add_order(SELL, LIMIT, 100, 70)`, where no sum of
remainders reaches `2^64`, `get_ask_volume` of not-a-number is 100 although no ask level is
keyed not-a-number, so that nothing rests at that price. -/
theorem aggregate_volume_counterexample :
    (Reachable big3 ∧
      ∃ e ∈ big3.asks, e.1 = 100 ∧ levelSum big3.heap e.2 = 2 ^ 64 - 1 ∧
        e.2.total_volume = 0 ∧ get_ask_volume big3 100 = 0 ∧
        e.2.total_volume ≠ levelSum big3.heap e.2) ∧
    (BoundedHistory stack2 ∧ Price.nan ∉ keys stack2.asks ∧
      get_ask_volume stack2 .nan = 100 ∧ restingVolume stack2.asks stack2.heap .nan = 0) :=
  ⟨⟨⟨_, history_big3⟩, (100, ⟨100, 0, [(0, 0), (0, 1)]⟩), by decide, by decide, by decide,
    by decide, by decide, by decide⟩,
    boundedHistory_stack2, by decide, by decide, by decide⟩

/-- C6 (amended). Aggregate volume correctness: in every book reached from the empty book
by `add_order` and `cancel_order` calls during which the sum of the remainders resting at
each level stays below `2 ^ 64`, the cached `total_volume` of every level of the bid index
and of the ask index equals the sum of `quantity - filled_quantity` over the orders enqueued
at that level; hence, for every price `p` that is not not-a-number and a side whose index has
no level keyed not-a-number, `get_bid_volume(p)` and `get_ask_volume(p)` return exactly the
remaining quantity resting at the level keyed `p`, and 0 when `p` has no level. -/
theorem aggregate_volume (b : OrderBook) (h : BoundedHistory b) :
    (∀ e, e ∈ b.bids ∨ e ∈ b.asks →
      e.2.total_volume = (e.2.orders.map (fun p =>
        (b.heap p).quantity - (b.heap p).filled_quantity)).sum) ∧
    (∀ p, p ≠ .nan → Price.nan ∉ keys b.bids →
      get_bid_volume b p = restingVolume b.bids b.heap p) ∧
    (∀ p, p ≠ .nan → Price.nan ∉ keys b.asks →
      get_ask_volume b p = restingVolume b.asks b.heap p) ∧
    (∀ p, p ≠ .nan → Price.nan ∉ keys b.bids → p ∉ keys b.bids → get_bid_volume b p = 0) ∧
    (∀ p, p ≠ .nan → Price.nan ∉ keys b.asks → p ∉ keys b.asks → get_ask_volume b p = 0) := by
  have hV := boundedHistory_volumeOK h
  obtain ⟨qs, hqs⟩ := boundedHistory_history h
  obtain ⟨s1, s2, _⟩ := history_shape hqs
  have hb : ∀ p, p ≠ .nan → Price.nan ∉ keys b.bids →
      get_bid_volume b p = restingVolume b.bids b.heap p := fun p hp hn =>
    volume_lookup .BUY b.bids b.heap p s2 hp hn (fun e he => hV e (Or.inl he))
  have ha : ∀ p, p ≠ .nan → Price.nan ∉ keys b.asks →
      get_ask_volume b p = restingVolume b.asks b.heap p := fun p hp hn =>
    volume_lookup .SELL b.asks b.heap p s1 hp hn (fun e he => hV e (Or.inr he))
  refine ⟨fun e he => hV e he, hb, ha, ?_, ?_⟩
  · intro p hp hn hk
    rw [hb p hp hn, restingVolume, filter_flat_of_not_mem _ _ hk]
    rfl
  · intro p hp hn hk
    rw [ha p hp hn, restingVolume, filter_flat_of_not_mem _ _ hk]
    rfl

theorem aggregate_volume_witness :
    BoundedHistory demo5 ∧ get_ask_volume demo5 151 = 30 ∧
    (151 : Price) ≠ .nan ∧ Price.nan ∉ keys demo5.asks ∧
    get_ask_volume demo5 151 = restingVolume demo5.asks demo5.heap 151 ∧
    (∀ e, e ∈ demo5.bids ∨ e ∈ demo5.asks →
      e.2.total_volume = (e.2.orders.map (fun p =>
        (demo5.heap p).quantity - (demo5.heap p).filled_quantity)).sum) ∧
    (∀ p, p ≠ .nan → Price.nan ∉ keys demo5.bids →
      get_bid_volume demo5 p = restingVolume demo5.bids demo5.heap p) ∧
    (∀ p, p ≠ .nan → Price.nan ∉ keys demo5.asks →
      get_ask_volume demo5 p = restingVolume demo5.asks demo5.heap p) ∧
    (∀ p, p ≠ .nan → Price.nan ∉ keys demo5.bids → p ∉ keys demo5.bids →
      get_bid_volume demo5 p = 0) ∧
    (∀ p, p ≠ .nan → Price.nan ∉ keys demo5.asks → p ∉ keys demo5.asks →
      get_ask_volume demo5 p = 0) :=
  ⟨boundedHistory_demo5, by decide, by decide, by decide,
    (aggregate_volume demo5 boundedHistory_demo5).2.2.1 151 (by decide) (by decide),
    aggregate_volume demo5 boundedHistory_demo5⟩

/-! ## Quantity conservation against the trade log -/

theorem tradedQty_append (ts : List Trade) (t : Trade) (k : Nat) :
    tradedQty (ts ++ [t]) k =
      tradedQty ts k + (if t.buy_order_id = k ∨ t.sell_order_id = k then t.quantity else 0) := by
  unfold tradedQty
  rw [List.filter_append, List.map_append, List.sum_append]
  by_cases h : t.buy_order_id = k ∨ t.sell_order_id = k
  · simp [List.filter, h]
  · simp [List.filter, h]

theorem tradedQty_append_mkTrade (ts : List Trade) (side : Side) (c j : Nat) (price : Price)
    (q k : Nat) :
    tradedQty (ts ++ [mkTrade side c j price q]) k =
      tradedQty ts k + (if k = c ∨ k = j then q else 0) := by
  rw [tradedQty_append]
  cases side
  · simp only [mkTrade]
    by_cases h : k = c ∨ k = j
    · rw [if_pos h, if_pos (by rcases h with h | h <;> simp [h])]
    · rw [if_neg h, if_neg (by
        rintro (h1 | h1)
        · exact h (Or.inl h1.symm)
        · exact h (Or.inr h1.symm))]
  · simp only [mkTrade]
    by_cases h : k = c ∨ k = j
    · rw [if_pos h, if_pos (by rcases h with h | h <;> simp [h])]
    · rw [if_neg h, if_neg (by
        rintro (h1 | h1)
        · exact h (Or.inr h1.symm)
        · exact h (Or.inl h1.symm))]

theorem restingPtrs_matchStep_subset (side : Side) (order : Ptr) (x : OrderBook)
    (price : Price) (level : PriceLevel) (rest : Index) (opp : Ptr)
    (ho : oppIndex side x = (price, level) :: rest) (p : Ptr)
    (hp : p ∈ restingPtrs (matchStep side order price level rest opp x)) :
    p ∈ restingPtrs x := by
  rw [mem_restingPtrs side] at hp ⊢
  rw [matchStep_ownIndex] at hp
  rcases hp with h | h
  · exact Or.inl h
  · right
    obtain ⟨l1, e1, _, hl1⟩ := matchStep_oppIndex side order price level rest opp x
    rw [e1, levelPtrs_cons] at h
    rw [ho, levelPtrs_cons]
    rcases List.mem_append.1 h with h1 | h1
    · rcases hl1 with h2 | h2
      · rw [h2] at h1; exact List.mem_append_left _ h1
      · rw [h2] at h1; exact List.mem_append_left _ (List.mem_of_mem_tail h1)
    · exact List.mem_append_right _ h1

/-- One loop body keeps the bookkeeping of ids, and the incoming order registered. -/
theorem idOK_matchStep (qs : List Nat) (side : Side) (order : Ptr) (x : OrderBook)
    (price : Price) (level : PriceLevel) (rest : Index) (opp : Ptr) (tl : List Ptr)
    (hW : WfFor side x) (hL : Live side order x)
    (ho : oppIndex side x = (price, level) :: rest) (hl : level.orders = opp :: tl)
    (hc : (x.heap order).filled_quantity < (x.heap order).quantity)
    (hreg : x.orders (x.heap order).id = some order) (hId : IdOK qs x) :
    IdOK qs (matchStep side order price level rest opp x) ∧
      (matchStep side order price level rest opp x).orders
        ((matchStep side order price level rest opp x).heap order).id = some order := by
  have hptrs : levelPtrs (oppIndex side x) = opp :: (tl ++ levelPtrs rest) := by
    rw [ho, levelPtrs_cons]; simp [hl]
  have hopp_mem : opp ∈ levelPtrs (oppIndex side x) := by rw [hptrs]; simp
  have hne : order ≠ opp := fun h => hL.not_opp (h ▸ hopp_mem)
  have hR : RestingOK side.flip price (x.heap opp) :=
    (hW.opp_ok _ (by rw [ho]; exact List.mem_cons_self _ _)).2 opp (by rw [hl]; simp)
  obtain ⟨_, _, hfo, hfp, _, _, _⟩ :=
    trade_arith side order price opp x hne hc hL.quantity_lt hR.2.2.2.1 hR.2.2.2.2
  have hstat := tradeBook_static side order price opp x
  have hoth := tradeBook_heap_other side order price opp x
  have hregp : x.orders (x.heap opp).id = some opp :=
    hId.resting_reg opp ((mem_restingPtrs side x opp).2 (Or.inr hopp_mem))
  have hcj : (x.heap order).id ≠ (x.heap opp).id := by
    intro h
    rw [h, hregp] at hreg
    exact hne (Option.some.inj hreg).symm
  have hnd := hW.nodup
  rw [hptrs, List.nodup_middle, List.nodup_cons] at hnd
  -- the trade log
  have htr : ∀ k, tradedQty (matchStep side order price level rest opp x).trades k =
      tradedQty x.trades k +
        (if k = (x.heap order).id ∨ k = (x.heap opp).id then tradeQty x order opp else 0) := by
    intro k
    rw [matchStep_trades, tradeBook_trades, tradedQty_append_mkTrade]
  -- an entry of the old index, seen after the trade
  have hentry : ∀ k y, x.orders k = some y →
      tradedQty (matchStep side order price level rest opp x).trades k =
        ((tradeBook side order price opp x).heap y).filled_quantity := by
    intro k y hy
    have hid := (hW.index_ok k y hy).1
    rw [htr]
    by_cases hyo : y = order
    · subst hyo
      rw [if_pos (Or.inl hid.symm), hId.live_sum k y hy, hfo]
    · by_cases hyp : y = opp
      · subst hyp
        rw [if_pos (Or.inr hid.symm), hId.live_sum k y hy, hfp]
      · have hk1 : k ≠ (x.heap order).id := by
          intro h; rw [h, hreg] at hy; exact hyo (Option.some.inj hy).symm
        have hk2 : k ≠ (x.heap opp).id := by
          intro h; rw [h, hregp] at hy; exact hyp (Option.some.inj hy).symm
        rw [if_neg (by rintro (h | h); exact hk1 h; exact hk2 h), hoth y hyo hyp,
          hId.live_sum k y hy, Nat.add_zero]
  have hquant : ∀ y, ((tradeBook side order price opp x).heap y).quantity = (x.heap y).quantity :=
    fun y => ((static_eq_iff _ _).1 (hstat y)).2.2.2.2
  have hidst : ∀ y, ((tradeBook side order price opp x).heap y).id = (x.heap y).id :=
    fun y => ((static_eq_iff _ _).1 (hstat y)).1
  have hfresh : ∀ k, k = 0 ∨ qs.length < k →
      tradedQty (matchStep side order price level rest opp x).trades k = 0 := by
    intro k hk
    have r1 := hId.key_range _ _ hreg
    have r2 := hId.key_range _ _ hregp
    rw [htr, if_neg (by rintro (h | h) <;> omega), hId.fresh_sum k hk]
  have hgone_old : ∀ k, x.orders k = none →
      tradedQty (matchStep side order price level rest opp x).trades k = tradedQty x.trades k := by
    intro k hk
    rw [htr, if_neg, Nat.add_zero]
    rintro (h | h)
    · rw [h, hreg] at hk; cases hk
    · rw [h, hregp] at hk; cases hk
  have hrest : ∀ p ∈ restingPtrs (matchStep side order price level rest opp x),
      x.orders ((tradeBook side order price opp x).heap p).id = some p := by
    intro p hp
    rw [hidst]
    exact hId.resting_reg p (restingPtrs_matchStep_subset side order x price level rest opp ho p hp)
  have hheap := matchStep_heap side order price level rest opp x
  by_cases hfill : ((tradeBook side order price opp x).heap opp).filled_quantity =
      ((tradeBook side order price opp x).heap opp).quantity
  · -- the front order is filled and leaves the id index
    have hord : (matchStep side order price level rest opp x).orders =
        eraseId x.orders (x.heap opp).id := by
      simp only [matchStep, if_pos hfill, orders_setOppIndex, orders_evict, tradeBook_orders,
        hidst]
    have hopp_gone : opp ∉ restingPtrs (matchStep side order price level rest opp x) := by
      rw [mem_restingPtrs side, matchStep_ownIndex]
      simp only [matchStep, if_pos hfill, oppIndex_setOppIndex, levelPtrs_cons,
        remove_front_orders, update_volume_after_fill_orders, hl, List.tail_cons]
      rintro (h | h)
      · exact hnd.1 (List.mem_append_left _ h)
      · exact hnd.1 (List.mem_append_right _ h)
    have hlook : ∀ k, (matchStep side order price level rest opp x).orders k =
        if k = (x.heap opp).id then none else x.orders k := by
      intro k
      rw [hord]
      simp [eraseId, Function.update_apply]
    refine ⟨⟨?_, ?_, ?_, ?_, ?_, hfresh⟩, ?_⟩
    · intro k y hy
      rw [hlook] at hy
      split_ifs at hy
      exact hId.key_range k y hy
    · intro k y hy
      rw [hlook] at hy
      split_ifs at hy
      rw [hheap, hquant]
      exact hId.quantity_eq k y hy
    · intro p hp
      rw [hheap, hlook]
      have h1 := hrest p hp
      rw [hidst] at h1 ⊢
      rw [if_neg]
      · exact h1
      · intro h
        rw [h, hregp] at h1
        exact hopp_gone ((Option.some.inj h1) ▸ hp)
    · intro k y hy
      rw [hlook] at hy
      split_ifs at hy
      rw [hheap]
      exact hentry k y hy
    · intro k hk1 hk2 hk
      rw [hlook] at hk
      split_ifs at hk with hkj
      · subst hkj
        rw [hentry _ opp hregp, hfill, hquant]
        exact hId.quantity_eq _ opp hregp
      · rw [hgone_old k hk]
        exact hId.gone_sum k hk1 hk2 hk
    · rw [hheap, hidst, hlook, if_neg hcj]
      exact hreg
  · -- the front order keeps a remainder: the id index is unchanged
    have hord : (matchStep side order price level rest opp x).orders = x.orders := by
      simp only [matchStep, if_neg hfill, orders_setOppIndex, tradeBook_orders]
    refine ⟨⟨?_, ?_, ?_, ?_, ?_, hfresh⟩, ?_⟩
    · intro k y hy
      rw [hord] at hy
      exact hId.key_range k y hy
    · intro k y hy
      rw [hord] at hy
      rw [hheap, hquant]
      exact hId.quantity_eq k y hy
    · intro p hp
      rw [hheap, hord]
      exact hrest p hp
    · intro k y hy
      rw [hord] at hy
      rw [hheap]
      exact hentry k y hy
    · intro k hk1 hk2 hk
      rw [hord] at hk
      rw [hgone_old k hk]
      exact hId.gone_sum k hk1 hk2 hk
    · rw [hheap, hidst, hord]
      exact hreg

theorem idOK_eraseEmptyFront (qs : List Nat) (side : Side) (x : OrderBook) (h : IdOK qs x) :
    IdOK qs (eraseEmptyFront side x) := by
  have hsub : ∀ p ∈ restingPtrs (eraseEmptyFront side x), p ∈ restingPtrs x := by
    intro p hp
    rw [mem_restingPtrs side] at hp ⊢
    rw [eraseEmptyFront_ownIndex, (eraseEmptyFront_spec side x).1] at hp
    exact hp
  refine ⟨?_, ?_, ?_, ?_, ?_, ?_⟩
  · rw [eraseEmptyFront_orders]; exact h.key_range
  · rw [eraseEmptyFront_orders, eraseEmptyFront_heap]; exact h.quantity_eq
  · rw [eraseEmptyFront_orders, eraseEmptyFront_heap]
    exact fun p hp => h.resting_reg p (hsub p hp)
  · rw [eraseEmptyFront_orders, eraseEmptyFront_heap, eraseEmptyFront_trades]; exact h.live_sum
  · rw [eraseEmptyFront_orders, eraseEmptyFront_trades]; exact h.gone_sum
  · rw [eraseEmptyFront_trades]; exact h.fresh_sum

theorem matchWalk_idOK (qs : List Nat) (side : Side) (type : OrderType) (order : Ptr)
    (inner fuel : Nat) (b b1 : OrderBook) (hI : OuterInv side order b) (hId : IdOK qs b)
    (hreg : b.orders (b.heap order).id = some order)
    (h : matchWalk side type order inner fuel b = some b1) :
    IdOK qs b1 ∧ b1.orders (b1.heap order).id = some order := by
  refine (matchWalk_rule side type order inner
    (fun x => OuterInv side order x ∧ IdOK qs x ∧ x.orders (x.heap order).id = some order)
    (fun x => InnerInv side order x ∧ IdOK qs x ∧ x.orders (x.heap order).id = some order)
    ?_ ?_ ?_ fuel b b1 ⟨hI, hId, hreg⟩ h).1.2
  · intro x _ _ _ hx _ _ _
    exact ⟨⟨hx.1.1, hx.1.2.1, outerLevels_inner side x hx.1.2.2⟩, hx.2⟩
  · intro x price level rest opp tl hJ ho hl hc
    exact ⟨innerInv_matchStep side order x price level rest opp tl hJ.1 ho hl hc,
      idOK_matchStep qs side order x price level rest opp tl hJ.1.1 hJ.1.2.1 ho hl hc
        hJ.2.2 hJ.2.1⟩
  · intro x _ _ _ hJ _ _
    refine ⟨outerInv_eraseEmptyFront side order x hJ.1, idOK_eraseEmptyFront qs side x hJ.2.1, ?_⟩
    rw [eraseEmptyFront_orders, eraseEmptyFront_heap]
    exact hJ.2.2

theorem statusOnly_restingPtrs {b x : OrderBook} (h : StatusOnly b x) :
    restingPtrs x = restingPtrs b := by
  unfold restingPtrs
  rw [h.1, h.2.1]

theorem idOK_statusOnly (qs : List Nat) {b x : OrderBook} (h : StatusOnly b x)
    (ht : x.trades = b.trades) (hId : IdOK qs b) : IdOK qs x := by
  have hr := statusOnly_restingPtrs h
  obtain ⟨_, _, _, ho, hh⟩ := h
  have hq : ∀ p, (x.heap p).quantity = (b.heap p).quantity :=
    fun p => ((static_eq_iff _ _).1 (hh p).1).2.2.2.2
  have hi : ∀ p, (x.heap p).id = (b.heap p).id := fun p => ((static_eq_iff _ _).1 (hh p).1).1
  refine ⟨?_, ?_, ?_, ?_, ?_, ?_⟩
  · rw [ho]; exact hId.key_range
  · intro k y hy
    rw [ho] at hy
    rw [hq]
    exact hId.quantity_eq k y hy
  · intro p hp
    rw [hr] at hp
    rw [ho, hi]
    exact hId.resting_reg p hp
  · intro k y hy
    rw [ho] at hy
    rw [ht, (hh y).2]
    exact hId.live_sum k y hy
  · rw [ho, ht]; exact hId.gone_sum
  · rw [ht]; exact hId.fresh_sum

/-- Registering the `n + 1`-st order keeps the bookkeeping of ids, as long as the id counter
has not wrapped. -/
theorem idOK_register_order (qs : List Nat) (b : OrderBook) (side : Side) (type : OrderType)
    (price : Price) (quantity : Nat) (hI : Inv b) (hId : IdOK qs b)
    (hc : b.order_id_counter = qs.length + 1) :
    IdOK (qs ++ [quantity]) (register_order b side type price quantity) ∧
      (register_order b side type price quantity).orders
        ((register_order b side type price quantity).heap b.pool.allocate.1).id =
        some b.pool.allocate.1 := by
  obtain ⟨hW, _⟩ := (inv_iff side b).1 hI
  obtain ⟨_, _, _, _, _, _, _, a8⟩ :=
    allocate_spec b.pool hW.pool_le hW.free_nodup hW.free_issued
  have hlook : ∀ k, (register_order b side type price quantity).orders k =
      if k = qs.length + 1 then some b.pool.allocate.1 else b.orders k := by
    intro k
    simp [register_order, Function.update_apply, hc]
  have hold : ∀ k y, b.orders k = some y →
      (register_order b side type price quantity).heap y = b.heap y := by
    intro k y hy
    obtain ⟨_, i2, i3, _, _⟩ := hW.index_ok k y hy
    exact register_order_heap_other _ _ _ _ _ _ (a8 y i2 i3)
  have hnew := register_order_heap_order b side type price quantity
  have hlen : (qs ++ [quantity]).length = qs.length + 1 := by simp
  have hget : ∀ k, 1 ≤ k → k ≤ qs.length → (qs ++ [quantity])[k - 1]? = qs[k - 1]? := by
    intro k h1 h2
    rw [List.getElem?_append_left (by omega)]
  have htr : (register_order b side type price quantity).trades = b.trades := rfl
  refine ⟨⟨?_, ?_, ?_, ?_, ?_, ?_⟩, ?_⟩
  · intro k y hy
    rw [hlook] at hy
    rw [hlen]
    split_ifs at hy with hk
    · omega
    · have := hId.key_range k y hy
      omega
  · intro k y hy
    rw [hlook] at hy
    split_ifs at hy with hk
    · cases hy
      rw [hnew, hk]
      simp [Order.new]
    · have hr := hId.key_range k y hy
      rw [hold k y hy, hget k hr.1 hr.2]
      exact hId.quantity_eq k y hy
  · intro p hp
    have hp1 : p ∈ restingPtrs b := hp
    have hreg := hId.resting_reg p hp1
    have hr := hId.key_range _ _ hreg
    rw [hold _ p hreg, hlook, if_neg (by omega)]
    exact hreg
  · intro k y hy
    rw [hlook] at hy
    rw [htr]
    split_ifs at hy with hk
    · cases hy
      rw [hnew, hk, hId.fresh_sum _ (Or.inr (Nat.lt_succ_self _))]
      rfl
    · rw [hold k y hy]
      exact hId.live_sum k y hy
  · intro k h1 h2 hk
    rw [hlook] at hk
    rw [hlen] at h2
    rw [htr]
    split_ifs at hk with hk1
    rw [hget k h1 (by omega)]
    exact hId.gone_sum k h1 (by omega) hk
  · intro k hk
    rw [hlen] at hk
    rw [htr]
    exact hId.fresh_sum k (by omega)
  · rw [hnew, hlook]
    simp [Order.new, hc]

/-- Evicting the incoming order once it is exactly filled keeps the bookkeeping of ids. -/
theorem idOK_evict (qs : List Nat) (side : Side) (order : Ptr) (b : OrderBook)
    (hL : Live side order b) (hId : IdOK qs b)
    (hreg : b.orders (b.heap order).id = some order)
    (hfull : (b.heap order).filled_quantity = (b.heap order).quantity) :
    IdOK qs (evict b order) := by
  have hlook : ∀ k, (evict b order).orders k =
      if k = (b.heap order).id then none else b.orders k := by
    intro k
    simp [orders_evict, eraseId, Function.update_apply]
  have hnot : order ∉ restingPtrs b := by
    rw [mem_restingPtrs side]
    rintro (h | h)
    · exact hL.not_own h
    · exact hL.not_opp h
  refine ⟨?_, ?_, ?_, ?_, ?_, ?_⟩
  · intro k y hy
    rw [hlook] at hy
    split_ifs at hy
    exact hId.key_range k y hy
  · intro k y hy
    rw [hlook] at hy
    split_ifs at hy
    exact hId.quantity_eq k y hy
  · intro p hp
    have hp1 : p ∈ restingPtrs b := hp
    have h1 := hId.resting_reg p hp1
    rw [heap_evict, hlook, if_neg]
    · exact h1
    · intro h
      rw [h, hreg] at h1
      exact hnot ((Option.some.inj h1) ▸ hp1)
  · intro k y hy
    rw [hlook] at hy
    split_ifs at hy
    exact hId.live_sum k y hy
  · intro k h1 h2 hk
    rw [hlook] at hk
    rw [trades_evict]
    split_ifs at hk with hkc
    · subst hkc
      rw [hId.live_sum _ order hreg, hfull]
      exact hId.quantity_eq _ order hreg
    · exact hId.gone_sum k h1 h2 hk
  · exact hId.fresh_sum

theorem idOK_restOrder (qs : List Nat) (side : Side) (order : Ptr) (b : OrderBook)
    (hL : Live side order b) (hId : IdOK qs b)
    (hreg : b.orders (b.heap order).id = some order) : IdOK qs (restOrder b order) := by
  obtain ⟨hperm, _⟩ := restOrder_spec b order side hL.side_eq
  have hopp := restOrder_oppIndex b order side hL.side_eq
  have hord : (restOrder b order).orders = b.orders := by
    unfold restOrder
    cases (b.heap order).side <;> rfl
  refine ⟨?_, ?_, ?_, ?_, ?_, ?_⟩
  · rw [hord]; exact hId.key_range
  · rw [hord, restOrder_heap]; exact hId.quantity_eq
  · intro p hp
    rw [hord, restOrder_heap]
    rw [mem_restingPtrs side, hopp] at hp
    rcases hp with h | h
    · rcases List.mem_cons.1 (hperm.subset h) with rfl | h1
      · exact hreg
      · exact hId.resting_reg p ((mem_restingPtrs side b p).2 (Or.inl h1))
    · exact hId.resting_reg p ((mem_restingPtrs side b p).2 (Or.inr h))
  · rw [hord, restOrder_heap, restOrder_trades]; exact hId.live_sum
  · rw [hord, restOrder_trades]; exact hId.gone_sum
  · rw [restOrder_trades]; exact hId.fresh_sum

theorem idOK_finalize (qs : List Nat) (side : Side) (type : OrderType) (order : Ptr)
    (b : OrderBook) (hL : Live side order b) (hId : IdOK qs b)
    (hreg : b.orders (b.heap order).id = some order) : IdOK qs (finalize type b order) := by
  have hfin : (b.heap order).filled_quantity = (b.heap order).quantity →
      IdOK qs (finishFilled b order) := by
    intro hfull
    have hs := statusOnly_heapModify b order
      (fun o => { o with status := OrderStatus.FILLED }) (fun _ => ⟨rfl, rfl⟩)
    have hi := ((static_eq_iff _ _).1 (hs.2.2.2.2 order).1)
    refine idOK_evict qs side order _ (live_statusOnly side order hs hL)
      (idOK_statusOnly qs hs rfl hId) ?_ ?_
    · rw [hi.1]; exact hreg
    · rw [(hs.2.2.2.2 order).2, hi.2.2.2.2]; exact hfull
  cases type with
  | MARKET =>
    simp only [finalize]
    split_ifs with hfull
    · exact hfin hfull
    · exact idOK_statusOnly qs (statusOnly_markPartialFill b order)
        (markPartialFill_trades b order) hId
  | LIMIT =>
    simp only [finalize]
    split_ifs with hlt
    · exact idOK_statusOnly qs (statusOnly_markPartialFill _ order)
        (markPartialFill_trades _ order) (idOK_restOrder qs side order b hL hId hreg)
    · exact hfin (le_antisymm hL.filled_le (not_lt.1 hlt))

theorem idOK_new : IdOK [] OrderBook.new := by
  refine ⟨?_, ?_, ?_, ?_, ?_, ?_⟩
  · simp [OrderBook.new]
  · simp [OrderBook.new]
  · simp [OrderBook.new, restingPtrs, levelPtrs]
  · simp [OrderBook.new]
  · intro k h1 h2
    simp only [List.length_nil] at h2
    omega
  · simp [OrderBook.new, tradedQty]

theorem cancel_order_trades (b : OrderBook) (order_id : Nat) :
    (cancel_order b order_id).2.trades = b.trades := by
  unfold cancel_order
  split
  · rfl
  · split_ifs <;> rfl

/-- The bookkeeping of ids holds in every book reached by fewer than `2 ^ 64` submissions. -/
theorem history_idOK {qs : List Nat} {b : OrderBook} (h : History qs b)
    (hn : qs.length < U64) : IdOK qs b := by
  induction h with
  | init => exact idOK_new
  | @add qs b r fuel side type price quantity hb hq hadd ih =>
    have hlen : (qs ++ [quantity]).length = qs.length + 1 := by simp
    rw [hlen] at hn
    have hId := ih (by omega)
    have hI := history_inv hb
    have hc : b.order_id_counter = qs.length + 1 := by
      rw [history_counter hb, Nat.mod_eq_of_lt hn]
    obtain ⟨b1, hw, rfl⟩ := add_order_eq fuel b side type price quantity r hadd
    have h0 := outerInv_register_order b side type price quantity hI hq
    obtain ⟨r1, r2⟩ := idOK_register_order qs b side type price quantity hI hId hc
    obtain ⟨w1, w2⟩ := matchWalk_idOK _ side type _ fuel fuel _ b1 h0 r1 r2 hw
    have h1 := matchWalk_outerInv side type _ fuel fuel _ b1 h0 hw
    exact idOK_statusOnly _ (b := finalize type b1 b.pool.allocate.1)
      ⟨rfl, rfl, rfl, rfl, fun _ => ⟨rfl, rfl⟩⟩ rfl
      (idOK_finalize _ side type _ b1 h1.2.1 w1 w2)
  | cancel order_id _ ih =>
    exact idOK_statusOnly _ (statusOnly_cancel_order _ order_id) (cancel_order_trades _ _)
      (ih hn)

/-! ## Wrap-around of the id counter -/

theorem wrap_calls :
    add_order 4 OrderBook.new .SELL .LIMIT 5 1 = some (1, wrap1) ∧
    add_order 4 wrap1 .BUY .LIMIT 5 1 = some (2, wrap2) :=
  ⟨by rfl, by rfl⟩

theorem history_wrap2 : History [1, 1] wrap2 :=
  History.add 4 .BUY .LIMIT 5 1
    (History.add 4 .SELL .LIMIT 5 1 History.init (by decide) wrap_calls.1)
    (by decide) wrap_calls.2

theorem matchWalk_empty (side : Side) (type : OrderType) (order : Ptr) (inner fuel : Nat)
    (b : OrderBook) (h : oppIndex side b = []) :
    matchWalk side type order inner (fuel + 1) b = some b := by
  unfold matchWalk
  rw [h]

/-- A submission on a book with an empty opposite index. -/
theorem add_order_empty (b : OrderBook) (side : Side) (type : OrderType) (price : Price)
    (quantity : Nat) (h : oppIndex side b = []) :
    add_order 1 b side type price quantity =
      some (b.order_id_counter,
        countOrder (finalize type (register_order b side type price quantity)
          b.pool.allocate.1)) :=
  add_order_of_walk 1 b side type price quantity _
    (matchWalk_empty side type _ 1 0 _ (by rw [register_order_oppIndex]; exact h))

/-- A submission of quantity zero on a drained book leaves it drained and advances the id
counter. -/
theorem drained_zero (c : Nat) (b : OrderBook) (h : Drained c b) :
    ∃ r, add_order 1 b .BUY .LIMIT 5 0 = some r ∧ Drained (add64 c 1) r.2 := by
  obtain ⟨h1, h2, h3, h4⟩ := h
  refine ⟨_, add_order_empty b .BUY .LIMIT 5 0 h2, ?_⟩
  have hf : finalize .LIMIT (register_order b .BUY .LIMIT 5 0) b.pool.allocate.1 =
      finishFilled (register_order b .BUY .LIMIT 5 0) b.pool.allocate.1 := by
    simp only [finalize, register_order_heap_order, Order.new]
    rw [if_neg (lt_irrefl 0)]
  refine ⟨?_, ?_, ?_, ?_⟩
  · simp only [hf]; exact h1
  · simp only [hf]; exact h2
  · rw [add_order_trades]; exact h3
  · simp only [countOrder, finalize_counter]
    rw [← h4]
    rfl

theorem drained_iterate (k : Nat) :
    ∃ b, History ([1, 1] ++ List.replicate k 0) b ∧ Drained ((3 + k) % U64) b := by
  induction k with
  | zero =>
    exact ⟨wrap2, by simpa using history_wrap2, by decide, by decide, rfl, by decide⟩
  | succ k ih =>
    obtain ⟨b, hb, hd⟩ := ih
    obtain ⟨r, hr, hd1⟩ := drained_zero _ b hd
    refine ⟨r.2, ?_, ?_⟩
    · have := History.add 1 .BUY .LIMIT 5 0 hb (by decide) hr
      rw [List.append_assoc] at this
      rw [List.replicate_succ']
      exact this
    · have e : add64 ((3 + k) % U64) 1 = (3 + (k + 1)) % U64 := by
        unfold add64
        rw [Nat.mod_add_mod]
        rfl
      rw [← e]
      exact hd1

/-- C7 (as stated, refuted). After `2 ^ 64` submissions the id counter has wrapped and id 1
is issued a second time: in the book reached by a sell of 1 at 5 (id 1), a buy of 1 at 5
(id 2, which trades 1 with id 1), `2 ^ 64 - 2` submissions of quantity 0 and a sell of 7 at
5 (id 1 again), the id index holds under id 1 an order with filled quantity 0, while the
trades of the log with buyer or seller id 1 sum to 1. -/
theorem quantity_conservation_counterexample :
    ∃ b, Reachable b ∧ ∃ k x, b.orders k = some x ∧ (b.heap x).id = k ∧
      tradedQty b.trades k = 1 ∧ (b.heap x).filled_quantity = 0 ∧
      tradedQty b.trades k ≠ (b.heap x).filled_quantity := by
  obtain ⟨b, hb, h1, h2, h3, h4⟩ := drained_iterate (U64 - 2)
  have hc : b.order_id_counter = 1 := by rw [h4]; decide
  have hadd := add_order_empty b .SELL .LIMIT 5 7 (show oppIndex .SELL b = [] from h1)
  have hf : finalize .LIMIT (register_order b .SELL .LIMIT 5 7) b.pool.allocate.1 =
      restOrder (register_order b .SELL .LIMIT 5 7) b.pool.allocate.1 := by
    simp only [finalize, restOrder_heap, register_order_heap_order, Order.new]
    rw [if_pos (by decide)]
    unfold markPartialFill
    rw [restOrder_heap, register_order_heap_order]
    simp [Order.new]
  have ho : (restOrder (register_order b .SELL .LIMIT 5 7) b.pool.allocate.1).orders =
      (register_order b .SELL .LIMIT 5 7).orders := by
    unfold restOrder
    cases ((register_order b .SELL .LIMIT 5 7).heap b.pool.allocate.1).side <;> rfl
  refine ⟨_, ⟨_, History.add 1 .SELL .LIMIT 5 7 hb (by decide) hadd⟩, 1, b.pool.allocate.1,
    ?_, ?_, ?_, ?_, ?_⟩
  · show (countOrder (finalize .LIMIT (register_order b .SELL .LIMIT 5 7)
      b.pool.allocate.1)).orders 1 = _
    rw [hf]
    show (restOrder (register_order b .SELL .LIMIT 5 7) b.pool.allocate.1).orders 1 = _
    rw [ho]
    simp [register_order, hc]
  · show ((countOrder (finalize .LIMIT (register_order b .SELL .LIMIT 5 7)
      b.pool.allocate.1)).heap b.pool.allocate.1).id = 1
    rw [hf]
    show ((restOrder (register_order b .SELL .LIMIT 5 7) b.pool.allocate.1).heap
      b.pool.allocate.1).id = 1
    rw [restOrder_heap, register_order_heap_order]
    exact hc
  · show tradedQty (countOrder (finalize .LIMIT (register_order b .SELL .LIMIT 5 7)
      b.pool.allocate.1)).trades 1 = 1
    rw [add_order_trades]
    show tradedQty b.trades 1 = 1
    rw [h3]
    decide
  · show ((countOrder (finalize .LIMIT (register_order b .SELL .LIMIT 5 7)
      b.pool.allocate.1)).heap b.pool.allocate.1).filled_quantity = 0
    rw [hf]
    show ((restOrder (register_order b .SELL .LIMIT 5 7) b.pool.allocate.1).heap
      b.pool.allocate.1).filled_quantity = 0
    rw [restOrder_heap, register_order_heap_order]
    rfl
  · show tradedQty (countOrder (finalize .LIMIT (register_order b .SELL .LIMIT 5 7)
      b.pool.allocate.1)).trades 1 ≠
      ((countOrder (finalize .LIMIT (register_order b .SELL .LIMIT 5 7)
        b.pool.allocate.1)).heap b.pool.allocate.1).filled_quantity
    rw [add_order_trades, hf]
    show tradedQty b.trades 1 ≠
      ((restOrder (register_order b .SELL .LIMIT 5 7) b.pool.allocate.1).heap
        b.pool.allocate.1).filled_quantity
    rw [restOrder_heap, register_order_heap_order, h3]
    show tradedQty wrap2.trades 1 ≠ 0
    decide

theorem history_demo6 : History [100, 200, 150, 100, 120, 150] demo6 :=
  History.add 4 .SELL .LIMIT 149 150 history_demo5 (by decide) demo_calls.2.2.2.2.2

/-- C7 (amended). Quantity conservation against the trade log: in every book reached from
the empty book by fewer than `2 ^ 64` submissions (`qs` lists their quantities, the k-th
submission has id `k`) and any `cancel_order` calls, every order of the id index is registered
under its own id, and the quantities of the trades of the log whose buyer or seller is that
id sum to the order's `filled_quantity`; and for every issued id that is no longer in the id
index that sum is the quantity the order was submitted with. -/
theorem quantity_conservation (qs : List Nat) (b : OrderBook) (h : History qs b)
    (hn : qs.length < U64) :
    (∀ k x, b.orders k = some x →
      (b.heap x).id = k ∧ tradedQty b.trades (b.heap x).id = (b.heap x).filled_quantity) ∧
    ∀ k, 1 ≤ k → k ≤ qs.length → b.orders k = none →
      qs[k - 1]? = some (tradedQty b.trades k) := by
  have hId := history_idOK h hn
  have hI := history_inv h
  refine ⟨fun k x hx => ?_, hId.gone_sum⟩
  have hid := (hI.1.index_ok k x hx).1
  exact ⟨hid, by rw [hid]; exact hId.live_sum k x hx⟩

theorem quantity_conservation_witness :
    History [100, 200, 150, 100, 120, 150] demo6 ∧
    [100, 200, 150, 100, 120, 150].length < U64 ∧
    demo6.orders 2 = some (0, 1) ∧ (demo6.heap (0, 1)).filled_quantity = 50 ∧
    demo6.orders 1 = none ∧ tradedQty demo6.trades 1 = 100 ∧
    (∀ k x, demo6.orders k = some x →
      (demo6.heap x).id = k ∧
        tradedQty demo6.trades (demo6.heap x).id = (demo6.heap x).filled_quantity) ∧
    ∀ k, 1 ≤ k → k ≤ [100, 200, 150, 100, 120, 150].length → demo6.orders k = none →
      [100, 200, 150, 100, 120, 150][k - 1]? = some (tradedQty demo6.trades k) :=
  ⟨history_demo6, by decide, by decide, by decide, by decide, by decide,
    quantity_conservation _ demo6 history_demo6 (by decide)⟩

/-! ## Scenario 2 of the demo -/

/-- C15. Scenario 2 outcome: starting from an empty book, after
`add_order(BUY, LIMIT, 150.00, 100)`, `add_order(BUY, LIMIT, 149.50, 200)`,
`add_order(SELL, LIMIT, 151.00, 150)` and `add_order(SELL, LIMIT, 151.50, 100)` (ids 1 to 4,
no trade), the call `add_order(BUY, MARKET, 0, 120)` returns id 5 and appends exactly one
trade, of quantity 120 at price 151.00, with buyer 5 and seller 3. Afterwards
`get_best_ask() = 151.00`, `get_ask_volume(151.00) = 30`, the bid index is unchanged, and
the market order is fully filled: marked filled, dropped from the id index, enqueued at no
level. -/
theorem scenario2_outcome :
    add_order 4 OrderBook.new .BUY .LIMIT 150 100 = some (1, demo1) ∧
    add_order 4 demo1 .BUY .LIMIT 149.5 200 = some (2, demo2) ∧
    add_order 4 demo2 .SELL .LIMIT 151 150 = some (3, demo3) ∧
    add_order 4 demo3 .SELL .LIMIT 151.5 100 = some (4, demo4) ∧
    add_order 4 demo4 .BUY .MARKET 0 120 = some (5, demo5) ∧
    demo4.trades = [] ∧
    demo5.trades = demo4.trades ++ [⟨5, 3, 151, 120⟩] ∧
    get_best_ask demo5 = 151 ∧ get_ask_volume demo5 151 = 30 ∧
    demo5.bids = demo4.bids ∧
    (demo5.heap demo4.pool.allocate.1).id = 5 ∧
    (demo5.heap demo4.pool.allocate.1).quantity = 120 ∧
    (demo5.heap demo4.pool.allocate.1).filled_quantity = 120 ∧
    (demo5.heap demo4.pool.allocate.1).status = OrderStatus.FILLED ∧
    get_order demo5 5 = none ∧
    demo4.pool.allocate.1 ∉ restingPtrs demo5 := by
  rw [← px14950_eq, ← px15150_eq]
  obtain ⟨h1, h2, h3, h4, h5, _⟩ := demo_calls
  exact ⟨h1, h2, h3, h4, h5, by decide, by decide, by decide, by decide, by decide,
    by decide, by decide, by decide, by decide, by decide, by decide⟩

/-! ## Status derivation -/

theorem fillStatus_status (o : Order) :
    (fillStatus o).status =
      if o.filled_quantity = o.quantity then OrderStatus.FILLED
      else OrderStatus.PARTIAL_FILL := rfl

theorem fillStatus_filled (o : Order) :
    (fillStatus o).filled_quantity = o.filled_quantity := rfl

theorem fillStatus_quantity (o : Order) : (fillStatus o).quantity = o.quantity := rfl

theorem walkStatus_matchStep (side : Side) (order : Ptr) (x : OrderBook) (price : Price)
    (level : PriceLevel) (rest : Index) (opp : Ptr) (tl : List Ptr)
    (hW : WfFor side x) (hL : Live side order x)
    (ho : oppIndex side x = (price, level) :: rest) (hl : level.orders = opp :: tl)
    (hc : (x.heap order).filled_quantity < (x.heap order).quantity)
    (h : WalkStatus order x) :
    WalkStatus order (matchStep side order price level rest opp x) := by
  have hptrs : levelPtrs (oppIndex side x) = opp :: (tl ++ levelPtrs rest) := by
    rw [ho, levelPtrs_cons]; simp [hl]
  have hopp_mem : opp ∈ levelPtrs (oppIndex side x) := by rw [hptrs]; simp
  have hne : order ≠ opp := fun h => hL.not_opp (h ▸ hopp_mem)
  have hR : RestingOK side.flip price (x.heap opp) :=
    (hW.opp_ok _ (by rw [ho]; exact List.mem_cons_self _ _)).2 opp (by rw [hl]; simp)
  obtain ⟨_, hpos, hfo, hfp, _, hle, _⟩ :=
    trade_arith side order price opp x hne hc hL.quantity_lt hR.2.2.2.1 hR.2.2.2.2
  have hstat := tradeBook_static side order price opp x
  have hoth := tradeBook_heap_other side order price opp x
  have hquant : ∀ y, ((tradeBook side order price opp x).heap y).quantity = (x.heap y).quantity :=
    fun y => ((static_eq_iff _ _).1 (hstat y)).2.2.2.2
  have hidst : ∀ y, ((tradeBook side order price opp x).heap y).id = (x.heap y).id :=
    fun y => ((static_eq_iff _ _).1 (hstat y)).1
  have hheap := matchStep_heap side order price level rest opp x
  have hso : ((tradeBook side order price opp x).heap order).status =
      if ((tradeBook side order price opp x).heap order).filled_quantity =
          ((tradeBook side order price opp x).heap order).quantity then OrderStatus.FILLED
      else OrderStatus.PARTIAL_FILL := by
    rw [tradeBook_heap_order side order price opp x hne, fillStatus_status, fillStatus_filled,
      fillStatus_quantity]
  have hsp : ((tradeBook side order price opp x).heap opp).status =
      if ((tradeBook side order price opp x).heap opp).filled_quantity =
          ((tradeBook side order price opp x).heap opp).quantity then OrderStatus.FILLED
      else OrderStatus.PARTIAL_FILL := by
    rw [tradeBook_heap_opp side order price opp x hne, fillStatus_status, fillStatus_filled,
      fillStatus_quantity]
  have hsub : ∀ k p, (matchStep side order price level rest opp x).orders k = some p →
      x.orders k = some p ∧
        (p = opp → ((tradeBook side order price opp x).heap opp).filled_quantity ≠
          ((tradeBook side order price opp x).heap opp).quantity) := by
    intro k p hk
    by_cases hfill : ((tradeBook side order price opp x).heap opp).filled_quantity =
        ((tradeBook side order price opp x).heap opp).quantity
    · have hord : (matchStep side order price level rest opp x).orders =
          eraseId x.orders (x.heap opp).id := by
        simp only [matchStep, if_pos hfill, orders_setOppIndex, orders_evict, tradeBook_orders,
          hidst]
      rw [hord] at hk
      simp only [eraseId, Function.update_apply] at hk
      split_ifs at hk with hkid
      refine ⟨hk, fun hp => ?_⟩
      subst hp
      exact absurd (hW.index_ok k p hk).1 (fun h => hkid h.symm)
    · have hord : (matchStep side order price level rest opp x).orders = x.orders := by
        simp only [matchStep, if_neg hfill, orders_setOppIndex, tradeBook_orders]
      rw [hord] at hk
      exact ⟨hk, fun _ => hfill⟩
  refine ⟨?_, ?_⟩
  · intro k p hk hpo
    obtain ⟨hk1, hk2⟩ := hsub k p hk
    rw [hheap]
    by_cases hp : p = opp
    · subst hp
      have hnf := hk2 rfl
      rw [hquant] at hnf
      refine ⟨?_, ?_, fun _ => ⟨?_, ?_⟩⟩
      · rw [hquant]; omega
      · rw [hsp, hquant, if_neg hnf]; decide
      · rw [hsp, hquant, if_neg hnf]
        constructor
        · intro h; cases h
        · intro h; omega
      · rw [hsp, hquant, if_neg hnf]
        exact ⟨fun _ => by omega, fun _ => rfl⟩
    · rw [hoth p hpo hp]
      exact h.1 k p hk1 hpo
  · rw [hheap]
    refine ⟨fun h0 => by omega, fun _ => hso⟩

theorem walkStatus_eraseEmptyFront (side : Side) (order : Ptr) (x : OrderBook)
    (h : WalkStatus order x) : WalkStatus order (eraseEmptyFront side x) := by
  unfold WalkStatus
  rw [eraseEmptyFront_orders, eraseEmptyFront_heap]
  exact h

theorem matchWalk_walkStatus (side : Side) (type : OrderType) (order : Ptr)
    (inner fuel : Nat) (b b1 : OrderBook) (hI : OuterInv side order b)
    (hS : WalkStatus order b)
    (h : matchWalk side type order inner fuel b = some b1) : WalkStatus order b1 := by
  refine (matchWalk_rule side type order inner
    (fun x => OuterInv side order x ∧ WalkStatus order x)
    (fun x => InnerInv side order x ∧ WalkStatus order x)
    ?_ ?_ ?_ fuel b b1 ⟨hI, hS⟩ h).1.2
  · intro x _ _ _ hx _ _ _
    exact ⟨⟨hx.1.1, hx.1.2.1, outerLevels_inner side x hx.1.2.2⟩, hx.2⟩
  · intro x price level rest opp tl hJ ho hl hc
    exact ⟨innerInv_matchStep side order x price level rest opp tl hJ.1 ho hl hc,
      walkStatus_matchStep side order x price level rest opp tl hJ.1.1 hJ.1.2.1 ho hl hc hJ.2⟩
  · intro x _ _ _ hJ _ _
    exact ⟨outerInv_eraseEmptyFront side order x hJ.1,
      walkStatus_eraseEmptyFront side order x hJ.2⟩

theorem walkStatus_register_order (b : OrderBook) (side : Side) (type : OrderType)
    (price : Price) (quantity : Nat) (h : IndexStatus b) :
    WalkStatus b.pool.allocate.1 (register_order b side type price quantity) := by
  refine ⟨?_, ?_⟩
  · intro k p hk hp
    rw [register_order_heap_other b side type price quantity p hp]
    simp only [register_order, Function.update_apply] at hk
    split_ifs at hk with hkc
    · exact absurd (Option.some.inj hk).symm hp
    · exact h k p hk
  · rw [register_order_heap_order]
    exact ⟨fun _ => rfl, fun h0 => absurd h0 (by simp [Order.new])⟩

theorem restOrder_orders (b : OrderBook) (order : Ptr) :
    (restOrder b order).orders = b.orders := by
  unfold restOrder
  cases (b.heap order).side <;> rfl

theorem restOrder_pool (b : OrderBook) (order : Ptr) : (restOrder b order).pool = b.pool := by
  unfold restOrder
  cases (b.heap order).side <;> rfl

theorem markPartialFill_orders (b : OrderBook) (order : Ptr) :
    (markPartialFill b order).orders = b.orders := by
  unfold markPartialFill
  split_ifs <;> rfl

theorem markPartialFill_pool (b : OrderBook) (order : Ptr) :
    (markPartialFill b order).pool = b.pool := by
  unfold markPartialFill
  split_ifs <;> rfl

theorem markPartialFill_heap_order (b : OrderBook) (order : Ptr) :
    (markPartialFill b order).heap order =
      if 0 < (b.heap order).filled_quantity then
        { b.heap order with status := OrderStatus.PARTIAL_FILL }
      else b.heap order := by
  unfold markPartialFill
  split_ifs with h
  · simp [heapModify]
  · rfl

theorem finishFilled_heap_order (b : OrderBook) (order : Ptr) :
    (finishFilled b order).heap order = { b.heap order with status := OrderStatus.FILLED } := by
  simp [finishFilled, heapModify]

theorem finishFilled_orders (b : OrderBook) (order : Ptr) :
    (finishFilled b order).orders = eraseId b.orders (b.heap order).id := by
  simp [finishFilled, evict, heapModify]

theorem finishFilled_pool (b : OrderBook) (order : Ptr) :
    (finishFilled b order).pool = b.pool.deallocate order := rfl

/-- The end of `match_market_order` / `match_limit_order` for an order with a remainder: a
limit order is enqueued, and in both cases the pool and the id index stay as they are. -/
theorem finalize_of_lt (type : OrderType) (b : OrderBook) (order : Ptr)
    (h : (b.heap order).filled_quantity < (b.heap order).quantity) :
    finalize type b order =
      markPartialFill (match type with
        | .MARKET => b
        | .LIMIT => restOrder b order) order := by
  cases type
  · simp only [finalize, if_neg (Nat.ne_of_lt h)]
  · simp only [finalize, if_pos h]

/-- The end of `match_market_order` / `match_limit_order` for an exactly filled order. -/
theorem finalize_of_eq (type : OrderType) (b : OrderBook) (order : Ptr)
    (h : (b.heap order).filled_quantity = (b.heap order).quantity) :
    finalize type b order = finishFilled b order := by
  cases type
  · simp only [finalize, if_pos h]
  · simp only [finalize, if_neg (by omega : ¬ (b.heap order).filled_quantity <
      (b.heap order).quantity)]

theorem finalize_orders_of_lt (type : OrderType) (b : OrderBook) (order : Ptr)
    (h : (b.heap order).filled_quantity < (b.heap order).quantity) :
    (finalize type b order).orders = b.orders ∧ (finalize type b order).pool = b.pool ∧
      (finalize type b order).heap order =
        if 0 < (b.heap order).filled_quantity then
          { b.heap order with status := OrderStatus.PARTIAL_FILL }
        else b.heap order := by
  rw [finalize_of_lt type b order h, markPartialFill_orders, markPartialFill_pool,
    markPartialFill_heap_order]
  cases type
  · exact ⟨rfl, rfl, rfl⟩
  · exact ⟨restOrder_orders b order, restOrder_pool b order, by simp only [restOrder_heap]⟩

theorem indexStatus_finalize (side : Side) (type : OrderType) (order : Ptr) (b : OrderBook)
    (hI : OuterInv side order b) (hS : WalkStatus order b) :
    IndexStatus (finalize type b order) := by
  intro k p hk
  by_cases hlt : (b.heap order).filled_quantity < (b.heap order).quantity
  · obtain ⟨e1, _, e3⟩ := finalize_orders_of_lt type b order hlt
    rw [e1] at hk
    by_cases hp : p = order
    · subst hp
      rw [e3]
      split_ifs with h0
      · refine ⟨hlt, by simp, fun _ => ⟨?_, by simpa using h0⟩⟩
        simp only [reduceCtorEq, false_iff]
        omega
      · have hz : (b.heap p).filled_quantity = 0 := by omega
        have hn := hS.2.1 hz
        refine ⟨hlt, by rw [hn]; decide, fun _ => ⟨⟨fun _ => hz, fun _ => hn⟩, ?_⟩⟩
        rw [hn]
        constructor
        · intro h; cases h
        · intro h; omega
    · rw [finalize_heap_other type b order p hp]
      exact hS.1 k p hk hp
  · have heq : (b.heap order).filled_quantity = (b.heap order).quantity :=
      le_antisymm hI.2.1.filled_le (not_lt.1 hlt)
    rw [finalize_of_eq type b order heq] at hk ⊢
    rw [finishFilled_orders] at hk
    simp only [eraseId, Function.update_apply] at hk
    split_ifs at hk with hkid
    have hp : p ≠ order := by
      intro hp
      subst hp
      exact hkid (hI.1.index_ok k p hk).1.symm
    rw [finishFilled_heap_other b order p hp]
    exact hS.1 k p hk hp

theorem indexStatus_add_order (fuel : Nat) (b : OrderBook) (side : Side) (type : OrderType)
    (price : Price) (quantity : Nat) (r : Nat × OrderBook) (hI : Inv b) (hq : quantity < U64)
    (hS : IndexStatus b) (h : add_order fuel b side type price quantity = some r) :
    IndexStatus r.2 := by
  obtain ⟨b1, hw, rfl⟩ := add_order_eq fuel b side type price quantity r h
  have h0 := outerInv_register_order b side type price quantity hI hq
  have h1 := matchWalk_outerInv side type _ fuel fuel _ b1 h0 hw
  have h2 := matchWalk_walkStatus side type _ fuel fuel _ b1 h0
    (walkStatus_register_order b side type price quantity hS) hw
  exact indexStatus_finalize side type _ b1 h1 h2

theorem indexStatus_cancel_order (b : OrderBook) (order_id : Nat) (hS : IndexStatus b) :
    IndexStatus (cancel_order b order_id).2 := by
  unfold cancel_order
  cases ho : b.orders order_id with
  | none => exact hS
  | some x =>
    dsimp only
    split_ifs with hf
    · exact hS
    · intro k p hk
      dsimp only at hk ⊢
      by_cases hp : p = x
      · subst hp
        have h1 := hS k p hk
        simp only [heapModify, Function.update_same]
        exact ⟨h1.1, by simp, fun hc => absurd rfl hc⟩
      · rw [heapModify_other _ _ _ _ hp]
        exact hS k p hk

theorem history_status {qs : List Nat} {b : OrderBook} (h : History qs b) : IndexStatus b := by
  induction h with
  | init => intro k p hk; simp [OrderBook.new] at hk
  | @add qs b r fuel side type price quantity hb hq hadd ih =>
    exact indexStatus_add_order fuel b side type price quantity r (history_inv hb) hq ih hadd
  | cancel order_id _ ih => exact indexStatus_cancel_order _ order_id ih

/-! ## Effect of a call on the records of the other orders -/

theorem touched_matchStep (side : Side) (order : Ptr) (b x : OrderBook) (price : Price)
    (level : PriceLevel) (rest : Index) (opp : Ptr) (tl : List Ptr)
    (hW : WfFor side x) (hL : Live side order x)
    (ho : oppIndex side x = (price, level) :: rest) (hl : level.orders = opp :: tl)
    (hc : (x.heap order).filled_quantity < (x.heap order).quantity)
    (h : ∀ p, p ≠ order → Touched b x p) :
    ∀ p, p ≠ order → Touched b (matchStep side order price level rest opp x) p := by
  have hptrs : levelPtrs (oppIndex side x) = opp :: (tl ++ levelPtrs rest) := by
    rw [ho, levelPtrs_cons]; simp [hl]
  have hopp_mem : opp ∈ levelPtrs (oppIndex side x) := by rw [hptrs]; simp
  have hne : order ≠ opp := fun h => hL.not_opp (h ▸ hopp_mem)
  have hR : RestingOK side.flip price (x.heap opp) :=
    (hW.opp_ok _ (by rw [ho]; exact List.mem_cons_self _ _)).2 opp (by rw [hl]; simp)
  obtain ⟨_, hpos, _, hfp, _, _, _⟩ :=
    trade_arith side order price opp x hne hc hL.quantity_lt hR.2.2.2.1 hR.2.2.2.2
  have hsp : ((tradeBook side order price opp x).heap opp).status =
      if ((tradeBook side order price opp x).heap opp).filled_quantity =
          ((tradeBook side order price opp x).heap opp).quantity then OrderStatus.FILLED
      else OrderStatus.PARTIAL_FILL := by
    rw [tradeBook_heap_opp side order price opp x hne, fillStatus_status, fillStatus_filled,
      fillStatus_quantity]
  intro p hp
  unfold Touched
  rw [matchStep_heap]
  by_cases hpo : p = opp
  · subst hpo
    right
    refine ⟨?_, hsp⟩
    rcases h p hp with h1 | h1
    · rw [hfp, h1]; omega
    · rw [hfp]; omega
  · rw [tradeBook_heap_other side order price opp x p hp hpo]
    exact h p hp

theorem matchWalk_touched (side : Side) (type : OrderType) (order : Ptr)
    (inner fuel : Nat) (b b1 : OrderBook) (hI : OuterInv side order b)
    (h : matchWalk side type order inner fuel b = some b1) :
    ∀ p, p ≠ order → Touched b b1 p := by
  refine (matchWalk_rule side type order inner
    (fun x => OuterInv side order x ∧ ∀ p, p ≠ order → Touched b x p)
    (fun x => InnerInv side order x ∧ ∀ p, p ≠ order → Touched b x p)
    ?_ ?_ ?_ fuel b b1 ⟨hI, fun _ _ => Or.inl rfl⟩ h).1.2
  · intro x _ _ _ hx _ _ _
    exact ⟨⟨hx.1.1, hx.1.2.1, outerLevels_inner side x hx.1.2.2⟩, hx.2⟩
  · intro x price level rest opp tl hJ ho hl hc
    exact ⟨innerInv_matchStep side order x price level rest opp tl hJ.1 ho hl hc,
      touched_matchStep side order b x price level rest opp tl hJ.1.1 hJ.1.2.1 ho hl hc hJ.2⟩
  · intro x _ _ _ hJ _ _
    refine ⟨outerInv_eraseEmptyFront side order x hJ.1, ?_⟩
    intro p hp
    unfold Touched
    rw [eraseEmptyFront_heap]
    exact hJ.2 p hp

/-- Effect of one call on the record of any order other than the incoming one. -/
theorem add_order_touched (fuel : Nat) (b : OrderBook) (side : Side) (type : OrderType)
    (price : Price) (quantity : Nat) (r : Nat × OrderBook) (hI : Inv b) (hq : quantity < U64)
    (h : add_order fuel b side type price quantity = some r) :
    ∀ p, p ≠ b.pool.allocate.1 → Touched b r.2 p := by
  obtain ⟨b1, hw, rfl⟩ := add_order_eq fuel b side type price quantity r h
  have h0 := outerInv_register_order b side type price quantity hI hq
  intro p hp
  have h1 := matchWalk_touched side type _ fuel fuel _ b1 h0 hw p hp
  unfold Touched at h1 ⊢
  have e1 : (countOrder (finalize type b1 b.pool.allocate.1)).heap p = b1.heap p :=
    finalize_heap_other type b1 _ p hp
  rw [e1]
  rw [register_order_heap_other b side type price quantity p hp] at h1
  exact h1

/-- Every enqueued order lives in a slot that the next `allocate` does not return. -/
theorem resting_ne_allocate (b : OrderBook) (hI : Inv b) (p : Ptr) (hp : p ∈ restingPtrs b) :
    p ≠ b.pool.allocate.1 := by
  obtain ⟨_, _, _, _, _, _, _, a8⟩ :=
    allocate_spec b.pool hI.1.pool_le hI.1.free_nodup hI.1.free_issued
  rcases (mem_restingPtrs .BUY b p).1 hp with h | h
  · exact a8 p (hI.1.own_live p h).1 (hI.1.own_live p h).2
  · exact a8 p (hI.1.opp_live p h).1 (hI.1.opp_live p h).2

/-- The incoming order's record after the call, in terms of its record after the walk. -/
theorem finalize_heap_order (type : OrderType) (b : OrderBook) (order : Ptr) :
    ((finalize type b order).heap order).static = (b.heap order).static ∧
    ((finalize type b order).heap order).filled_quantity = (b.heap order).filled_quantity ∧
    ((b.heap order).filled_quantity = (b.heap order).quantity →
      ((finalize type b order).heap order).status = OrderStatus.FILLED) := by
  by_cases hlt : (b.heap order).filled_quantity < (b.heap order).quantity
  · rw [(finalize_orders_of_lt type b order hlt).2.2]
    split_ifs
    · exact ⟨rfl, rfl, fun h => absurd h (Nat.ne_of_lt hlt)⟩
    · exact ⟨rfl, rfl, fun h => absurd h (Nat.ne_of_lt hlt)⟩
  · by_cases heq : (b.heap order).filled_quantity = (b.heap order).quantity
    · rw [finalize_of_eq type b order heq, finishFilled_heap_order]
      exact ⟨rfl, rfl, fun _ => rfl⟩
    · have hgt : (b.heap order).quantity < (b.heap order).filled_quantity := by omega
      refine ⟨?_, ?_, fun h => absurd h heq⟩
      · cases type
        · simp only [finalize, if_neg heq]
          unfold markPartialFill
          split_ifs
          · simp [heapModify, Order.static]
          · rfl
        · simp only [finalize, if_neg hlt, finishFilled_heap_order]
          rfl
      · cases type
        · simp only [finalize, if_neg heq]
          unfold markPartialFill
          split_ifs
          · simp [heapModify]
          · rfl
        · simp only [finalize, if_neg hlt, finishFilled_heap_order]

/-- C17. Status derivation: in every reachable book, no order of the id index has status
`FILLED`, and every order of the id index whose status is not `CANCELLED` has status `NEW`
exactly when `filled_quantity = 0` and status `PARTIAL_FILL` exactly when
`0 < filled_quantity < quantity`. An order that becomes fully filled is marked `FILLED` and
removed from the id index within the same submission: after every call of `add_order`
(which returns), if the incoming order, or an order that was enqueued before the call, has
`filled_quantity = quantity`, then its status is `FILLED` and no key of the id index refers
to it. -/
theorem status_derivation (b : OrderBook) (hr : Reachable b) :
    (∀ k x, b.orders k = some x →
      (b.heap x).status ≠ OrderStatus.FILLED ∧
      ((b.heap x).status ≠ OrderStatus.CANCELLED →
        ((b.heap x).status = OrderStatus.NEW ↔ (b.heap x).filled_quantity = 0) ∧
        ((b.heap x).status = OrderStatus.PARTIAL_FILL ↔
          0 < (b.heap x).filled_quantity ∧
            (b.heap x).filled_quantity < (b.heap x).quantity))) ∧
    ∀ (side : Side) (type : OrderType) (price : Price) (q : Nat), q < U64 →
      (∃ fuel r, add_order fuel b side type price q = some r) ∧
      ∀ fuel r, add_order fuel b side type price q = some r →
        ∀ p, p = b.pool.allocate.1 ∨ p ∈ restingPtrs b →
          (r.2.heap p).filled_quantity = (r.2.heap p).quantity →
          (r.2.heap p).status = OrderStatus.FILLED ∧ ∀ k, r.2.orders k ≠ some p := by
  obtain ⟨qs, hh⟩ := hr
  have hI := history_inv hh
  have hS := history_status hh
  refine ⟨?_, ?_⟩
  · intro k x hk
    obtain ⟨h1, h2, h3⟩ := hS k x hk
    refine ⟨h2, fun hc => ⟨(h3 hc).1, ?_⟩⟩
    rw [(h3 hc).2]
    exact ⟨fun h => ⟨h, h1⟩, fun h => h.1⟩
  · intro side type price q hq
    refine ⟨⟨_, add_order_total ((restingPtrs b).length + 1) b side type price q hI hq
      (Nat.lt_succ_self _)⟩, ?_⟩
    intro fuel r hadd p hp hfull
    have hS2 := indexStatus_add_order fuel b side type price q r hI hq hS hadd
    refine ⟨?_, fun k hk => ?_⟩
    · rcases hp with hp | hp
      · obtain ⟨b1, hw, rfl⟩ := add_order_eq fuel b side type price q r hadd
        subst hp
        obtain ⟨e1, e2, e3⟩ := finalize_heap_order type b1 b.pool.allocate.1
        have e4 := ((static_eq_iff _ _).1 e1).2.2.2.2
        apply e3
        have hfull1 : ((finalize type b1 b.pool.allocate.1).heap b.pool.allocate.1).filled_quantity
            = ((finalize type b1 b.pool.allocate.1).heap b.pool.allocate.1).quantity := hfull
        rw [e2, e4] at hfull1
        exact hfull1
      · have hne := resting_ne_allocate b hI p hp
        have hlt : (b.heap p).filled_quantity < (b.heap p).quantity := by
          rcases (mem_restingPtrs .BUY b p).1 hp with h | h
          · obtain ⟨e, he, hpe⟩ := mem_levelPtrs.1 h
            exact ((hI.1.own_ok e he).2 p hpe).2.2.2.1
          · obtain ⟨e, he, hpe⟩ := mem_levelPtrs.1 h
            exact ((hI.1.opp_ok e he).2 p hpe).2.2.2.1
        rcases add_order_touched fuel b side type price q r hI hq hadd p hne with h | h
        · rw [h] at hfull
          omega
        · rw [h.2, if_pos hfull]
    · have := (hS2 k p hk).1
      omega

theorem status_derivation_witness :
    Reachable demo6 ∧ demo6.orders 2 = some (0, 1) ∧
    (demo6.heap (0, 1)).status = OrderStatus.PARTIAL_FILL ∧
    (demo6.heap (0, 1)).filled_quantity = 50 ∧ (demo6.heap (0, 1)).quantity = 200 ∧
    ((demo6.heap (0, 1)).status ≠ OrderStatus.FILLED ∧
      ((demo6.heap (0, 1)).status ≠ OrderStatus.CANCELLED →
        ((demo6.heap (0, 1)).status = OrderStatus.NEW ↔
          (demo6.heap (0, 1)).filled_quantity = 0) ∧
        ((demo6.heap (0, 1)).status = OrderStatus.PARTIAL_FILL ↔
          0 < (demo6.heap (0, 1)).filled_quantity ∧
            (demo6.heap (0, 1)).filled_quantity < (demo6.heap (0, 1)).quantity))) :=
  ⟨⟨_, history_demo6⟩, by decide, by decide, by decide, by decide,
    (status_derivation demo6 ⟨_, history_demo6⟩).1 2 (0, 1) (by decide)⟩

/-! ## Cancellation -/

theorem cancel_order_true_iff (b : OrderBook) (order_id : Nat) :
    (cancel_order b order_id).1 = true ↔
      ∃ x, b.orders order_id = some x ∧ (b.heap x).status ≠ OrderStatus.FILLED := by
  unfold cancel_order
  cases ho : b.orders order_id with
  | none => simp
  | some x =>
    dsimp only
    split_ifs with hf
    · simp [hf]
    · simp [hf]

theorem cancel_order_of_false (b : OrderBook) (order_id : Nat)
    (h : (cancel_order b order_id).1 = false) : (cancel_order b order_id).2 = b := by
  unfold cancel_order at h ⊢
  cases ho : b.orders order_id with
  | none => rfl
  | some x =>
    rw [ho] at h
    dsimp only at h ⊢
    split_ifs at h ⊢ with hf
    rfl

theorem cancel_order_of_true (b : OrderBook) (order_id : Nat)
    (h : (cancel_order b order_id).1 = true) :
    ∃ x, b.orders order_id = some x ∧
      (cancel_order b order_id).2 =
        { b with
          heap := Function.update b.heap x
            { b.heap x with status := OrderStatus.CANCELLED } } := by
  unfold cancel_order at h ⊢
  cases ho : b.orders order_id with
  | none => rw [ho] at h; cases h
  | some x =>
    rw [ho] at h
    dsimp only at h ⊢
    split_ifs at h ⊢ with hf
    exact ⟨x, rfl, rfl⟩

/-- The walk adds no key to the id index. -/
theorem matchWalk_orders_sub (side : Side) (type : OrderType) (order : Ptr) (inner fuel : Nat)
    (b b1 : OrderBook) (h : matchWalk side type order inner fuel b = some b1) :
    ∀ k x, b1.orders k = some x → b.orders k = some x := by
  refine (matchWalk_rule side type order inner
    (fun y => ∀ k x, y.orders k = some x → b.orders k = some x)
    (fun y => ∀ k x, y.orders k = some x → b.orders k = some x)
    (fun _ _ _ _ hI _ _ _ => hI) ?_ ?_ fuel b b1 (fun _ _ hx => hx) h).1
  · intro y price level rest opp tl hJ _ _ _ k x hx
    apply hJ k x
    simp only [matchStep] at hx
    split_ifs at hx
    · simp only [orders_setOppIndex, orders_evict, eraseId, Function.update_apply,
        tradeBook_orders] at hx
      split_ifs at hx
      exact hx
    · simpa using hx
  · intro y price level rest hJ _ _ k x hx
    rw [eraseEmptyFront_orders] at hx
    exact hJ k x hx

/-- A call of `add_order` adds at most the key it returns to the id index. -/
theorem add_order_orders_sub (fuel : Nat) (b : OrderBook) (side : Side) (type : OrderType)
    (price : Price) (q : Nat) (r : Nat × OrderBook)
    (h : add_order fuel b side type price q = some r) :
    ∀ k x, r.2.orders k = some x → k = b.order_id_counter ∨ b.orders k = some x := by
  obtain ⟨b1, hw, rfl⟩ := add_order_eq fuel b side type price q r h
  have hsub := matchWalk_orders_sub side type _ fuel fuel _ b1 hw
  have hfin : ∀ k x, (finalize type b1 b.pool.allocate.1).orders k = some x →
      b1.orders k = some x := by
    intro k x hx
    have hff : ∀ k x, (finishFilled b1 b.pool.allocate.1).orders k = some x →
        b1.orders k = some x := by
      intro k x hx
      rw [finishFilled_orders] at hx
      simp only [eraseId, Function.update_apply] at hx
      split_ifs at hx
      exact hx
    cases type <;> simp only [finalize] at hx <;> split_ifs at hx
    · exact hff k x hx
    · rwa [markPartialFill_orders] at hx
    · rwa [markPartialFill_orders, restOrder_orders] at hx
    · exact hff k x hx
  intro k x hx
  have h1 := hsub k x (hfin k x hx)
  simp only [register_order, Function.update_apply] at h1
  split_ifs at h1 with hk
  · exact Or.inl hk
  · exact Or.inr h1

/-- Every key of the id index is an id that an earlier call of `add_order` returned: the
`i`-th call returns `(1 + i) mod 2 ^ 64`. -/
theorem history_keys_issued {qs : List Nat} {b : OrderBook} (h : History qs b) :
    ∀ k x, b.orders k = some x → ∃ i, i < qs.length ∧ k = (1 + i) % U64 := by
  induction h with
  | init => intro k x hx; simp [OrderBook.new] at hx
  | @add qs b r fuel side type price quantity hh hq hadd ih =>
    intro k x hx
    rcases add_order_orders_sub fuel b side type price quantity r hadd k x hx with h1 | h1
    · refine ⟨qs.length, by simp, ?_⟩
      rw [h1, history_counter hh, Nat.add_comm]
    · obtain ⟨i, hi, hk⟩ := ih k x h1
      exact ⟨i, by simp; omega, hk⟩
  | @cancel qs b order_id hh ih =>
    intro k x hx
    have := (statusOnly_cancel_order b order_id).2.2.2.1
    rw [this] at hx
    exact ih k x hx

/-- A book in which id 1 has been issued twice: a sell of 1 at 5 (id 1), a buy of 1 at 5
(id 2, which trades 1 with id 1), `2 ^ 64 - 2` submissions of quantity 0 and a sell of 7 at 5,
which gets id 1 again and rests. -/
theorem reissued_id :
    ∃ b x, History ([1, 1] ++ List.replicate (U64 - 2) 0 ++ [7]) b ∧ b.orders 1 = some x ∧
      (b.heap x).status = OrderStatus.NEW ∧ tradedQty b.trades 1 = 1 := by
  obtain ⟨b, hb, h1, h2, h3, h4⟩ := drained_iterate (U64 - 2)
  have hc : b.order_id_counter = 1 := by rw [h4]; decide
  have hadd := add_order_empty b .SELL .LIMIT 5 7 (show oppIndex .SELL b = [] from h1)
  have hf : finalize .LIMIT (register_order b .SELL .LIMIT 5 7) b.pool.allocate.1 =
      restOrder (register_order b .SELL .LIMIT 5 7) b.pool.allocate.1 := by
    simp only [finalize, restOrder_heap, register_order_heap_order, Order.new]
    rw [if_pos (by decide)]
    unfold markPartialFill
    rw [restOrder_heap, register_order_heap_order]
    simp [Order.new]
  refine ⟨_, b.pool.allocate.1, History.add 1 .SELL .LIMIT 5 7 hb (by decide) hadd, ?_, ?_, ?_⟩
  · show (countOrder (finalize .LIMIT (register_order b .SELL .LIMIT 5 7)
      b.pool.allocate.1)).orders 1 = _
    rw [hf]
    show (restOrder (register_order b .SELL .LIMIT 5 7) b.pool.allocate.1).orders 1 = _
    rw [restOrder_orders]
    simp [register_order, hc]
  · show ((countOrder (finalize .LIMIT (register_order b .SELL .LIMIT 5 7)
      b.pool.allocate.1)).heap b.pool.allocate.1).status = OrderStatus.NEW
    rw [hf]
    show ((restOrder (register_order b .SELL .LIMIT 5 7) b.pool.allocate.1).heap
      b.pool.allocate.1).status = OrderStatus.NEW
    rw [restOrder_heap, register_order_heap_order]
    rfl
  · show tradedQty (countOrder (finalize .LIMIT (register_order b .SELL .LIMIT 5 7)
      b.pool.allocate.1)).trades 1 = 1
    rw [add_order_trades]
    show tradedQty b.trades 1 = 1
    rw [h3]
    decide

theorem reissued_length (n : Nat) :
    n + 2 ≤ ([1, 1] ++ List.replicate n 0 ++ [7]).length := by
  simp only [List.length_append, List.length_replicate, List.length_cons, List.length_nil]
  omega

theorem reissued_first (n : Nat) :
    ([1, 1] ++ List.replicate n 0 ++ [7])[1 - 1]? = some 1 := by
  simp only [List.cons_append, Nat.sub_self, List.getElem?_cons_zero]

/-- C13 (as stated, refuted). After `2 ^ 64` submissions the id counter has wrapped and id 1
is issued a second time: in the book reached by a sell of 1 at 5 (id 1), a buy of 1 at 5
(id 2, which trades 1 with id 1 and fills it completely), `2 ^ 64 - 2` submissions of
quantity 0 and a sell of 7 at 5 (id 1 again, resting), the trades of id 1 sum to the
quantity 1 of the first submission, so the order that was issued id 1 was fully filled, and
yet `cancel_order(1)` returns true. -/
theorem cancel_order_counterexample :
    ∃ qs b, History qs b ∧ U64 ≤ qs.length ∧
      qs[1 - 1]? = some (tradedQty b.trades 1) ∧ (cancel_order b 1).1 = true := by
  obtain ⟨b, x, hh, ho, hs, ht⟩ := reissued_id
  refine ⟨_, b, hh, ?_, ?_, ?_⟩
  · have h2 : 2 ≤ U64 := by decide
    have := reissued_length (U64 - 2)
    omega
  · rw [ht]
    exact reissued_first _
  · rw [cancel_order_true_iff]
    exact ⟨x, ho, by rw [hs]; decide⟩

/-- C13 (amended). Specification of `cancel_order`: for every reachable book and every id,
`cancel_order(id)` returns true if and only if `id` is a key of the id index whose order
does not have status `FILLED`. When it returns false the book is unchanged. When it returns
true, the only change is that the status of that order becomes `CANCELLED`: both price
indices (so every level's queue and cached volume), the id index, the pool, the trade log,
the counters, every other order record, and this order's other fields (quantity and
filled quantity among them) are unchanged. It returns false for every id never issued, that
is every id other than the ids `(1 + i) mod 2 ^ 64` returned by the submissions so far (with
fewer than `2 ^ 64` submissions `qs` these are 0 and the ids above `qs.length`); and, while
fewer than `2 ^ 64` orders have been submitted, for every id whose order was fully filled
(its trades sum to the submitted quantity). -/
theorem cancel_order_spec (qs : List Nat) (b : OrderBook) (h : History qs b)
    (order_id : Nat) :
    ((cancel_order b order_id).1 = true ↔
      ∃ x, b.orders order_id = some x ∧ (b.heap x).status ≠ OrderStatus.FILLED) ∧
    ((cancel_order b order_id).1 = false → (cancel_order b order_id).2 = b) ∧
    ((cancel_order b order_id).1 = true →
      ∃ x, b.orders order_id = some x ∧
        (cancel_order b order_id).2.heap x =
          { b.heap x with status := OrderStatus.CANCELLED } ∧
        (∀ p, p ≠ x → (cancel_order b order_id).2.heap p = b.heap p) ∧
        (cancel_order b order_id).2.bids = b.bids ∧
        (cancel_order b order_id).2.asks = b.asks ∧
        (cancel_order b order_id).2.orders = b.orders ∧
        (cancel_order b order_id).2.pool = b.pool ∧
        (cancel_order b order_id).2.trades = b.trades ∧
        (cancel_order b order_id).2.total_orders_processed = b.total_orders_processed ∧
        (cancel_order b order_id).2.total_trades = b.total_trades ∧
        (cancel_order b order_id).2.order_id_counter = b.order_id_counter) ∧
    ((∀ i, i < qs.length → (1 + i) % U64 ≠ order_id) →
      (cancel_order b order_id).1 = false) ∧
    (qs.length < U64 → order_id = 0 ∨ qs.length < order_id →
      (cancel_order b order_id).1 = false) ∧
    (qs.length < U64 → 1 ≤ order_id → order_id ≤ qs.length →
      qs[order_id - 1]? = some (tradedQty b.trades order_id) →
      (cancel_order b order_id).1 = false) := by
  refine ⟨cancel_order_true_iff b order_id, cancel_order_of_false b order_id, ?_, ?_, ?_,
    ?_⟩
  · intro ht
    obtain ⟨x, hx, he⟩ := cancel_order_of_true b order_id ht
    rw [he]
    refine ⟨x, hx, by simp, fun p hp => by simp [Function.update_apply, hp], rfl, rfl, rfl,
      rfl, rfl, rfl, rfl, rfl⟩
  · intro hnever
    cases hc : (cancel_order b order_id).1 with
    | false => rfl
    | true =>
      obtain ⟨x, hx, _⟩ := (cancel_order_true_iff b order_id).1 hc
      obtain ⟨i, hi, hk⟩ := history_keys_issued h order_id x hx
      exact absurd hk.symm (hnever i hi)
  · intro hn hid
    have hId := history_idOK h hn
    cases hc : (cancel_order b order_id).1 with
    | false => rfl
    | true =>
      obtain ⟨x, hx, _⟩ := (cancel_order_true_iff b order_id).1 hc
      have := hId.key_range order_id x hx
      omega
  · intro hn h1 h2 hfull
    have hId := history_idOK h hn
    cases hc : (cancel_order b order_id).1 with
    | false => rfl
    | true =>
      obtain ⟨x, hx, _⟩ := (cancel_order_true_iff b order_id).1 hc
      have e1 := hId.quantity_eq order_id x hx
      have e2 := hId.live_sum order_id x hx
      have e3 := (history_status h order_id x hx).1
      rw [hfull, e2] at e1
      have := Option.some.inj e1
      omega

theorem cancel_order_spec_witness :
    History [100, 200, 150, 100, 120, 150] demo6 ∧
    (cancel_order demo6 2).1 = true ∧ (cancel_order demo6 6).1 = false ∧
    (cancel_order demo6 7).1 = false ∧
    ((cancel_order demo6 2).1 = true ↔
      ∃ x, demo6.orders 2 = some x ∧ (demo6.heap x).status ≠ OrderStatus.FILLED) ∧
    ((cancel_order demo6 6).1 = false → (cancel_order demo6 6).2 = demo6) :=
  ⟨history_demo6, by decide, by decide, by decide,
    (cancel_order_spec _ demo6 history_demo6 2).1,
    (cancel_order_spec _ demo6 history_demo6 6).2.1⟩

/-! ## Matching after a cancellation -/

theorem cxl_calls :
    add_order 4 OrderBook.new .SELL .LIMIT 100 30 = some (1, stack1) ∧
    cancel_order stack1 1 = (true, cxl1) ∧
    add_order 4 cxl1 .BUY .LIMIT 100 10 = some (2, cxl2) :=
  ⟨by rfl, by rfl, by rfl⟩

theorem history_cxl1 : History [30] cxl1 :=
  History.cancel 1 (History.add 4 .SELL .LIMIT 100 30 History.init (by decide) cxl_calls.1)

/-- C14 (defect of the code). `cancel_order` only sets the status flag, the matching loops
never read a status, and `execute_trade` overwrites it. After
`add_order(SELL, LIMIT, 100, 30)` on the empty book (id 1) and `cancel_order(1)`, which
returns true, the call `add_order(BUY, LIMIT, 100, 10)` appends a trade whose seller is id 1;
the filled quantity of order 1 goes from 0 to 10 and its status from `CANCELLED` to
`PARTIAL_FILL`. -/
theorem cancelled_order_trades :
    add_order 4 OrderBook.new .SELL .LIMIT 100 30 = some (1, stack1) ∧
    cancel_order stack1 1 = (true, cxl1) ∧
    add_order 4 cxl1 .BUY .LIMIT 100 10 = some (2, cxl2) ∧
    cxl1.orders 1 = some (0, 0) ∧
    (cxl1.heap (0, 0)).status = OrderStatus.CANCELLED ∧
    (cxl1.heap (0, 0)).filled_quantity = 0 ∧
    cxl2.trades = cxl1.trades ++ [⟨2, 1, 100, 10⟩] ∧
    cxl2.orders 1 = some (0, 0) ∧
    (cxl2.heap (0, 0)).filled_quantity = 10 ∧
    (cxl2.heap (0, 0)).status = OrderStatus.PARTIAL_FILL :=
  ⟨cxl_calls.1, cxl_calls.2.1, cxl_calls.2.2, by decide, by decide, by decide, by decide,
    by decide, by decide, by decide⟩

theorem expectedTrades_statusOnly {b x : OrderBook} (h : StatusOnly b x)
    (hc : x.order_id_counter = b.order_id_counter) (side : Side) (type : OrderType)
    (price : Price) (q : Nat) :
    expectedTrades side type price q x = expectedTrades side type price q b := by
  obtain ⟨h1, h2, _, _, hh⟩ := h
  have ho : oppIndex side x = oppIndex side b := by
    cases side
    · exact h2
    · exact h1
  unfold expectedTrades
  rw [ho, hc, fills_congr x.heap b.heap _ _ q
    (fun kp _ => remaining_eq_of_static (hh kp.2).1 (hh kp.2).2)]
  apply List.map_congr_left
  intro f _
  rw [((static_eq_iff _ _).1 (hh f.2.1).1).1]

/-- Matching never reads a status. On a reachable book, a `cancel_order(id)` that returns
true leaves the order in its level and in the id index and only sets its status to
`CANCELLED`; every call of `add_order` on a reachable book returns, and the trades it appends
are those of price-time priority computed on any book `c` that differs from the book only in
the statuses of its orders; in particular the order at the front of the best opposite level
is traded against by every call of positive quantity whose price test admits that level,
whatever its status. A call changes the record of an order other than the incoming one only
by trades against it, which raise its filled quantity and replace its status (`CANCELLED`
included) by `PARTIAL_FILL` or `FILLED`. -/
theorem matching_ignores_status (b : OrderBook) (hr : Reachable b) :
    (∀ order_id, (cancel_order b order_id).1 = true →
      ∃ x, b.orders order_id = some x ∧
        ((cancel_order b order_id).2.heap x).status = OrderStatus.CANCELLED ∧
        (cancel_order b order_id).2.orders = b.orders ∧
        (cancel_order b order_id).2.bids = b.bids ∧
        (cancel_order b order_id).2.asks = b.asks ∧
        StatusOnly b (cancel_order b order_id).2 ∧
        (cancel_order b order_id).2.order_id_counter = b.order_id_counter) ∧
    ∀ (side : Side) (type : OrderType) (price : Price) (q : Nat), q < U64 →
      (∃ fuel r, add_order fuel b side type price q = some r) ∧
      ∀ fuel r, add_order fuel b side type price q = some r →
        (∀ c, StatusOnly b c → c.order_id_counter = b.order_id_counter →
          r.2.trades = b.trades ++ expectedTrades side type price q c) ∧
        (0 < q → ∀ k l rest x tl, oppIndex side b = (k, l) :: rest → l.orders = x :: tl →
          crossStop side type price k = false →
          ∃ ts, r.2.trades = b.trades ++
            mkTrade side r.1 (b.heap x).id k
              (min q ((b.heap x).quantity - (b.heap x).filled_quantity)) :: ts) ∧
        ∀ p, p ≠ b.pool.allocate.1 →
          r.2.heap p = b.heap p ∨
            ((b.heap p).filled_quantity < (r.2.heap p).filled_quantity ∧
              (r.2.heap p).status =
                if (r.2.heap p).filled_quantity = (r.2.heap p).quantity then
                  OrderStatus.FILLED
                else OrderStatus.PARTIAL_FILL) := by
  obtain ⟨qs, hh⟩ := hr
  have hI := history_inv hh
  refine ⟨?_, ?_⟩
  · intro order_id hc
    have hSO := statusOnly_cancel_order b order_id
    obtain ⟨x, hx, he⟩ := cancel_order_of_true b order_id hc
    exact ⟨x, hx, by rw [he]; simp, hSO.2.2.2.1, hSO.1, hSO.2.1, hSO,
      cancel_order_counter b order_id⟩
  · intro side type price q hq
    refine ⟨⟨_, add_order_total ((restingPtrs b).length + 1) b side type price q hI hq
      (Nat.lt_succ_self _)⟩, ?_⟩
    intro fuel r hadd
    have href := add_order_refines fuel b side type price q r hI hq hadd
    have hid := (add_order_counter fuel b side type price q r hadd).1
    refine ⟨?_, ?_, add_order_touched fuel b side type price q r hI hq hadd⟩
    · intro c hSO hcnt
      rw [href, expectedTrades_statusOnly hSO hcnt]
    · intro hpos k l rest x tl ho hl hstop
      rw [href, hid]
      refine ⟨((fills b.heap (crossStop side type price) (q - min q (b.heap x).remaining)
        (tl.map (fun p => (k, p)) ++ flat rest)).map
        (fun f => mkTrade side b.order_id_counter (b.heap f.2.1).id f.1 f.2.2)), ?_⟩
      congr 1
      have hne : q ≠ 0 := by omega
      simp [expectedTrades, ho, flat, hl, fills, hstop, hne, Order.remaining]

/-! ## The limit price -/

theorem fills_stop {heap : Ptr → Order} {stop : Price → Bool} {l : List (Price × Ptr)} :
    ∀ {rem : Nat} {f : Price × Ptr × Nat}, f ∈ fills heap stop rem l → stop f.1 = false := by
  induction l with
  | nil => intro rem f h; simp [fills] at h
  | cons e rest ih =>
    intro rem f h
    obtain ⟨k, p⟩ := e
    simp only [fills] at h
    split_ifs at h with hc
    · simp at h
    · rcases List.mem_cons.1 h with h1 | h1
      · rw [h1]
        cases hs : stop k with
        | false => rfl
        | true => exact absurd (Or.inr hs) hc
      · exact ih h1

/-- The state of the indices and of the incoming order when `add_order` returns, in terms of
the state in which the walk ended. -/
theorem add_order_exit (fuel : Nat) (b : OrderBook) (side : Side) (type : OrderType)
    (price : Price) (quantity : Nat) (r : Nat × OrderBook) (hI : Inv b) (hq : quantity < U64)
    (h : add_order fuel b side type price quantity = some r) :
    (r.2.heap b.pool.allocate.1).static =
      (Order.new b.order_id_counter side type price quantity).static ∧
    (r.2.heap b.pool.allocate.1).filled_quantity ≤ quantity ∧
    (oppIndex side r.2 = [] ∨
      ¬ (r.2.heap b.pool.allocate.1).filled_quantity < quantity ∨
      ∃ k level rest, oppIndex side r.2 = (k, level) :: rest ∧
        crossStop side type price k = true) := by
  obtain ⟨b1, hw, rfl⟩ := add_order_eq fuel b side type price quantity r h
  have h0 := outerInv_register_order b side type price quantity hI hq
  have h1 := matchWalk_outerInv side type _ fuel fuel _ b1 h0 hw
  obtain ⟨hf, hex⟩ := matchWalk_frame side type _ fuel fuel _ b1 hw
  have hst := walk_static_order side type price quantity b b1 hf
  have hs := walk_side side type price quantity b b1 hf
  obtain ⟨e1, e2, _⟩ := finalize_heap_order type b1 b.pool.allocate.1
  have hopp : oppIndex side (countOrder (finalize type b1 b.pool.allocate.1)) =
      oppIndex side b1 := by
    rw [countOrder_oppIndex, finalize_oppIndex side type b1 _ hs]
  have hq1 := ((static_eq_iff _ _).1 hst).2.2.2.2
  have hp1 := ((static_eq_iff _ _).1 hst).2.2.2.1
  have hle := h1.2.1.filled_le
  rw [hq1] at hle
  refine ⟨e1.trans hst, ?_, ?_⟩
  · show ((finalize type b1 b.pool.allocate.1).heap b.pool.allocate.1).filled_quantity ≤
      quantity
    rw [e2]
    exact hle
  · rw [hopp]
    show _ ∨ ¬ ((finalize type b1 b.pool.allocate.1).heap b.pool.allocate.1).filled_quantity
      < quantity ∨ _
    rw [e2]
    rw [hq1, hp1] at hex
    exact hex

/-! ## Resting of a limit remainder -/

theorem map_find_map_update (before : Price → Price → Bool) (m : Index) (p : Price)
    (f : PriceLevel → PriceLevel) :
    map_find before (map_update before m p f) p = (map_find before m p).map f := by
  induction m with
  | nil => rfl
  | cons e rest ih =>
    obtain ⟨k, v⟩ := e
    unfold map_update
    split_ifs with h1 h2
    · simp [map_find, h1, ih]
    · simp [map_find, h1, h2]
    · simp [map_find, h1, h2]

theorem map_find_map_assign (side : Side) (m : Index) (p : Price) (l : PriceLevel) :
    map_find (ownBefore side) (map_assign (ownBefore side) m p l) p = some l := by
  induction m with
  | nil => simp [map_assign, map_find, ownBefore_irrefl]
  | cons e rest ih =>
    obtain ⟨k, v⟩ := e
    unfold map_assign
    split_ifs with h1 h2
    · simp [map_find, ownBefore_irrefl]
    · simp [map_find, h2, ih]
    · simp [map_find, h1, h2]

theorem map_find_rest (side : Side) (m : Index) (p : Price) (f : PriceLevel → PriceLevel) :
    map_find (ownBefore side) (map_update (ownBefore side)
        (if (map_find (ownBefore side) m p).isNone then
          map_assign (ownBefore side) m p (PriceLevel.new p)
          else m) p f) p =
      some (f ((map_find (ownBefore side) m p).getD (PriceLevel.new p))) := by
  rw [rest_index_eq]
  cases hf : map_find (ownBefore side) m p with
  | none => simp [map_find_map_assign]
  | some v => simp [map_find_map_update, hf]

theorem ownVolume_eq (side : Side) (b : OrderBook) (p : Price) :
    ownVolume side b p =
      ((map_find (ownBefore side) (ownIndex side b) p).getD (PriceLevel.new p)).total_volume := by
  cases side
  · simp only [ownVolume, get_bid_volume, ownIndex, ownBefore]
    cases map_find bidBefore b.bids p <;> rfl
  · simp only [ownVolume, get_ask_volume, ownIndex, ownBefore]
    cases map_find askBefore b.asks p <;> rfl

/-- A walk that starts in a state in which the loop condition fails does nothing. -/
theorem matchWalk_stop (side : Side) (type : OrderType) (order : Ptr) (inner fuel : Nat)
    (x b1 : OrderBook)
    (hstop : oppIndex side x = [] ∨
      ¬ (x.heap order).filled_quantity < (x.heap order).quantity ∨
      ∃ k level rest, oppIndex side x = (k, level) :: rest ∧
        crossStop side type (x.heap order).price k = true)
    (h : matchWalk side type order inner fuel x = some b1) : b1 = x := by
  cases fuel with
  | zero => simp [matchWalk] at h
  | succ n =>
    unfold matchWalk at h
    rcases hstop with h1 | h1 | ⟨k, level, rest, h1, h2⟩
    · rw [h1] at h
      exact (Option.some.inj h).symm
    · cases ho : oppIndex side x with
      | nil =>
        rw [ho] at h
        exact (Option.some.inj h).symm
      | cons e rest =>
        rw [ho] at h
        simp only [if_neg h1] at h
        exact (Option.some.inj h).symm
    · rw [h1] at h
      simp only [h2, if_true] at h
      split_ifs at h
      · exact (Option.some.inj h).symm
      · exact (Option.some.inj h).symm

/-- The level of a limit order that rests: the level that `find` returned for its price on
its side before the call (a fresh one if there was none), with the order appended and its
remainder added to the cached volume in `uint64_t` arithmetic. -/
theorem add_order_rest (fuel : Nat) (b : OrderBook) (side : Side) (price : Price)
    (quantity : Nat) (r : Nat × OrderBook) (hI : Inv b) (hq : quantity < U64)
    (h : add_order fuel b side .LIMIT price quantity = some r)
    (hlt : (r.2.heap b.pool.allocate.1).filled_quantity < quantity) :
    ∃ l, map_find (ownBefore side) (ownIndex side r.2) price = some l ∧
      l.orders = ((map_find (ownBefore side) (ownIndex side b) price).getD
        (PriceLevel.new price)).orders ++ [b.pool.allocate.1] ∧
      l.total_volume =
        add64 ((map_find (ownBefore side) (ownIndex side b) price).getD
          (PriceLevel.new price)).total_volume
          (quantity - (r.2.heap b.pool.allocate.1).filled_quantity) := by
  obtain ⟨b1, hw, rfl⟩ := add_order_eq fuel b side .LIMIT price quantity r h
  have h0 := outerInv_register_order b side .LIMIT price quantity hI hq
  have h1 := matchWalk_outerInv side .LIMIT _ fuel fuel _ b1 h0 hw
  obtain ⟨hf, _⟩ := matchWalk_frame side .LIMIT _ fuel fuel _ b1 hw
  have hst := walk_static_order side .LIMIT price quantity b b1 hf
  have hs := walk_side side .LIMIT price quantity b b1 hf
  have hq1 : (b1.heap b.pool.allocate.1).quantity = quantity :=
    ((static_eq_iff _ _).1 hst).2.2.2.2
  have hp1 : (b1.heap b.pool.allocate.1).price = price := ((static_eq_iff _ _).1 hst).2.2.2.1
  obtain ⟨_, e2, _⟩ := finalize_heap_order .LIMIT b1 b.pool.allocate.1
  have hlt1 : (b1.heap b.pool.allocate.1).filled_quantity <
      (b1.heap b.pool.allocate.1).quantity := by
    have : ((finalize .LIMIT b1 b.pool.allocate.1).heap b.pool.allocate.1).filled_quantity <
        quantity := hlt
    rw [e2] at this
    rw [hq1]
    exact this
  have hown : ownIndex side (countOrder (finalize .LIMIT b1 b.pool.allocate.1)) =
      ownIndex side (restOrder b1 b.pool.allocate.1) := by
    rw [countOrder_ownIndex, finalize_of_lt .LIMIT b1 _ hlt1]
    cases side
    · exact markPartialFill_bids _ _
    · exact markPartialFill_asks _ _
  have hfill : ((countOrder (finalize .LIMIT b1 b.pool.allocate.1)).heap
      b.pool.allocate.1).filled_quantity = (b1.heap b.pool.allocate.1).filled_quantity := e2
  rw [hown, restOrder_ownIndex b1 _ side hs, hp1, hf.1, register_order_ownIndex,
    map_find_rest, hfill]
  refine ⟨_, rfl, rfl, ?_⟩
  show add64 _ (sub64 _ _) = _
  rw [hq1, sub64_eq (by omega) hq]

/-- When a limit order is left with a remainder, its price is better than every price of the
opposite index (so no opposite level crosses it). -/
theorem add_order_no_cross_left (fuel : Nat) (b : OrderBook) (side : Side) (P : Price)
    (q : Nat) (r : Nat × OrderBook) (hI : Inv b) (hS : Shape r.2) (hq : q < U64)
    (h : add_order fuel b side .LIMIT P q = some r)
    (hlt : (r.2.heap b.pool.allocate.1).filled_quantity < q) :
    ∀ k ∈ keys (oppIndex side r.2), better side P k := by
  obtain ⟨_, _, hex⟩ := add_order_exit fuel b side .LIMIT P q r hI hq h
  have hsort := ((shapeFor_iff side r.2).2 hS).1
  rcases hex with h1 | h1 | ⟨k0, l0, rest, h1, h2⟩
  · intro k hk
    rw [h1] at hk
    simp [keys] at hk
  · exact absurd hlt h1
  · have hb := (crossStop_limit_iff side P k0).1 h2
    rw [h1] at hsort ⊢
    simp only [keys, List.map_cons, List.pairwise_cons] at hsort
    intro k hk
    simp only [keys, List.map_cons, List.mem_cons] at hk
    rcases hk with rfl | hk
    · exact hb
    · exact better_trans side hb (hsort.1 k hk)

/-- C16 (as stated, refuted). After `add_order(SELL, LIMIT, 100, 30)` on the empty book, the
call `add_order(BUY, LIMIT, NaN, 10)` appends a trade at price 100, and `100 <= NaN` is false.
After `add_order(SELL, LIMIT, NaN, 10)` on the empty book, which creates an ask level keyed
not-a-number, the call `add_order(BUY, LIMIT, 100, 10)` appends a trade at price
not-a-number, and `NaN <= 100` is false. -/
theorem limit_price_counterexample :
    (Reachable stack1 ∧ add_order 4 stack1 .BUY .LIMIT .nan 10 = some (2, nan3) ∧
      nan3.trades = stack1.trades ++ [⟨2, 1, 100, 10⟩] ∧ ¬ ((100 : Price) ≤ .nan)) ∧
    (Reachable nan4 ∧ keys nan4.asks = [.nan] ∧
      add_order 4 nan4 .BUY .LIMIT 100 10 = some (2, nan7) ∧
      nan7.trades = nan4.trades ++ [⟨2, 1, .nan, 10⟩] ∧ ¬ (Price.nan ≤ (100 : Price))) :=
  ⟨⟨⟨_, history_stack1⟩, nan_calls.2.2.2.1, by decide, by decide⟩,
    ⟨_, history_nan4⟩, by decide, nan_calls.2.2.2.2.2.2.2, by decide, by decide⟩

/-- C16 (amended). Limit price is respected: for every reachable book,
`add_order(side, LIMIT, P, q)` returns, and no trade it appends has a price that the `break`
test rejects (`P < price` for a buy, `P > price` for a sell); when `P` is not not-a-number and
no level of the opposite index is keyed not-a-number, every trade it appends has price `≤ P`
for a buy and `≥ P` for a sell. When it returns, the incoming order is exactly filled, or the
opposite index is empty, or the best opposite price does not cross `P` (it is above `P` for a
buy, below `P` for a sell). So if a remainder is left, it is enqueued at the level that `find`
returns for `P` on its own side and no level of the opposite index has a price that crosses
`P`. -/
theorem limit_price_respected (b : OrderBook) (hr : Reachable b) (side : Side) (P : Price)
    (q : Nat) (hq : q < U64) :
    (∃ fuel r, add_order fuel b side .LIMIT P q = some r) ∧
    ∀ fuel r, add_order fuel b side .LIMIT P q = some r →
      (∃ ts, r.2.trades = b.trades ++ ts ∧
        (side = .BUY → ∀ t ∈ ts, ¬ P < t.price) ∧
        (side = .SELL → ∀ t ∈ ts, ¬ t.price < P) ∧
        (P ≠ .nan → Price.nan ∉ keys (oppIndex side b) →
          (side = .BUY → ∀ t ∈ ts, t.price ≤ P) ∧
          (side = .SELL → ∀ t ∈ ts, P ≤ t.price))) ∧
      ((r.2.heap b.pool.allocate.1).filled_quantity = q ∨ oppIndex side r.2 = [] ∨
        (side = .BUY ∧ r.2.asks ≠ [] ∧ P < get_best_ask r.2) ∨
        (side = .SELL ∧ r.2.bids ≠ [] ∧ get_best_bid r.2 < P)) ∧
      ((r.2.heap b.pool.allocate.1).filled_quantity < q →
        (∃ l, map_find (ownBefore side) (ownIndex side r.2) P = some l ∧
          b.pool.allocate.1 ∈ l.orders) ∧
        (side = .BUY → ∀ k ∈ keys r.2.asks, P < k) ∧
        (side = .SELL → ∀ k ∈ keys r.2.bids, k < P)) := by
  obtain ⟨qs, hh⟩ := hr
  have hI := history_inv hh
  refine ⟨⟨_, add_order_total ((restingPtrs b).length + 1) b side .LIMIT P q hI hq
    (Nat.lt_succ_self _)⟩, ?_⟩
  intro fuel r hadd
  have href := add_order_refines fuel b side .LIMIT P q r hI hq hadd
  obtain ⟨_, hle, hex⟩ := add_order_exit fuel b side .LIMIT P q r hI hq hadd
  have hS := history_shape (History.add fuel side .LIMIT P q hh hq hadd)
  have hprice : ∀ t ∈ expectedTrades side .LIMIT P q b,
      ¬ better side P t.price ∧ t.price ∈ keys (oppIndex side b) := by
    intro t ht
    simp only [expectedTrades, List.mem_map] at ht
    obtain ⟨f, hf, rfl⟩ := ht
    constructor
    · rw [mkTrade_price, ← crossStop_limit_iff, fills_stop hf]
      simp
    · obtain ⟨e, he, hk, _⟩ := mem_flat.1 (mem_fills hf)
      rw [mkTrade_price, ← hk]
      exact List.mem_map_of_mem _ he
  refine ⟨⟨_, href, ?_, ?_, ?_⟩, ?_, ?_⟩
  · rintro rfl t ht
    exact (hprice t ht).1
  · rintro rfl t ht
    exact (hprice t ht).1
  · intro hP hn
    have hk : ∀ t ∈ expectedTrades side .LIMIT P q b, t.price ≠ .nan := fun t ht h =>
      hn (h ▸ (hprice t ht).2)
    constructor
    · rintro rfl t ht
      exact Price.le_of_not_lt hP (hk t ht) (hprice t ht).1
    · rintro rfl t ht
      exact Price.le_of_not_lt (hk t ht) hP (hprice t ht).1
  · rcases hex with h1 | h1 | ⟨k0, l0, rest, h1, h2⟩
    · exact Or.inr (Or.inl h1)
    · exact Or.inl (by omega)
    · have hb := (crossStop_limit_iff side P k0).1 h2
      cases side
      · have ha : r.2.asks = (k0, l0) :: rest := h1
        exact Or.inr (Or.inr (Or.inl ⟨rfl, by rw [ha]; simp,
          by simp only [get_best_ask, ha]; exact hb⟩))
      · have ha : r.2.bids = (k0, l0) :: rest := h1
        exact Or.inr (Or.inr (Or.inr ⟨rfl, by rw [ha]; simp,
          by simp only [get_best_bid, ha]; exact hb⟩))
  · intro hlt
    obtain ⟨l, hl1, hl2, _⟩ := add_order_rest fuel b side P q r hI hq hadd hlt
    have hall := add_order_no_cross_left fuel b side P q r hI hS hq hadd hlt
    refine ⟨⟨l, hl1, by rw [hl2]; simp⟩, ?_, ?_⟩
    · rintro rfl k hk
      exact hall k hk
    · rintro rfl k hk
      exact hall k hk

theorem limit_price_respected_witness :
    Reachable demo5 ∧ 150 < U64 ∧
    add_order 4 demo5 .SELL .LIMIT 149 150 = some (6, demo6) ∧
    (149 : Price) ≠ .nan ∧ Price.nan ∉ keys (oppIndex .SELL demo5) ∧
    (∃ ts, demo6.trades = demo5.trades ++ ts ∧ (∀ t ∈ ts, ¬ t.price < (149 : Price)) ∧
      ∀ t ∈ ts, 149 ≤ t.price) ∧
    (demo6.heap demo5.pool.allocate.1).filled_quantity = 150 := by
  obtain ⟨ts, h1, _, h3, h4⟩ :=
    ((limit_price_respected demo5 ⟨_, history_demo5⟩ .SELL 149 150 (by decide)).2 4 (6, demo6)
      demo_calls.2.2.2.2.2).1
  exact ⟨⟨_, history_demo5⟩, by decide, demo_calls.2.2.2.2.2, by decide, by decide,
    ⟨ts, h1, h3 rfl, (h4 (by decide) (by decide)).2 rfl⟩, by decide⟩

/-! ## The incoming order after a call that leaves it a remainder -/

/-- An order that comes out of `add_order` with a remainder, while fewer than `2 ^ 64` orders
have been submitted: it is registered in the id index under the returned id, and its status
is `NEW` if nothing was filled and `PARTIAL_FILL` otherwise. -/
theorem add_order_remainder {qs : List Nat} (fuel : Nat) (b : OrderBook) (side : Side)
    (type : OrderType) (price : Price) (quantity : Nat) (r : Nat × OrderBook)
    (hh : History qs b) (hn : qs.length + 1 < U64) (hq : quantity < U64)
    (h : add_order fuel b side type price quantity = some r)
    (hlt : (r.2.heap b.pool.allocate.1).filled_quantity < quantity) :
    r.1 = qs.length + 1 ∧ r.2.orders r.1 = some b.pool.allocate.1 ∧
    (r.2.heap b.pool.allocate.1).status =
      if (r.2.heap b.pool.allocate.1).filled_quantity = 0 then OrderStatus.NEW
      else OrderStatus.PARTIAL_FILL := by
  have hI := history_inv hh
  have hc : b.order_id_counter = qs.length + 1 := by
    rw [history_counter hh, Nat.mod_eq_of_lt hn]
  have hId := history_idOK hh (by omega)
  obtain ⟨b1, hw, rfl⟩ := add_order_eq fuel b side type price quantity r h
  have h0 := outerInv_register_order b side type price quantity hI hq
  obtain ⟨r1, r2⟩ := idOK_register_order qs b side type price quantity hI hId hc
  obtain ⟨_, w2⟩ := matchWalk_idOK _ side type _ fuel fuel _ b1 h0 r1 r2 hw
  have hS := matchWalk_walkStatus side type _ fuel fuel _ b1 h0
    (walkStatus_register_order b side type price quantity (history_status hh)) hw
  obtain ⟨hf, _⟩ := matchWalk_frame side type _ fuel fuel _ b1 hw
  have hst := walk_static_order side type price quantity b b1 hf
  have hq1 : (b1.heap b.pool.allocate.1).quantity = quantity :=
    ((static_eq_iff _ _).1 hst).2.2.2.2
  have hid1 : (b1.heap b.pool.allocate.1).id = b.order_id_counter :=
    ((static_eq_iff _ _).1 hst).1
  obtain ⟨_, e2, _⟩ := finalize_heap_order type b1 b.pool.allocate.1
  have hlt1 : (b1.heap b.pool.allocate.1).filled_quantity <
      (b1.heap b.pool.allocate.1).quantity := by
    have : ((finalize type b1 b.pool.allocate.1).heap b.pool.allocate.1).filled_quantity <
        quantity := hlt
    rw [e2] at this
    rw [hq1]
    exact this
  obtain ⟨f1, _, f3⟩ := finalize_orders_of_lt type b1 _ hlt1
  refine ⟨hc, ?_, ?_⟩
  · show (finalize type b1 b.pool.allocate.1).orders b.order_id_counter = _
    rw [f1, ← hid1]
    exact w2
  · show ((finalize type b1 b.pool.allocate.1).heap b.pool.allocate.1).status =
      if ((finalize type b1 b.pool.allocate.1).heap b.pool.allocate.1).filled_quantity = 0
      then OrderStatus.NEW else OrderStatus.PARTIAL_FILL
    rw [e2, f3]
    split_ifs with a1 a2 a2
    · omega
    · rfl
    · exact hS.2.1 a2
    · omega

theorem mkt_calls :
    add_order 4 OrderBook.new .BUY .MARKET 0 10 = some (1, mkt1) ∧
    add_order 4 OrderBook.new .SELL .LIMIT 100 30 = some (1, stack1) ∧
    add_order 4 stack1 .BUY .MARKET 0 50 = some (2, mkt2) :=
  ⟨by rfl, by rfl, by rfl⟩

/-- C11 (defect of the code). The remainder branch of `match_market_order` only sets the
status: it performs neither the `orders_.erase` nor the `pool_.deallocate` of the filled
branch. A market buy of 10 on the empty book returns id 1 with nothing filled, and a market
buy of 50 against a single resting sell of 30 returns id 2 with 30 filled. In both cases the
id is still a key of the id index afterwards: `get_order` returns the order, `cancel_order`
returns true, and the slot is not on the free list of the pool. -/
theorem market_remainder_leak :
    add_order 4 OrderBook.new .BUY .MARKET 0 10 = some (1, mkt1) ∧
    (mkt1.heap (0, 0)).filled_quantity = 0 ∧
    get_order mkt1 1 = some (0, 0) ∧ (cancel_order mkt1 1).1 = true ∧
    mkt1.pool.free_list = [] ∧
    add_order 4 OrderBook.new .SELL .LIMIT 100 30 = some (1, stack1) ∧
    add_order 4 stack1 .BUY .MARKET 0 50 = some (2, mkt2) ∧
    (mkt2.heap (0, 1)).filled_quantity = 30 ∧ (mkt2.heap (0, 1)).quantity = 50 ∧
    get_order mkt2 2 = some (0, 1) ∧ (cancel_order mkt2 2).1 = true ∧
    (0, 1) ∉ mkt2.pool.free_list :=
  ⟨mkt_calls.1, by decide, by decide, by decide, by decide, mkt_calls.2.1, mkt_calls.2.2,
    by decide, by decide, by decide, by decide, by decide⟩

/-- The market order that is left with a remainder stays in the id index and keeps its slot,
on every book reached by fewer than `2 ^ 64 - 1` submissions:
`add_order(side, MARKET, price, q)` returns, and when it returns id with the order's
`filled_quantity < q` (including a zero fill), `get_order(id)` returns the order, whose status
is `NEW` after a zero fill and `PARTIAL_FILL` otherwise, `cancel_order(id)` returns true, and
the order's slot has not been returned to the pool. The order is enqueued at no price
level. -/
theorem market_remainder_stays (qs : List Nat) (b : OrderBook) (h : History qs b)
    (hn : qs.length + 1 < U64) (side : Side) (price : Price) (q : Nat) (hq : q < U64) :
    (∃ fuel r, add_order fuel b side .MARKET price q = some r) ∧
    ∀ fuel r, add_order fuel b side .MARKET price q = some r →
      (r.2.heap b.pool.allocate.1).filled_quantity < q →
      r.1 = qs.length + 1 ∧
      get_order r.2 r.1 = some b.pool.allocate.1 ∧
      (r.2.heap b.pool.allocate.1).id = r.1 ∧
      (r.2.heap b.pool.allocate.1).quantity = q ∧
      (r.2.heap b.pool.allocate.1).status =
        (if (r.2.heap b.pool.allocate.1).filled_quantity = 0 then OrderStatus.NEW
          else OrderStatus.PARTIAL_FILL) ∧
      (cancel_order r.2 r.1).1 = true ∧
      issued r.2.pool b.pool.allocate.1 ∧
      b.pool.allocate.1 ∉ r.2.pool.free_list ∧
      b.pool.allocate.1 ∉ restingPtrs r.2 := by
  have hI := history_inv h
  refine ⟨⟨_, add_order_total ((restingPtrs b).length + 1) b side .MARKET price q hI hq
    (Nat.lt_succ_self _)⟩, ?_⟩
  intro fuel r hadd hlt
  obtain ⟨a1, a2, a3⟩ := add_order_remainder fuel b side .MARKET price q r h hn hq hadd hlt
  obtain ⟨hst, _, _⟩ := add_order_exit fuel b side .MARKET price q r hI hq hadd
  have hI2 := inv_add_order fuel b side .MARKET price q r hI hq hadd
  obtain ⟨i1, i2, i3, _, _⟩ := hI2.1.index_ok r.1 _ a2
  have hty : (r.2.heap b.pool.allocate.1).type = .MARKET := ((static_eq_iff _ _).1 hst).2.2.1
  refine ⟨a1, a2, i1, ((static_eq_iff _ _).1 hst).2.2.2.2, a3, ?_, i2, i3, ?_⟩
  · rw [cancel_order_true_iff]
    refine ⟨_, a2, ?_⟩
    rw [a3]
    split_ifs <;> decide
  · intro hp
    have := inv_resting_limit r.2 hI2 _ hp
    rw [hty] at this
    cases this

/-! ## A resting order that outlives the wrap-around of the id counter -/

theorem held_resting {c : Nat} {b : OrderBook} (h : Held c b) :
    (0, 0) ∈ restingPtrs b ∧ (b.heap (0, 0)).id = 1 := by
  obtain ⟨h1, h2, h3, _⟩ := h
  refine ⟨?_, by rw [h3]; decide⟩
  unfold restingPtrs
  rw [h1, h2]
  decide

/-- A submission of quantity zero leaves the held order alone, advances the id counter and
leaves its own id without an entry in the id index. -/
theorem held_zero {qs : List Nat} (c : Nat) (b : OrderBook) (hh : History qs b)
    (h : Held c b) :
    ∃ r, add_order 1 b .SELL .LIMIT 5 0 = some r ∧ Held (add64 c 1) r.2 ∧
      r.2.orders c = none := by
  have hne := resting_ne_allocate b (history_inv hh) (0, 0) (held_resting h).1
  obtain ⟨h1, h2, h3, h4⟩ := h
  refine ⟨_, add_order_empty b .SELL .LIMIT 5 0 h1, ?_, ?_⟩
  · have hf : finalize .LIMIT (register_order b .SELL .LIMIT 5 0) b.pool.allocate.1 =
        finishFilled (register_order b .SELL .LIMIT 5 0) b.pool.allocate.1 := by
      simp only [finalize, register_order_heap_order, Order.new]
      rw [if_neg (lt_irrefl 0)]
    refine ⟨?_, ?_, ?_, ?_⟩
    · simp only [hf]; exact h1
    · simp only [hf]; exact h2
    · show (finalize .LIMIT (register_order b .SELL .LIMIT 5 0) b.pool.allocate.1).heap
        (0, 0) = _
      rw [finalize_heap_other _ _ _ _ hne, register_order_heap_other _ _ _ _ _ _ hne]
      exact h3
    · simp only [countOrder, finalize_counter]
      rw [← h4]
      rfl
  · show (finalize .LIMIT (register_order b .SELL .LIMIT 5 0) b.pool.allocate.1).orders c = none
    rw [finalize_of_eq .LIMIT _ _ (by rw [register_order_heap_order]; rfl),
      finishFilled_orders, register_order_heap_order]
    subst h4
    simp [eraseId, Order.new]

theorem held_wrap1 : History [1] wrap1 ∧ Held 2 wrap1 :=
  ⟨History.add 4 .SELL .LIMIT 5 1 History.init (by decide) wrap_calls.1,
    by decide, rfl, rfl, by decide⟩

theorem held_iterate (k : Nat) :
    ∃ b, History ([1] ++ List.replicate k 0) b ∧ Held ((2 + k) % U64) b ∧
      (0 < k → b.orders ((1 + k) % U64) = none) := by
  induction k with
  | zero =>
    exact ⟨wrap1, by simpa using held_wrap1.1, held_wrap1.2, fun h => absurd h (lt_irrefl 0)⟩
  | succ k ih =>
    obtain ⟨b, hb, hd, _⟩ := ih
    obtain ⟨r, hr, hd1, ho⟩ := held_zero _ b hb hd
    refine ⟨r.2, ?_, ?_, fun _ => ?_⟩
    · have := History.add 1 .SELL .LIMIT 5 0 hb (by decide) hr
      rw [List.append_assoc] at this
      rw [List.replicate_succ']
      exact this
    · have e : add64 ((2 + k) % U64) 1 = (2 + (k + 1)) % U64 := by
        unfold add64
        rw [Nat.mod_add_mod]
        rfl
      rw [← e]
      exact hd1
    · have e : (1 + (k + 1)) % U64 = (2 + k) % U64 := by
        congr 1
        omega
      rw [e]
      exact ho

/-- C19 (as stated, refuted). After `add_order(SELL, LIMIT, 5, 1)` on the empty book (id 1,
which rests) and `2 ^ 64` submissions of quantity 0, the last of which is issued id 1 again
and erases that key when it completes, the first order is still enqueued at its level but
the id index has no entry under its id. -/
theorem no_dangling_counterexample :
    ∃ b, Reachable b ∧ ∃ p ∈ restingPtrs b, (b.heap p).id = 1 ∧ b.orders 1 = none ∧
      b.orders (b.heap p).id ≠ some p := by
  obtain ⟨b, hb, hd, ho⟩ := held_iterate U64
  have ho1 : b.orders 1 = none := by
    have := ho (by decide)
    have e : (1 + U64) % U64 = 1 := by decide
    rw [e] at this
    exact this
  obtain ⟨h1, h2⟩ := held_resting hd
  refine ⟨b, ⟨_, hb⟩, (0, 0), h1, h2, ho1, ?_⟩
  rw [h2, ho1]
  exact fun h => by cases h

/-! ## No dangling references -/

theorem restingPtrs_eq (b : OrderBook) : restingPtrs b = levelPtrs (b.bids ++ b.asks) := by
  simp [restingPtrs, levelPtrs, List.flatMap_append]

/-- C19 (amended). No dangling order references: in every book reachable from the empty book
by `add_order` and `cancel_order` calls, the free list of the pool contains no slot twice,
and no slot that the id index refers to or that is enqueued at a price level; every order
enqueued at a price level appears in exactly one level exactly once (the queues of all
levels of both indices, put together, contain no slot twice; no queue contains a slot
twice; no two levels share a slot); and, while fewer than `2 ^ 64` orders have been
submitted, every enqueued order is registered in the id index under its own id. -/
theorem no_dangling_references (qs : List Nat) (b : OrderBook) (h : History qs b) :
    b.pool.free_list.Nodup ∧
    (∀ p ∈ b.pool.free_list, (∀ k, b.orders k ≠ some p) ∧ p ∉ restingPtrs b) ∧
    (restingPtrs b).Nodup ∧
    (∀ e ∈ b.bids ++ b.asks, e.2.orders.Nodup) ∧
    (∀ e1 ∈ b.bids ++ b.asks, ∀ e2 ∈ b.bids ++ b.asks, ∀ p,
      p ∈ e1.2.orders → p ∈ e2.2.orders → e1 = e2) ∧
    (qs.length < U64 → ∀ p ∈ restingPtrs b, b.orders (b.heap p).id = some p) := by
  have hI := history_inv h
  have hnd : (restingPtrs b).Nodup := hI.1.nodup
  have hnd2 := hnd
  rw [restingPtrs_eq, levelPtrs, List.nodup_flatMap] at hnd2
  refine ⟨hI.1.free_nodup, ?_, hnd, hnd2.1, ?_, ?_⟩
  · intro p hp
    refine ⟨fun k hk => (hI.1.index_ok k p hk).2.2.1 hp, fun hr => ?_⟩
    rcases (mem_restingPtrs .BUY b p).1 hr with h1 | h1
    · exact (hI.1.own_live p h1).2 hp
    · exact (hI.1.opp_live p h1).2 hp
  · intro e1 he1 e2 he2 p hp1 hp2
    by_contra hne
    have hsym : Symmetric (fun (a c : Price × PriceLevel) =>
        List.Disjoint a.2.orders c.2.orders) := fun _ _ hd => hd.symm
    exact hnd2.2.forall hsym he1 he2 hne hp1 hp2
  · intro hn
    exact (history_idOK h hn).resting_reg

theorem no_dangling_references_witness :
    History [100, 200, 150, 100, 120, 150] demo6 ∧
    demo6.pool.free_list = [(0, 4), (0, 0)] ∧ restingPtrs demo6 = [(0, 1), (0, 2), (0, 3)] ∧
    demo6.pool.free_list.Nodup ∧
    (∀ p ∈ demo6.pool.free_list, (∀ k, demo6.orders k ≠ some p) ∧ p ∉ restingPtrs demo6) ∧
    (restingPtrs demo6).Nodup ∧
    (∀ e ∈ demo6.bids ++ demo6.asks, e.2.orders.Nodup) ∧
    (∀ e1 ∈ demo6.bids ++ demo6.asks, ∀ e2 ∈ demo6.bids ++ demo6.asks, ∀ p,
      p ∈ e1.2.orders → p ∈ e2.2.orders → e1 = e2) ∧
    ([100, 200, 150, 100, 120, 150].length < U64 →
      ∀ p ∈ restingPtrs demo6, demo6.orders (demo6.heap p).id = some p) :=
  ⟨history_demo6, by decide, by decide, no_dangling_references _ demo6 history_demo6⟩

/-- A buy of 3 at 5 that arrives with id 1 while the held sell of 1 at 5, also of id 1, is
resting: the walk fills and evicts the held order, which erases key 1 of the id index, and
the incoming order is left with 1 filled. -/
theorem held_walk {qs : List Nat} (b b1 : OrderBook) (fuel : Nat) (hh : History qs b)
    (h : Held 1 b)
    (hw : matchWalk .BUY .LIMIT b.pool.allocate.1 fuel fuel
      (register_order b .BUY .LIMIT 5 3) = some b1) :
    (b1.heap b.pool.allocate.1).filled_quantity = 1 ∧
    (b1.heap b.pool.allocate.1).quantity = 3 ∧ b1.orders 1 = none := by
  have hI := history_inv hh
  have hne : ((0, 0) : Ptr) ≠ b.pool.allocate.1 :=
    resting_ne_allocate b hI (0, 0) (held_resting h).1
  obtain ⟨_, h2, h3, h4⟩ := h
  have h0 := outerInv_register_order b .BUY .LIMIT 5 3 hI (by decide)
  have hrule := matchWalk_rule .BUY .LIMIT b.pool.allocate.1 fuel
    (fun x => OuterInv .BUY b.pool.allocate.1 x ∧
      (x.heap b.pool.allocate.1).quantity = 3 ∧ (x.heap b.pool.allocate.1).price = 5 ∧
      ((oppIndex .BUY x = wrap1.asks ∧ x.heap (0, 0) = wrap1.heap (0, 0) ∧
          (x.heap b.pool.allocate.1).filled_quantity = 0) ∨
        (levelPtrs (oppIndex .BUY x) = [] ∧
          (x.heap b.pool.allocate.1).filled_quantity = 1 ∧ x.orders 1 = none)))
    (fun x => InnerInv .BUY b.pool.allocate.1 x ∧
      (x.heap b.pool.allocate.1).quantity = 3 ∧ (x.heap b.pool.allocate.1).price = 5 ∧
      ((oppIndex .BUY x = wrap1.asks ∧ x.heap (0, 0) = wrap1.heap (0, 0) ∧
          (x.heap b.pool.allocate.1).filled_quantity = 0) ∨
        (levelPtrs (oppIndex .BUY x) = [] ∧
          (x.heap b.pool.allocate.1).filled_quantity = 1 ∧ x.orders 1 = none)))
    ?_ ?_ ?_ fuel _ b1 ⟨h0, ?_, ?_, Or.inl ⟨?_, ?_, ?_⟩⟩ hw
  · obtain ⟨⟨_, hq, hp, hK⟩, hex⟩ := hrule
    rcases hK with ⟨k1, k2, k3⟩ | ⟨k1, k2, k3⟩
    · exfalso
      rcases hex with e | e | ⟨price, level, rest, e1, e2⟩
      · rw [k1] at e
        exact absurd e (by decide)
      · rw [k3, hq] at e
        exact e (by decide)
      · rw [k1] at e1
        have hpr : price = 5 := by
          have : wrap1.asks = [(5, ⟨5, 1, [(0, 0)]⟩)] := by decide
          rw [this] at e1
          simp only [List.cons.injEq, Prod.mk.injEq] at e1
          exact e1.1.1.symm
        rw [hp, hpr] at e2
        exact Price.lt_irrefl _ (by simpa [crossStop] using e2)
    · exact ⟨k2, hq, k3⟩
  · intro x _ _ _ hx _ _ _
    exact ⟨⟨hx.1.1, hx.1.2.1, outerLevels_inner .BUY x hx.1.2.2⟩, hx.2⟩
  · intro x price level rest opp tl hJ ho hl hc
    obtain ⟨hJ1, hq, hp, hK⟩ := hJ
    have hst := matchStep_static .BUY b.pool.allocate.1 price level rest opp x
    refine ⟨innerInv_matchStep .BUY _ x price level rest opp tl hJ1 ho hl hc, ?_, ?_, ?_⟩
    · rw [((static_eq_iff _ _).1 (hst _)).2.2.2.2]; exact hq
    · rw [((static_eq_iff _ _).1 (hst _)).2.2.2.1]; exact hp
    · rcases hK with ⟨k1, k2, k3⟩ | ⟨k1, _, _⟩
      · right
        have hasks : wrap1.asks = [(5, ⟨5, 1, [(0, 0)]⟩)] := by decide
        rw [k1, hasks] at ho
        simp only [List.cons.injEq, Prod.mk.injEq] at ho
        obtain ⟨⟨rfl, rfl⟩, rfl⟩ := ho
        simp only [List.cons.injEq] at hl
        obtain ⟨rfl, rfl⟩ := hl
        have ho' : oppIndex .BUY x = [(5, ⟨5, 1, [(0, 0)]⟩)] := by rw [k1, hasks]
        have hX : x.heap (0, 0) = ⟨1, .SELL, .LIMIT, 5, 1, 0, .NEW⟩ := by
          rw [k2]; decide
        obtain ⟨t1, _, t3, t4, _, _, _⟩ :=
          trade_arith .BUY b.pool.allocate.1 5 (0, 0) x hne.symm hc hJ1.2.1.quantity_lt
            (by rw [hX]; decide) (by rw [hX]; decide)
        have htq : tradeQty x b.pool.allocate.1 (0, 0) = 1 := by
          rw [t1]
          unfold Order.remaining
          rw [hq, k3, hX]
          rfl
        rw [htq] at t3 t4
        rw [k3] at t3
        rw [hX] at t4
        have hfill : ((tradeBook .BUY b.pool.allocate.1 5 (0, 0) x).heap (0, 0)).filled_quantity
            = ((tradeBook .BUY b.pool.allocate.1 5 (0, 0) x).heap (0, 0)).quantity := by
          rw [t4, ((static_eq_iff _ _).1 (tradeBook_static .BUY _ 5 (0, 0) x (0, 0))).2.2.2.2,
            hX]
        obtain ⟨l1, p1, _, p3⟩ := matchStep_progress .BUY _ x 5 ⟨5, 1, [(0, 0)]⟩ [] (0, 0) []
          hJ1.1 hJ1.2.1 ho' rfl hc
        refine ⟨?_, ?_, ?_⟩
        · rw [p1, levelPtrs_cons]
          rcases p3 with p3 | ⟨_, p3⟩
          · rw [p3]; rfl
          · rw [matchStep_heap, t3,
              ((static_eq_iff _ _).1 (tradeBook_static .BUY _ 5 (0, 0) x _)).2.2.2.2, hq] at p3
            exact absurd p3 (by decide)
        · rw [matchStep_heap, t3]
        · have hord : (matchStep .BUY b.pool.allocate.1 5 ⟨5, 1, [(0, 0)]⟩ [] (0, 0) x).orders =
              eraseId x.orders (x.heap (0, 0)).id := by
            simp only [matchStep, if_pos hfill, orders_setOppIndex, orders_evict,
              tradeBook_orders,
              ((static_eq_iff _ _).1 (tradeBook_static .BUY _ 5 (0, 0) x (0, 0))).1]
          rw [hord, hX]
          simp [eraseId]
      · exfalso
        have : opp ∈ levelPtrs (oppIndex .BUY x) := by
          rw [ho, levelPtrs_cons, hl]; simp
        rw [k1] at this
        simp at this
  · intro x _ _ _ hJ _ _
    obtain ⟨hJ1, hq, hp, hK⟩ := hJ
    refine ⟨outerInv_eraseEmptyFront .BUY _ x hJ1, ?_, ?_, ?_⟩
    · rw [eraseEmptyFront_heap]; exact hq
    · rw [eraseEmptyFront_heap]; exact hp
    · rw [eraseEmptyFront_heap, eraseEmptyFront_orders, (eraseEmptyFront_spec .BUY x).1]
      rcases hK with ⟨k1, k2, k3⟩ | hK
      · left
        refine ⟨?_, k2, k3⟩
        have hasks : wrap1.asks = [(5, ⟨5, 1, [(0, 0)]⟩)] := by decide
        unfold eraseEmptyFront
        rw [k1, hasks]
        simp only [PriceLevel.is_empty, List.isEmpty_cons, Bool.false_eq_true, if_false]
        rw [k1, hasks]
      · exact Or.inr hK
  · rw [register_order_heap_order]; rfl
  · rw [register_order_heap_order]; rfl
  · rw [register_order_oppIndex]; exact h2
  · rw [register_order_heap_other _ _ _ _ _ _ hne]; exact h3
  · rw [register_order_heap_order]; rfl

theorem held_cross {qs : List Nat} (b : OrderBook) (hh : History qs b) (h : Held 1 b) :
    ∃ r, add_order 2 b .BUY .LIMIT 5 3 = some r ∧ r.1 = 1 ∧
      (r.2.heap b.pool.allocate.1).filled_quantity = 1 ∧ get_order r.2 r.1 = none := by
  have hI := history_inv hh
  have hlen : (restingPtrs b).length < 2 := by
    unfold restingPtrs
    rw [h.1, h.2.1]
    decide
  obtain ⟨r, hadd⟩ := add_order_total 2 b .BUY .LIMIT 5 3 hI (by decide) hlen
  obtain ⟨b1, hw, hr⟩ := add_order_eq 2 b .BUY .LIMIT 5 3 r hadd
  obtain ⟨w1, w2, w3⟩ := held_walk b b1 2 hh h hw
  have hlt : (b1.heap b.pool.allocate.1).filled_quantity <
      (b1.heap b.pool.allocate.1).quantity := by rw [w1, w2]; decide
  obtain ⟨f1, _, _⟩ := finalize_orders_of_lt .LIMIT b1 _ hlt
  obtain ⟨_, e2, _⟩ := finalize_heap_order .LIMIT b1 b.pool.allocate.1
  refine ⟨r, hadd, ?_, ?_, ?_⟩
  · rw [hr]; exact h.2.2.2
  · rw [hr]
    show ((finalize .LIMIT b1 b.pool.allocate.1).heap b.pool.allocate.1).filled_quantity = 1
    rw [e2, w1]
  · rw [hr]
    show (finalize .LIMIT b1 b.pool.allocate.1).orders b.order_id_counter = none
    rw [f1, h.2.2.2, w3]

/-! ## The resting limit order -/

/-- The keys of the own index after a call: the keys it had, and possibly the price of the
order. -/
theorem add_order_own_keys (fuel : Nat) (b : OrderBook) (side : Side) (type : OrderType)
    (price : Price) (q : Nat) (r : Nat × OrderBook)
    (h : add_order fuel b side type price q = some r) :
    ∀ k ∈ keys (ownIndex side r.2), k = price ∨ k ∈ keys (ownIndex side b) := by
  obtain ⟨b1, hw, rfl⟩ := add_order_eq fuel b side type price q r h
  obtain ⟨hf, _⟩ := matchWalk_frame side type _ fuel fuel _ b1 hw
  have hst := walk_static_order side type price q b b1 hf
  have hs := walk_side side type price q b b1 hf
  have hp1 : (b1.heap b.pool.allocate.1).price = price := ((static_eq_iff _ _).1 hst).2.2.2.1
  have hown : ownIndex side b1 = ownIndex side b := by rw [hf.1, register_order_ownIndex]
  intro k hk
  change k ∈ keys (ownIndex side (countOrder (finalize type b1 b.pool.allocate.1))) at hk
  rw [countOrder_ownIndex] at hk
  cases type with
  | MARKET =>
    rw [finalize_market_ownIndex, hown] at hk
    exact Or.inr hk
  | LIMIT =>
    simp only [finalize] at hk
    split_ifs at hk
    · rw [statusOnly_ownIndex side (statusOnly_markPartialFill _ _)] at hk
      rcases mem_keys_restOrder b1 _ side hs k hk with h1 | h1
      · exact Or.inl (h1.trans hp1)
      · exact Or.inr (hown ▸ h1)
    · rw [finishFilled_ownIndex, hown] at hk
      exact Or.inr hk

/-- C12 (as stated, refuted). First, the cached volume wraps: after
`add_order(SELL, LIMIT, 100, 2^63)` on the empty book, a second
`add_order(SELL, LIMIT, 100, 2^63)` ends with remainder `2^63`, the cached ask volume at 100
was `2^63` before the call and is 0 after it, not `2^63 + 2^63`. Second, the id index can
lose the order: there is a reachable book (a sell of 1 at 5 with id 1 resting, and the id
counter back at 1 after `2 ^ 64 - 1` submissions of quantity 0) on which
`add_order(BUY, LIMIT, 5, 3)` returns id 1 with 1 filled, so a remainder of 2, while
`get_order(1)` is absent afterwards. Third, the level need not be keyed `p`: after
`add_order(SELL, LIMIT, 100, 30)` the call `add_order(SELL, LIMIT, NaN, 10)` fills nothing
and enqueues the order at the level keyed 100, and no ask level is keyed not-a-number; and
after `add_order(SELL, LIMIT, NaN, 10)` on the empty book the call
`add_order(SELL, LIMIT, 100, 10)` fills nothing and enqueues the order at the level keyed
not-a-number, and no ask level is keyed 100. -/
theorem limit_remainder_counterexample :
    (Reachable big1 ∧ add_order 4 big1 .SELL .LIMIT 100 (2 ^ 63) = some (2, big2) ∧
      (big2.heap big1.pool.allocate.1).filled_quantity = 0 ∧
      get_ask_volume big1 100 = 2 ^ 63 ∧ get_ask_volume big2 100 = 0 ∧
      get_ask_volume big2 100 ≠ get_ask_volume big1 100 + (2 ^ 63 - 0)) ∧
    (∃ b r, Reachable b ∧ add_order 2 b .BUY .LIMIT 5 3 = some r ∧ r.1 = 1 ∧
      (r.2.heap b.pool.allocate.1).filled_quantity = 1 ∧
      (r.2.heap b.pool.allocate.1).filled_quantity < 3 ∧ get_order r.2 r.1 = none) ∧
    (Reachable stack1 ∧ add_order 4 stack1 .SELL .LIMIT .nan 10 = some (2, nan1) ∧
      (nan1.heap stack1.pool.allocate.1).filled_quantity = 0 ∧
      nan1.asks = [(100, ⟨100, 40, [(0, 0), stack1.pool.allocate.1]⟩)] ∧
      Price.nan ∉ keys nan1.asks) ∧
    (Reachable nan4 ∧ add_order 4 nan4 .SELL .LIMIT 100 10 = some (2, nan5) ∧
      (nan5.heap nan4.pool.allocate.1).filled_quantity = 0 ∧
      nan5.asks = [(.nan, ⟨.nan, 20, [(0, 0), nan4.pool.allocate.1]⟩)] ∧
      (100 : Price) ∉ keys nan5.asks) := by
  refine ⟨⟨⟨_, History.add 4 .SELL .LIMIT 100 (2 ^ 63) History.init (by decide) big_calls.1⟩,
    big_calls.2.1, by decide, by decide, by decide, by decide⟩, ?_,
    ⟨⟨_, history_stack1⟩, nan_calls.2.1, by decide, by decide, by decide⟩,
    ⟨_, history_nan4⟩, nan_calls.2.2.2.2.2.1, by decide, by decide, by decide⟩
  obtain ⟨b, hb, hd, _⟩ := held_iterate (U64 - 1)
  have hc : (2 + (U64 - 1)) % U64 = 1 := by decide
  rw [hc] at hd
  obtain ⟨r, h1, h2, h3, h4⟩ := held_cross b hb hd
  exact ⟨b, r, ⟨_, hb⟩, h1, h2, h3, by rw [h3]; decide, h4⟩

/-- C12 (amended). Resting of a limit remainder. For every reachable book,
`add_order(side, LIMIT, p, q)` returns. When it ends with a remainder
`q - filled_quantity > 0`, the order is the last element of the queue of the level that
`find(p)` returns in its own side's index, a level that consists of the queue found there
before the call (empty if `find(p)` found none) followed by the order; when `p` is not
not-a-number and no level of that index was keyed not-a-number, this is the level keyed `p`;
the cached volume at `p` on that side is its previous value plus the remainder in `uint64_t`
arithmetic, which is the exact sum whenever that sum is below `2 ^ 64`; and when the book was
reached by fewer than `2 ^ 64 - 1` submissions, `get_order(id)` returns the order. When the
order does not cross (the opposite index is empty, or `p` is below the best ask for a buy,
above the best bid for a sell), no trade is appended, the opposite index is unchanged and
nothing is filled. Scenario 1: the four limit orders on an empty book give zero trades, best
bid 150.00, best ask 151.00 and, the subtraction of doubles giving `151.0 - 150.0 = 1.0`,
spread 1.00. -/
theorem limit_remainder_rests (qs : List Nat) (b : OrderBook) (h : History qs b)
    (side : Side) (p : Price) (q : Nat) (hq : q < U64) :
    (∃ fuel r, add_order fuel b side .LIMIT p q = some r) ∧
    (∀ fuel r, add_order fuel b side .LIMIT p q = some r →
      (r.2.heap b.pool.allocate.1).id = r.1 ∧
      (r.2.heap b.pool.allocate.1).quantity = q ∧
      ((r.2.heap b.pool.allocate.1).filled_quantity < q →
        (∃ l, map_find (ownBefore side) (ownIndex side r.2) p = some l ∧
          l.orders.getLast? = some b.pool.allocate.1 ∧
          l.orders = ((map_find (ownBefore side) (ownIndex side b) p).getD
            (PriceLevel.new p)).orders ++ [b.pool.allocate.1] ∧
          (p ≠ .nan → Price.nan ∉ keys (ownIndex side b) → (p, l) ∈ ownIndex side r.2)) ∧
        ownVolume side r.2 p =
          add64 (ownVolume side b p) (q - (r.2.heap b.pool.allocate.1).filled_quantity) ∧
        (ownVolume side b p + (q - (r.2.heap b.pool.allocate.1).filled_quantity) < U64 →
          ownVolume side r.2 p =
            ownVolume side b p + (q - (r.2.heap b.pool.allocate.1).filled_quantity)) ∧
        (qs.length + 1 < U64 → get_order r.2 r.1 = some b.pool.allocate.1)) ∧
      ((oppIndex side b = [] ∨
          ∃ k l rest, oppIndex side b = (k, l) :: rest ∧ better side p k) →
        r.2.trades = b.trades ∧ oppIndex side r.2 = oppIndex side b ∧
        (r.2.heap b.pool.allocate.1).filled_quantity = 0)) ∧
    (add_order 4 OrderBook.new .BUY .LIMIT 150 100 = some (1, demo1) ∧
      add_order 4 demo1 .BUY .LIMIT 149.5 200 = some (2, demo2) ∧
      add_order 4 demo2 .SELL .LIMIT 151 150 = some (3, demo3) ∧
      add_order 4 demo3 .SELL .LIMIT 151.5 100 = some (4, demo4) ∧
      demo4.trades = [] ∧ get_best_bid demo4 = 150 ∧ get_best_ask demo4 = 151 ∧
      ∀ fsub : Price → Price → Price, fsub 151 150 = 1 → get_spread fsub demo4 = 1) := by
  have hI := history_inv h
  refine ⟨⟨_, add_order_total ((restingPtrs b).length + 1) b side .LIMIT p q hI hq
    (Nat.lt_succ_self _)⟩, ?_, ?_⟩
  · intro fuel r hadd
    obtain ⟨hst, _, _⟩ := add_order_exit fuel b side .LIMIT p q r hI hq hadd
    have hid := (add_order_counter fuel b side .LIMIT p q r hadd).1
    refine ⟨by rw [hid]; exact ((static_eq_iff _ _).1 hst).1,
      ((static_eq_iff _ _).1 hst).2.2.2.2, ?_, ?_⟩
    · intro hlt
      obtain ⟨l, hl1, hl2, hl3⟩ := add_order_rest fuel b side p q r hI hq hadd hlt
      have hv : ownVolume side r.2 p =
          add64 (ownVolume side b p) (q - (r.2.heap b.pool.allocate.1).filled_quantity) := by
        rw [ownVolume_eq, ownVolume_eq, hl1]
        exact hl3
      refine ⟨⟨l, hl1, by rw [hl2]; simp, hl2, ?_⟩, hv, ?_, ?_⟩
      · intro hp hnan
        obtain ⟨k, hk, hek⟩ := mem_of_map_find side _ _ _ hl1
        have hkn : k ≠ .nan := by
          rcases add_order_own_keys fuel b side .LIMIT p q r hadd k
            (List.mem_map_of_mem Prod.fst hk) with h1 | h1
          · rw [h1]; exact hp
          · exact fun h2 => hnan (h2 ▸ h1)
        rw [Price.eq_of_equiv hp hkn hek]
        exact hk
      · intro hsum
        rw [hv, add64_eq hsum]
      · intro hn
        exact (add_order_remainder fuel b side .LIMIT p q r h hn hq hadd hlt).2.1
    · intro hnc
      obtain ⟨b1, hw, rfl⟩ := add_order_eq fuel b side .LIMIT p q r hadd
      have hb1 : b1 = register_order b side .LIMIT p q := by
        refine matchWalk_stop side .LIMIT _ fuel fuel _ b1 ?_ hw
        rcases hnc with h1 | ⟨k, l, rest, h1, h2⟩
        · exact Or.inl (by rw [register_order_oppIndex]; exact h1)
        · refine Or.inr (Or.inr ⟨k, l, rest, by rw [register_order_oppIndex]; exact h1, ?_⟩)
          rw [register_order_heap_order]
          exact (crossStop_limit_iff side p k).2 h2
      subst hb1
      obtain ⟨_, e2, _⟩ := finalize_heap_order .LIMIT (register_order b side .LIMIT p q)
        b.pool.allocate.1
      refine ⟨?_, ?_, ?_⟩
      · rw [add_order_trades]; rfl
      · rw [countOrder_oppIndex, finalize_oppIndex side .LIMIT _ _
          (by rw [register_order_heap_order]; rfl), register_order_oppIndex]
      · show ((finalize .LIMIT (register_order b side .LIMIT p q) b.pool.allocate.1).heap
          b.pool.allocate.1).filled_quantity = 0
        rw [e2, register_order_heap_order]
        rfl
  · rw [← px14950_eq, ← px15150_eq]
    obtain ⟨h1, h2, h3, h4, _, _⟩ := demo_calls
    refine ⟨h1, h2, h3, h4, by decide, by decide, by decide, ?_⟩
    intro fsub hsub
    have e1 : get_best_ask demo4 = 151 := by decide
    have e2 : get_best_bid demo4 = 150 := by decide
    unfold get_spread
    rw [if_neg (by decide), e1, e2]
    exact hsub

theorem limit_remainder_rests_witness :
    History [100, 200, 150] demo3 ∧ 100 < U64 ∧
    add_order 4 demo3 .SELL .LIMIT px15150 100 = some (4, demo4) ∧
    (demo4.heap demo3.pool.allocate.1).filled_quantity < 100 ∧
    px15150 ≠ .nan ∧ Price.nan ∉ keys (ownIndex .SELL demo3) ∧
    (∃ l, map_find (ownBefore .SELL) (ownIndex .SELL demo4) px15150 = some l ∧
      l.orders.getLast? = some demo3.pool.allocate.1 ∧
      l.orders = ((map_find (ownBefore .SELL) (ownIndex .SELL demo3) px15150).getD
        (PriceLevel.new px15150)).orders ++ [demo3.pool.allocate.1] ∧
      (px15150, l) ∈ ownIndex .SELL demo4) ∧
    ownVolume .SELL demo4 px15150 = 100 ∧
    get_order demo4 4 = some demo3.pool.allocate.1 := by
  have hh : History [100, 200, 150] demo3 :=
    History.add 4 .SELL .LIMIT 151 150
      (History.add 4 .BUY .LIMIT px14950 200
        (History.add 4 .BUY .LIMIT 150 100 History.init (by decide) demo_calls.1)
        (by decide) demo_calls.2.1)
      (by decide) demo_calls.2.2.1
  obtain ⟨_, _, h3, _⟩ :=
    (limit_remainder_rests _ demo3 hh .SELL px15150 100 (by decide)).2.1 4
      (4, demo4) demo_calls.2.2.2.1
  obtain ⟨⟨l, l1, l2, l3, l4⟩, _, _, a4⟩ := h3 (by decide)
  exact ⟨hh, by decide, demo_calls.2.2.2.1, by decide, by decide, by decide,
    ⟨l, l1, l2, l3, l4 (by decide) (by decide)⟩, by decide, a4 (by decide)⟩

/-! ## Well-formed levels -/

theorem restingVolume_pos (m : Index) (heap : Ptr → Order) (k : Price) (x : Ptr)
    (hx : (k, x) ∈ flat m) (hpos : 0 < (heap x).remaining) : 0 < restingVolume m heap k := by
  unfold restingVolume
  have h1 : (k, x) ∈ (flat m).filter (fun kp => kp.1 = k) := by
    rw [List.mem_filter]
    exact ⟨hx, by simp⟩
  have h2 : (heap x).remaining ∈
      ((flat m).filter (fun kp => kp.1 = k)).map (fun kp => (heap kp.2).remaining) :=
    List.mem_map.2 ⟨(k, x), h1, rfl⟩
  exact lt_of_lt_of_le hpos (List.le_sum_of_mem h2)

/-- The resting volume at the key of the first level of an index whose levels are well
formed and not empty. -/
theorem best_volume_pos (side : Side) (heap : Ptr → Order) (k : Price) (l : PriceLevel)
    (rest : Index) (hok : LevelOK heap side (k, l)) (hne : l.orders ≠ []) :
    0 < restingVolume ((k, l) :: rest) heap k := by
  obtain ⟨x, hx⟩ := List.exists_mem_of_ne_nil _ hne
  refine restingVolume_pos _ heap k x (mem_flat.2 ⟨(k, l), List.mem_cons_self _ _, rfl, hx⟩) ?_
  have := (hok.2 x hx).2.2.2.1
  unfold Order.remaining
  omega

theorem history_big2 : History [2 ^ 63, 2 ^ 63] big2 :=
  History.add 4 .SELL .LIMIT 100 (2 ^ 63)
    (History.add 4 .SELL .LIMIT 100 (2 ^ 63) History.init (by decide) big_calls.1)
    (by decide) big_calls.2.1

/-- The level at `begin()` is the level that `find` returns for its key. -/
theorem map_find_head (side : Side) (k : Price) (l : PriceLevel) (rest : Index) :
    map_find (ownBefore side) ((k, l) :: rest) k = some l := by
  simp [map_find, ownBefore_irrefl]

/-- C20 (as stated, refuted). After `add_order(SELL, LIMIT, 100, 30)` and
`add_order(SELL, LIMIT, NaN, 10)` the ask level keyed 100 holds an order whose price is
not-a-number. After `add_order(SELL, LIMIT, NaN, 10)` and `add_order(SELL, LIMIT, 100, 10)`
the ask level keyed not-a-number holds an order whose price is 100. After
`add_order(SELL, LIMIT, 100, 2^63)` twice the ask side is not empty and the volume reported
for its best price is 0. -/
theorem levels_counterexample :
    (Reachable nan1 ∧ ∃ e ∈ nan1.asks, e.1 = 100 ∧ ∃ p ∈ e.2.orders,
      (nan1.heap p).price = .nan ∧ (nan1.heap p).price ≠ e.1) ∧
    (Reachable nan5 ∧ ∃ e ∈ nan5.asks, e.1 = .nan ∧ ∃ p ∈ e.2.orders,
      (nan5.heap p).price = 100 ∧ (nan5.heap p).price ≠ e.1) ∧
    (Reachable big2 ∧ big2.asks ≠ [] ∧ get_best_ask big2 = 100 ∧
      get_ask_volume big2 (get_best_ask big2) = 0) :=
  ⟨⟨⟨_, history_nan1⟩, (100, ⟨100, 40, [(0, 0), (0, 1)]⟩), by decide, by decide, (0, 1),
      by decide, by decide, by decide⟩,
    ⟨⟨_, history_nan5⟩, (.nan, ⟨.nan, 20, [(0, 0), (0, 1)]⟩), by decide, by decide, (0, 1),
      by decide, by decide, by decide⟩,
    ⟨_, history_big2⟩, by decide, by decide, by decide⟩

/-- C20 (amended). Levels are well-formed at rest: in every reachable book, every price level
of the bid or ask index holds at least one order and carries its key as its price; every
order enqueued at a level keyed `p` of a side has that side, type `LIMIT`,
`filled_quantity < quantity` and a price that the comparison of doubles orders neither below
nor above `p`, which is `p` itself whenever neither `p` nor that price is not-a-number. Hence
whenever a side is not empty, the remaining quantity resting at the level of its best price is
strictly positive; and in a book reached while the sums of the remainders at each level stay
below `2 ^ 64`, the cached volume reported for the best price is strictly positive as
well. -/
theorem levels_well_formed (b : OrderBook) (hr : Reachable b) :
    (∀ e, e ∈ b.bids ∨ e ∈ b.asks → e.2.orders ≠ [] ∧ e.2.price = e.1) ∧
    (∀ e ∈ b.bids, ∀ p ∈ e.2.orders,
      (b.heap p).side = .BUY ∧ (b.heap p).type = .LIMIT ∧
        (b.heap p).filled_quantity < (b.heap p).quantity ∧
        ¬ (b.heap p).price < e.1 ∧ ¬ e.1 < (b.heap p).price ∧
        (e.1 ≠ .nan → (b.heap p).price ≠ .nan → (b.heap p).price = e.1)) ∧
    (∀ e ∈ b.asks, ∀ p ∈ e.2.orders,
      (b.heap p).side = .SELL ∧ (b.heap p).type = .LIMIT ∧
        (b.heap p).filled_quantity < (b.heap p).quantity ∧
        ¬ (b.heap p).price < e.1 ∧ ¬ e.1 < (b.heap p).price ∧
        (e.1 ≠ .nan → (b.heap p).price ≠ .nan → (b.heap p).price = e.1)) ∧
    (b.bids ≠ [] → 0 < restingVolume b.bids b.heap (get_best_bid b)) ∧
    (b.asks ≠ [] → 0 < restingVolume b.asks b.heap (get_best_ask b)) ∧
    (BoundedHistory b →
      (b.bids ≠ [] → 0 < get_bid_volume b (get_best_bid b)) ∧
      (b.asks ≠ [] → 0 < get_ask_volume b (get_best_ask b))) := by
  obtain ⟨qs, hh⟩ := hr
  have hI := history_inv hh
  have hbid : ∀ e ∈ b.bids, LevelOK b.heap .BUY e := hI.1.own_ok
  have hask : ∀ e ∈ b.asks, LevelOK b.heap .SELL e := hI.1.opp_ok
  have hnb : ∀ e ∈ b.bids, e.2.orders ≠ [] := hI.2.1
  have hna : ∀ e ∈ b.asks, e.2.orders ≠ [] := hI.2.2
  have hpb : b.bids ≠ [] → 0 < restingVolume b.bids b.heap (get_best_bid b) := by
    intro hne
    cases hm : b.bids with
    | nil => exact absurd hm hne
    | cons e rest =>
      obtain ⟨k, l⟩ := e
      simp only [get_best_bid, hm]
      have hmem : (k, l) ∈ b.bids := by rw [hm]; exact List.mem_cons_self _ _
      exact best_volume_pos .BUY b.heap k l rest (hbid _ hmem) (hnb _ hmem)
  have hpa : b.asks ≠ [] → 0 < restingVolume b.asks b.heap (get_best_ask b) := by
    intro hne
    cases hm : b.asks with
    | nil => exact absurd hm hne
    | cons e rest =>
      obtain ⟨k, l⟩ := e
      simp only [get_best_ask, hm]
      have hmem : (k, l) ∈ b.asks := by rw [hm]; exact List.mem_cons_self _ _
      exact best_volume_pos .SELL b.heap k l rest (hask _ hmem) (hna _ hmem)
  have hlevel : ∀ (side : Side) (e : Price × PriceLevel), LevelOK b.heap side e →
      e.2.orders ≠ [] → e.2.total_volume = levelSum b.heap e.2 → 0 < e.2.total_volume := by
    intro side e hok hne hv
    obtain ⟨x, hx⟩ := List.exists_mem_of_ne_nil _ hne
    have hlt := (hok.2 x hx).2.2.2.1
    have hmem : (b.heap x).remaining ∈ e.2.orders.map (fun p => (b.heap p).remaining) :=
      List.mem_map_of_mem _ hx
    have hle := List.le_sum_of_mem hmem
    have hsum : levelSum b.heap e.2 = (e.2.orders.map (fun p => (b.heap p).remaining)).sum :=
      rfl
    rw [hv, hsum]
    unfold Order.remaining at hle ⊢
    omega
  refine ⟨?_, ?_, ?_, hpb, hpa, ?_⟩
  · rintro e (he | he)
    · exact ⟨hnb e he, (hbid e he).1⟩
    · exact ⟨hna e he, (hask e he).1⟩
  · intro e he p hp
    obtain ⟨r1, r2, r3, r4, _⟩ := (hbid e he).2 p hp
    exact ⟨r1, r2, r4, r3.1, r3.2, fun h1 h2 => Price.eq_of_equiv h2 h1 r3⟩
  · intro e he p hp
    obtain ⟨r1, r2, r3, r4, _⟩ := (hask e he).2 p hp
    exact ⟨r1, r2, r4, r3.1, r3.2, fun h1 h2 => Price.eq_of_equiv h2 h1 r3⟩
  · intro hB
    have hV := boundedHistory_volumeOK hB
    refine ⟨fun hne => ?_, fun hne => ?_⟩
    · cases hm : b.bids with
      | nil => exact absurd hm hne
      | cons e rest =>
        obtain ⟨k, l⟩ := e
        have hmem : (k, l) ∈ b.bids := by rw [hm]; exact List.mem_cons_self _ _
        have hf : map_find bidBefore ((k, l) :: rest) k = some l := map_find_head .BUY k l rest
        simp only [get_bid_volume, get_best_bid, hm, hf]
        exact hlevel .BUY (k, l) (hbid _ hmem) (hnb _ hmem) (hV _ (Or.inl hmem))
    · cases hm : b.asks with
      | nil => exact absurd hm hne
      | cons e rest =>
        obtain ⟨k, l⟩ := e
        have hmem : (k, l) ∈ b.asks := by rw [hm]; exact List.mem_cons_self _ _
        have hf : map_find askBefore ((k, l) :: rest) k = some l := map_find_head .SELL k l rest
        simp only [get_ask_volume, get_best_ask, hm, hf]
        exact hlevel .SELL (k, l) (hask _ hmem) (hna _ hmem) (hV _ (Or.inr hmem))

theorem levels_well_formed_witness :
    Reachable demo5 ∧ demo5.asks ≠ [] ∧ get_best_ask demo5 = 151 ∧
    restingVolume demo5.asks demo5.heap 151 = 30 ∧
    (demo5.asks ≠ [] → 0 < restingVolume demo5.asks demo5.heap (get_best_ask demo5)) ∧
    0 < get_ask_volume demo5 (get_best_ask demo5) ∧
    (151, ⟨151, 30, [(0, 2)]⟩) ∈ demo5.asks ∧
    (demo5.heap (0, 2)).side = .SELL ∧ (demo5.heap (0, 2)).type = .LIMIT ∧
    (demo5.heap (0, 2)).filled_quantity < (demo5.heap (0, 2)).quantity ∧
    (demo5.heap (0, 2)).price = 151 := by
  have h := levels_well_formed demo5 ⟨_, history_demo5⟩
  obtain ⟨r1, r2, r3, _, _, r6⟩ := h.2.2.1 (151, ⟨151, 30, [(0, 2)]⟩) (by decide) (0, 2)
    (by decide)
  exact ⟨⟨_, history_demo5⟩, by decide, by decide, by decide, h.2.2.2.2.1,
    (h.2.2.2.2.2 boundedHistory_demo5).2 (by decide), by decide, r1, r2, r3,
    r6 (by decide) (by decide)⟩

/-! ## The order pool -/

theorem allocate_of_free (pool : OrderPool) (slot : Ptr) (rest : List Ptr)
    (h : pool.free_list = slot :: rest) :
    pool.allocate = (slot, { pool with free_list := rest }) := by
  unfold OrderPool.allocate
  rw [h]

theorem allocate_free_list (pool : OrderPool) :
    pool.allocate.2.free_list = pool.free_list.tail := by
  unfold OrderPool.allocate
  cases h : pool.free_list with
  | nil => simp [OrderPool.advance]; split_ifs <;> simp [h]
  | cons a l => rfl

theorem poolRun_ok {pool : OrderPool} {live freed : List Ptr} (h : PoolRun pool live freed) :
    PoolOK pool live freed := by
  induction h with
  | init =>
    exact ⟨rfl, by decide, List.nodup_nil, fun p hp => by simp at hp, List.nodup_nil,
      fun p hp => by simp at hp⟩
  | @allocate pool live freed _ ih =>
    obtain ⟨e, h1, h2, h3, h4, h5⟩ := ih
    subst e
    obtain ⟨a1, a2, a3, a4, a5, a6, a7, a8⟩ := allocate_spec pool h1 h2 h3
    have hfree : pool.allocate.2.free_list =
        pool.free_list.filter (fun p => p ≠ pool.allocate.1) := by
      rw [allocate_free_list]
      cases hf : pool.free_list with
      | nil => rfl
      | cons x rest =>
        rw [hf] at h2
        have hx : pool.allocate.1 = x := by rw [allocate_of_free pool x rest hf]
        rw [hx]
        rw [List.tail_cons, List.filter_cons_of_neg (by simp)]
        symm
        rw [List.filter_eq_self]
        intro p hp
        have : p ≠ x := fun hpx => (List.nodup_cons.1 h2).1 (hpx ▸ hp)
        simpa using this
    refine ⟨hfree, a1, hfree ▸ a2, fun p hp => a3 p (hfree ▸ hp), ?_, ?_⟩
    · refine List.nodup_cons.2 ⟨fun hmem => ?_, h4⟩
      exact a8 _ (h5 _ hmem).1 (h5 _ hmem).2 rfl
    · intro p hp
      rcases List.mem_cons.1 hp with rfl | hp
      · exact ⟨a4, hfree ▸ a5⟩
      · exact ⟨a6 p (h5 p hp).1, fun hm => (h5 p hp).2 (List.mem_filter.1 hm).1⟩
  | @deallocate pool live freed slot _ hmem ih =>
    obtain ⟨e, h1, h2, h3, h4, h5⟩ := ih
    refine ⟨by simp [OrderPool.deallocate, e], h1,
      List.nodup_cons.2 ⟨(h5 slot hmem).2, h2⟩, ?_, h4.filter _, ?_⟩
    · intro p hp
      rcases List.mem_cons.1 hp with rfl | hp
      · exact (h5 _ hmem).1
      · exact h3 p hp
    · intro p hp
      obtain ⟨hp1, hp2⟩ := List.mem_filter.1 hp
      have hne : p ≠ slot := by simpa using hp2
      refine ⟨(h5 p hp1).1, fun hm => ?_⟩
      rcases List.mem_cons.1 hm with h | h
      · exact hne h
      · exact (h5 p hp1).2 h

/-- C18. Arena never issues a slot twice: after every sequence of `allocate` and `deallocate`
calls on a fresh `OrderPool` in which each `deallocate` is applied to a slot that is
currently allocated, the next `allocate` returns a slot that is not currently allocated. The
free list of the pool is the list of the slots deallocated and not issued again since, most
recent first; whenever it is not empty, `allocate` returns the most recently deallocated of
them and only removes it from the free list, leaving the chunk storage and its cursor
untouched. -/
theorem arena_never_issues_twice (pool : OrderPool) (live freed : List Ptr)
    (h : PoolRun pool live freed) :
    pool.allocate.1 ∉ live ∧ live.Nodup ∧ pool.free_list = freed ∧
    (∀ p ∈ freed, p ∉ live) ∧
    ∀ slot rest, freed = slot :: rest →
      pool.allocate.1 = slot ∧ pool.allocate.2 = { pool with free_list := rest } := by
  have hok := poolRun_ok h
  obtain ⟨e, h1, h2, h3, h4, h5⟩ := hok
  subst e
  obtain ⟨_, _, _, _, _, _, _, a8⟩ := allocate_spec pool h1 h2 h3
  refine ⟨fun hmem => a8 _ (h5 _ hmem).1 (h5 _ hmem).2 rfl, h4, rfl,
    fun p hp hl => (h5 p hl).2 hp, ?_⟩
  intro slot rest hf
  rw [allocate_of_free pool slot rest hf]
  exact ⟨rfl, rfl⟩

theorem arena_never_issues_twice_witness :
    PoolRun ((OrderPool.new.allocate.2.allocate.2).deallocate (0, 0))
      ([(0, 1), (0, 0)].filter (fun p => p ≠ (0, 0))) [(0, 0)] ∧
    ((OrderPool.new.allocate.2.allocate.2).deallocate (0, 0)).allocate.1 = (0, 0) ∧
    ((OrderPool.new.allocate.2.allocate.2).deallocate (0, 0)).allocate.1 ∉
      [(0, 1), (0, 0)].filter (fun p => p ≠ (0, 0)) := by
  have h1 : PoolRun OrderPool.new.allocate.2 [(0, 0)] [] := PoolRun.allocate PoolRun.init
  have h2 : PoolRun OrderPool.new.allocate.2.allocate.2 [(0, 1), (0, 0)] [] :=
    PoolRun.allocate h1
  have h3 := PoolRun.deallocate (0, 0) h2 (by decide)
  exact ⟨h3, by decide, (arena_never_issues_twice _ _ _ h3).1⟩

/-! ## The states of a walk -/

theorem walkState_innerInv (side : Side) (order : Ptr) (x0 x : OrderBook)
    (h0 : OuterInv side order x0) (h : WalkState side order x0 x) : InnerInv side order x := by
  induction h with
  | start => exact ⟨h0.1, h0.2.1, outerLevels_inner side x0 h0.2.2⟩
  | trade _ ho hl hc ih => exact innerInv_matchStep side order _ _ _ _ _ _ ih ho hl hc
  | erase _ ih =>
    have := outerInv_eraseEmptyFront side order _ ih
    exact ⟨this.1, this.2.1, outerLevels_inner side _ this.2.2⟩

theorem walkState_volumeOK (side : Side) (order : Ptr) (x0 x : OrderBook)
    (h0 : OuterInv side order x0) (hV : VolumeOK x0) (h : WalkState side order x0 x) :
    VolumeOK x := by
  induction h with
  | start => exact hV
  | @trade y price level rest opp tl hy ho hl hc ih =>
    have hJ := walkState_innerInv side order x0 y h0 hy
    exact (volumeOK_matchStep side order y price level rest opp tl hJ.1 hJ.2.1 ho hl hc ih).2
  | erase _ ih => exact volumeOK_eraseEmptyFront side _ ih

/-- The loops pass only through walk states: the state in which the walk ends is one. -/
theorem matchWalk_walkState (side : Side) (type : OrderType) (order : Ptr)
    (inner fuel : Nat) (b b1 : OrderBook)
    (h : matchWalk side type order inner fuel b = some b1) : WalkState side order b b1 :=
  (matchWalk_rule side type order inner (WalkState side order b) (WalkState side order b)
    (fun _ _ _ _ hx _ _ _ => hx)
    (fun _ _ _ _ _ _ hJ ho hl hc => WalkState.trade hJ ho hl hc)
    (fun _ _ _ _ hJ _ _ => WalkState.erase hJ)
    fuel b b1 WalkState.start h).1

/-! ## The volume clamp -/

/-- C22. The volume clamp is dead code in reachable states. Take a book reached from the
empty book by calls after each of which the remainders resting at every level sum to less
than `2 ^ 64`, and any call of `add_order` on it (which returns). At every iteration of the
inner matching loop of that call, with `level` the level at `begin()` and `opp` its front
order, the quantity `trade_qty` of the trade is at most `level.total_volume`; so
`update_volume_after_fill(trade_qty)` takes its first branch and is the exact subtraction,
and the level found at `begin()` after the iteration has cached volume
`level.total_volume - trade_qty`. The loops of the call pass only through such states. -/
theorem volume_clamp_dead (b : OrderBook) (h : BoundedHistory b) (side : Side)
    (type : OrderType) (price : Price) (q : Nat) (hq : q < U64) :
    (∃ fuel r, add_order fuel b side type price q = some r) ∧
    (∀ fuel r, add_order fuel b side type price q = some r →
      ∃ b1, WalkState side b.pool.allocate.1 (register_order b side type price q) b1 ∧
        r.2 = countOrder (finalize type b1 b.pool.allocate.1)) ∧
    ∀ x, WalkState side b.pool.allocate.1 (register_order b side type price q) x →
      ∀ k level rest opp tl, oppIndex side x = (k, level) :: rest →
        level.orders = opp :: tl →
        (x.heap b.pool.allocate.1).filled_quantity < (x.heap b.pool.allocate.1).quantity →
        tradeQty x b.pool.allocate.1 opp ≤ level.total_volume ∧
        level.update_volume_after_fill (tradeQty x b.pool.allocate.1 opp) =
          { level with
            total_volume := level.total_volume - tradeQty x b.pool.allocate.1 opp } ∧
        ∃ l1, oppIndex side (matchStep side b.pool.allocate.1 k level rest opp x) =
            (k, l1) :: rest ∧
          l1.total_volume = level.total_volume - tradeQty x b.pool.allocate.1 opp := by
  obtain ⟨qs, hh⟩ := boundedHistory_history h
  have hI := history_inv hh
  have hV := boundedHistory_volumeOK h
  have h0 := outerInv_register_order b side type price q hI hq
  have hV0 := volumeOK_register_order b side type price q hI hV
  refine ⟨⟨_, add_order_total ((restingPtrs b).length + 1) b side type price q hI hq
    (Nat.lt_succ_self _)⟩, ?_, ?_⟩
  · intro fuel r hadd
    obtain ⟨b1, hw, hr⟩ := add_order_eq fuel b side type price q r hadd
    exact ⟨b1, matchWalk_walkState side type _ fuel fuel _ b1 hw, by rw [hr]⟩
  · intro x hx k level rest opp tl ho hl hc
    have hJ := walkState_innerInv side _ _ x h0 hx
    have hVx := walkState_volumeOK side _ _ x h0 hV0 hx
    have hle := (volumeOK_matchStep side _ x k level rest opp tl hJ.1 hJ.2.1 ho hl hc hVx).1
    refine ⟨hle, ?_, ?_⟩
    · unfold PriceLevel.update_volume_after_fill
      rw [if_pos hle]
    · simp only [matchStep]
      split_ifs
      · refine ⟨_, oppIndex_setOppIndex _ _ _, ?_⟩
        rw [remove_front_total_volume]
        unfold PriceLevel.update_volume_after_fill
        rw [if_pos hle]
      · refine ⟨_, oppIndex_setOppIndex _ _ _, ?_⟩
        unfold PriceLevel.update_volume_after_fill
        rw [if_pos hle]

theorem volume_clamp_dead_witness :
    BoundedHistory demo5 ∧ 150 < U64 ∧
    oppIndex .SELL (register_order demo5 .SELL .LIMIT 149 150) =
      (150, ⟨150, 100, [(0, 0)]⟩) :: [(px14950, ⟨px14950, 200, [(0, 1)]⟩)] ∧
    tradeQty (register_order demo5 .SELL .LIMIT 149 150) demo5.pool.allocate.1 (0, 0) = 100 ∧
    tradeQty (register_order demo5 .SELL .LIMIT 149 150) demo5.pool.allocate.1 (0, 0) ≤
      (⟨150, 100, [(0, 0)]⟩ : PriceLevel).total_volume ∧
    (⟨150, 100, [(0, 0)]⟩ : PriceLevel).update_volume_after_fill
        (tradeQty (register_order demo5 .SELL .LIMIT 149 150) demo5.pool.allocate.1 (0, 0)) =
      { (⟨150, 100, [(0, 0)]⟩ : PriceLevel) with
        total_volume := (⟨150, 100, [(0, 0)]⟩ : PriceLevel).total_volume -
          tradeQty (register_order demo5 .SELL .LIMIT 149 150) demo5.pool.allocate.1 (0, 0) } := by
  have h := (volume_clamp_dead demo5 boundedHistory_demo5 .SELL .LIMIT 149 150
    (by decide)).2.2 _ WalkState.start 150 ⟨150, 100, [(0, 0)]⟩
    [(px14950, ⟨px14950, 200, [(0, 1)]⟩)] (0, 0) [] (by decide) rfl (by decide)
  exact ⟨boundedHistory_demo5, by decide, by decide, by decide, h.1, h.2.1⟩

/-! ## Termination and outcome of a submission -/

/-- C21. Matching always terminates: for every reachable book and every input (either side,
either type, any price, any `uint64_t` quantity, 0 included), `add_order` returns: the
model returns a result for every fuel above the number of resting orders, and the same
result for every fuel that suffices. Each iteration of the inner matching loop either
brings the incoming order to `filled_quantity = quantity` or removes the front order from
the level at `begin()`, and the loops of the call pass only through states in which this
holds. The call appends at most as many trades as there are orders resting on the opposite
side. On return the incoming order is either exactly filled, marked `FILLED`, removed from
the id index, enqueued nowhere and back on the free list of the pool; or a limit order with
a remainder, enqueued at the level that `find` returns for its price on its own side; or a
market order with a remainder, enqueued at no level and not on the free list. -/
theorem matching_terminates (b : OrderBook) (hr : Reachable b) (side : Side)
    (type : OrderType) (price : Price) (q : Nat) (hq : q < U64) :
    (∀ fuel, (restingPtrs b).length < fuel →
      ∃ r, add_order fuel b side type price q = some r) ∧
    (∀ fuel fuel1 r r1, add_order fuel b side type price q = some r →
      add_order fuel1 b side type price q = some r1 → r = r1) ∧
    (∀ x, WalkState side b.pool.allocate.1 (register_order b side type price q) x →
      ∀ k level rest opp tl, oppIndex side x = (k, level) :: rest →
        level.orders = opp :: tl →
        (x.heap b.pool.allocate.1).filled_quantity < (x.heap b.pool.allocate.1).quantity →
        ((matchStep side b.pool.allocate.1 k level rest opp x).heap
            b.pool.allocate.1).filled_quantity =
          ((matchStep side b.pool.allocate.1 k level rest opp x).heap
            b.pool.allocate.1).quantity ∨
        ∃ l1, oppIndex side (matchStep side b.pool.allocate.1 k level rest opp x) =
          (k, l1) :: rest ∧ l1.orders = tl) ∧
    ∀ fuel r, add_order fuel b side type price q = some r →
      (∃ b1, WalkState side b.pool.allocate.1 (register_order b side type price q) b1 ∧
        r.2 = countOrder (finalize type b1 b.pool.allocate.1)) ∧
      (∃ ts, r.2.trades = b.trades ++ ts ∧
        ts.length ≤ (levelPtrs (oppIndex side b)).length) ∧
      (r.2.heap b.pool.allocate.1).quantity = q ∧
      (((r.2.heap b.pool.allocate.1).filled_quantity = q ∧
          (r.2.heap b.pool.allocate.1).status = OrderStatus.FILLED ∧
          (∀ k, r.2.orders k ≠ some b.pool.allocate.1) ∧
          b.pool.allocate.1 ∉ restingPtrs r.2 ∧
          b.pool.allocate.1 ∈ r.2.pool.free_list) ∨
        (type = .LIMIT ∧ (r.2.heap b.pool.allocate.1).filled_quantity < q ∧
          (∃ l, map_find (ownBefore side) (ownIndex side r.2) price = some l ∧
            b.pool.allocate.1 ∈ l.orders) ∧
          b.pool.allocate.1 ∈ restingPtrs r.2 ∧
          b.pool.allocate.1 ∉ r.2.pool.free_list) ∨
        (type = .MARKET ∧ (r.2.heap b.pool.allocate.1).filled_quantity < q ∧
          b.pool.allocate.1 ∉ restingPtrs r.2 ∧
          b.pool.allocate.1 ∉ r.2.pool.free_list)) := by
  obtain ⟨qs, hh⟩ := hr
  have hI := history_inv hh
  have h0 := outerInv_register_order b side type price q hI hq
  refine ⟨fun fuel hf => add_order_total fuel b side type price q hI hq hf,
    fun fuel fuel1 r r1 h1 h2 => add_order_fuel_irrelevant fuel fuel1 b side type price q r r1
      h1 h2, ?_, ?_⟩
  · intro x hx k level rest opp tl ho hl hc
    have hJ := walkState_innerInv side _ _ x h0 hx
    obtain ⟨l1, p1, _, p3⟩ := matchStep_progress side _ x k level rest opp tl hJ.1 hJ.2.1 ho
      hl hc
    rcases p3 with p3 | ⟨_, p3⟩
    · exact Or.inr ⟨l1, p1, p3⟩
    · exact Or.inl p3
  · intro fuel r hadd
    have href := add_order_refines fuel b side type price q r hI hq hadd
    obtain ⟨hst, hle, _⟩ := add_order_exit fuel b side type price q r hI hq hadd
    have hI2 := inv_add_order fuel b side type price q r hI hq hadd
    have hS2 := history_status (History.add fuel side type price q hh hq hadd)
    have hquant : (r.2.heap b.pool.allocate.1).quantity = q :=
      ((static_eq_iff _ _).1 hst).2.2.2.2
    have htype : (r.2.heap b.pool.allocate.1).type = type := ((static_eq_iff _ _).1 hst).2.2.1
    have hfree : ∀ p ∈ restingPtrs r.2, p ∉ r.2.pool.free_list := by
      intro p hp
      rcases (mem_restingPtrs .BUY r.2 p).1 hp with h1 | h1
      · exact (hI2.1.own_live p h1).2
      · exact (hI2.1.opp_live p h1).2
    have hrestlt : ∀ p ∈ restingPtrs r.2,
        (r.2.heap p).filled_quantity < (r.2.heap p).quantity := by
      intro p hp
      rcases (mem_restingPtrs .BUY r.2 p).1 hp with h1 | h1
      · obtain ⟨e, he, hpe⟩ := mem_levelPtrs.1 h1
        exact ((hI2.1.own_ok e he).2 p hpe).2.2.2.1
      · obtain ⟨e, he, hpe⟩ := mem_levelPtrs.1 h1
        exact ((hI2.1.opp_ok e he).2 p hpe).2.2.2.1
    refine ⟨?_, ⟨_, href, ?_⟩, hquant, ?_⟩
    · obtain ⟨b1, hw, hr⟩ := add_order_eq fuel b side type price q r hadd
      exact ⟨b1, matchWalk_walkState side type _ fuel fuel _ b1 hw, by rw [hr]⟩
    · have hsub := (fills_ptrs_sublist b.heap (crossStop side type price)
        (flat (oppIndex side b)) q).length_le
      rw [flat_snd] at hsub
      simpa [expectedTrades] using hsub
    · by_cases hlt : (r.2.heap b.pool.allocate.1).filled_quantity < q
      · right
        cases type
        · right
          refine ⟨rfl, hlt, ?_, ?_⟩
          · intro hp
            have := inv_resting_limit r.2 hI2 _ hp
            rw [htype] at this
            cases this
          · obtain ⟨b1, hw, rfl⟩ := add_order_eq fuel b side .MARKET price q r hadd
            have h1 := matchWalk_outerInv side .MARKET _ fuel fuel _ b1 h0 hw
            obtain ⟨_, e2, _⟩ := finalize_heap_order .MARKET b1 b.pool.allocate.1
            obtain ⟨hf, _⟩ := matchWalk_frame side .MARKET _ fuel fuel _ b1 hw
            have hq1 : (b1.heap b.pool.allocate.1).quantity = q :=
              ((static_eq_iff _ _).1 (walk_static_order side .MARKET price q b b1 hf)).2.2.2.2
            have hlt1 : (b1.heap b.pool.allocate.1).filled_quantity <
                (b1.heap b.pool.allocate.1).quantity := by
              have : ((finalize .MARKET b1 b.pool.allocate.1).heap
                  b.pool.allocate.1).filled_quantity < q := hlt
              rw [e2] at this
              rw [hq1]
              exact this
            show b.pool.allocate.1 ∉ (finalize .MARKET b1 b.pool.allocate.1).pool.free_list
            rw [(finalize_orders_of_lt .MARKET b1 _ hlt1).2.1]
            exact h1.2.1.not_free
        · left
          obtain ⟨l, hl1, hl2, _⟩ := add_order_rest fuel b side price q r hI hq hadd hlt
          have hmem : b.pool.allocate.1 ∈ l.orders := by rw [hl2]; simp
          have hrest : b.pool.allocate.1 ∈ restingPtrs r.2 := by
            rw [mem_restingPtrs side]
            left
            obtain ⟨k, he, _⟩ := mem_of_map_find side _ _ _ hl1
            exact mem_levelPtrs.2 ⟨(k, l), he, hmem⟩
          exact ⟨rfl, hlt, ⟨l, hl1, hmem⟩, hrest, hfree _ hrest⟩
      · left
        have heq : (r.2.heap b.pool.allocate.1).filled_quantity = q := by omega
        have hfull : (r.2.heap b.pool.allocate.1).filled_quantity =
            (r.2.heap b.pool.allocate.1).quantity := by rw [heq, hquant]
        refine ⟨heq, ?_, ?_, ?_, ?_⟩
        · obtain ⟨b1, hw, rfl⟩ := add_order_eq fuel b side type price q r hadd
          obtain ⟨e1, e2, e3⟩ := finalize_heap_order type b1 b.pool.allocate.1
          apply e3
          have hfull1 : ((finalize type b1 b.pool.allocate.1).heap
              b.pool.allocate.1).filled_quantity =
              ((finalize type b1 b.pool.allocate.1).heap b.pool.allocate.1).quantity := hfull
          rw [e2, ((static_eq_iff _ _).1 e1).2.2.2.2] at hfull1
          exact hfull1
        · intro k hk
          have := (hS2 k _ hk).1
          omega
        · intro hp
          have := hrestlt _ hp
          omega
        · obtain ⟨b1, hw, rfl⟩ := add_order_eq fuel b side type price q r hadd
          obtain ⟨e1, e2, _⟩ := finalize_heap_order type b1 b.pool.allocate.1
          have hfull1 : ((finalize type b1 b.pool.allocate.1).heap
              b.pool.allocate.1).filled_quantity =
              ((finalize type b1 b.pool.allocate.1).heap b.pool.allocate.1).quantity := hfull
          rw [e2, ((static_eq_iff _ _).1 e1).2.2.2.2] at hfull1
          show b.pool.allocate.1 ∈ (finalize type b1 b.pool.allocate.1).pool.free_list
          rw [finalize_of_eq type b1 _ hfull1, finishFilled_pool]
          exact List.mem_cons_self _ _

theorem matching_terminates_witness :
    Reachable demo5 ∧ 150 < U64 ∧ (restingPtrs demo5).length < 5 ∧
    (∃ r, add_order 5 demo5 .SELL .LIMIT 149 150 = some r) ∧
    add_order 4 demo5 .SELL .LIMIT 149 150 = some (6, demo6) ∧
    (∃ ts, demo6.trades = demo5.trades ++ ts ∧
      ts.length ≤ (levelPtrs (oppIndex .SELL demo5)).length) ∧
    (demo6.heap demo5.pool.allocate.1).filled_quantity = 150 ∧
    demo5.pool.allocate.1 ∈ demo6.pool.free_list :=
  ⟨⟨_, history_demo5⟩, by decide, by decide,
    (matching_terminates demo5 ⟨_, history_demo5⟩ .SELL .LIMIT 149 150 (by decide)).1 5
      (by decide),
    demo_calls.2.2.2.2.2,
    ((matching_terminates demo5 ⟨_, history_demo5⟩ .SELL .LIMIT 149 150 (by decide)).2.2.2 4
      (6, demo6) demo_calls.2.2.2.2.2).2.1,
    by decide, by decide⟩

/-! ## A key that is not-a-number stands alone -/

theorem ownBefore_nan_right (side : Side) (a : Price) : ¬ ownBefore side a .nan = true := by
  rw [ownBefore_iff]
  cases side
  · exact Price.not_nan_lt a
  · exact Price.not_lt_nan a

theorem ownBefore_nan_left (side : Side) (a : Price) : ¬ ownBefore side .nan a = true := by
  rw [ownBefore_iff]
  cases side
  · exact Price.not_lt_nan a
  · exact Price.not_nan_lt a

theorem nanAlone_suffix {m m1 : Index} (hs : keys m1 <:+ keys m) (h : NanAlone m) :
    NanAlone m1 := by
  intro hn
  have h1 := h (hs.subset hn)
  have h2 : (keys m1).length ≤ (keys m).length := hs.length_le
  have h3 : 0 < (keys m1).length := List.length_pos_of_mem hn
  simp only [keys, List.length_map] at h2 h3
  omega

theorem nanAlone_congr {m m1 : Index} (hk : keys m1 = keys m) (h : NanAlone m) :
    NanAlone m1 :=
  nanAlone_suffix (hk ▸ List.suffix_refl _) h

/-- The resting branch keeps a key that is not-a-number alone: `find` returns the level keyed
not-a-number for every price, so no level is created beside it, and `find(NaN)` returns the
level at `begin()` of every index that is not empty, so a level keyed not-a-number is
created in an empty index only. -/
theorem nanAlone_rest (side : Side) (m : Index) (p : Price) (f : PriceLevel → PriceLevel)
    (h : NanAlone m) :
    NanAlone (map_update (ownBefore side)
      (if (map_find (ownBefore side) m p).isNone then
        map_assign (ownBefore side) m p (PriceLevel.new p)
        else m) p f) := by
  refine nanAlone_congr (keys_map_update _ _ _ _) ?_
  split_ifs with hf
  · have hnone : map_find (ownBefore side) m p = none := by simpa using hf
    intro hn
    rcases mem_keys_map_assign side m p _ _ hn with h1 | h1
    · cases m with
      | nil => simp [map_assign]
      | cons e rest =>
        exfalso
        obtain ⟨k, v⟩ := e
        rw [← h1] at hnone
        simp [map_find, ownBefore_nan_right, ownBefore_nan_left] at hnone
    · exfalso
      have hlen := h h1
      cases m with
      | nil => simp at hlen
      | cons e rest =>
        obtain ⟨k, v⟩ := e
        have hrest : rest = [] := by
          cases rest with
          | nil => rfl
          | cons _ _ => simp at hlen
        subst hrest
        have hk : k = .nan := by
          have : Price.nan = k := by simpa [keys] using h1
          exact this.symm
        subst hk
        simp [map_find, ownBefore_nan_right, ownBefore_nan_left] at hnone
  · exact h

/-- In every reachable book a level keyed not-a-number is the only level of its index. On
such indices, ordered by their comparator (`history_shape`), the first entry whose key is not
before `p` is the node that `lower_bound(p)` of the tree reaches. -/
theorem history_nanAlone {qs : List Nat} {b : OrderBook} (h : History qs b) :
    NanAlone b.bids ∧ NanAlone b.asks := by
  induction h with
  | init => exact ⟨fun hn => by simp [OrderBook.new, keys] at hn,
      fun hn => by simp [OrderBook.new, keys] at hn⟩
  | @add qs b r fuel side type price quantity hh hq hadd ih =>
    obtain ⟨b1, hw, rfl⟩ := add_order_eq fuel b side type price quantity r hadd
    obtain ⟨hf, _⟩ := matchWalk_frame side type _ fuel fuel _ b1 hw
    have hs := walk_side side type price quantity b b1 hf
    have hown0 : NanAlone (ownIndex side b) := by cases side; exact ih.1; exact ih.2
    have hopp0 : NanAlone (oppIndex side b) := by cases side; exact ih.2; exact ih.1
    have hopp : NanAlone (oppIndex side (countOrder (finalize type b1 b.pool.allocate.1))) := by
      rw [countOrder_oppIndex, finalize_oppIndex side type b1 _ hs]
      have := hf.2.1
      rw [register_order_oppIndex] at this
      exact nanAlone_suffix this hopp0
    have hown1 : ownIndex side b1 = ownIndex side b := by rw [hf.1, register_order_ownIndex]
    have hown : NanAlone (ownIndex side (countOrder (finalize type b1 b.pool.allocate.1))) := by
      rw [countOrder_ownIndex]
      cases type with
      | MARKET => rw [finalize_market_ownIndex, hown1]; exact hown0
      | LIMIT =>
        simp only [finalize]
        split_ifs
        · rw [statusOnly_ownIndex side (statusOnly_markPartialFill _ _),
            restOrder_ownIndex b1 _ side hs, hown1]
          exact nanAlone_rest side _ _ _ hown0
        · rw [finishFilled_ownIndex, hown1]; exact hown0
    cases side
    · exact ⟨hown, hopp⟩
    · exact ⟨hopp, hown⟩
  | @cancel qs b order_id hh ih =>
    have hS := statusOnly_cancel_order b order_id
    rw [hS.1, hS.2.1]
    exact ih

/-! ## Price priority across levels -/

theorem walkState_frame (side : Side) (order : Ptr) (x0 x : OrderBook)
    (h : WalkState side order x0 x) : WalkFrame side x0 x := by
  induction h with
  | start => exact ⟨rfl, List.suffix_refl _, fun _ => rfl⟩
  | @trade y price level rest opp tl _ ho _ _ ih =>
    exact walkFrame_step side order x0 y price level rest opp ih ho
  | @erase y _ ih =>
    cases ho : oppIndex side y with
    | nil =>
      have : eraseEmptyFront side y = y := by unfold eraseEmptyFront; rw [ho]
      rw [this]
      exact ih
    | cons e rest =>
      obtain ⟨price, level⟩ := e
      exact walkFrame_erase side x0 y price level rest ih ho

/-- In an index ordered by price, the resting orders in matching priority are ordered by the
keys of their levels. -/
theorem flat_pairwise (side : Side) (m : Index) (hs : (keys m).Pairwise (better side)) :
    (flat m).Pairwise (fun a c => a.1 = c.1 ∨ better side a.1 c.1) := by
  induction m with
  | nil => exact List.Pairwise.nil
  | cons e rest ih =>
    obtain ⟨k, v⟩ := e
    simp only [keys, List.map_cons, List.pairwise_cons] at hs
    rw [flat_cons, List.pairwise_append]
    refine ⟨?_, ih hs.2, ?_⟩
    · rw [List.pairwise_map]
      exact List.pairwise_of_forall (fun _ _ => Or.inl rfl)
    · intro a ha c hc
      obtain ⟨p, _, rfl⟩ := List.mem_map.1 ha
      obtain ⟨k1, p1⟩ := c
      obtain ⟨e, he, hk, _⟩ := mem_flat.1 hc
      exact Or.inr (hs.1 k1 (hk ▸ List.mem_map_of_mem Prod.fst he))

/-- The orders traded against are an initial segment of the resting orders in matching
priority, each with the key of its level as the price. -/
theorem fills_initial (heap : Ptr → Order) (stop : Price → Bool) (l : List (Price × Ptr)) :
    ∀ rem, ∃ rest, l = (fills heap stop rem l).map (fun f => (f.1, f.2.1)) ++ rest := by
  induction l with
  | nil => intro rem; exact ⟨[], by simp [fills]⟩
  | cons e tl ih =>
    intro rem
    obtain ⟨k, p⟩ := e
    simp only [fills]
    split_ifs
    · exact ⟨(k, p) :: tl, by simp⟩
    · obtain ⟨rest, hrest⟩ := ih (rem - min rem (heap p).remaining)
      exact ⟨rest, by simp [← hrest]⟩

/-- C3 (as stated, refuted). After `add_order(SELL, LIMIT, NaN, 10)` on the empty book, which
creates an ask level keyed not-a-number, and `add_order(SELL, LIMIT, 100, 10)`, which `find`
enqueues at that level, the call `add_order(BUY, MARKET, 0, 20)` appends two trades, both at
price not-a-number: the first price is not `<=` the second, so the trade prices of this buy
are not non-decreasing. -/
theorem price_priority_counterexample :
    Reachable nan5 ∧ keys nan5.asks = [.nan] ∧
    add_order 4 nan5 .BUY .MARKET 0 20 = some (3, nan6) ∧
    nan6.trades = nan5.trades ++ [⟨3, 1, .nan, 10⟩, ⟨3, 2, .nan, 10⟩] ∧
    ¬ ((⟨3, 1, .nan, 10⟩ : Trade).price ≤ (⟨3, 2, .nan, 10⟩ : Trade).price) :=
  ⟨⟨_, history_nan5⟩, by decide, nan_calls.2.2.2.2.2.2.1, by decide, by decide⟩

/-- C3 (amended). Price priority across levels, for every reachable book and every call of
`add_order`, which returns. The keys of the index that the call walks are strictly ordered
by price from `begin()` on (ascending asks for a buy, descending bids for a sell). At every
iteration of the inner matching loop the one trade appended is made at the key of the level
at `begin()`, against the front order of that level, and that key is strictly better than
the key of every other level present at that moment. Over the whole call the trades are
made, in order, against an initial segment `fs` of the resting orders of the opposite index
taken level by level from the best price on, each at the key of its level; when a trade is
made at a level, every order of every level with a strictly better key has been traded
against earlier in the call, for the whole of its remainder; and every level with a strictly
better key than a trade made has been removed from the index when the call returns. So no
trade of a buy has a price below that of an earlier trade of the call, and no trade of a
sell a price above; when no level of the walked index is keyed not-a-number, the trade prices
of a buy are non-decreasing and those of a sell are non-increasing. -/
theorem price_priority (b : OrderBook) (hr : Reachable b) (side : Side) (type : OrderType)
    (price : Price) (q : Nat) (hq : q < U64) :
    (keys (oppIndex side b)).Pairwise (better side) ∧
    (∃ fuel r, add_order fuel b side type price q = some r) ∧
    (∀ x, WalkState side b.pool.allocate.1 (register_order b side type price q) x →
      ∀ k level rest opp tl, oppIndex side x = (k, level) :: rest →
        level.orders = opp :: tl →
        (x.heap b.pool.allocate.1).filled_quantity < (x.heap b.pool.allocate.1).quantity →
        (∀ k1 ∈ keys rest, better side k k1) ∧
        (matchStep side b.pool.allocate.1 k level rest opp x).trades =
          x.trades ++ [mkTrade side (x.heap b.pool.allocate.1).id (x.heap opp).id k
            (tradeQty x b.pool.allocate.1 opp)]) ∧
    ∀ fuel r, add_order fuel b side type price q = some r →
      (∃ b1, WalkState side b.pool.allocate.1 (register_order b side type price q) b1 ∧
        r.2 = countOrder (finalize type b1 b.pool.allocate.1)) ∧
      ∃ (ts : List Trade) (fs : List (Price × Ptr × Nat)) (rest : List (Price × Ptr)),
        r.2.trades = b.trades ++ ts ∧
        ts = fs.map (fun f => mkTrade side r.1 (b.heap f.2.1).id f.1 f.2.2) ∧
        flat (oppIndex side b) = fs.map (fun f => (f.1, f.2.1)) ++ rest ∧
        (∀ pre f post, fs = pre ++ f :: post →
          ∀ e ∈ oppIndex side b, better side e.1 f.1 → ∀ p ∈ e.2.orders,
            ∃ g ∈ pre, g.2.1 = p ∧
              g.2.2 = (b.heap p).quantity - (b.heap p).filled_quantity) ∧
        (∀ t ∈ ts, ∀ k ∈ keys (oppIndex side b), better side k t.price →
          k ∉ keys (oppIndex side r.2)) ∧
        (side = .BUY → ts.Pairwise (fun t1 t2 => ¬ t2.price < t1.price)) ∧
        (side = .SELL → ts.Pairwise (fun t1 t2 => ¬ t1.price < t2.price)) ∧
        (Price.nan ∉ keys (oppIndex side b) →
          (side = .BUY → ts.Pairwise (fun t1 t2 => t1.price ≤ t2.price)) ∧
          (side = .SELL → ts.Pairwise (fun t1 t2 => t2.price ≤ t1.price))) := by
  obtain ⟨qs, hh⟩ := hr
  have hI := history_inv hh
  have hS := (shapeFor_iff side b).2 (history_shape hh)
  refine ⟨hS.1, ⟨_, add_order_total ((restingPtrs b).length + 1) b side type price q hI hq
    (Nat.lt_succ_self _)⟩, ?_, ?_⟩
  · intro x hx k level rest opp tl ho hl hc
    have hf := walkState_frame side _ _ x hx
    have hsort : (keys (oppIndex side x)).Pairwise (better side) := by
      have := hf.2.1
      rw [register_order_oppIndex] at this
      exact hS.1.sublist this.sublist
    rw [ho] at hsort
    simp only [keys, List.map_cons, List.pairwise_cons] at hsort
    exact ⟨hsort.1, by rw [matchStep_trades, tradeBook_trades]⟩
  · intro fuel r hadd
    have href := add_order_refines fuel b side type price q r hI hq hadd
    have hid := (add_order_counter fuel b side type price q r hadd).1
    obtain ⟨rest, hrest⟩ := fills_initial b.heap (crossStop side type price)
      (flat (oppIndex side b)) q
    have hpw := flat_pairwise side _ hS.1
    have hkey : ∀ f ∈ fills b.heap (crossStop side type price) q (flat (oppIndex side b)),
        f.1 ∈ keys (oppIndex side b) := by
      intro f hf
      obtain ⟨e, he, hk, _⟩ := mem_flat.1 (mem_fills hf)
      exact hk ▸ List.mem_map_of_mem Prod.fst he
    -- the prices of the trades, in order
    have hprices : ((fills b.heap (crossStop side type price) q
        (flat (oppIndex side b))).map (fun f => (f.1, f.2.1))).Pairwise
        (fun a c => a.1 = c.1 ∨ better side a.1 c.1) := by
      rw [hrest] at hpw
      exact (List.pairwise_append.1 hpw).1
    have hts : ∀ (R : Price → Price → Prop),
        (∀ f ∈ fills b.heap (crossStop side type price) q (flat (oppIndex side b)),
          ∀ g ∈ fills b.heap (crossStop side type price) q (flat (oppIndex side b)),
          (f.1 = g.1 ∨ better side f.1 g.1) → R f.1 g.1) →
        (expectedTrades side type price q b).Pairwise
          (fun t1 t2 => R t1.price t2.price) := by
      intro R hR
      unfold expectedTrades
      rw [List.pairwise_map] at hprices ⊢
      refine hprices.imp_of_mem ?_
      intro f g hf hg hfg
      simp only [mkTrade_price]
      exact hR f hf g hg hfg
    obtain ⟨b1, hw, hr1⟩ := add_order_eq fuel b side type price q r hadd
    refine ⟨⟨b1, matchWalk_walkState side type _ fuel fuel _ b1 hw, by rw [hr1]⟩,
      _, fills b.heap (crossStop side type price) q (flat (oppIndex side b)), rest,
      href, by rw [hid]; rfl, hrest, ?_, ?_, ?_, ?_, ?_⟩
    · intro pre f post hsplit e he hbet p hp
      have hmem : (e.1, p) ∈ flat (oppIndex side b) := mem_flat.2 ⟨e, he, rfl, hp⟩
      have hpw2 := hpw
      rw [hrest, hsplit] at hmem hpw2
      simp only [List.map_append, List.map_cons, List.append_assoc, List.cons_append] at hmem hpw2
      rcases List.mem_append.1 hmem with h1 | h1
      · obtain ⟨g, hg, hge⟩ := List.mem_map.1 h1
        simp only [Prod.mk.injEq] at hge
        refine ⟨g, hg, hge.2, ?_⟩
        obtain ⟨pre1, post1, hpre⟩ := List.append_of_mem hg
        have := fills_exhausts b.heap (crossStop side type price) (flat (oppIndex side b)) q
          pre1 g (post1 ++ f :: post) (by rw [hsplit, hpre]; simp) (by simp)
        rw [this, hge.2]
        rfl
      · exfalso
        have hp2 := (List.pairwise_append.1 hpw2).2.1
        rw [List.pairwise_cons] at hp2
        rcases List.mem_cons.1 h1 with h2 | h2
        · simp only [Prod.mk.injEq] at h2
          rw [h2.1] at hbet
          exact better_irrefl side _ hbet
        · rcases hp2.1 _ h2 with h3 | h3
          · simp only at h3
            rw [h3] at hbet
            exact better_irrefl side _ hbet
          · exact better_asymm side hbet h3
    · intro t ht k _ hbk hk
      have hf := (matchWalk_frame side type _ fuel fuel _ b1 hw).1
      have hside := walk_side side type price q b b1 hf
      obtain ⟨_, _, ts, h3, _, _, h6⟩ := matchWalk_priceTrace side type _ fuel fuel _ b1
        (by rw [register_order_oppIndex]; exact hS.1) hw
      have hts1 : ts = expectedTrades side type price q b := by
        have e1 : r.2.trades = b1.trades := by rw [hr1]; exact add_order_trades type b1 _
        rw [e1, h3] at href
        exact List.append_cancel_left href
      rw [hr1, countOrder_oppIndex, finalize_oppIndex side type b1 _ hside] at hk
      exact h6 t (hts1 ▸ ht) k hk hbk
    · rintro rfl
      refine hts (fun p1 p2 => ¬ p2 < p1) ?_
      rintro f _ g _ (h1 | h1)
      · rw [h1]; exact Price.lt_irrefl _
      · exact Price.lt_asymm h1
    · rintro rfl
      refine hts (fun p1 p2 => ¬ p1 < p2) ?_
      rintro f _ g _ (h1 | h1)
      · rw [h1]; exact Price.lt_irrefl _
      · exact Price.lt_asymm h1
    · intro hn
      constructor
      · rintro rfl
        refine hts (fun p1 p2 => p1 ≤ p2) ?_
        rintro f hf g _ (h1 | h1)
        · exact (Price.le_iff _ _).2 (Or.inr ⟨h1, fun h => hn (h ▸ hkey f hf)⟩)
        · exact Price.le_of_lt h1
      · rintro rfl
        refine hts (fun p1 p2 => p2 ≤ p1) ?_
        rintro f hf g hg (h1 | h1)
        · exact (Price.le_iff _ _).2 (Or.inr ⟨h1.symm, fun h => hn (h ▸ hkey g hg)⟩)
        · exact Price.le_of_lt h1

theorem price_priority_witness :
    Reachable demo5 ∧ 150 < U64 ∧
    add_order 4 demo5 .SELL .LIMIT 149 150 = some (6, demo6) ∧
    demo6.trades = demo5.trades ++ [⟨1, 6, 150, 100⟩, ⟨2, 6, px14950, 50⟩] ∧
    Price.nan ∉ keys (oppIndex .SELL demo5) ∧
    (keys (oppIndex .SELL demo5)).Pairwise (better .SELL) ∧
    (∃ b1, WalkState .SELL demo5.pool.allocate.1
      (register_order demo5 .SELL .LIMIT 149 150) b1 ∧
      demo6 = countOrder (finalize .LIMIT b1 demo5.pool.allocate.1)) ∧
    ∃ (ts : List Trade) (fs : List (Price × Ptr × Nat)) (rest : List (Price × Ptr)),
      demo6.trades = demo5.trades ++ ts ∧
      ts = fs.map (fun f => mkTrade .SELL 6 (demo5.heap f.2.1).id f.1 f.2.2) ∧
      flat (oppIndex .SELL demo5) = fs.map (fun f => (f.1, f.2.1)) ++ rest ∧
      (∀ pre f post, fs = pre ++ f :: post →
        ∀ e ∈ oppIndex .SELL demo5, better .SELL e.1 f.1 → ∀ p ∈ e.2.orders,
          ∃ g ∈ pre, g.2.1 = p ∧
            g.2.2 = (demo5.heap p).quantity - (demo5.heap p).filled_quantity) ∧
      (∀ t ∈ ts, ∀ k ∈ keys (oppIndex .SELL demo5), better .SELL k t.price →
        k ∉ keys (oppIndex .SELL demo6)) ∧
      ts.Pairwise (fun t1 t2 => ¬ t1.price < t2.price) ∧
      ts.Pairwise (fun t1 t2 => t2.price ≤ t1.price) := by
  obtain ⟨hb1, ts, fs, rest, a1, a2, a3, a4, a5, _, a7, a8⟩ :=
    (price_priority demo5 ⟨_, history_demo5⟩ .SELL .LIMIT 149 150 (by decide)).2.2.2 4
      (6, demo6) demo_calls.2.2.2.2.2
  exact ⟨⟨_, history_demo5⟩, by decide, demo_calls.2.2.2.2.2, by decide, by decide,
    (price_priority demo5 ⟨_, history_demo5⟩ .SELL .LIMIT 149 150 (by decide)).1, hb1,
    ts, fs, rest, a1, a2, a3, a4, a5, a7 rfl, (a8 (by decide)).2 rfl⟩

end OrderBookEngine
